import Mathlib

/-!
# Induced-sorting BWT with in-band separators

A shallow embedding of `is.go` (package `sa`) and of the inverse `rewindBWT` of
`is_test.go`.

Conventions of the embedding.

* A Go `int` is a Lean `Int`, a Go `uint` is a Lean `Nat`; the inputs considered are far
  below the 64-bit range, so no wrap-around is modelled. A `byte` is an `Int` in `0..255`;
  the conversion `byte(x)` is `x % 256`.
* A slice is a `List`. Every index expression of the source is checked: a function returns
  `none` exactly where the Go code panics with an index out of range.
* A function that mutates a slice in place returns the new slice.
* `^x` (bitwise complement) is `-x - 1`, `x >> 1` is `x / 2` (floor).
* A `for` loop over a range is a monadic left fold over the list of its indices; the loop
  body is a named step function on an explicit state.
* Two assignments to the same cell in the branches of an `if` are written as one
  assignment of a conditional value.
-/

namespace SA

/-- The constant `alphabetSize`. -/
def alphabetSize : Nat := 256

/-- The constant `separator`. -/
def separator : Int := 1

/-- Bitwise complement `^x` of a two's-complement integer. -/
def compl (x : Int) : Int := -x - 1

/-- Checked read `a[i]`. -/
def getI (a : List Int) (i : Int) : Option Int :=
  if i < 0 then none else a[i.toNat]?

/-- Checked write `a[i] = v`. -/
def setI (a : List Int) (i : Int) (v : Int) : Option (List Int) :=
  if i < 0 then none
  else match a[i.toNat]? with
    | some _ => some (a.set i.toNat v)
    | none => none

/-- Checked read `a[i]` of a `uint` slice. -/
def getN (a : List Nat) (i : Int) : Option Nat :=
  if i < 0 then none else a[i.toNat]?

/-- Checked write `a[i] = v` of a `uint` slice. -/
def setN (a : List Nat) (i : Int) (v : Nat) : Option (List Nat) :=
  if i < 0 then none
  else match a[i.toNat]? with
    | some _ => some (a.set i.toNat v)
    | none => none

/-! ## Histogram and bucket cursors

The three cursor loops have the shape `for i, h := range hist { .. bkt[i] = .. }`: they
visit the cells of `hist` and `bkt` in step and write `bkt[i]` once, so they are modelled by
a simultaneous walk over both lists, which fails when `bkt` ends before `hist` (the write
`bkt[i]` is then out of range). -/

/-- One iteration of the loop of `histgram`: `h[t.get(i)]++`. -/
def histStep (h : List Int) (c : Int) : Option (List Int) := do
  let v ← getI h c
  setI h c (v + 1)

/-- The function `histgram`: symbol counts and a fresh zeroed bucket array. -/
def histgram (t : List Int) (k : Nat) : Option (List Int × List Int) := do
  let h ← t.foldlM histStep (List.replicate k 0)
  some (h, List.replicate k 0)

/-- The loop of `setBktEnd`, `sum += h; bkt[i] = sum`, from the running `sum`. -/
def bktEndLoop : Int → List Int → List Int → Option (List Int)
  | _, [], bkt => some bkt
  | _, _ :: _, [] => none
  | sum, h :: hs, _ :: bs => do
    let rest ← bktEndLoop (sum + h) hs bs
    some ((sum + h) :: rest)

/-- The function `setBktEnd`: bucket tails. -/
def setBktEnd (bkt hist : List Int) : Option (List Int) :=
  bktEndLoop 0 hist bkt

/-- The loop of `setBktBeg`, `bkt[i] = sum; sum += h`, from the running `sum`. -/
def bktBegLoop : Int → List Int → List Int → Option (List Int)
  | _, [], bkt => some bkt
  | _, _ :: _, [] => none
  | sum, h :: hs, _ :: bs => do
    let rest ← bktBegLoop (sum + h) hs bs
    some (sum :: rest)

/-- The function `setBktBeg`: bucket heads. -/
def setBktBeg (bkt hist : List Int) : Option (List Int) :=
  bktBegLoop 0 hist bkt

/-- The counter of `countBktBeg`: `cnt++` for each `i > 1` with `hist[i] > 0`, the walk
being at index `i`. -/
def countLoop : Nat → List Int → Int → Int
  | _, [], cnt => cnt
  | i, h :: hs, cnt => countLoop (i + 1) hs (if h > 0 ∧ i > 1 then cnt + 1 else cnt)

/-- The function `countBktBeg`: returns `(cnt, bkt)`; the writes to `bkt` are those of
`setBktBeg`. -/
def countBktBeg (bkt hist : List Int) : Option (Int × List Int) := do
  let bkt ← bktBegLoop 0 hist bkt
  some (countLoop 0 hist 1, bkt)

/-- One iteration of the loop of `makeCounters`, for the byte `i` with `h = hist[i]`; the
state is `(idx, lvl, dict)`. -/
def countersStep (bkt : List Int) (st : Int × List Int × List Int) (ih : Nat × Int) :
    Option (Int × List Int × List Int) :=
  if ih.2 > 0 then do
    let dict ← setI st.2.2 st.1 ih.1
    let b ← getI bkt ih.1
    let lvl ← setI st.2.1 st.1 b
    some (st.1 - 1, lvl, dict)
  else some st

/-- The function `makeCounters`: returns `(lvl, dict, rank)`. The loop reads `hist[255]`
down to `hist[2]`, which needs 256 cells in `hist`. The rank matrix is kept as its 256 rows
of 256 cells, which is what both `make2Darr` and the re-slicing in `BWT` make of the flat
array of 65536 cells. -/
def makeCounters (bkt hist : List Int) (cnt : Int) :
    Option (List Int × List Int × List (List Nat)) := do
  if cnt < 0 ∨ hist.length < 256 then none
  else do
    let st ← (((hist.enum.take 256).drop 2).reverse).foldlM (countersStep bkt)
      (cnt - 1, List.replicate cnt.toNat 0, List.replicate cnt.toNat 0)
    some (st.2.1, st.2.2, List.replicate 256 (List.replicate 256 0))

/-! ## LMS discovery -/

/-- Loop state of `findLMS`. -/
structure FindSt where
  m : Int
  ms : Int
  l : Int
  lms : Int
  sbkt : Int
  p : Int
  s : Bool
  sa : List Int
  bkt : List Int
deriving DecidableEq, Repr

/-- One iteration of the loop of `findLMS`, for the index `i`. -/
def findStep (t : List Int) (rec : Bool) (st : FindSt) (i : Nat) : Option FindSt := do
  let c ← getI t i
  if st.s = true ∧ st.p < c then
    if rec = false ∧ st.p = separator then do
      let sa ← setI st.sa st.sbkt i
      some { st with m := st.m + 1, sa := sa, lms := -1, sbkt := st.sbkt + 1,
                     ms := st.ms + 1, s := false, p := c }
    else do
      let sa ← (if st.lms ≥ 0 then setI st.sa st.lms st.l else some st.sa)
      let v ← getI st.bkt st.p
      let bkt ← setI st.bkt st.p (v - 1)
      some { st with m := st.m + 1, sa := sa, bkt := bkt, lms := v - 1, l := i,
                     s := false, p := c }
  else if st.p > c then some { st with s := true, p := c }
  else some { st with p := c }

/-- The function `findLMS`: returns `(m, ms, sa, bkt)`. -/
def findLMS (t sa bkt hist : List Int) (rec : Bool) :
    Option (Int × Int × List Int × List Int) := do
  let bkt ← setBktEnd bkt hist
  let sbkt ← getI bkt (separator - 1)
  let p ← getI t 0
  let st ← (List.range' 1 (t.length - 1)).foldlM (findStep t rec)
    { m := 0, ms := 0, l := 0, lms := -1, sbkt := sbkt, p := p, s := false,
      sa := sa, bkt := bkt }
  let sa ← (if st.m = 1 ∧ st.lms ≥ 0 then setI st.sa st.lms st.l else some st.sa)
  some (st.m, st.ms, sa, st.bkt)

/-! ## Induced sorting of the LMS substrings -/

/-- The bucket switch `if p != c { bkt[p], b, p = b, bkt[c], c }`; the result is
`(bkt, b, p)`. -/
def switchBkt (bkt : List Int) (b p c : Int) : Option (List Int × Int × Int) :=
  if p ≠ c then do
    let nb ← getI bkt c
    let bkt ← setI bkt p b
    some (bkt, nb, c)
  else some (bkt, b, p)

/-- Cursor state shared by the induction passes. -/
structure IndSt where
  sa : List Int
  bkt : List Int
  b : Int
  p : Int
deriving DecidableEq, Repr

/-- One iteration of the left-to-right pass of `sortLMS`. -/
def sortLStep (t : List Int) (ms : Int) (st : IndSt) (i : Nat) : Option IndSt := do
  let s ← getI st.sa i
  if s > 0 then do
    let c ← getI t s
    let sw ← switchBkt st.bkt st.b st.p c
    let sa ← (if s + 1 ≥ t.length then setI st.sa sw.2.1 0
      else (getI t (s + 1)).bind fun c1 =>
        setI st.sa sw.2.1 (if sw.2.2 > c1 then compl (s + 1) else s + 1))
    let sa ← (if (i : Int) ≥ ms then setI sa i 0
      else (getI sa i).bind fun v => setI sa i (compl (v - 1)))
    some { sa := sa, bkt := sw.1, b := sw.2.1 + 1, p := sw.2.2 }
  else if s < 0 then do
    let sa ← setI st.sa i (compl s)
    some { st with sa := sa }
  else some st

/-- One iteration of the right-to-left pass of `sortLMS`. -/
def sortSStep (t : List Int) (ms : Int) (st : IndSt) (i : Nat) : Option IndSt := do
  let s ← getI st.sa i
  if s > 0 then do
    let c ← getI t s
    let sw ← switchBkt st.bkt st.b st.p c
    let sa ← (if s + 1 ≥ t.length then setI st.sa (sw.2.1 - 1) 0
      else (getI t (s + 1)).bind fun c1 =>
        if sw.2.2 < c1 then
          (if sw.2.1 - 1 ≥ ms then setI st.sa (sw.2.1 - 1) (compl s) else some st.sa)
        else setI st.sa (sw.2.1 - 1) (s + 1))
    let sa ← setI sa i 0
    some { sa := sa, bkt := sw.1, b := sw.2.1 - 1, p := sw.2.2 }
  else some st

/-- The function `sortLMS`: returns `(sa, bkt)`. -/
def sortLMS (t sa bkt hist : List Int) (ms : Int) : Option (List Int × List Int) := do
  let bkt ← setBktBeg bkt hist
  let p ← getI t 0
  let b ← getI bkt p
  let t1 ← getI t 1
  let sa ← setI sa b (if p > t1 then compl 1 else 1)
  let st ← (List.range sa.length).foldlM (sortLStep t ms)
    { sa := sa, bkt := bkt, b := b + 1, p := p }
  let bkt ← setBktEnd st.bkt hist
  let b ← getI bkt 0
  let st ← (List.range st.sa.length).reverse.foldlM (sortSStep t ms)
    { sa := st.sa, bkt := bkt, b := b, p := 0 }
  some (st.sa, st.bkt)

/-! ## Naming of the LMS substrings -/

/-- One iteration of the compaction loop of `nameLMS`; the state is `(j, sa, stop)`, where
`stop` records that the `break` was taken. -/
def compactStep (m : Int) (st : Int × List Int × Bool) (i : Nat) :
    Option (Int × List Int × Bool) :=
  if st.2.2 = true then some st
  else do
    let s ← getI st.2.1 i
    if s < 0 then do
      let sa ← setI st.2.1 st.1 (compl s)
      let sa ← (if st.1 < i then setI sa i 0 else some sa)
      some (st.1 + 1, sa, decide (st.1 + 1 = m))
    else some st

/-- One iteration of the length tagging loop of `nameLMS`; the state is `(p, j, s, sa)`. -/
def lengthStep (t : List Int) (m : Int) (rec : Bool) (st : Int × Int × Bool × List Int)
    (i : Nat) : Option (Int × Int × Bool × List Int) := do
  let n ← getI t i
  if st.2.2.1 = true ∧ st.1 < n then do
    let sa ← setI st.2.2.2 (m + ((i : Int) - 1) / 2)
      (if rec = false ∧ st.1 = separator then -1 else (i : Int) - st.2.1)
    some (n, (i : Int) - 1, false, sa)
  else if st.1 > n then some (n, st.2.1, true, st.2.2.2)
  else some (n, st.2.1, st.2.2.1, st.2.2.2)

/-- The comparison loop `for l < plen && x >= 0 && y >= 0 && t.eq(x, y) { l++; x--; y-- }`
of `nameLMS`. The first argument is `plen - l`, the number of symbols still to compare; the
result is `(plen - l, x, y)` at the exit of the loop. -/
def cmpLoop (t : List Int) : Nat → Int → Int → Option (Nat × Int × Int)
  | 0, x, y => some (0, x, y)
  | r + 1, x, y =>
    if x ≥ 0 ∧ y ≥ 0 then
      (getI t x).bind fun a =>
      (getI t y).bind fun b =>
      if a = b then cmpLoop t r (x - 1) (y - 1) else some (r + 1, x, y)
    else some (r + 1, x, y)

/-- The test `diff` of `nameLMS` for two neighbours `x = sa[i-1]`, `y = sa[i]` whose length
tags are both `plen > 0`. -/
def sameName (t : List Int) (rec : Bool) (plen x y : Int) : Option Bool := do
  let r ← cmpLoop t plen.toNat x y
  if rec = false ∧ r.1 = 0 ∧ r.2.1 ≥ 0 ∧ r.2.2 ≥ 0 then do
    let a ← getI t r.2.1
    if a = separator then do
      let c ← getI t r.2.2
      some (decide (c = separator))
    else some false
  else some (decide (0 < r.1))

/-- One iteration of the naming loop of `nameLMS`; the state is `(plen, n, sa)`. -/
def nameStep (t : List Int) (m : Int) (rec : Bool) (st : Int × Int × List Int) (i : Nat) :
    Option (Int × Int × List Int) := do
  let si ← getI st.2.2 i
  let len ← getI st.2.2 (m + si / 2)
  let d ← (if st.1 > 0 ∧ st.1 = len then
      (getI st.2.2 ((i : Int) - 1)).bind fun x => sameName t rec st.1 x si
    else some true)
  let sa ← setI st.2.2 (m + si / 2) (if d = true then st.2.1 + 1 else st.2.1)
  some (if st.1 > 0 ∧ st.1 = len then st.1 else len,
        if d = true then st.2.1 + 1 else st.2.1, sa)

/-- The function `nameLMS`: returns `(n, sa)`. -/
def nameLMS (t sa : List Int) (m : Int) (rec : Bool) : Option (Int × List Int) := do
  let st ← (List.range sa.length).foldlM (compactStep m) (0, sa, false)
  let p ← getI t 0
  let st ← (List.range' 1 (t.length - 1)).foldlM (lengthStep t m rec) (p, 0, false, st.2.1)
  let s0 ← getI st.2.2.2 0
  let plen ← getI st.2.2.2 (m + s0 / 2)
  let sa ← setI st.2.2.2 (m + s0 / 2) 1
  let st ← (List.range' 1 (m.toNat - 1)).foldlM (nameStep t m rec) (plen, 1, sa)
  some (st.2.1, st.2.2)

/-! ## Recursion glue -/

/-- One iteration of the second loop of `adjustLMS`; the state is `(j, sa)`. The loop
condition `j < m` is re-tested on every index: once it fails it fails for good. -/
def adjustStep (m : Int) (st : Int × List Int) (i : Nat) : Option (Int × List Int) :=
  if st.1 < m then do
    let v ← getI st.2 i
    if v > 0 then
      if m + st.1 ≠ i then do
        let sa ← setI st.2 (st.1 + m) (v - 1)
        let sa ← setI sa i 0
        some (st.1 + 1, sa)
      else do
        let sa ← setI st.2 i (v - 1)
        some (st.1 + 1, sa)
    else some st
  else some st

/-- The function `adjustLMS`. -/
def adjustLMS (sa : List Int) (m : Int) : Option (List Int) := do
  let sa0 ← (List.range m.toNat).foldlM (fun sa (i : Nat) => setI sa i 0) sa
  let st ← (List.range' m.toNat (sa0.length - m.toNat)).foldlM (adjustStep m) (0, sa0)
  some st.2

/-- One iteration of the loop of `locateLMS`; the state is `(p, s, m, sa)`. -/
def locateStep (t : List Int) (st : Int × Bool × Int × List Int) (i : Nat) :
    Option (Int × Bool × Int × List Int) := do
  let c ← getI t i
  if st.2.1 = true then
    if st.1 < c then do
      let sa ← setI st.2.2.2 st.2.2.1 ((i : Int) - 1)
      some (c, false, st.2.2.1 + 1, sa)
    else some (c, st.2.1, st.2.2.1, st.2.2.2)
  else if st.1 > c then some (c, true, st.2.2.1, st.2.2.2)
  else some (c, st.2.1, st.2.2.1, st.2.2.2)

/-- The function `locateLMS`. -/
def locateLMS (t sa : List Int) (m : Int) (_rec : Bool) : Option (List Int) := do
  let p ← getI t 0
  let st ← (List.range' 1 (t.length - 1)).foldlM (locateStep t) (p, false, m, sa)
  some st.2.2.2

/-- One iteration of `shuffleLMS`: `j := m + sa[i]; sa[i], sa[j] = sa[j], 0`. -/
def shuffleStep (m : Int) (sa : List Int) (i : Nat) : Option (List Int) := do
  let v ← getI sa i
  let w ← getI sa (m + v)
  let sa ← setI sa i w
  setI sa (m + v) 0

/-- The function `shuffleLMS`. -/
def shuffleLMS (sa : List Int) (m : Int) : Option (List Int) :=
  (List.range m.toNat).foldlM (shuffleStep m) sa

/-- One iteration of `clearLMSLen`: `sa[m + sa[i]>>1] = 0`. -/
def clearStep (m : Int) (sa : List Int) (i : Nat) : Option (List Int) := do
  let v ← getI sa i
  setI sa (m + v / 2) 0

/-- The function `clearLMSLen`. -/
def clearLMSLen (sa : List Int) (m : Int) : Option (List Int) :=
  (List.range m.toNat).reverse.foldlM (clearStep m) sa

/-- One iteration of the loop of `restoreLMS`. -/
def restoreStep (t : List Int) (st : IndSt) (i : Nat) : Option IndSt := do
  let v ← getI st.sa i
  let c ← getI t v
  let sw ← switchBkt st.bkt st.b st.p c
  let sa ← (if sw.2.1 - 1 ≠ i then (setI st.sa (sw.2.1 - 1) (v + 1)).bind fun sa => setI sa i 0
    else setI st.sa i (v + 1))
  some { sa := sa, bkt := sw.1, b := sw.2.1 - 1, p := sw.2.2 }

/-- The function `restoreLMS`: returns `(sa, bkt)`. -/
def restoreLMS (t sa bkt hist : List Int) (m : Int) : Option (List Int × List Int) := do
  let bkt ← setBktEnd bkt hist
  let b ← getI bkt 0
  let st ← (List.range m.toNat).reverse.foldlM (restoreStep t)
    { sa := sa, bkt := bkt, b := b, p := 0 }
  some (st.sa, st.bkt)

/-! ## Final induction, plain suffix array -/

/-- One iteration of the left-to-right pass of `induce`. -/
def induceLStep (t : List Int) (st : IndSt) (i : Nat) : Option IndSt := do
  let s ← getI st.sa i
  if s = 0 then some st
  else if s < 0 then do
    let sa ← setI st.sa i (compl s)
    some { st with sa := sa }
  else if s ≥ t.length then do
    let sa ← setI st.sa i (compl (s - 1))
    some { st with sa := sa }
  else do
    let sa ← setI st.sa i (compl (s - 1))
    let n ← getI t s
    let sw ← switchBkt st.bkt st.b st.p n
    let sa ← (if s + 1 < t.length then
        (getI t (s + 1)).bind fun c1 => setI sa sw.2.1 (if sw.2.2 > c1 then compl s else s + 1)
      else setI sa sw.2.1 (s + 1))
    some { sa := sa, bkt := sw.1, b := sw.2.1 + 1, p := sw.2.2 }

/-- One iteration of the right-to-left pass of `induce`. -/
def induceSStep (t : List Int) (st : IndSt) (i : Nat) : Option IndSt := do
  let s ← getI st.sa i
  if s < 0 then do
    let sa ← setI st.sa i (compl s)
    some { st with sa := sa }
  else if s + 1 = t.length then some st
  else do
    let n ← getI t (s + 1)
    let sw ← switchBkt st.bkt st.b st.p n
    let sa ← (if s + 1 = (t.length : Int) - 1 then setI st.sa (sw.2.1 - 1) (compl (s + 1))
      else (getI t (s + 2)).bind fun c1 =>
        setI st.sa (sw.2.1 - 1) (if sw.2.2 < c1 then compl (s + 1) else s + 1))
    some { sa := sa, bkt := sw.1, b := sw.2.1 - 1, p := sw.2.2 }

/-- The function `induce`: returns the suffix array left in `sa` (the Go function returns
`-1` and leaves the result in its argument). -/
def induce (t sa bkt hist : List Int) (_ms : Int) : Option (List Int) := do
  let bkt ← setBktBeg bkt hist
  let p ← getI t 0
  let b ← getI bkt p
  let t1 ← getI t 1
  let sa ← setI sa b (if p > t1 then compl 0 else 1)
  let st ← (List.range sa.length).foldlM (induceLStep t)
    { sa := sa, bkt := bkt, b := b + 1, p := p }
  let bkt ← setBktEnd st.bkt hist
  let b ← getI bkt 0
  let st ← (List.range t.length).reverse.foldlM (induceSStep t)
    { sa := st.sa, bkt := bkt, b := b, p := 0 }
  some st.sa

/-! ## Final induction, BWT and rank matrix -/

/-- The function `updateRank`: `if a < 1 { a = 1 }; rank[a][b]++`. -/
def updateRank (rank : List (List Nat)) (a b : Int) : Option (List (List Nat)) := do
  let row ← rank[(if a < 1 then 1 else a).toNat]?
  let v ← getN row b
  let row ← setN row b (v + 1)
  some (rank.set (if a < 1 then 1 else a).toNat row)

/-- One iteration of the left-to-right pass of `induceBWT`. -/
def bwtLStep (t : List Int) (st : IndSt) (i : Nat) : Option IndSt := do
  let s ← getI st.sa i
  if s = 0 then some st
  else if s < 0 then do
    let sa ← setI st.sa i (compl s)
    some { st with sa := sa }
  else if s ≥ t.length then do
    let sa ← setI st.sa i ((t.length : Int) - 1)
    some { st with sa := sa }
  else do
    let n ← getI t s
    let sa ← setI st.sa i (compl n)
    let sw ← switchBkt st.bkt st.b st.p n
    let sa ← (if s + 1 < t.length then
        (getI t (s + 1)).bind fun c1 => setI sa sw.2.1 (if sw.2.2 > c1 then compl s else s + 1)
      else setI sa sw.2.1 (s + 1))
    some { sa := sa, bkt := sw.1, b := sw.2.1 + 1, p := sw.2.2 }

/-- Loop state of the right-to-left pass of `induceBWT`. -/
structure BwtSt where
  sa : List Int
  bkt : List Int
  b : Int
  p : Int
  l : Int
  idx : Int
  rnk : List (List Nat)
deriving DecidableEq, Repr

/-- The placement at the end of an iteration of the right-to-left pass of `induceBWT`, for
the position `s` (already incremented) and the cursor `b` (already decremented); the result
is `(sa, l)`. -/
def bwtPlace (t : List Int) (ms : Int) (sa : List Int) (l s b p : Int) :
    Option (List Int × Int) :=
  if s = (t.length : Int) - 1 then
    (setI sa b (compl 0)).bind fun sa => some (sa, b)
  else
    (getI t (s + 1)).bind fun c1 =>
      if p < c1 then
        if b ≥ ms then (setI sa b (compl c1)).bind fun sa => some (sa, l)
        else some (sa, l)
      else (setI sa b s).bind fun sa => some (sa, l)

/-- One iteration of the right-to-left pass of `induceBWT`. -/
def bwtSStep (t ptr dict : List Int) (ms : Int) (st : BwtSt) (i : Nat) : Option BwtSt := do
  let pi ← getI ptr st.idx
  let d ← getI dict (if (i : Int) < pi then st.idx - 1 else st.idx)
  let s ← getI st.sa i
  if s < 0 then do
    let sa ← setI st.sa i (compl s)
    let rnk ← updateRank st.rnk (compl s) d
    some { st with sa := sa, idx := if (i : Int) < pi then st.idx - 1 else st.idx, rnk := rnk }
  else if s + 1 = t.length then do
    let sa ← setI st.sa i 0
    let rnk ← updateRank st.rnk 1 d
    some { st with sa := sa, idx := if (i : Int) < pi then st.idx - 1 else st.idx, rnk := rnk,
                   l := i }
  else do
    let n ← getI t (s + 1)
    let sa ← setI st.sa i n
    let rnk ← updateRank st.rnk n d
    let sw ← switchBkt st.bkt st.b st.p n
    let pl ← bwtPlace t ms sa st.l (s + 1) (sw.2.1 - 1) sw.2.2
    some { sa := pl.1, bkt := sw.1, b := sw.2.1 - 1, p := sw.2.2, l := pl.2,
           idx := if (i : Int) < pi then st.idx - 1 else st.idx, rnk := rnk }

/-- The function `induceBWT`: returns `(l, sa, rank, dict)`; `sa` is returned because the
caller reads the BWT bytes from it. -/
def induceBWT (t sa bkt hist : List Int) (ms : Int) :
    Option (Int × List Int × List (List Nat) × List Int) := do
  let cb ← countBktBeg bkt hist
  let mc ← makeCounters cb.2 hist cb.1
  let p ← getI t 0
  let b ← getI cb.2 p
  let sa ← (if t.length > 1 then
      (getI t 1).bind fun t1 => setI sa b (if p > t1 then compl 0 else 1)
    else setI sa b 1)
  let rnk ← updateRank mc.2.2 p 1
  let st ← (List.range sa.length).foldlM (bwtLStep t)
    { sa := sa, bkt := cb.2, b := b + 1, p := p }
  let bkt ← setBktEnd st.bkt hist
  let b ← getI bkt 0
  let st ← (List.range t.length).reverse.foldlM (bwtSStep t mc.1 mc.2.1 ms)
    { sa := st.sa, bkt := bkt, b := b, p := 0, l := 0, idx := cb.1 - 1, rnk := rnk }
  some (st.l, st.sa, st.rnk, mc.2.1)

/-! ## The driver `sais` -/

/-- Result of `sais`: the returned index, the array left in `sa`, the rank matrix and the
dictionary (both empty in plain mode, where the Go function returns `nil`). -/
structure SaisOut where
  l : Int
  sa : List Int
  rnk : List (List Nat)
  dict : List Int
deriving DecidableEq, Repr

/-- The final step of `sais`: `induceBWT` or `induce`. -/
def finish (t sa bkt hist : List Int) (ms : Int) (bwt : Bool) : Option SaisOut :=
  if bwt = true then
    (induceBWT t sa bkt hist ms).bind fun r =>
      some { l := r.1, sa := r.2.1, rnk := r.2.2.1, dict := r.2.2.2 }
  else
    (induce t sa bkt hist ms).bind fun sa => some { l := -1, sa := sa, rnk := [], dict := [] }

/-- The function `sais`. The first argument bounds the recursion depth: the recursive call
runs on a text of `m` names with `2 * m <= len(sa)`, so `len(t) + 1` levels are never used
up. The recursive call runs on `sa[m:2*m]` with workspace `sa[:m]`, two disjoint parts of the
same array, and the part it returns replaces `sa[:m]`. The slice expression `sa[m:2*m]` is
checked against the length of `sa` (Go checks it against the capacity, which is the length
at the top level). -/
def sais : Nat → List Int → List Int → Nat → Bool → Bool → Option SaisOut
  | 0, _, _, _, _, _ => none
  | fuel + 1, t, sa, k, bwt, rec =>
    (histgram t k).bind fun hb =>
    (findLMS t sa hb.2 hb.1 rec).bind fun f =>
    (if f.1 > 1 ∨ f.2.1 > 1 then
      (sortLMS t f.2.2.1 f.2.2.2 hb.1 f.2.1).bind fun s =>
      (nameLMS t s.1 f.1 rec).bind fun nm =>
      (if nm.1 < f.1 then
        (adjustLMS nm.2 f.1).bind fun sa =>
        if (sa.length : Int) < 2 * f.1 then none
        else
          (sais fuel ((sa.drop f.1.toNat).take f.1.toNat) (sa.take f.1.toNat)
            (nm.1 + 1).toNat false true).bind fun r =>
          (locateLMS t (r.sa ++ sa.drop f.1.toNat) f.1 rec).bind fun sa =>
          shuffleLMS sa f.1
      else clearLMSLen nm.2 f.1).bind fun sa =>
      restoreLMS t sa s.2 hb.1 f.1
    else some (f.2.2.1, f.2.2.2)).bind fun sb =>
    finish t sb.1 sb.2 hb.1 f.2.1 bwt

/-! ## The driver `BWT` and the auxiliary structure -/

/-- The structure `Aux`. -/
structure Aux where
  Len : Nat
  Eob : List (List Nat)
  Dist : List Nat
  Hist : List Nat
  Dict : List Int
deriving DecidableEq, Repr

/-- One iteration of the loop of `reset`: `copy(chars[sz:], chars[:sz])`, which copies
`min(len(chars) - sz, sz)` cells. -/
def copyStep (chars : List Nat) (sz : Nat) : Option (List Nat) :=
  if sz ≤ chars.length then
    some (chars.take sz ++ (chars.take (min (chars.length - sz) sz) ++
      chars.drop (sz + min (chars.length - sz) sz)))
  else none

/-- The function `reset`; `sz` runs through `1, 2, 4, .., 128`. -/
def reset (chars : List Nat) : Option (List Nat) := do
  let chars ← setN chars 0 0
  ((List.range 8).map (fun e => 2 ^ e)).foldlM copyStep chars

/-- Loop state of the assembly loop of `BWT`. -/
structure AuxSt where
  sum : Nat
  chars : List Nat
  t : List Int
  Hist : List Nat
  Dist : List Nat
deriving DecidableEq, Repr

/-- The increment `chars[c]++`. -/
def bump (chars : List Nat) (c : Int) : Option (List Nat) := do
  let v ← getN chars c
  setN chars c (v + 1)

/-- One iteration of the loop `for bi := sum - r; bi < sum; bi++` of `BWT`; the state is
`(chars, t)`. -/
def fillStep (sa : List Int) (st : List Nat × List Int) (bi : Nat) :
    Option (List Nat × List Int) :=
  if bi = 0 then do
    let c ← getI st.2 0
    let chars ← bump st.1 c
    some (chars, st.2)
  else do
    let x ← getI sa ((bi : Int) - 1)
    let t ← setI st.2 bi (x % 256)
    let chars ← bump st.1 (if x % 256 = 0 then 1 else x % 256)
    some (chars, t)

/-- One iteration of the loop `for k, cnt := range chars` of `BWT`. -/
def packStep (hist : List Nat) (kc : Nat × Nat) : List Nat :=
  if kc.2 > 0 then hist ++ [(kc.2 <<< 8) ||| kc.1] else hist

/-- The body of `if r > 0 { .. }` in `BWT`: returns the new state and the value stored in
`rnk[j]`. -/
def auxCell (sa : List Int) (st : AuxSt) (r : Nat) : Option (AuxSt × Nat) := do
  let chars ← reset st.chars
  let ct ← (List.range' (st.sum + r - r) r).foldlM (fillStep sa) (chars, st.t)
  some ({ sum := st.sum + r, chars := ct.1, t := ct.2,
          Hist := ct.1.enum.foldl packStep st.Hist,
          Dist := st.Dist ++ [(ct.1.enum.foldl packStep st.Hist).length] }, st.Dist.length)

/-- The loop `for j, r := range rnk` of `BWT` over one row: every cell is read once and, when
positive, replaced. -/
def auxRow (sa : List Int) : AuxSt → List Nat → Option (AuxSt × List Nat)
  | st, [] => some (st, [])
  | st, r :: rs =>
    if r > 0 then do
      let (st, v) ← auxCell sa st r
      let (st, rs) ← auxRow sa st rs
      some (st, v :: rs)
    else do
      let (st, rs) ← auxRow sa st rs
      some (st, r :: rs)

/-- The loop `for _, rnk := range aux.Eob` of `BWT`. -/
def auxRows (sa : List Int) : AuxSt → List (List Nat) → Option (AuxSt × List (List Nat))
  | st, [] => some (st, [])
  | st, row :: rows => do
    let (st, row) ← auxRow sa st row
    let (st, rows) ← auxRows sa st rows
    some (st, row :: rows)

/-- The normalisation of the dictionary in `BWT`. -/
def normDict (dict : List Int) : Option (List Int) := do
  let d0 ← getI dict 0
  if d0 ≠ 0 then some ([0, 1] ++ dict)
  else do
    let d1 ← getI dict 1
    if d1 ≠ 1 then some ([0, 1] ++ dict.drop 1) else some dict

/-- The state of the assembly loop of `BWT` at its start, `t` being the text with the byte
`1` appended. -/
def auxInit (t : List Int) : AuxSt :=
  { sum := 0, chars := List.replicate 256 0, t := t, Hist := [], Dist := [0] }

/-- The function `BWT`: returns `(l + 1, t, aux)`. -/
def BWT (t : List Int) : Option (Int × List Int × Aux) := do
  let r ← sais (t.length + 1) t (List.replicate t.length 0) alphabetSize true false
  let dict ← normDict r.dict
  let o ← auxRows r.sa (auxInit (t ++ [1])) r.rnk
  some (r.l + 1, o.1.t, { Len := (t ++ [1]).length, Eob := o.2, Dist := o.1.Dist,
                          Hist := o.1.Hist, Dict := dict })

/-! ## The inverse used by the tests -/

/-- The function `count` of the test file: occurrences of `c` in `bwt[0..o]`. -/
def count (bwt : List Int) (c : Int) (o : Int) : Option Int :=
  (List.range (o + 1).toNat).foldlM
    (fun j (i : Nat) => (getI bwt i).bind fun x => some (if x = c then j + 1 else j)) 0

/-- The loop of `rewindBWT`. Each iteration writes `t[j]` and increments `j`, so the Go loop
stops or panics within `len(t) + 1` iterations; the first argument is that bound. -/
def rewindLoop (bwt : List Int) : Nat → Int → Nat → List Int → List Int → Option (List Int)
  | 0, _, _, _, _ => none
  | fuel + 1, i, j, bkt, t =>
    (getI bwt i).bind fun c =>
    if c = 0 then some t
    else
      (setI t j c).bind fun t =>
      if c = 1 then
        (getI bkt 1).bind fun b1 =>
        (setI bkt 1 (b1 + 1)).bind fun bkt =>
        rewindLoop bwt fuel b1 (j + 1) bkt t
      else
        (count bwt c i).bind fun n =>
        (getI bkt c).bind fun bc =>
        rewindLoop bwt fuel (bc + n - 1) (j + 1) bkt t

/-- The function `rewindBWT` of the test file. -/
def rewindBWT (bwt : List Int) (_l : Int) : Option (List Int) := do
  let hb ← histgram bwt 256
  let bkt ← setBktBeg hb.2 hb.1
  if bwt.length = 0 then none
  else rewindLoop bwt (bwt.length + 1) 0 0 bkt (List.replicate (bwt.length - 1) 0)

/-! ## Predicates used in the proofs -/

/-- Some cell of `chars` is positive. -/
def HasPos (chars : List Nat) : Prop := ∃ (k : Nat) (v : Nat), chars[k]? = some v ∧ 0 < v

/-- The invariant of the assembly loop on `Dist` and `Hist`. -/
def DistInv (st : AuxSt) : Prop :=
  st.Dist.head? = some 0 ∧ st.Dist.Pairwise (· < ·) ∧
  st.Dist.getLast? = some st.Hist.length ∧ ∀ a ∈ st.Dist, a ≤ st.Hist.length

/-- The bytes with a positive count in a list of `(byte, count)` pairs. -/
def posBytes (l : List (Nat × Int)) : List Int :=
  (l.filter (fun ih => decide (ih.2 > 0))).map (fun ih => (ih.1 : Int))

/-- The dictionary as the specification describes it: `0`, `1`, then the byte values `>= 2`
that occur in `T`, in ascending order. -/
def specDict (T : List Int) : List Int :=
  0 :: 1 :: ((List.range' 2 254).filter (fun b : Nat => decide ((b : Int) ∈ T))).map
    (fun b : Nat => (b : Int))

/-- The invariant of the right-to-left pass of `induceBWT`: `sa` has `n` cells and `l` is
an index of it. -/
def BwtInv (n : Nat) (st : BwtSt) : Prop :=
  st.sa.length = n ∧ 0 ≤ st.l ∧ st.l < n

/-- Sum of all cells of a matrix. -/
def rankSum (rank : List (List Nat)) : Nat := (rank.map List.sum).sum

/-- The shape of the rank matrix and its untouched row `0`. -/
def RankInv (rank : List (List Nat)) : Prop :=
  rank.length = 256 ∧ (∀ row ∈ rank, row.length = 256) ∧ rank[0]? = some (List.replicate 256 0)

/-- The symbol under which the assembly loop of `BWT` counts the cell `bi` of the output, in
terms of what it reads: the first byte `c0` of the text for `bi = 0`, otherwise the byte
`byte(sa[bi-1])`, with `0` counted as `1`. -/
def srcSym (sa : List Int) (c0 : Int) (bi : Nat) : Int :=
  if bi = 0 then c0
  else if sa.getD (bi - 1) 0 % 256 = 0 then 1 else sa.getD (bi - 1) 0 % 256

/-- The symbol under which the byte of index `bi` of the output `bwt` is counted: the byte
itself, except that a byte `0` at an index other than `0` is counted as `1`. -/
def cellSym (bwt : List Int) (bi : Nat) : Int :=
  if bi = 0 then bwt.getD 0 0
  else if bwt.getD bi 0 = 0 then 1 else bwt.getD bi 0

/-- The packed histogram of a list of symbols: `(count << 8) | symbol` for every symbol of
positive count, in ascending order of the symbols. -/
def packHist (syms : List Int) : List Nat :=
  (List.range 256).filterMap fun (k : Nat) =>
    if 0 < syms.count (k : Int) then some ((syms.count (k : Int) <<< 8) ||| k) else none

/-- The non-zero cells of a matrix, read in row-major order. -/
def rankCounts (rnk : List (List Nat)) : List Nat :=
  rnk.flatten.filter (fun r => decide (0 < r))

/-- The cell `(c, col)` of a matrix (`0` outside of it). -/
def cellAt (m : List (List Nat)) (c col : Nat) : Nat := (m.getD c []).getD col 0

/-- A row whose positive cells are numbered consecutively from `k`. -/
def renumber : Nat → List Nat → List Nat
  | _, [] => []
  | k, r :: rs => if 0 < r then k :: renumber (k + 1) rs else r :: renumber k rs

/-- A matrix whose positive cells are numbered consecutively from `k`, in row-major order. -/
def renumberRows : Nat → List (List Nat) → List (List Nat)
  | _, [] => []
  | k, row :: rows =>
    renumber k row :: renumberRows (k + (row.filter (fun r => decide (0 < r))).length) rows

/-- The packed histograms of consecutive slices: the slice of index `i` starts where the
slice before it ends (the first one at `s`) and has `rs[i]` symbols, `sym j` being the symbol
of the cell `j`. -/
def cellSegs (sym : Nat → Int) : Nat → List Nat → List (List Nat)
  | _, [] => []
  | s, r :: rs => packHist ((List.range' s r).map sym) :: cellSegs sym (s + r) rs

/-- The offsets at which the lists of `xs` start in their concatenation placed at `a`,
followed by the offset of its end. -/
def offsets : Nat → List (List Nat) → List Nat
  | a, [] => [a]
  | a, x :: xs => a :: offsets (a + x.length) xs

/-- The invariant of the assembly loop of `BWT` once the positive rank cells `done` have been
processed, `c0` being the first byte of the text. -/
def AuxInv (sa : List Int) (c0 : Int) (done : List Nat) (st : AuxSt) : Prop :=
  st.sum = done.sum ∧ st.chars.length = 256 ∧ st.t.getD 0 0 = c0 ∧
  (∀ j : Nat, j ≠ 0 → j < st.sum → st.t[j]? = some (sa.getD (j - 1) 0 % 256)) ∧
  st.Hist = (cellSegs (srcSym sa c0) 0 done).flatten ∧
  st.Dist = offsets 0 (cellSegs (srcSym sa c0) 0 done) ∧
  (∀ j : Nat, j < st.sum → 0 ≤ srcSym sa c0 j ∧ srcSym sa c0 j < 256)

/-- The entries of `hist` between the offsets `dist[k]` and `dist[k+1]`. -/
def histSegment (hist dist : List Nat) (k : Nat) : List Nat :=
  (hist.drop (dist.getD k 0)).take (dist.getD (k + 1) 0 - dist.getD k 0)

/-- The symbols of the slice of index `k` of the output, the slices having the lengths `rs`:
the symbols `sym j` of the cells `j` from `rs[0] + .. + rs[k-1]` up to `rs[0] + .. + rs[k]`. -/
def sliceSyms (sym : Nat → Int) (rs : List Nat) (k : Nat) : List Int :=
  (List.range' (rs.take k).sum (rs.getD k 0)).map sym

/-- S-type of the first symbol of a suffix, in the sense of the specification: `t[i]` is
S-type iff `t[i] < t[i+1]`, or `t[i] = t[i+1]` and `t[i+1]` is S-type; the last symbol is
L-type. -/
def sType : List Int → Bool
  | [] => false
  | [_] => false
  | a :: b :: r => decide (a < b) || (decide (a = b) && sType (b :: r))

/-- The index `i > 0` is an LMS position of `t` in the sense of the specification: `t[i]` is
S-type and `t[i-1]` is L-type. -/
def isLMS (t : List Int) (i : Nat) : Bool :=
  decide (0 < i) && (sType (t.drop i) && !sType (t.drop (i - 1)))

/-- The number of LMS positions of `t`. -/
def lmsCount (t : List Int) : Nat := ((List.range t.length).filter (isLMS t)).length

/-- The number of times the loop of `findLMS` increments `m` on the symbols `rest`, entered
with the previous symbol `p` and the flag `s`. -/
def lmsScan : Int → Bool → List Int → Nat
  | _, _, [] => 0
  | p, s, c :: r =>
    if s = true ∧ p < c then lmsScan c false r + 1
    else if p > c then lmsScan c true r
    else lmsScan c s r

/-- The invariant of the loop of `findLMS` on a text of `n` symbols below `k`: the cursors
stay within the workspace. -/
def FindInv (n k : Nat) (seps : Nat) (st : FindSt) : Prop :=
  st.sa.length = n ∧ st.bkt.length = k ∧ st.lms < n ∧ (∀ v ∈ st.bkt, v ≤ n) ∧
  0 ≤ st.sbkt ∧ st.sbkt + seps ≤ n

/-- The body of `sais`, with the function called at the recursive call site as the
parameter `self`: `sais (fuel + 1)` is `saisBody (sais fuel)`. -/
def saisBody (self : List Int → List Int → Nat → Bool → Bool → Option SaisOut)
    (t sa : List Int) (k : Nat) (bwt rec : Bool) : Option SaisOut :=
  (histgram t k).bind fun hb =>
  (findLMS t sa hb.2 hb.1 rec).bind fun f =>
  (if f.1 > 1 ∨ f.2.1 > 1 then
    (sortLMS t f.2.2.1 f.2.2.2 hb.1 f.2.1).bind fun s =>
    (nameLMS t s.1 f.1 rec).bind fun nm =>
    (if nm.1 < f.1 then
      (adjustLMS nm.2 f.1).bind fun sa =>
      if (sa.length : Int) < 2 * f.1 then none
      else
        (self ((sa.drop f.1.toNat).take f.1.toNat) (sa.take f.1.toNat)
          (nm.1 + 1).toNat false true).bind fun r =>
        (locateLMS t (r.sa ++ sa.drop f.1.toNat) f.1 rec).bind fun sa =>
        shuffleLMS sa f.1
    else clearLMSLen nm.2 f.1).bind fun sa =>
    restoreLMS t sa s.2 hb.1 f.1
  else some (f.2.2.1, f.2.2.2)).bind fun sb =>
  finish t sb.1 sb.2 hb.1 f.2.1 bwt

/-! ## The order of the reversed prefixes and the model of the induced sort -/

/-! ## Order of the reversed prefixes -/

/-- The symbol at the position `p` of the text (`0` outside of it). -/
def sym (t : List Int) (p : Nat) : Int := t.getD p 0

/-- The key of the position `p`: the reversed prefix `t[p], t[p-1], .., t[0]`. -/
def rkey (t : List Int) : Nat → List Int
  | 0 => [sym t 0]
  | p + 1 => sym t (p + 1) :: rkey t p

/-- L-type of the position `p` in the order of the keys: the key of `p` is greater than the
key of `p - 1`. The position `0` is L-type: its predecessor is the sentinel, with the empty
key. -/
def lType (t : List Int) : Nat → Bool
  | 0 => true
  | p + 1 => decide (sym t p < sym t (p + 1)) || (decide (sym t p = sym t (p + 1)) && lType t p)

/-- The position `p` is an LMS position as `findLMS` finds them: `p` is S-type and `p + 1` is
an L-type position of the text. -/
def lmsAt (t : List Int) (p : Nat) : Bool :=
  !lType t p && (decide (p + 1 < t.length) && lType t (p + 1))

/-- The symbol of a position together with its type, L-type first. -/
def ecode (t : List Int) (p : Nat) : Int := 2 * sym t p + (if lType t p = true then 0 else 1)

/-- The key by which an induction pass orders the position `p`: the symbols, with their types,
from `p` down to the position the chain of `p` starts from, which is the position `0` or the
position after an S-type position `x`; in the latter case the key ends with the symbol of `x`
and the rank `sr x` that the pass gives to `x`. A position that carries the separator `sep` is
not reached through a chain: its key is its code and its own rank. -/
def ckey (t : List Int) (sep : Int) (sr : Nat → Int) : Nat → List Int
  | 0 => [ecode t 0]
  | p + 1 =>
    if sym t (p + 1) = sep then [ecode t (p + 1), sr (p + 1)]
    else ecode t (p + 1) ::
      (if lType t (p + 1) = true ∧ lType t p = false then [2 * sym t p + 1, sr p]
       else ckey t sep sr p)

/-- The position `x` is S-type and `x + 1` is L-type: a chain of L-type positions starts
after `x`. -/
def cstart (t : List Int) (x : Nat) : Prop := lType t (x + 1) = true ∧ lType t x = false

instance (t : List Int) (x : Nat) : Decidable (cstart t x) := by
  unfold cstart
  infer_instance

/-- The rank of `a` among the elements of `S`, ordered by the key `κ`. -/
def rankIn (S : Finset Nat) (κ : Nat → List Int) (a : Nat) : Nat :=
  (S.filter (fun b => κ b < κ a)).card

/-- Head of the bucket of `c`: the number of symbols of the text below `c`. -/
def hd (t : List Int) (c : Int) : Nat := t.countP (fun x => decide (x < c))

/-- Tail of the bucket of `c`: the number of symbols of the text up to `c`. -/
def tl (t : List Int) (c : Int) : Nat := t.countP (fun x => decide (x ≤ c))

/-- The setting of an induction pass: the text, the positions that take part, the symbol of
the separators (a symbol that does not occur when the text has none) and the cell of each
seed (an S-type position followed by an L-type position). -/
structure Seeds where
  t : List Int
  live : Nat → Bool
  sep : Int
  g : Nat → Nat

/-- The position `x` takes part in the pass. -/
def Seeds.lv (M : Seeds) (x : Nat) : Prop := x < M.t.length ∧ M.live x = true

instance (M : Seeds) (x : Nat) : Decidable (M.lv x) := by
  unfold Seeds.lv
  infer_instance

/-- The position `x` carries the separator: it is in its cell before the pass, and no chain
writes it. -/
def Seeds.root (M : Seeds) (x : Nat) : Prop := sym M.t x = M.sep

instance (M : Seeds) (x : Nat) : Decidable (M.root x) := by
  unfold Seeds.root
  infer_instance

/-- Rank of a seed, below every symbol code. -/
def Seeds.sr (M : Seeds) (x : Nat) : Int := (M.g x : Int) - (M.t.length : Int) - 1

/-- Chain key of a position. -/
def Seeds.K (M : Seeds) (p : Nat) : List Int := ckey M.t M.sep M.sr p

/-- The positions that take part, of one symbol and one type, given by their code. -/
def Seeds.cls (M : Seeds) (e : Int) : Finset Nat :=
  (Finset.range M.t.length).filter (fun x => M.live x = true ∧ ecode M.t x = e)

/-- First cell of the class of `x`: L-type positions fill their bucket from its head, S-type
positions end at its tail. -/
def Seeds.base (M : Seeds) (x : Nat) : Nat :=
  if lType M.t x = true then hd M.t (sym M.t x)
  else tl M.t (sym M.t x) - (M.cls (ecode M.t x)).card

/-- The cell of a position: its class in chain-key order. -/
def Seeds.slot (M : Seeds) (x : Nat) : Nat := M.base x + rankIn (M.cls (ecode M.t x)) M.K x

/-- The cell in which the left-to-right pass finds the position `u`: the cell of the seed,
or the cell of the position. -/
def Seeds.sigma (M : Seeds) (u : Nat) : Nat := if cstart M.t u then M.g u else M.slot u

/-- The key of `u` as a source of the left-to-right pass. -/
def Seeds.tk (M : Seeds) (u : Nat) : List Int :=
  if cstart M.t u then [2 * sym M.t u + 1, M.sr u] else M.K u

/-- The sources of the left-to-right pass: the L-type positions that take part, and the seeds
whose successor takes part. -/
def Seeds.srcL (M : Seeds) (u : Nat) : Prop :=
  (lType M.t u = true ∧ M.lv u) ∨ (cstart M.t u ∧ M.lv (u + 1))

/-- The positions that take part are closed under the predecessor, up to the separators; the
seeds lie in the S-type part of their bucket, in distinct cells; the separators are seeds, in
the cells that the order of the keys gives them. -/
structure Seeds.Valid (M : Seeds) : Prop where
  hlive0 : M.lv 0
  hclosed : ∀ x, M.lv (x + 1) → ¬ M.root (x + 1) → M.lv x
  hsym : ∀ x, 0 ≤ sym M.t x
  hsep : M.sep ≠ 0
  hg_lo : ∀ x, M.lv (x + 1) → cstart M.t x →
    hd M.t (sym M.t x) + (M.cls (2 * sym M.t x)).card ≤ M.g x
  hg_hi : ∀ x, M.lv (x + 1) → cstart M.t x → M.g x < tl M.t (sym M.t x)
  hg_inj : ∀ x y, M.lv (x + 1) → M.lv (y + 1) → cstart M.t x → cstart M.t y →
    M.g x = M.g y → x = y
  hroot : ∀ x, x < M.t.length → M.root x →
    cstart M.t x ∧ M.lv x ∧ M.lv (x + 1) ∧ M.slot x = M.g x

/-- The L-type position `y` has been written before the left-to-right pass reaches the
cell `i`. -/
def Seeds.placedL (M : Seeds) (i : Nat) (y : Nat) : Prop := y = 0 ∨ (1 ≤ y ∧ M.sigma (y - 1) < i)

instance (M : Seeds) (i y : Nat) : Decidable (M.placedL i y) := by
  unfold Seeds.placedL
  infer_instance

/-- The S-type position `y` has been written when the right-to-left pass has done the cells
from `e` on. -/
def Seeds.placedS (M : Seeds) (e : Nat) (y : Nat) : Prop :=
  1 ≤ y ∧ M.lv (y - 1) ∧ e ≤ M.slot (y - 1)

instance (M : Seeds) (e y : Nat) : Decidable (M.placedS e y) := by
  unfold Seeds.placedS
  infer_instance

/-- The cursors of the buckets during a pass: the cursor of the current bucket `p` is in
`b`, the others are in `bkt`; `cur c` is the value that the cursor of `c` should have. -/
def Cur (k : Nat) (cur : Int → Int) (bkt : List Int) (b p : Int) : Prop :=
  bkt.length = k ∧ 0 ≤ p ∧ p < k ∧ b = cur p ∧
  ∀ c : Int, 0 ≤ c → c < k → c ≠ p → getI bkt c = some (cur c)

/-- The position `x` has a smaller symbol on its right, which is then S-type. -/
def Seeds.succS (M : Seeds) (x : Nat) : Prop := x + 1 < M.t.length ∧ sym M.t (x + 1) < sym M.t x

instance (M : Seeds) (x : Nat) : Decidable (M.succS x) := by
  unfold Seeds.succS
  infer_instance

/-- Cursor of the bucket of `c` in the left-to-right pass at the cell `i`. -/
def Seeds.curL (M : Seeds) (i : Nat) (c : Int) : Int :=
  ((hd M.t c + ((M.cls (2 * c)).filter (fun y => M.placedL i y)).card : Nat) : Int)

/-- Cursor of the bucket of `c` in the right-to-left pass when the cells from `e` on are
done. -/
def Seeds.curS (M : Seeds) (e : Nat) (c : Int) : Int :=
  (tl M.t c : Int) - (((M.cls (2 * c + 1)).filter (fun y => M.placedS e y)).card : Int)

/-- The symbols of the text are below `k`. -/
def Seeds.Sized (M : Seeds) (k : Nat) : Prop := ∀ x, sym M.t x < (k : Int)

/-- Value of the cell of `x` in the left-to-right pass of `induce` before the pass reads
it. -/
def Seeds.rawL (M : Seeds) (x : Nat) : Int := if M.succS x then compl x else (x : Int) + 1

/-- Value of the cell of `x` in the left-to-right pass of `induce` after the pass has read
it. -/
def Seeds.visL (M : Seeds) (x : Nat) : Int := if M.succS x then (x : Int) else compl x

/-- State of the array when a left-to-right pass is at the cell `i`: the cell of a source
holds `raw` before the pass reads it and `vis` after, once the source is written; the other
cells hold zero. -/
structure Seeds.PassL (M : Seeds) (raw vis : Nat → Int) (i : Nat) (sa : List Int) : Prop where
  len : sa.length = M.t.length
  hsrc : ∀ u, M.srcL u → sa[M.sigma u]? = some
    (if cstart M.t u ∨ M.placedL i u then (if M.sigma u < i then vis u else raw u) else 0)
  hzero : ∀ j, j < M.t.length → (∀ u, M.srcL u → M.sigma u ≠ j) → sa[j]? = some 0

/-- Value of the cell of `x` in the right-to-left pass of `induce` before the pass reads
it. -/
def Seeds.preS (M : Seeds) (x : Nat) : Int :=
  if x + 1 < M.t.length ∧ lType M.t (x + 1) = false then (x : Int) else compl x

/-- State of the array when the right-to-left pass of `induce` has done the cells from `e`
on. -/
structure Seeds.IndS (M : Seeds) (e : Nat) (sa : List Int) : Prop where
  len : sa.length = M.t.length
  hpos : ∀ x, M.lv x → (lType M.t x = true ∨ M.placedS e x) →
    sa[M.slot x]? = some (if e ≤ M.slot x then (x : Int) else M.preS x)

/-- State of the array at the call of `induce`: the seeds, as position plus one, and zeros. -/
structure Seeds.IndPre (M : Seeds) (sa : List Int) : Prop where
  len : sa.length = M.t.length
  hseed : ∀ y, M.lv (y + 1) → cstart M.t y → sa[M.g y]? = some ((y : Int) + 1)
  hzero : ∀ j, j < M.t.length → (∀ y, M.lv (y + 1) → cstart M.t y → M.g y ≠ j) → sa[j]? = some 0

/-- The symbol of the position `x` with the separators told apart: a separator counts as a
symbol of its own, below every symbol of the text, and the later separator is the greater. -/
def dsym (t : List Int) (sep : Int) (x : Nat) : Int :=
  if sym t x = sep then (x : Int) - (t.length : Int) else sym t x

/-- The key of the position `p` with the separators told apart: the reversed prefix that
ends at `p`. -/
def dkey (t : List Int) (sep : Int) : Nat → List Int
  | 0 => [dsym t sep 0]
  | p + 1 => dsym t sep (p + 1) :: dkey t sep p

/-- The separators of the text, if any: no symbol is below them, and each is a seed. -/
structure SepOK (t : List Int) (sep : Int) : Prop where
  hne : sep ≠ 0
  hmin : ∀ x, x < t.length → sep ≤ sym t x
  hseed : ∀ x, x < t.length → sym t x = sep → cstart t x ∧ x + 1 < t.length

/-- No symbol of the text is below the separator. -/
def Seeds.SepMin (M : Seeds) : Prop := ∀ x, x < M.t.length → M.sep ≤ sym M.t x

/-- The seeds of one symbol are in the order of their keys. -/
def Seeds.Ordered (M : Seeds) : Prop :=
  ∀ x y, M.lv (x + 1) → M.lv (y + 1) → cstart M.t x → cstart M.t y → sym M.t x = sym M.t y →
    M.g x < M.g y → dkey M.t M.sep x < dkey M.t M.sep y

/-- The symbol that a call of `sais` treats as the separator: the byte 1 at the top level,
none in a recursive call. -/
def sepOf (rec : Bool) : Int := if rec = true then -1 else separator

/-- Number of the seeds with the symbol `c` among the positions below `i`. -/
def cntLt (t : List Int) (i : Nat) (c : Int) : Nat :=
  ((Finset.range i).filter (fun y => cstart t y ∧ sym t y = c)).card

/-- Number of the seeds among the positions below `i`. -/
def mLt (t : List Int) (i : Nat) : Nat := ((Finset.range i).filter (fun y => cstart t y)).card

/-- The last seed before `q`, or 0 when there is none. -/
def prevS (t : List Int) : Nat → Nat
  | 0 => 0
  | q + 1 => if cstart t q then q else prevS t q

/-- The cell in which `findLMS` puts the seed `q`: the separators fill their bucket from its
head, in text order; the seeds of another symbol fill its bucket from the tail down, in text
order. -/
def gF (t : List Int) (sep : Int) (q : Nat) : Nat :=
  if sym t q = sep then cntLt t q sep else tl t (sym t q) - cntLt t (q + 1) (sym t q)

/-- The seed `y` is in the array when `findLMS` has read the positions below `lim`: a
separator is written when it is found, another seed when the next seed is found and is not
a separator. -/
def wrF (t : List Int) (sep : Int) (lim y : Nat) : Prop :=
  cstart t y ∧ y < lim ∧
    (sym t y = sep ∨ ∃ z, z < lim ∧ (cstart t z ∧ sym t z ≠ sep ∧ prevS t z = y))

instance (t : List Int) (sep : Int) (lim y : Nat) : Decidable (wrF t sep lim y) := by
  unfold wrF
  infer_instance

/-- The positions that take part in `sortLMS`: the separators, the positions before the
first seed, and the positions after a seed that `findLMS` has written. -/
def liveF (t : List Int) (sep : Int) (x : Nat) : Bool :=
  decide (sym t x = sep ∨ ¬ cstart t (prevS t x) ∨ wrF t sep (t.length - 1) (prevS t x))

/-- State of `findLMS` before it reads the index `q + 1`. -/
structure FindI (t : List Int) (k : Nat) (sep : Int) (q : Nat) (st : FindSt) : Prop where
  hp : st.p = sym t q
  hs : st.s = !lType t q
  hms : st.ms = (cntLt t q sep : Int)
  hsb : st.sbkt = (tl t 0 : Int) + (cntLt t q sep : Int)
  hm : st.m = (mLt t q : Int)
  hbl : st.bkt.length = k
  hb : ∀ c : Int, 0 ≤ c → c < k →
    getI st.bkt c = some ((tl t c : Int) - (if c = sep then 0 else (cntLt t q c : Int)))
  hlen : st.sa.length = t.length
  hpend : if cstart t (prevS t q) ∧ sym t (prevS t q) ≠ sep then
      st.l = (prevS t q : Int) + 1 ∧ st.lms = (gF t sep (prevS t q) : Int)
    else st.lms = -1
  hsa : ∀ y, wrF t sep q y → st.sa[gF t sep y]? = some ((y : Int) + 1)
  hz : ∀ j, j < t.length → (∀ y, wrF t sep q y → gF t sep y ≠ j) → st.sa[j]? = some 0

/-- A position that takes part and is not a seed is followed by a position that takes part:
the passes stop a chain at a seed or at the end of the text. -/
def Seeds.Fwd (M : Seeds) : Prop :=
  ∀ x, M.lv x → ¬ cstart M.t x → x + 1 < M.t.length → M.lv (x + 1)

/-- Value of the cell of `x` in the left-to-right pass of `sortLMS` before the pass reads
it. -/
def Seeds.rawL1 (M : Seeds) (x : Nat) : Int :=
  if M.succS x then compl ((x : Int) + 1)
  else if x + 1 < M.t.length then (x : Int) + 1 else 0

/-- Value of the cell of `x` in the left-to-right pass of `sortLMS` after the pass has read
it. -/
def Seeds.visL1 (M : Seeds) (x : Nat) : Int :=
  if M.succS x then (x : Int) + 1 else if M.root x then compl x else 0

/-- Value of the cell of `x` in the right-to-left pass of `sortLMS` before the pass reads
it. -/
def Seeds.preS1 (M : Seeds) (x : Nat) : Int :=
  if M.lv (x + 1) ∧ lType M.t (x + 1) = false then (x : Int) + 1
  else if cstart M.t x then compl x else 0

/-- Value of the cell of `x` in the right-to-left pass of `sortLMS` after the pass has read
it. -/
def Seeds.postS1 (M : Seeds) (x : Nat) : Int := if cstart M.t x then compl x else 0

/-- State of the array when the right-to-left pass of `sortLMS` has done the cells from `e`
on. -/
structure Seeds.SrtS (M : Seeds) (e : Nat) (sa : List Int) : Prop where
  len : sa.length = M.t.length
  hpos : ∀ x, M.lv x → sa[M.slot x]? = some
    (if lType M.t x = true ∨ M.placedS e x ∨ M.root x then
      (if e ≤ M.slot x then M.postS1 x else M.preS1 x) else 0)
  hzero : ∀ j, j < M.t.length → (∀ x, M.lv x → M.slot x ≠ j) → sa[j]? = some 0

/-- State of the array after `sortLMS`: the complement of each seed in its cell, zero in
the other cells. -/
structure Seeds.SrtPost (M : Seeds) (sa : List Int) : Prop where
  len : sa.length = M.t.length
  hpos : ∀ x, M.lv x → sa[M.slot x]? = some (if cstart M.t x then compl x else 0)
  hzero : ∀ j, j < M.t.length → (∀ x, M.lv x → M.slot x ≠ j) → sa[j]? = some 0

/-- The chains of `a` and `b` carry the same symbols and types down to their seeds, which
they reach together; no position of the two chains above the seeds is a separator. -/
def sameChainB (t : List Int) (sep : Int) : Nat → Nat → Bool
  | 0, 0 => true
  | 0, _ + 1 => false
  | _ + 1, 0 => false
  | a + 1, b + 1 => decide (ecode t (a + 1) = ecode t (b + 1)) &&
      (decide (sym t (a + 1) ≠ sep) &&
      (if cstart t a ∧ cstart t b then decide (sym t a = sym t b)
       else if cstart t a ∨ cstart t b then false else sameChainB t sep a b))

/-- The chains of `a` and `b` are the same. -/
def sameChain (t : List Int) (sep : Int) (a b : Nat) : Prop := sameChainB t sep a b = true

/-- The separators are in their cells in text order. -/
def Seeds.RootOrd (M : Seeds) : Prop :=
  ∀ x y, x < M.t.length → y < M.t.length → M.root x → M.root y → M.g x < M.g y → x < y

/-- The length tag of `nameLMS` for the position `q`: the number of the positions from the
last seed before `q` up to `q`. -/
def lenTag (t : List Int) (q : Nat) : Nat := q + 1 - prevS t q

/-- The same tag and the same symbols over it. -/
def winEq (t : List Int) (a b : Nat) : Prop :=
  lenTag t a = lenTag t b ∧ ∀ l, l < lenTag t a → sym t (a - l) = sym t (b - l)

/-- The test of `nameLMS` for two positions: neither is a separator, and they have the same
tag and the same symbols over it. -/
def winEqS (t : List Int) (sep : Int) (a b : Nat) : Prop :=
  sym t a ≠ sep ∧ sym t b ≠ sep ∧ winEq t a b

instance (t : List Int) (a b : Nat) : Decidable (winEq t a b) := by
  unfold winEq
  infer_instance

instance (t : List Int) (sep : Int) (a b : Nat) : Decidable (winEqS t sep a b) := by
  unfold winEqS
  infer_instance

/-- The name that `nameLMS` gives to the entry `i` of the list `ord`: the first entry gets
1, and the name goes up by one at each entry that fails the test against the one before. -/
def nameAt (t : List Int) (sep : Int) (ord : List Nat) : Nat → Int
  | 0 => 1
  | i + 1 => nameAt t sep ord i +
      (if winEqS t sep (ord.getD i 0) (ord.getD (i + 1) 0) then 0 else 1)

/-- The name of the position `q`. -/
def nameOf (t : List Int) (sep : Int) (ord : List Nat) (q : Nat) : Int :=
  nameAt t sep ord (ord.indexOf q)

/-- The positions whose complements are in the array, in the order of the cells. -/
def negPos (sa : List Int) : List Nat :=
  sa.filterMap (fun v => if v < 0 then some (compl v).toNat else none)

/-- State of the compaction loop of `nameLMS` before the index `i`; `sa0` is the array at the
start and `m` the number of its negative entries. -/
structure CompI (sa0 : List Int) (m : Nat) (i : Nat) (st : Int × List Int × Bool) : Prop where
  hj : st.1 = ((negPos (sa0.take i)).length : Int)
  hlen : st.2.1.length = sa0.length
  hlo : ∀ a, a < (negPos (sa0.take i)).length →
    st.2.1[a]? = ((negPos sa0)[a]?).map (fun x => (x : Int))
  hmid : ∀ a, (negPos (sa0.take i)).length ≤ a → a < i → st.2.1[a]? = some 0
  hhi : ∀ a, i ≤ a → st.2.1[a]? = sa0[a]?
  hstop : st.2.2 = decide (st.1 = (m : Int))

/-- The seeds of the text, in text order. -/
def lmsL (t : List Int) : List Nat :=
  (List.range (t.length - 1)).filter (fun y => decide (cstart t y))

/-- The tag that the length loop of `nameLMS` gives to the seed `q`: minus one for a
separator, the length of the window otherwise. -/
def tagOf (t : List Int) (sep : Int) (q : Nat) : Int :=
  if sym t q = sep then -1 else (lenTag t q : Int)

/-- State of the length loop of `nameLMS` before the index `q + 1`; `sa0` is the array at
the start of the loop and `m` the number of the seeds. -/
structure LenI (t : List Int) (sep : Int) (m : Nat) (sa0 : List Int) (q : Nat)
    (st : Int × Int × Bool × List Int) : Prop where
  hp : st.1 = sym t q
  hj : st.2.1 = (prevS t q : Int)
  hs : st.2.2.1 = !lType t q
  hlen : st.2.2.2.length = t.length
  hlo : ∀ a, a < m → st.2.2.2[a]? = sa0[a]?
  htag : ∀ y, y < q → cstart t y → st.2.2.2[m + y / 2]? = some (tagOf t sep y)
  hz : ∀ j, m ≤ j → j < t.length → (∀ y, y < q → cstart t y → m + y / 2 ≠ j) →
    st.2.2.2[j]? = some 0

/-- State of the naming loop of `nameLMS` before the index `i`; `ord` is the list of the
seeds in the order of their cells and `m` their number. -/
structure NameI (t : List Int) (sep : Int) (m : Nat) (ord : List Nat) (i : Nat)
    (st : Int × Int × List Int) : Prop where
  hplen : st.1 = tagOf t sep (ord.getD (i - 1) 0)
  hn : st.2.1 = nameAt t sep ord (i - 1)
  hlen : st.2.2.length = t.length
  hlo : ∀ a, a < m → st.2.2[a]? = some (ord.getD a 0 : Int)
  hname : ∀ a, a < i → st.2.2[m + ord.getD a 0 / 2]? = some (nameAt t sep ord a)
  htag : ∀ a, i ≤ a → a < m →
    st.2.2[m + ord.getD a 0 / 2]? = some (tagOf t sep (ord.getD a 0))
  hz : ∀ j, m ≤ j → j < t.length → (∀ a, a < m → m + ord.getD a 0 / 2 ≠ j) →
    st.2.2[j]? = some 0

/-- State of the array after `nameLMS`: the seeds in the order of their cells, then the name
of each seed `q` in the cell `m + q / 2`, and zeros. -/
structure NamePost (t : List Int) (sep : Int) (m : Nat) (ord : List Nat) (sa : List Int) :
    Prop where
  hlen : sa.length = t.length
  hlo : ∀ a, a < m → sa[a]? = some (ord.getD a 0 : Int)
  hname : ∀ a, a < m → sa[m + ord.getD a 0 / 2]? = some (nameAt t sep ord a)
  hz : ∀ j, m ≤ j → j < t.length → (∀ a, a < m → m + ord.getD a 0 / 2 ≠ j) → sa[j]? = some 0

/-- State of the array after `adjustLMS`: zeros, then the names of the seeds less one, in
text order, then zeros. -/
structure AdjPost (t : List Int) (sep : Int) (m : Nat) (ord : List Nat) (sa : List Int) : Prop where
  hlen : sa.length = t.length
  hlo : ∀ a, a < m → sa[a]? = some 0
  hname : ∀ a, a < m → sa[m + a]? = some (nameOf t sep ord ((lmsL t).getD a 0) - 1)
  hz : ∀ a, 2 * m ≤ a → a < t.length → sa[a]? = some 0

/-- State of the second loop of `adjustLMS` before the index `i`; `sa1` is the array at the
start of the loop. -/
structure AdjI (t : List Int) (sep : Int) (m : Nat) (ord : List Nat) (sa1 : List Int) (i : Nat)
    (st : Int × List Int) : Prop where
  hj : st.1 = (mLt t (2 * (i - m)) : Int)
  hlen : st.2.length = t.length
  hlo : ∀ a, a < m → st.2[a]? = some 0
  hname : ∀ a, a < mLt t (2 * (i - m)) →
    st.2[m + a]? = some (nameOf t sep ord ((lmsL t).getD a 0) - 1)
  hmid : ∀ a, m + mLt t (2 * (i - m)) ≤ a → a < i → st.2[a]? = some 0
  hhi : ∀ a, i ≤ a → st.2[a]? = sa1[a]?

/-- The list `ord` holds the seeds of the text, each once. -/
structure OrdOK (t : List Int) (ord : List Nat) : Prop where
  len : ord.length = mLt t (t.length - 1)
  nodup : ord.Nodup
  mem : ∀ x, x ∈ ord ↔ (x + 1 < t.length ∧ cstart t x)

/-- State of the loop of `locateLMS` before the index `q + 1`; `sa0` is the array at the
start and `m` the number of the seeds. -/
structure LocI (t : List Int) (m : Nat) (sa0 : List Int) (q : Nat)
    (st : Int × Bool × Int × List Int) : Prop where
  hp : st.1 = sym t q
  hs : st.2.1 = !lType t q
  hmm : st.2.2.1 = ((m + mLt t q : Nat) : Int)
  hlen : st.2.2.2.length = t.length
  hloc : ∀ a, a < mLt t q → st.2.2.2[m + a]? = some ((lmsL t).getD a 0 : Int)
  hrest : ∀ j, (j < m ∨ m + mLt t q ≤ j) → st.2.2.2[j]? = sa0[j]?

/-- State of the loop of `shuffleLMS` before the index `i`: `r` is the order found by the
recursive call and `L` the list of the seeds in text order. -/
structure ShufI (n m : Nat) (r L : Nat → Nat) (i : Nat) (sa : List Int) : Prop where
  hlen : sa.length = n
  hdone : ∀ a, a < i → sa[a]? = some (L (r a) : Int)
  htodo : ∀ a, i ≤ a → a < m → sa[a]? = some (r a : Int)
  hsrc : ∀ x, x < m → sa[m + x]? = some (if ∃ a, a < i ∧ r a = x then 0 else (L x : Int))
  hz : ∀ a, 2 * m ≤ a → a < n → sa[a]? = some 0

/-- Number of the entries `S b`, `b < m`, with the symbol of `q` and a key not below the key
of `q`. -/
def cntS (t : List Int) (sep : Int) (S : Nat → Nat) (m : Nat) (q : Nat) : Nat :=
  ((Finset.range m).filter
    (fun b => sym t (S b) = sym t q ∧ ¬ dkey t sep (S b) < dkey t sep q)).card

/-- The cell in which `restoreLMS` puts the seed `q`: the seeds of a symbol end its bucket,
in the order of their keys. -/
def gS (t : List Int) (sep : Int) (S : Nat → Nat) (m : Nat) (q : Nat) : Nat :=
  tl t (sym t q) - cntS t sep S m q

/-- The entries `S 0 .. S (m - 1)` are the seeds of the text in the order of their keys. -/
structure SortedLms (t : List Int) (sep : Int) (S : Nat → Nat) (m : Nat) : Prop where
  hsep : SepOK t sep
  hpos : ∀ x, 0 ≤ sym t x
  hc : ∀ a, a < m → cstart t (S a) ∧ S a + 1 < t.length
  hall : ∀ y, y + 1 < t.length → cstart t y → ∃ a, a < m ∧ S a = y
  hsorted : ∀ a b, a < b → b < m → dkey t sep (S a) < dkey t sep (S b)

/-- Number of the entries `S b`, `e ≤ b < m`, with the symbol `c`. -/
def cntFrom (t : List Int) (S : Nat → Nat) (m e : Nat) (c : Int) : Nat :=
  ((Finset.range m).filter (fun b => e ≤ b ∧ sym t (S b) = c)).card

/-- Cursor of the bucket of `c` in `restoreLMS` when the entries from `e` on are done. -/
def curR (t : List Int) (S : Nat → Nat) (m e : Nat) (c : Int) : Int :=
  (tl t c : Int) - (cntFrom t S m e c : Int)

/-- State of the array in `restoreLMS` when the entries from `e` on are done. -/
structure RestI (t : List Int) (sep : Int) (S : Nat → Nat) (m e : Nat) (sa : List Int) :
    Prop where
  hlen : sa.length = t.length
  hlo : ∀ a, a < e → sa[a]? = some (S a : Int)
  hseed : ∀ b, e ≤ b → b < m → sa[gS t sep S m (S b)]? = some ((S b : Int) + 1)
  hz : ∀ j, e ≤ j → j < t.length → (∀ b, e ≤ b → b < m → gS t sep S m (S b) ≠ j) → sa[j]? = some 0

/-- The array `sa` lists the positions of the text `t`, each once, in strictly increasing
order of their keys, the reversed prefixes. -/
structure SortedSA (t sa : List Int) : Prop where
  hlen : sa.length = t.length
  hval : ∀ i, i < t.length → ∃ x, x < t.length ∧ sa[i]? = some (x : Int)
  hall : ∀ x, x < t.length → ∃ i, i < t.length ∧ sa[i]? = some (x : Int)
  hsorted : ∀ (i j x y : Nat), i < j → sa[i]? = some (x : Int) → sa[j]? = some (y : Int) →
    rkey t x < rkey t y

/-- The BWT byte of the position `x`: the symbol on its right, and 0 at the last position. -/
def Seeds.bwtOf (M : Seeds) (x : Nat) : Int :=
  if x + 1 < M.t.length then sym M.t (x + 1) else 0

/-- Value of the cell of `x` in the left-to-right pass of `induceBWT` after the pass has
read it. -/
def Seeds.visB (M : Seeds) (x : Nat) : Int :=
  if M.succS x then (x : Int)
  else if x + 1 < M.t.length then compl (sym M.t (x + 1)) else (M.t.length : Int) - 1

/-- Value of the cell of `x` in the right-to-left pass of `induceBWT` before the pass reads
it. -/
def Seeds.preB (M : Seeds) (x : Nat) : Int :=
  if x + 1 < M.t.length ∧ lType M.t (x + 1) = false then (x : Int)
  else if x + 1 < M.t.length then compl (sym M.t (x + 1))
  else if lType M.t x = true then (M.t.length : Int) - 1 else compl 0

/-- State of the array when the right-to-left pass of `induceBWT` has done the cells from
`e` on. -/
structure Seeds.IndB (M : Seeds) (e : Nat) (sa : List Int) : Prop where
  len : sa.length = M.t.length
  hpos : ∀ x, M.lv x → (lType M.t x = true ∨ M.placedS e x ∨ M.root x) →
    sa[M.slot x]? = some (if e ≤ M.slot x then M.bwtOf x else M.preB x)

/-- The tables `ptr` and `dict` of `makeCounters` as the right-to-left pass of `induceBWT`
reads them. -/
structure CntOK (ptr dict : List Int) : Prop where
  hlen : dict.length = ptr.length
  hptr0 : ptr[0]? = some 0
  hdict : ∀ (j : Nat) (d : Int), dict[j]? = some d → 0 ≤ d ∧ d < 256

/-- The index `l` that the right-to-left pass of `induceBWT` tracks, when the cells from `e`
on are done: the cell of the last position, once that cell is set. -/
def Seeds.lastAt (M : Seeds) (e : Nat) (l : Int) : Prop :=
  (lType M.t (M.t.length - 1) = true → e ≤ M.slot (M.t.length - 1) →
    l = (M.slot (M.t.length - 1) : Int)) ∧
  (lType M.t (M.t.length - 1) = false → M.placedS e (M.t.length - 1) →
    l = (M.slot (M.t.length - 1) : Int))

/-- State of the right-to-left pass of `induceBWT` when the cells from `e` on are done. -/
structure Seeds.BwtI (M : Seeds) (ptr : List Int) (e : Nat) (st : BwtSt) : Prop where
  hcur : Cur 256 (M.curS e) st.bkt st.b st.p
  hind : M.IndB e st.sa
  hrnk : RankInv st.rnk
  hidx0 : 0 ≤ st.idx
  hidx1 : st.idx < ptr.length
  hlast : M.lastAt e st.l

/-- The state of the assembly loop of `BWT` can be stepped: the counters have 256 cells, the
output has one cell more than `sa`, and its first byte is a byte. -/
structure AuxOK (sa : List Int) (st : AuxSt) : Prop where
  hch : st.chars.length = 256
  hlen : st.t.length = sa.length + 1
  h0 : 0 ≤ st.t.getD 0 0
  h1 : st.t.getD 0 0 < 256

/-- The row of the rank matrix in which `induceBWT` counts the BWT byte of the position `x`:
the byte, with 0 counted as 1. -/
def Seeds.rowOf (M : Seeds) (x : Nat) : Nat :=
  if M.bwtOf x < 1 then 1 else (M.bwtOf x).toNat

/-- What the tables of `makeCounters` hold on a text of bytes from 2 up: `dict` lists 0 and
then the bytes of the text in increasing order, `ptr` the heads of their buckets. -/
structure CntSem (t ptr dict : List Int) : Prop where
  hlen : dict.length = ptr.length
  hzero : dict.getD 0 0 = 0
  hsorted : dict.Pairwise (· < ·)
  hmem : ∀ c, c ∈ t → c ∈ dict
  hpresent : ∀ (j : Nat), 1 ≤ j → j < dict.length → dict.getD j 0 ∈ t
  hptr : ∀ (j : Nat), 1 ≤ j → j < ptr.length → ptr[j]? = some (hd t (dict.getD j 0) : Int)

/-- The index into the tables of `makeCounters` when the right-to-left pass has done the
cells from `e` on: its byte is not below the symbol of any cell still to do, and its bucket
starts at `e` or before. -/
structure Seeds.IdxSem (M : Seeds) (ptr dict : List Int) (e : Nat) (idx : Int) : Prop where
  h0 : 0 ≤ idx
  h1 : idx < ptr.length
  hge : ∀ x, M.lv x → M.slot x < e → sym M.t x ≤ dict.getD idx.toNat 0
  hhd : hd M.t (dict.getD idx.toNat 0) ≤ e

/-- What the rank matrix holds when the right-to-left pass has done the cells from `e` on:
the first byte of the text in column 1, and every position of a done cell in the row of its
BWT byte and the column of its symbol. -/
def Seeds.RankSem (M : Seeds) (e : Nat) (rnk : List (List Nat)) : Prop :=
  ∀ c d : Nat, c < 256 → d < 256 →
    cellAt rnk c d = (if (c : Int) = sym M.t 0 ∧ d = 1 then 1 else 0) +
      ((Finset.range M.t.length).filter
        (fun x => e ≤ M.slot x ∧ M.rowOf x = c ∧ sym M.t x = (d : Int))).card

/-- Row of the transform that holds the byte `T[z]`: the row 0 for `z = 0`, else the row after
the cell of the position `z - 1`. For `z = n` it is the row of the end marker. -/
def Seeds.rowAt (M : Seeds) (z : Nat) : Nat := if z = 0 then 0 else M.slot (z - 1) + 1

/-- The list `bwt` is the transform of the text of `M`: the row 0 holds `T[0]`, and the row
after the cell of a position holds the byte that follows the position, the end marker 0
after the last one. -/
structure Seeds.IsBwt (M : Seeds) (bwt : List Int) : Prop where
  hlen : bwt.length = M.t.length + 1
  hzero : bwt[0]? = some (sym M.t 0)
  hcells : ∀ x, x < M.t.length → bwt[M.slot x + 1]? = some (M.bwtOf x)

/-! ## Basic facts on checked reads and writes -/

theorem getI_some {a : List Int} {i v : Int} (h : getI a i = some v) :
    0 ≤ i ∧ a[i.toNat]? = some v := by
  unfold getI at h
  split at h
  · simp at h
  · exact ⟨by omega, h⟩

theorem getI_lt {a : List Int} {i v : Int} (h : getI a i = some v) :
    0 ≤ i ∧ i.toNat < a.length := by
  obtain ⟨h0, h1⟩ := getI_some h
  exact ⟨h0, (List.getElem?_eq_some.mp h1).1⟩

theorem setI_some {a a' : List Int} {i v : Int} (h : setI a i v = some a') :
    0 ≤ i ∧ i.toNat < a.length ∧ a' = a.set i.toNat v := by
  unfold setI at h
  split at h
  · simp at h
  · split at h
    · rename_i x hx
      simp only [Option.some.injEq] at h
      exact ⟨by omega, (List.getElem?_eq_some.mp hx).1, h.symm⟩
    · simp at h

theorem setI_length {a a' : List Int} {i v : Int} (h : setI a i v = some a') :
    a'.length = a.length := by
  obtain ⟨_, _, rfl⟩ := setI_some h
  simp

theorem getN_some {a : List Nat} {i : Int} {v : Nat} (h : getN a i = some v) :
    0 ≤ i ∧ a[i.toNat]? = some v := by
  unfold getN at h
  split at h
  · simp at h
  · exact ⟨by omega, h⟩

theorem setN_some {a a' : List Nat} {i : Int} {v : Nat} (h : setN a i v = some a') :
    0 ≤ i ∧ i.toNat < a.length ∧ a' = a.set i.toNat v := by
  unfold setN at h
  split at h
  · simp at h
  · split at h
    · rename_i x hx
      simp only [Option.some.injEq] at h
      exact ⟨by omega, (List.getElem?_eq_some.mp hx).1, h.symm⟩
    · simp at h

theorem setN_length {a a' : List Nat} {i : Int} {v : Nat} (h : setN a i v = some a') :
    a'.length = a.length := by
  obtain ⟨_, _, rfl⟩ := setN_some h
  simp

/-- A property kept by every successful step of a loop is kept by the loop. -/
theorem foldlM_inv {σ α : Type} (P : σ → Prop) (f : σ → α → Option σ)
    (hf : ∀ s a s', P s → f s a = some s' → P s') :
    ∀ (l : List α) (s s' : σ), P s → l.foldlM f s = some s' → P s' := by
  intro l
  induction l with
  | nil =>
    intro s s' hs h
    simp only [List.foldlM_nil, Option.pure_def, Option.some.injEq] at h
    exact h ▸ hs
  | cons a l ih =>
    intro s s' hs h
    simp only [List.foldlM_cons, Option.bind_eq_bind, Option.bind_eq_some] at h
    obtain ⟨s1, h1, h2⟩ := h
    exact ih s1 s' (hf s a s1 hs h1) h2

/-! ## Shape of the output of `BWT` -/

theorem bump_some {chars chars' : List Nat} {c : Int} (h : bump chars c = some chars') :
    ∃ v, 0 ≤ c ∧ c.toNat < chars.length ∧ chars[c.toNat]? = some v ∧
      chars' = chars.set c.toNat (v + 1) := by
  unfold bump at h
  simp only [Option.bind_eq_bind, Option.bind_eq_some] at h
  obtain ⟨v, hv, hs⟩ := h
  obtain ⟨h0, hlt, rfl⟩ := setN_some hs
  exact ⟨v, h0, hlt, (getN_some hv).2, rfl⟩

theorem fillStep_length {sa : List Int} {st st' : List Nat × List Int} {bi : Nat}
    (h : fillStep sa st bi = some st') : st'.2.length = st.2.length := by
  unfold fillStep at h
  split at h
  · simp only [Option.bind_eq_bind, Option.bind_eq_some, Option.some.injEq] at h
    obtain ⟨c, _, ch, _, rfl⟩ := h
    rfl
  · simp only [Option.bind_eq_bind, Option.bind_eq_some, Option.some.injEq] at h
    obtain ⟨x, _, t', ht, ch, _, rfl⟩ := h
    exact setI_length ht

theorem auxCell_length {sa : List Int} {st : AuxSt} {r : Nat} {out : AuxSt × Nat}
    (h : auxCell sa st r = some out) : out.1.t.length = st.t.length := by
  unfold auxCell at h
  simp only [Option.bind_eq_bind, Option.bind_eq_some, Option.some.injEq] at h
  obtain ⟨chars, _, ct, hf, rfl⟩ := h
  exact foldlM_inv (fun s : List Nat × List Int => s.2.length = st.t.length) (fillStep sa)
    (fun s a s' hs hstep => (fillStep_length hstep).trans hs) _ _ _ rfl hf

theorem auxRow_length {sa : List Int} : ∀ (row : List Nat) (st : AuxSt)
    (out : AuxSt × List Nat), auxRow sa st row = some out → out.1.t.length = st.t.length := by
  intro row
  induction row with
  | nil =>
    intro st out h
    simp only [auxRow, Option.some.injEq] at h
    subst h; rfl
  | cons r rs ih =>
    intro st out h
    unfold auxRow at h
    split at h
    · simp only [Option.bind_eq_bind, Option.bind_eq_some, Option.some.injEq] at h
      obtain ⟨⟨st1, v⟩, h1, ⟨st2, rs'⟩, h2, rfl⟩ := h
      exact (ih st1 (st2, rs') h2).trans (auxCell_length h1)
    · simp only [Option.bind_eq_bind, Option.bind_eq_some, Option.some.injEq] at h
      obtain ⟨⟨st2, rs'⟩, h2, rfl⟩ := h
      exact ih st (st2, rs') h2

theorem auxRows_length {sa : List Int} : ∀ (rows : List (List Nat)) (st : AuxSt)
    (out : AuxSt × List (List Nat)), auxRows sa st rows = some out →
    out.1.t.length = st.t.length := by
  intro rows
  induction rows with
  | nil =>
    intro st out h
    simp only [auxRows, Option.some.injEq] at h
    subst h; rfl
  | cons row rows ih =>
    intro st out h
    unfold auxRows at h
    simp only [Option.bind_eq_bind, Option.bind_eq_some, Option.some.injEq] at h
    obtain ⟨⟨st1, row'⟩, h1, ⟨st2, rows'⟩, h2, rfl⟩ := h
    exact (ih st1 (st2, rows') h2).trans (auxRow_length row st _ h1)

/-- What `BWT` returns, in terms of the result of `sais` and of the assembly loop. -/
theorem BWT_some {T : List Int} {p : Int} {bwt : List Int} {aux : Aux}
    (h : BWT T = some (p, bwt, aux)) :
    ∃ (r : SaisOut) (o : AuxSt × List (List Nat)) (dict : List Int),
      sais (T.length + 1) T (List.replicate T.length 0) alphabetSize true false = some r ∧
      normDict r.dict = some dict ∧
      auxRows r.sa (auxInit (T ++ [1])) r.rnk = some o ∧
      p = r.l + 1 ∧ bwt = o.1.t ∧
      aux = { Len := (T ++ [1]).length, Eob := o.2, Dist := o.1.Dist, Hist := o.1.Hist,
              Dict := dict } := by
  unfold BWT at h
  simp only [Option.bind_eq_bind, Option.bind_eq_some, Option.some.injEq, Prod.mk.injEq] at h
  obtain ⟨r, hr, dict, hd, o, ha, hp, hb, hx⟩ := h
  exact ⟨r, o, dict, hr, hd, ha, hp.symm, hb.symm, hx.symm⟩

/-- The bytes returned by `BWT` are the text with one more byte. -/
theorem BWT_out_length {T : List Int} {p : Int} {bwt : List Int} {aux : Aux}
    (h : BWT T = some (p, bwt, aux)) : bwt.length = T.length + 1 := by
  obtain ⟨r, o, dict, _, _, ha, _, rfl, _⟩ := BWT_some h
  have hl := auxRows_length _ _ _ ha
  simpa only [auxInit, List.length_append, List.length_singleton] using hl

/-- C7: whenever `BWT T` returns `(p, bwt, aux)`, the BWT has one byte more than the text
and `aux.Len` is that length: `len(bwt) = len(T) + 1` and `aux.Len = len(T) + 1 = len(bwt)`. -/
theorem BWT_length (T : List Int) (p : Int) (bwt : List Int) (aux : Aux)
    (h : BWT T = some (p, bwt, aux)) :
    bwt.length = T.length + 1 ∧ aux.Len = T.length + 1 ∧ aux.Len = bwt.length := by
  have hl := BWT_out_length h
  obtain ⟨r, o, dict, _, _, _, _, _, rfl⟩ := BWT_some h
  refine ⟨hl, ?_, ?_⟩
  · simp
  · simp [hl]

/-- The text `[2]` is accepted by `BWT`. -/
theorem BWT_two_isSome : (BWT [2]).isSome = true := by decide!

/-- Witness for C7 on the one-byte text `[2]`. -/
theorem BWT_length_witness :
    ∃ r, BWT [2] = some r ∧ r.2.1.length = 2 ∧ r.2.2.Len = 2 := by
  obtain ⟨⟨p, bwt, aux⟩, hr⟩ := Option.isSome_iff_exists.mp BWT_two_isSome
  exact ⟨_, hr, (BWT_length _ _ _ _ hr).1, (BWT_length _ _ _ _ hr).2.1⟩

/-! ## The offsets `Dist` -/

theorem bump_hasPos {chars chars' : List Nat} {c : Int}
    (h : bump chars c = some chars') : HasPos chars' := by
  obtain ⟨v, _, hlt, _, rfl⟩ := bump_some h
  exact ⟨c.toNat, v + 1, by simp [List.getElem?_set, hlt], by omega⟩

theorem fillStep_hasPos {sa : List Int} {st st' : List Nat × List Int} {bi : Nat}
    (h : fillStep sa st bi = some st') : HasPos st'.1 := by
  unfold fillStep at h
  split at h
  · simp only [Option.bind_eq_bind, Option.bind_eq_some, Option.some.injEq] at h
    obtain ⟨c, _, ch, hb, rfl⟩ := h
    exact bump_hasPos hb
  · simp only [Option.bind_eq_bind, Option.bind_eq_some, Option.some.injEq] at h
    obtain ⟨x, _, t', _, ch, hb, rfl⟩ := h
    exact bump_hasPos hb

theorem fill_hasPos {sa : List Int} {s r : Nat} (hr : 0 < r) {st st' : List Nat × List Int}
    (h : (List.range' s r).foldlM (fillStep sa) st = some st') : HasPos st'.1 := by
  obtain ⟨r', rfl⟩ : ∃ r', r = r' + 1 := ⟨r - 1, by omega⟩
  rw [List.range'_succ] at h
  simp only [List.foldlM_cons, Option.bind_eq_bind, Option.bind_eq_some] at h
  obtain ⟨s1, h1, h2⟩ := h
  exact foldlM_inv (fun s : List Nat × List Int => HasPos s.1) (fillStep sa)
    (fun _ _ _ _ hstep => fillStep_hasPos hstep) _ _ _ (fillStep_hasPos h1) h2

theorem pack_length_le (l : List (Nat × Nat)) (H : List Nat) :
    H.length ≤ (l.foldl packStep H).length := by
  induction l generalizing H with
  | nil => simp
  | cons a l ih =>
    simp only [List.foldl_cons]
    refine Nat.le_trans ?_ (ih _)
    unfold packStep
    split <;> simp

theorem pack_length_lt (l : List (Nat × Nat)) (H : List Nat)
    (h : ∃ kc ∈ l, 0 < kc.2) : H.length < (l.foldl packStep H).length := by
  induction l generalizing H with
  | nil => simp at h
  | cons a l ih =>
    simp only [List.foldl_cons]
    by_cases ha : 0 < a.2
    · refine Nat.lt_of_lt_of_le ?_ (pack_length_le l _)
      unfold packStep
      simp [ha]
    · obtain ⟨kc, hkc, hpos⟩ := h
      simp only [List.mem_cons] at hkc
      rcases hkc with rfl | hkc
      · exact absurd hpos ha
      · have : packStep H a = H := by
          unfold packStep
          simp [ha]
        rw [this]
        exact ih H ⟨kc, hkc, hpos⟩

theorem auxCell_distInv {sa : List Int} {st : AuxSt} {r : Nat} {out : AuxSt × Nat}
    (hr : 0 < r) (hinv : DistInv st) (h : auxCell sa st r = some out) : DistInv out.1 := by
  unfold auxCell at h
  simp only [Option.bind_eq_bind, Option.bind_eq_some, Option.some.injEq] at h
  obtain ⟨chars, _, ct, hf, rfl⟩ := h
  obtain ⟨k, v, hk, hv⟩ := fill_hasPos hr hf
  have hlt : st.Hist.length < (ct.1.enum.foldl packStep st.Hist).length :=
    pack_length_lt _ _ ⟨(k, v), List.mk_mem_enum_iff_getElem?.mpr hk, hv⟩
  obtain ⟨h0, hpw, _, hle⟩ := hinv
  refine ⟨?_, ?_, ?_, ?_⟩
  · simp [List.head?_append, h0]
  · refine List.pairwise_append.mpr ⟨hpw, List.pairwise_singleton _ _, ?_⟩
    intro a ha b hb
    simp only [List.mem_singleton] at hb
    subst hb
    exact Nat.lt_of_le_of_lt (hle a ha) hlt
  · simp [List.getLast?_concat]
  · intro a ha
    simp only [List.mem_append, List.mem_singleton] at ha
    rcases ha with ha | rfl
    · exact Nat.le_of_lt (Nat.lt_of_le_of_lt (hle a ha) hlt)
    · exact Nat.le_refl _

theorem auxRow_distInv {sa : List Int} : ∀ (row : List Nat) (st : AuxSt)
    (out : AuxSt × List Nat), DistInv st → auxRow sa st row = some out → DistInv out.1 := by
  intro row
  induction row with
  | nil =>
    intro st out hinv h
    simp only [auxRow, Option.some.injEq] at h
    subst h; exact hinv
  | cons r rs ih =>
    intro st out hinv h
    unfold auxRow at h
    split at h
    · rename_i hr
      simp only [Option.bind_eq_bind, Option.bind_eq_some, Option.some.injEq] at h
      obtain ⟨⟨st1, v⟩, h1, ⟨st2, rs'⟩, h2, rfl⟩ := h
      exact ih st1 (st2, rs') (auxCell_distInv hr hinv h1) h2
    · simp only [Option.bind_eq_bind, Option.bind_eq_some, Option.some.injEq] at h
      obtain ⟨⟨st2, rs'⟩, h2, rfl⟩ := h
      exact ih st (st2, rs') hinv h2

theorem auxRows_distInv {sa : List Int} : ∀ (rows : List (List Nat)) (st : AuxSt)
    (out : AuxSt × List (List Nat)), DistInv st → auxRows sa st rows = some out →
    DistInv out.1 := by
  intro rows
  induction rows with
  | nil =>
    intro st out hinv h
    simp only [auxRows, Option.some.injEq] at h
    subst h; exact hinv
  | cons row rows ih =>
    intro st out hinv h
    unfold auxRows at h
    simp only [Option.bind_eq_bind, Option.bind_eq_some, Option.some.injEq] at h
    obtain ⟨⟨st1, row'⟩, h1, ⟨st2, rows'⟩, h2, rfl⟩ := h
    exact ih st1 (st2, rows') (auxRow_distInv row st _ hinv h1) h2

/-- C10: whenever `BWT T` returns `aux`, `aux.Dist` starts with `0`, is strictly ascending
(each positive rank cell appends at least one entry to `Hist`), and its last element is
`len(aux.Hist)`. -/
theorem BWT_dist (T : List Int) (p : Int) (bwt : List Int) (aux : Aux)
    (h : BWT T = some (p, bwt, aux)) :
    aux.Dist.head? = some 0 ∧ aux.Dist.Pairwise (· < ·) ∧
    aux.Dist.getLast? = some aux.Hist.length := by
  obtain ⟨r, o, dict, _, _, ha, _, _, rfl⟩ := BWT_some h
  have hinit : DistInv (auxInit (T ++ [1])) := by
    refine ⟨rfl, List.pairwise_singleton _ _, rfl, ?_⟩
    intro a ha
    simp only [auxInit, List.mem_singleton] at ha
    subst ha
    exact Nat.zero_le _
  obtain ⟨h0, hpw, hlast, _⟩ := auxRows_distInv _ _ _ hinit ha
  exact ⟨h0, hpw, hlast⟩

/-- The text `[3, 2, 3]` is accepted by `BWT`. -/
theorem BWT_three_isSome : (BWT [3, 2, 3]).isSome = true := by decide!

/-- Witness for C10 on the text `[3, 2, 3]`. -/
theorem BWT_dist_witness :
    ∃ r, BWT [3, 2, 3] = some r ∧ r.2.2.Dist.head? = some 0 ∧
      r.2.2.Dist.Pairwise (· < ·) ∧ r.2.2.Dist.getLast? = some r.2.2.Hist.length := by
  obtain ⟨⟨p, bwt, aux⟩, hr⟩ := Option.isSome_iff_exists.mp BWT_three_isSome
  exact ⟨_, hr, BWT_dist _ _ _ _ hr⟩

/-! ## Unfolding the driver -/

theorem finish_bwt_some {t sa bkt hist : List Int} {ms : Int} {r : SaisOut}
    (h : finish t sa bkt hist ms true = some r) :
    induceBWT t sa bkt hist ms = some (r.l, r.sa, r.rnk, r.dict) := by
  unfold finish at h
  simp only [if_true, Option.bind_eq_some, Option.some.injEq] at h
  obtain ⟨⟨l, sa', rnk, dict⟩, hi, rfl⟩ := h
  exact hi

theorem sais_some {fuel : Nat} {t sa : List Int} {k : Nat} {bwt rec : Bool} {r : SaisOut}
    (h : sais (fuel + 1) t sa k bwt rec = some r) :
    ∃ hist bkt0 sa1 bkt1 ms, histgram t k = some (hist, bkt0) ∧
      finish t sa1 bkt1 hist ms bwt = some r := by
  unfold sais at h
  simp only [Option.bind_eq_some] at h
  obtain ⟨⟨hist, bkt0⟩, hh, ⟨m, ms, sa0, bkt⟩, _, ⟨sa1, bkt1⟩, _, hf⟩ := h
  exact ⟨hist, bkt0, sa1, bkt1, ms, hh, hf⟩

theorem induceBWT_dict {t sa bkt hist : List Int} {ms l : Int} {sa' : List Int}
    {rnk : List (List Nat)} {dict : List Int}
    (h : induceBWT t sa bkt hist ms = some (l, sa', rnk, dict)) :
    ∃ bkt1 ptr rnk0, makeCounters bkt1 hist (countLoop 0 hist 1) = some (ptr, dict, rnk0) := by
  unfold induceBWT countBktBeg at h
  simp only [Option.bind_eq_bind, Option.bind_eq_some, Option.some.injEq, Prod.mk.injEq] at h
  obtain ⟨cb, ⟨bkt1, _, rfl⟩, ⟨ptr, dict', rnk0⟩, hm, h⟩ := h
  obtain ⟨p, _, b, _, sa1, _, rnk1, _, st, _, bkt2, _, b2, _, st2, _, _, _, _, hd⟩ := h
  simp only at hd
  subst hd
  exact ⟨bkt1, ptr, rnk0, hm⟩

/-! ## The histogram -/

theorem histStep_some {h h' : List Int} {c : Int} (hs : histStep h c = some h') :
    ∃ v, 0 ≤ c ∧ c.toNat < h.length ∧ h[c.toNat]? = some v ∧ h' = h.set c.toNat (v + 1) := by
  unfold histStep at hs
  simp only [Option.bind_eq_bind, Option.bind_eq_some] at hs
  obtain ⟨v, hv, hset⟩ := hs
  obtain ⟨h0, hlt, rfl⟩ := setI_some hset
  exact ⟨v, h0, hlt, (getI_some hv).2, rfl⟩

theorem hist_fold : ∀ (t : List Int) (h0 h : List Int), t.foldlM histStep h0 = some h →
    h.length = h0.length ∧
    ∀ i : Nat, h[i]? = (h0[i]?).map (fun v => v + (t.count (i : Int) : Int)) := by
  intro t
  induction t with
  | nil =>
    intro h0 h hf
    simp only [List.foldlM_nil, Option.pure_def, Option.some.injEq] at hf
    subst hf
    refine ⟨rfl, fun i => ?_⟩
    cases h0[i]? <;> simp
  | cons c t ih =>
    intro h0 h hf
    simp only [List.foldlM_cons, Option.bind_eq_bind, Option.bind_eq_some] at hf
    obtain ⟨h1, hs, hf⟩ := hf
    obtain ⟨v, hc0, hlt, hv, rfl⟩ := histStep_some hs
    obtain ⟨n, rfl⟩ := Int.eq_ofNat_of_zero_le hc0
    simp only [Int.toNat_ofNat] at hlt hv hf
    obtain ⟨hlen, hget⟩ := ih _ _ hf
    refine ⟨by simpa using hlen, fun i => ?_⟩
    rw [hget i, List.getElem?_set]
    by_cases hi : n = i
    · subst hi
      simp only [if_true, hlt, hv, Option.map_some', List.count_cons, beq_self_eq_true]
      simp
      omega
    · have hci : ¬ (n : Int) = (i : Int) := by omega
      simp only [hi, if_false, List.count_cons]
      have : ((n : Int) == (i : Int)) = false := by simpa using hci
      simp [this]

theorem histgram_some {t : List Int} {k : Nat} {hist bkt : List Int}
    (h : histgram t k = some (hist, bkt)) :
    hist.length = k ∧ ∀ i : Nat, i < k → hist[i]? = some (t.count (i : Int) : Int) := by
  unfold histgram at h
  simp only [Option.bind_eq_bind, Option.bind_eq_some, Option.some.injEq, Prod.mk.injEq] at h
  obtain ⟨h1, hf, rfl, _⟩ := h
  obtain ⟨hlen, hget⟩ := hist_fold _ _ _ hf
  refine ⟨by simpa using hlen, fun i hi => ?_⟩
  rw [hget i]
  simp [hi]

/-! ## The dictionary -/

theorem countLoop_pos : ∀ (hs : List Int) (i : Nat) (c : Int), 2 ≤ i →
    countLoop i hs c = c + ((posBytes (hs.enumFrom i)).length : Int) := by
  intro hs
  induction hs with
  | nil => intro i c _; simp [countLoop, posBytes]
  | cons h hs ih =>
    intro i c hi
    have hi1 : i > 1 := by omega
    simp only [countLoop, List.enumFrom_cons, posBytes, List.filter_cons]
    rw [ih (i + 1) _ (by omega)]
    by_cases hpos : h > 0
    · simp [hpos, hi1, posBytes]; omega
    · simp [hpos, posBytes]

theorem set_replicate_append (n : Nat) (x : Int) (L : List Int) :
    (List.replicate (n + 1) (0 : Int) ++ L).set n x = List.replicate n 0 ++ x :: L := by
  induction n with
  | zero => simp
  | succ n ih =>
    rw [List.replicate_succ, List.cons_append, List.set_cons_succ, ih]
    simp [List.replicate_succ]

theorem counters_fold (bkt : List Int) (cnt : Int) (hcnt : 0 ≤ cnt) (lvl0 : List Int) :
    ∀ (l : List (Nat × Int)) (st : Int × List Int × List Int),
    l.reverse.foldlM (countersStep bkt) (cnt - 1, lvl0, List.replicate cnt.toNat 0) = some st →
    st.1 = cnt - 1 - ((posBytes l).length : Int) ∧ ((posBytes l).length : Int) ≤ cnt ∧
    st.2.2 = List.replicate (cnt.toNat - (posBytes l).length) 0 ++ posBytes l := by
  intro l
  induction l with
  | nil =>
    intro st h
    simp only [List.reverse_nil, List.foldlM_nil, Option.pure_def, Option.some.injEq] at h
    subst h
    simp [posBytes, hcnt]
  | cons a l ih =>
    intro st h
    simp only [List.reverse_cons, List.foldlM_append, List.foldlM_cons, List.foldlM_nil,
      Option.bind_eq_bind, Option.bind_eq_some, Option.pure_def, Option.some.injEq] at h
    obtain ⟨st1, hf, st2, hstep, rfl⟩ := h
    obtain ⟨hidx, hle, hdict⟩ := ih st1 hf
    unfold countersStep at hstep
    by_cases hpos : a.2 > 0
    · simp only [hpos, if_true, Option.bind_eq_bind, Option.bind_eq_some,
        Option.some.injEq] at hstep
      obtain ⟨dict, hset, b, _, lvl, _, rfl⟩ := hstep
      obtain ⟨h0, _, rfl⟩ := setI_some hset
      have hp : posBytes (a :: l) = (a.1 : Int) :: posBytes l := by
        simp [posBytes, List.filter_cons, hpos]
      rw [hp]
      simp only [List.length_cons]
      refine ⟨by push_cast; omega, by push_cast; omega, ?_⟩
      rw [hdict]
      have e1 : cnt.toNat - (posBytes l).length = (cnt.toNat - ((posBytes l).length + 1)) + 1 := by
        omega
      have e2 : st1.1.toNat = cnt.toNat - ((posBytes l).length + 1) := by omega
      rw [e1, e2, set_replicate_append]
    · have hp : posBytes (a :: l) = posBytes l := by
        simp [posBytes, List.filter_cons, hpos]
      simp only [hpos, if_false, Option.some.injEq] at hstep
      subst hstep
      rw [hp]
      exact ⟨hidx, hle, hdict⟩

theorem posBytes_enumFrom (P : Nat → Bool) : ∀ (l : List Int) (n : Nat),
    (∀ j (hj : j < l.length), decide (l[j] > 0) = P (n + j)) →
    posBytes (l.enumFrom n) = ((List.range' n l.length).filter P).map (fun b : Nat => (b : Int)) := by
  intro l
  induction l with
  | nil => intro n _; simp [posBytes]
  | cons a l ih =>
    intro n h
    have h0 := h 0 (by simp)
    simp only [List.getElem_cons_zero, Nat.add_zero] at h0
    have hrest : ∀ j (hj : j < l.length), decide (l[j] > 0) = P (n + 1 + j) := by
      intro j hj
      have := h (j + 1) (by simp; omega)
      simp only [List.getElem_cons_succ] at this
      rw [this]
      congr 1
      omega
    have ih' := ih (n + 1) hrest
    simp only [posBytes] at ih' ⊢
    simp only [List.enumFrom_cons, List.length_cons, List.range'_succ, List.filter_cons, h0]
    cases hP : P n
    · simp only [Bool.false_eq_true, if_false]
      exact ih'
    · simp only [if_true, List.map_cons]
      rw [ih']

theorem posBytes_ge_two (l : List Int) (x : Int) (h : x ∈ posBytes (l.enumFrom 2)) :
    2 ≤ x := by
  simp only [posBytes, List.mem_map, List.mem_filter] at h
  obtain ⟨⟨i, v⟩, ⟨hmem, _⟩, rfl⟩ := h
  have := (List.mk_mem_enumFrom_iff_le_and_getElem?_sub.mp hmem).1
  simp only
  omega

theorem normDict_some {P d : List Int} (hP : ∀ x ∈ P, (2 : Int) ≤ x)
    (h : normDict (0 :: P) = some d) : d = 0 :: 1 :: P := by
  unfold normDict at h
  simp only [getI, Option.bind_eq_bind] at h
  simp only [Int.lt_irrefl, if_false, Int.toNat_zero, List.getElem?_cons_zero, Option.some_bind,
    ne_eq, not_true_eq_false] at h
  cases P with
  | nil => simp at h
  | cons x P =>
    have hx : x ≠ 1 := by
      have := hP x (by simp)
      omega
    simp [hx] at h
    exact h.symm

theorem hist_fold_mem : ∀ (t : List Int) (h0 h : List Int), t.foldlM histStep h0 = some h →
    ∀ c ∈ t, 0 ≤ c ∧ c < h0.length := by
  intro t
  induction t with
  | nil => intro h0 h _ c hc; simp at hc
  | cons a t ih =>
    intro h0 h hf c hc
    simp only [List.foldlM_cons, Option.bind_eq_bind, Option.bind_eq_some] at hf
    obtain ⟨h1, hs, hf⟩ := hf
    obtain ⟨v, hc0, hlt, hv, rfl⟩ := histStep_some hs
    simp only [List.mem_cons] at hc
    rcases hc with rfl | hc
    · exact ⟨hc0, by omega⟩
    · have := ih _ _ hf c hc
      simpa using this

theorem histgram_mem {t : List Int} {k : Nat} {hist bkt : List Int}
    (h : histgram t k = some (hist, bkt)) : ∀ c ∈ t, 0 ≤ c ∧ c < k := by
  unfold histgram at h
  simp only [Option.bind_eq_bind, Option.bind_eq_some, Option.some.injEq, Prod.mk.injEq] at h
  obtain ⟨h1, hf, rfl, _⟩ := h
  intro c hc
  have := hist_fold_mem _ _ _ hf c hc
  simpa using this

theorem makeCounters_dict {bkt hist ptr dict : List Int} {rnk : List (List Nat)}
    (hlen : hist.length = 256)
    (h : makeCounters bkt hist (countLoop 0 hist 1) = some (ptr, dict, rnk)) :
    dict = 0 :: posBytes ((hist.drop 2).enumFrom 2) := by
  obtain ⟨a, b, rest, rfl⟩ : ∃ a b rest, hist = a :: b :: rest := by
    match hist, hlen with
    | a :: b :: rest, _ => exact ⟨a, b, rest, rfl⟩
  have hcnt : countLoop 0 (a :: b :: rest) 1 =
      1 + ((posBytes (rest.enumFrom 2)).length : Int) := by
    rw [← countLoop_pos rest 2 1 (Nat.le_refl 2)]
    simp [countLoop]
  rw [hcnt] at h
  unfold makeCounters at h
  have hc : ¬ ((1 + ((posBytes (rest.enumFrom 2)).length : Int) < 0) ∨
      (a :: b :: rest).length < 256) := by
    rw [hlen]; omega
  simp only [hc, if_false, Option.bind_eq_bind, Option.bind_eq_some, Option.some.injEq,
    Prod.mk.injEq] at h
  obtain ⟨st, hf, _, rfl, _⟩ := h
  have hlen' : rest.length = 254 := by simpa using hlen
  have htake : ((a :: b :: rest).enum.take 256).drop 2 = rest.enumFrom 2 := by
    rw [List.take_of_length_le (by simp [List.enum_length, hlen'])]
    simp [List.enum, List.enumFrom_cons]
  rw [htake] at hf
  obtain ⟨_, _, hd⟩ := counters_fold bkt _ (by omega) _ _ _ hf
  rw [hd]
  have : (1 + ((posBytes (rest.enumFrom 2)).length : Int)).toNat -
      (posBytes (rest.enumFrom 2)).length = 1 := by omega
  rw [this]
  simp

theorem sais_dict {T : List Int} {fuel : Nat} {sa : List Int} {rec : Bool} {r : SaisOut}
    (h : sais (fuel + 1) T sa 256 true rec = some r) :
    (∀ c ∈ T, 0 ≤ c ∧ c < 256) ∧
    r.dict = 0 :: ((List.range' 2 254).filter (fun b : Nat => decide ((b : Int) ∈ T))).map
      (fun b : Nat => (b : Int)) := by
  obtain ⟨hist, bkt0, sa1, bkt1, ms, hh, hfin⟩ := sais_some h
  obtain ⟨bkt2, ptr, rnk0, hm⟩ := induceBWT_dict (finish_bwt_some hfin)
  obtain ⟨hlen, hget⟩ := histgram_some hh
  refine ⟨by simpa using histgram_mem hh, ?_⟩
  rw [makeCounters_dict hlen hm]
  congr 1
  have hl : (hist.drop 2).length = 254 := by simp [hlen]
  rw [posBytes_enumFrom (fun b : Nat => decide ((b : Int) ∈ T)) (hist.drop 2) 2, hl]
  intro j hj
  have hj' : 2 + j < 256 := by omega
  have hg := hget (2 + j) hj'
  have : (hist.drop 2)[j] = (T.count ((2 + j : Nat) : Int) : Int) := by
    rw [List.getElem_drop]
    have := List.getElem?_eq_some.mp hg
    exact this.2
  rw [this]
  simp only [gt_iff_lt, Int.ofNat_pos, List.count_pos_iff, decide_eq_decide]

theorem specDict_tail_pairwise (T : List Int) :
    (((List.range' 2 254).filter (fun b : Nat => decide ((b : Int) ∈ T))).map
      (fun b : Nat => (b : Int))).Pairwise (· < ·) := by
  rw [List.pairwise_map]
  refine List.Pairwise.imp ?_ (List.Pairwise.filter _ (List.pairwise_lt_range' 2 254))
  intro a b hab
  exact Int.ofNat_lt.mpr hab

theorem specDict_tail_mem (T : List Int) (x : Int) :
    x ∈ ((List.range' 2 254).filter (fun b : Nat => decide ((b : Int) ∈ T))).map
      (fun b : Nat => (b : Int)) ↔ x ∈ T ∧ 2 ≤ x ∧ x < 256 := by
  simp only [List.mem_map, List.mem_filter, List.mem_range'_1, decide_eq_true_eq]
  constructor
  · rintro ⟨b, ⟨⟨h2, h256⟩, hT⟩, rfl⟩
    exact ⟨hT, by omega, by omega⟩
  · rintro ⟨hT, h2, h256⟩
    refine ⟨x.toNat, ⟨⟨by omega, by omega⟩, ?_⟩, by omega⟩
    have : ((x.toNat : Nat) : Int) = x := by omega
    rw [this]
    exact hT

/-- C9: whenever `BWT T` returns `aux`, `aux.Dict` is `0`, `1` followed by the distinct byte
values `>= 2` occurring in `T`, in strictly ascending order; hence its length is the number of
distinct bytes of `T` other than `0` and `1`, plus two, whether or not `1` occurs in `T`. -/
theorem BWT_dict (T : List Int) (p : Int) (bwt : List Int) (aux : Aux)
    (h : BWT T = some (p, bwt, aux)) :
    aux.Dict = specDict T ∧ aux.Dict.Pairwise (· < ·) ∧
    aux.Dict.length = ((T.filter (fun b => decide (b ≠ 0 ∧ b ≠ 1))).dedup).length + 2 := by
  obtain ⟨r, o, dict, hs, hn, _, _, _, rfl⟩ := BWT_some h
  obtain ⟨hbytes, hd⟩ := sais_dict hs
  have hge : ∀ x ∈ ((List.range' 2 254).filter (fun b : Nat => decide ((b : Int) ∈ T))).map
      (fun b : Nat => (b : Int)), (2 : Int) ≤ x := fun x hx =>
    ((specDict_tail_mem T x).mp hx).2.1
  rw [hd] at hn
  have hdict := normDict_some hge hn
  simp only
  have hpw := specDict_tail_pairwise T
  refine ⟨hdict, ?_, ?_⟩
  · rw [hdict]
    refine List.pairwise_cons.mpr ⟨?_, List.pairwise_cons.mpr ⟨?_, hpw⟩⟩
    · intro x hx
      simp only [List.mem_cons] at hx
      rcases hx with rfl | hx
      · decide
      · have := hge x hx
        omega
    · intro x hx
      have := hge x hx
      omega
  · rw [hdict]
    simp only [List.length_cons, Nat.add_left_inj]
    refine List.Perm.length_eq ((List.perm_ext_iff_of_nodup ?_ (List.nodup_dedup _)).mpr ?_)
    · exact hpw.imp (fun hab => Int.ne_of_lt hab)
    · intro x
      rw [specDict_tail_mem, List.mem_dedup, List.mem_filter]
      simp only [ne_eq, decide_eq_true_eq]
      constructor
      · rintro ⟨hT, h2, _⟩
        exact ⟨hT, by omega, by omega⟩
      · rintro ⟨hT, h0, h1⟩
        have := hbytes x hT
        exact ⟨hT, by omega, by omega⟩

/-- Witness for C9 on the text `[3, 2, 3]`. -/
theorem BWT_dict_witness :
    ∃ r, BWT [3, 2, 3] = some r ∧ r.2.2.Dict = [0, 1, 2, 3] ∧ r.2.2.Dict.length = 4 := by
  obtain ⟨⟨p, bwt, aux⟩, hr⟩ := Option.isSome_iff_exists.mp BWT_three_isSome
  have h := BWT_dict _ _ _ _ hr
  refine ⟨_, hr, ?_, ?_⟩
  · rw [h.1]; decide
  · rw [h.1]; decide

/-! ## The workspace keeps its length -/

/-- A property kept by every successful step of a loop, for the indices of the loop, is kept
by the loop. -/
theorem foldlM_inv_mem {σ α : Type} (P : σ → Prop) (f : σ → α → Option σ) :
    ∀ (l : List α), (∀ s a s', a ∈ l → P s → f s a = some s' → P s') →
    ∀ (s s' : σ), P s → l.foldlM f s = some s' → P s' := by
  intro l
  induction l with
  | nil =>
    intro _ s s' hs h
    simp only [List.foldlM_nil, Option.pure_def, Option.some.injEq] at h
    exact h ▸ hs
  | cons a l ih =>
    intro hf s s' hs h
    simp only [List.foldlM_cons, Option.bind_eq_bind, Option.bind_eq_some] at h
    obtain ⟨s1, h1, h2⟩ := h
    exact ih (fun s a' s' ha' => hf s a' s' (List.mem_cons_of_mem _ ha')) s1 s'
      (hf s a s1 (List.mem_cons_self _ _) hs h1) h2

theorem ite_setI_length {c : Prop} [Decidable c] {a a' : List Int} {i v : Int}
    (h : (if c then setI a i v else some a) = some a') : a'.length = a.length := by
  split at h
  · exact setI_length h
  · simp only [Option.some.injEq] at h
    subst h; rfl

theorem findStep_length {t : List Int} {rec : Bool} {st st' : FindSt} {i : Nat}
    (h : findStep t rec st i = some st') : st'.sa.length = st.sa.length := by
  unfold findStep at h
  simp only [Option.bind_eq_bind, Option.bind_eq_some] at h
  obtain ⟨c, _, h⟩ := h
  split at h
  · split at h
    · simp only [Option.bind_eq_some, Option.some.injEq] at h
      obtain ⟨sa, hs, rfl⟩ := h
      exact setI_length hs
    · simp only [Option.bind_eq_some, Option.some.injEq] at h
      obtain ⟨sa, hs, v, _, bkt, _, rfl⟩ := h
      exact ite_setI_length hs
  · split at h <;> (simp only [Option.some.injEq] at h; subst h; rfl)

theorem findLMS_length {t sa bkt hist : List Int} {rec : Bool}
    {r : Int × Int × List Int × List Int} (h : findLMS t sa bkt hist rec = some r) :
    r.2.2.1.length = sa.length := by
  unfold findLMS at h
  simp only [Option.bind_eq_bind, Option.bind_eq_some, Option.some.injEq] at h
  obtain ⟨bkt1, _, sbkt, _, p, _, st, hf, sa', hs, rfl⟩ := h
  have := foldlM_inv (fun s : FindSt => s.sa.length = sa.length) (findStep t rec)
    (fun s a s' hs hstep => (findStep_length hstep).trans hs) _ _ _ rfl hf
  exact (ite_setI_length hs).trans this

theorem sortLStep_length {t : List Int} {ms : Int} {st st' : IndSt} {i : Nat}
    (h : sortLStep t ms st i = some st') : st'.sa.length = st.sa.length := by
  unfold sortLStep at h
  simp only [Option.bind_eq_bind, Option.bind_eq_some] at h
  obtain ⟨s, _, h⟩ := h
  split at h
  · simp only [Option.bind_eq_some, Option.some.injEq] at h
    obtain ⟨c, _, sw, _, sa1, h1, sa2, h2, rfl⟩ := h
    have l1 : sa1.length = st.sa.length := by
      split at h1
      · exact setI_length h1
      · simp only [Option.bind_eq_some] at h1
        obtain ⟨c1, _, h1⟩ := h1
        exact setI_length h1
    have l2 : sa2.length = sa1.length := by
      split at h2
      · exact setI_length h2
      · simp only [Option.bind_eq_some] at h2
        obtain ⟨v, _, h2⟩ := h2
        exact setI_length h2
    exact l2.trans l1
  · split at h
    · simp only [Option.bind_eq_some, Option.some.injEq] at h
      obtain ⟨sa, hs, rfl⟩ := h
      exact setI_length hs
    · simp only [Option.some.injEq] at h
      subst h; rfl

theorem sortSStep_length {t : List Int} {ms : Int} {st st' : IndSt} {i : Nat}
    (h : sortSStep t ms st i = some st') : st'.sa.length = st.sa.length := by
  unfold sortSStep at h
  simp only [Option.bind_eq_bind, Option.bind_eq_some] at h
  obtain ⟨s, _, h⟩ := h
  split at h
  · simp only [Option.bind_eq_some, Option.some.injEq] at h
    obtain ⟨c, _, sw, _, sa1, h1, sa2, h2, rfl⟩ := h
    have l1 : sa1.length = st.sa.length := by
      split at h1
      · exact setI_length h1
      · simp only [Option.bind_eq_some] at h1
        obtain ⟨c1, _, h1⟩ := h1
        split at h1
        · exact ite_setI_length h1
        · exact setI_length h1
    exact (setI_length h2).trans l1
  · simp only [Option.some.injEq] at h
    subst h; rfl

theorem sortLMS_length {t sa bkt hist : List Int} {ms : Int} {r : List Int × List Int}
    (h : sortLMS t sa bkt hist ms = some r) : r.1.length = sa.length := by
  unfold sortLMS at h
  simp only [Option.bind_eq_bind, Option.bind_eq_some, Option.some.injEq] at h
  obtain ⟨bkt1, _, p, _, b, _, t1, _, sa1, hs, st1, hf1, bkt2, _, b2, _, st2, hf2, rfl⟩ := h
  have l1 := setI_length hs
  have l2 := foldlM_inv (fun s : IndSt => s.sa.length = sa.length) (sortLStep t ms)
    (fun s a s' hs hstep => (sortLStep_length hstep).trans hs) _ _ _ l1 hf1
  refine foldlM_inv (fun s : IndSt => s.sa.length = sa.length) (sortSStep t ms)
    (fun s a s' hs hstep => (sortSStep_length hstep).trans hs) _ _ _ ?_ hf2
  exact l2

theorem compactStep_length {m : Int} {st st' : Int × List Int × Bool} {i : Nat}
    (h : compactStep m st i = some st') : st'.2.1.length = st.2.1.length := by
  unfold compactStep at h
  split at h
  · simp only [Option.some.injEq] at h
    subst h; rfl
  · simp only [Option.bind_eq_bind, Option.bind_eq_some] at h
    obtain ⟨s, _, h⟩ := h
    split at h
    · simp only [Option.bind_eq_some, Option.some.injEq] at h
      obtain ⟨sa1, h1, sa2, h2, rfl⟩ := h
      exact (ite_setI_length h2).trans (setI_length h1)
    · simp only [Option.some.injEq] at h
      subst h; rfl

theorem lengthStep_length {t : List Int} {m : Int} {rec : Bool}
    {st st' : Int × Int × Bool × List Int} {i : Nat}
    (h : lengthStep t m rec st i = some st') : st'.2.2.2.length = st.2.2.2.length := by
  unfold lengthStep at h
  simp only [Option.bind_eq_bind, Option.bind_eq_some] at h
  obtain ⟨n, _, h⟩ := h
  split at h
  · simp only [Option.bind_eq_some, Option.some.injEq] at h
    obtain ⟨sa1, h1, rfl⟩ := h
    exact setI_length h1
  · split at h <;> (simp only [Option.some.injEq] at h; subst h; rfl)

theorem nameStep_length {t : List Int} {m : Int} {rec : Bool}
    {st st' : Int × Int × List Int} {i : Nat}
    (h : nameStep t m rec st i = some st') : st'.2.2.length = st.2.2.length := by
  unfold nameStep at h
  simp only [Option.bind_eq_bind, Option.bind_eq_some, Option.some.injEq] at h
  obtain ⟨si, _, len, _, d, _, sa1, h1, rfl⟩ := h
  exact setI_length h1

theorem nameLMS_length {t sa : List Int} {m : Int} {rec : Bool} {r : Int × List Int}
    (h : nameLMS t sa m rec = some r) : r.2.length = sa.length := by
  unfold nameLMS at h
  simp only [Option.bind_eq_bind, Option.bind_eq_some, Option.some.injEq] at h
  obtain ⟨st1, hf1, p, _, st2, hf2, s0, _, plen, _, sa3, hs, st4, hf4, rfl⟩ := h
  have l1 : st1.2.1.length = sa.length := by
    refine foldlM_inv (fun s : Int × List Int × Bool => s.2.1.length = sa.length)
      (compactStep m) (fun s a s' hs hstep => (compactStep_length hstep).trans hs) _ _ _ ?_ hf1
    rfl
  have l2 : st2.2.2.2.length = sa.length := by
    refine foldlM_inv (fun s : Int × Int × Bool × List Int => s.2.2.2.length = sa.length)
      (lengthStep t m rec) (fun s a s' hs hstep => (lengthStep_length hstep).trans hs)
      _ _ _ ?_ hf2
    exact l1
  have l3 : sa3.length = sa.length := (setI_length hs).trans l2
  refine foldlM_inv (fun s : Int × Int × List Int => s.2.2.length = sa.length)
    (nameStep t m rec) (fun s a s' hs hstep => (nameStep_length hstep).trans hs) _ _ _ ?_ hf4
  exact l3

theorem adjustStep_length {m : Int} {st st' : Int × List Int} {i : Nat}
    (h : adjustStep m st i = some st') : st'.2.length = st.2.length := by
  unfold adjustStep at h
  split at h
  · simp only [Option.bind_eq_bind, Option.bind_eq_some] at h
    obtain ⟨v, _, h⟩ := h
    split at h
    · split at h
      · simp only [Option.bind_eq_some, Option.some.injEq] at h
        obtain ⟨sa1, h1, sa2, h2, rfl⟩ := h
        exact (setI_length h2).trans (setI_length h1)
      · simp only [Option.bind_eq_some, Option.some.injEq] at h
        obtain ⟨sa1, h1, rfl⟩ := h
        exact setI_length h1
    · simp only [Option.some.injEq] at h
      subst h; rfl
  · simp only [Option.some.injEq] at h
    subst h; rfl

theorem adjustLMS_length {sa sa' : List Int} {m : Int}
    (h : adjustLMS sa m = some sa') : sa'.length = sa.length := by
  unfold adjustLMS at h
  simp only [Option.bind_eq_bind, Option.bind_eq_some, Option.some.injEq] at h
  obtain ⟨sa0, hf0, st, hf1, rfl⟩ := h
  have l0 : sa0.length = sa.length :=
    foldlM_inv (fun s : List Int => s.length = sa.length) (fun sa (i : Nat) => setI sa i 0)
      (fun s a s' hs hstep => (setI_length hstep).trans hs) _ _ _ rfl hf0
  refine foldlM_inv (fun s : Int × List Int => s.2.length = sa.length) (adjustStep m)
    (fun s a s' hs hstep => (adjustStep_length hstep).trans hs) _ _ _ ?_ hf1
  exact l0

theorem locateStep_length {t : List Int} {st st' : Int × Bool × Int × List Int} {i : Nat}
    (h : locateStep t st i = some st') : st'.2.2.2.length = st.2.2.2.length := by
  unfold locateStep at h
  simp only [Option.bind_eq_bind, Option.bind_eq_some] at h
  obtain ⟨c, _, h⟩ := h
  split at h
  · split at h
    · simp only [Option.bind_eq_some, Option.some.injEq] at h
      obtain ⟨sa1, h1, rfl⟩ := h
      exact setI_length h1
    · simp only [Option.some.injEq] at h
      subst h; rfl
  · split at h <;> (simp only [Option.some.injEq] at h; subst h; rfl)

theorem locateLMS_length {t sa sa' : List Int} {m : Int} {rec : Bool}
    (h : locateLMS t sa m rec = some sa') : sa'.length = sa.length := by
  unfold locateLMS at h
  simp only [Option.bind_eq_bind, Option.bind_eq_some, Option.some.injEq] at h
  obtain ⟨p, _, st, hf, rfl⟩ := h
  refine foldlM_inv (fun s : Int × Bool × Int × List Int => s.2.2.2.length = sa.length)
    (locateStep t) (fun s a s' hs hstep => (locateStep_length hstep).trans hs) _ _ _ ?_ hf
  rfl

theorem shuffleLMS_length {sa sa' : List Int} {m : Int}
    (h : shuffleLMS sa m = some sa') : sa'.length = sa.length := by
  unfold shuffleLMS at h
  refine foldlM_inv (fun s : List Int => s.length = sa.length) (shuffleStep m)
    ?_ _ _ _ rfl h
  intro s a s' hs hstep
  unfold shuffleStep at hstep
  simp only [Option.bind_eq_bind, Option.bind_eq_some] at hstep
  obtain ⟨v, _, w, _, sa1, h1, h2⟩ := hstep
  exact ((setI_length h2).trans (setI_length h1)).trans hs

theorem clearLMSLen_length {sa sa' : List Int} {m : Int}
    (h : clearLMSLen sa m = some sa') : sa'.length = sa.length := by
  unfold clearLMSLen at h
  refine foldlM_inv (fun s : List Int => s.length = sa.length) (clearStep m)
    ?_ _ _ _ rfl h
  intro s a s' hs hstep
  unfold clearStep at hstep
  simp only [Option.bind_eq_bind, Option.bind_eq_some] at hstep
  obtain ⟨v, _, h1⟩ := hstep
  exact (setI_length h1).trans hs

theorem restoreStep_length {t : List Int} {st st' : IndSt} {i : Nat}
    (h : restoreStep t st i = some st') : st'.sa.length = st.sa.length := by
  unfold restoreStep at h
  simp only [Option.bind_eq_bind, Option.bind_eq_some, Option.some.injEq] at h
  obtain ⟨v, _, c, _, sw, _, sa1, h1, rfl⟩ := h
  split at h1
  · simp only [Option.bind_eq_some] at h1
    obtain ⟨sa2, h2, h3⟩ := h1
    exact (setI_length h3).trans (setI_length h2)
  · exact setI_length h1

theorem restoreLMS_length {t sa bkt hist : List Int} {m : Int} {r : List Int × List Int}
    (h : restoreLMS t sa bkt hist m = some r) : r.1.length = sa.length := by
  unfold restoreLMS at h
  simp only [Option.bind_eq_bind, Option.bind_eq_some, Option.some.injEq] at h
  obtain ⟨bkt1, _, b, _, st, hf, rfl⟩ := h
  refine foldlM_inv (fun s : IndSt => s.sa.length = sa.length) (restoreStep t)
    (fun s a s' hs hstep => (restoreStep_length hstep).trans hs) _ _ _ ?_ hf
  rfl

theorem induceLStep_length {t : List Int} {st st' : IndSt} {i : Nat}
    (h : induceLStep t st i = some st') : st'.sa.length = st.sa.length := by
  unfold induceLStep at h
  simp only [Option.bind_eq_bind, Option.bind_eq_some] at h
  obtain ⟨s, _, h⟩ := h
  split at h
  · simp only [Option.some.injEq] at h
    subst h; rfl
  · split at h
    · simp only [Option.bind_eq_some, Option.some.injEq] at h
      obtain ⟨sa1, h1, rfl⟩ := h
      exact setI_length h1
    · split at h
      · simp only [Option.bind_eq_some, Option.some.injEq] at h
        obtain ⟨sa1, h1, rfl⟩ := h
        exact setI_length h1
      · simp only [Option.bind_eq_some, Option.some.injEq] at h
        obtain ⟨sa1, h1, n, _, sw, _, sa2, h2, rfl⟩ := h
        have l2 : sa2.length = sa1.length := by
          split at h2
          · simp only [Option.bind_eq_some] at h2
            obtain ⟨c1, _, h2⟩ := h2
            exact setI_length h2
          · exact setI_length h2
        exact l2.trans (setI_length h1)

theorem induceSStep_length {t : List Int} {st st' : IndSt} {i : Nat}
    (h : induceSStep t st i = some st') : st'.sa.length = st.sa.length := by
  unfold induceSStep at h
  simp only [Option.bind_eq_bind, Option.bind_eq_some] at h
  obtain ⟨s, _, h⟩ := h
  split at h
  · simp only [Option.bind_eq_some, Option.some.injEq] at h
    obtain ⟨sa1, h1, rfl⟩ := h
    exact setI_length h1
  · split at h
    · simp only [Option.some.injEq] at h
      subst h; rfl
    · simp only [Option.bind_eq_some, Option.some.injEq] at h
      obtain ⟨n, _, sw, _, sa1, h1, rfl⟩ := h
      split at h1
      · exact setI_length h1
      · simp only [Option.bind_eq_some] at h1
        obtain ⟨c1, _, h1⟩ := h1
        exact setI_length h1

theorem induce_length {t sa bkt hist : List Int} {ms : Int} {sa' : List Int}
    (h : induce t sa bkt hist ms = some sa') : sa'.length = sa.length := by
  unfold induce at h
  simp only [Option.bind_eq_bind, Option.bind_eq_some, Option.some.injEq] at h
  obtain ⟨bkt1, _, p, _, b, _, t1, _, sa1, hs, st1, hf1, bkt2, _, b2, _, st2, hf2, rfl⟩ := h
  have l1 := setI_length hs
  have l2 := foldlM_inv (fun s : IndSt => s.sa.length = sa.length) (induceLStep t)
    (fun s a s' hs hstep => (induceLStep_length hstep).trans hs) _ _ _ l1 hf1
  refine foldlM_inv (fun s : IndSt => s.sa.length = sa.length) (induceSStep t)
    (fun s a s' hs hstep => (induceSStep_length hstep).trans hs) _ _ _ ?_ hf2
  exact l2

theorem bwtLStep_length {t : List Int} {st st' : IndSt} {i : Nat}
    (h : bwtLStep t st i = some st') : st'.sa.length = st.sa.length := by
  unfold bwtLStep at h
  simp only [Option.bind_eq_bind, Option.bind_eq_some] at h
  obtain ⟨s, _, h⟩ := h
  split at h
  · simp only [Option.some.injEq] at h
    subst h; rfl
  · split at h
    · simp only [Option.bind_eq_some, Option.some.injEq] at h
      obtain ⟨sa1, h1, rfl⟩ := h
      exact setI_length h1
    · split at h
      · simp only [Option.bind_eq_some, Option.some.injEq] at h
        obtain ⟨sa1, h1, rfl⟩ := h
        exact setI_length h1
      · simp only [Option.bind_eq_some, Option.some.injEq] at h
        obtain ⟨n, _, sa1, h1, sw, _, sa2, h2, rfl⟩ := h
        have l2 : sa2.length = sa1.length := by
          split at h2
          · simp only [Option.bind_eq_some] at h2
            obtain ⟨c1, _, h2⟩ := h2
            exact setI_length h2
          · exact setI_length h2
        exact l2.trans (setI_length h1)

/-- The placement at the end of an iteration of the right-to-left pass keeps the length of
`sa` and returns either the old `l` or an index of `sa`. -/
theorem bwtPlace_some {t : List Int} {ms : Int} {sa : List Int} {l s b p : Int}
    {r : List Int × Int} (h : bwtPlace t ms sa l s b p = some r) :
    r.1.length = sa.length ∧ (r.2 = l ∨ (0 ≤ r.2 ∧ r.2 < sa.length)) := by
  unfold bwtPlace at h
  split at h
  · simp only [Option.bind_eq_some, Option.some.injEq] at h
    obtain ⟨sa1, h1, rfl⟩ := h
    obtain ⟨h0, hlt, _⟩ := setI_some h1
    exact ⟨setI_length h1, Or.inr ⟨h0, by omega⟩⟩
  · simp only [Option.bind_eq_some] at h
    obtain ⟨c1, _, h⟩ := h
    split at h
    · split at h
      · simp only [Option.bind_eq_some, Option.some.injEq] at h
        obtain ⟨sa1, h1, rfl⟩ := h
        exact ⟨setI_length h1, Or.inl rfl⟩
      · simp only [Option.some.injEq] at h
        subst h
        exact ⟨rfl, Or.inl rfl⟩
    · simp only [Option.bind_eq_some, Option.some.injEq] at h
      obtain ⟨sa1, h1, rfl⟩ := h
      exact ⟨setI_length h1, Or.inl rfl⟩

theorem bwtSStep_inv {t ptr dict : List Int} {ms : Int} {n : Nat} {st st' : BwtSt} {i : Nat}
    (hi : i < n) (hinv : BwtInv n st) (h : bwtSStep t ptr dict ms st i = some st') :
    BwtInv n st' := by
  obtain ⟨hlen, hl0, hl1⟩ := hinv
  unfold bwtSStep at h
  simp only [Option.bind_eq_bind, Option.bind_eq_some] at h
  obtain ⟨pi, _, d, _, s, _, h⟩ := h
  split at h
  · simp only [Option.bind_eq_some, Option.some.injEq] at h
    obtain ⟨sa1, h1, rnk, _, rfl⟩ := h
    exact ⟨(setI_length h1).trans hlen, hl0, hl1⟩
  · split at h
    · simp only [Option.bind_eq_some, Option.some.injEq] at h
      obtain ⟨sa1, h1, rnk, _, rfl⟩ := h
      exact ⟨(setI_length h1).trans hlen, by simp, by simpa using hi⟩
    · simp only [Option.bind_eq_some, Option.some.injEq] at h
      obtain ⟨m, _, sa1, h1, rnk, _, sw, _, pl, hp, rfl⟩ := h
      obtain ⟨hpl, hpl2⟩ := bwtPlace_some hp
      have l1 : sa1.length = n := (setI_length h1).trans hlen
      refine ⟨hpl.trans l1, ?_⟩
      rcases hpl2 with h2 | ⟨h2, h3⟩
      · simp only [h2]
        exact ⟨hl0, hl1⟩
      · simp only
        rw [l1] at h3
        exact ⟨h2, h3⟩

theorem induceBWT_some {t sa bkt hist : List Int} {ms : Int}
    {r : Int × List Int × List (List Nat) × List Int} (hlen : sa.length = t.length)
    (h : induceBWT t sa bkt hist ms = some r) :
    r.2.1.length = sa.length ∧ 0 ≤ r.1 ∧ r.1 < t.length := by
  unfold induceBWT at h
  simp only [Option.bind_eq_bind, Option.bind_eq_some, Option.some.injEq] at h
  obtain ⟨cb, _, mc, _, p, hp, b, _, sa1, hs, rnk, _, st1, hf1, bkt2, _, b2, _, st2, hf2,
    rfl⟩ := h
  have hpos : 0 < t.length := by
    have := (getI_lt hp).2
    omega
  have l1 : sa1.length = sa.length := by
    split at hs
    · simp only [Option.bind_eq_some] at hs
      obtain ⟨t1, _, hs⟩ := hs
      exact setI_length hs
    · exact setI_length hs
  have l2 : st1.sa.length = sa.length :=
    foldlM_inv (fun s : IndSt => s.sa.length = sa.length) (bwtLStep t)
      (fun s a s' hs hstep => (bwtLStep_length hstep).trans hs) _ _ _ l1 hf1
  have hinv : BwtInv t.length st2 := by
    refine foldlM_inv_mem (BwtInv t.length) (bwtSStep t mc.1 mc.2.1 ms) _ ?_ _ _ ?_ hf2
    · intro s a s' ha hs hstep
      have : a < t.length := by
        simpa using ha
      exact bwtSStep_inv this hs hstep
    · exact ⟨l2.trans hlen, Int.le_refl 0, by show (0 : Int) < t.length; omega⟩
  obtain ⟨h1, h2, h3⟩ := hinv
  exact ⟨h1.trans hlen.symm, h2, by omega⟩

theorem finish_length {t sa bkt hist : List Int} {ms : Int} {bwt : Bool} {r : SaisOut}
    (hlen : bwt = false ∨ sa.length = t.length) (h : finish t sa bkt hist ms bwt = some r) :
    r.sa.length = sa.length := by
  unfold finish at h
  split at h
  · rename_i hb
    simp only [Option.bind_eq_some, Option.some.injEq] at h
    obtain ⟨x, hx, rfl⟩ := h
    rcases hlen with h1 | h1
    · simp [h1] at hb
    · exact (induceBWT_some h1 hx).1
  · simp only [Option.bind_eq_some, Option.some.injEq] at h
    obtain ⟨x, hx, rfl⟩ := h
    exact induce_length hx

theorem sais_mid {fuel : Nat}
    (ih : ∀ t sa k rec r, sais fuel t sa k false rec = some r → r.sa.length = sa.length)
    {t sa : List Int} {k : Nat} {bwt rec : Bool} {r : SaisOut}
    (h : sais (fuel + 1) t sa k bwt rec = some r) :
    ∃ hist bkt0 sa1 bkt1 ms, histgram t k = some (hist, bkt0) ∧ sa1.length = sa.length ∧
      finish t sa1 bkt1 hist ms bwt = some r := by
  unfold sais at h
  simp only [Option.bind_eq_some] at h
  obtain ⟨⟨hist, bkt0⟩, hh, ⟨m, ms, sa0, bkt⟩, hfind, ⟨sa1, bkt1⟩, hmid, hf⟩ := h
  refine ⟨hist, bkt0, sa1, bkt1, ms, hh, ?_, hf⟩
  have l0 : sa0.length = sa.length := findLMS_length hfind
  simp only at hmid
  split at hmid
  · simp only [Option.bind_eq_some] at hmid
    obtain ⟨⟨sa2, bkt2⟩, hsort, ⟨n, sa3⟩, hname, sa4, hrec, hrest⟩ := hmid
    have l2 : sa2.length = sa.length := (sortLMS_length hsort).trans l0
    have l3 : sa3.length = sa.length := (nameLMS_length hname).trans l2
    have l4 : sa4.length = sa.length := by
      simp only at hrec
      split at hrec
      · simp only [Option.bind_eq_some] at hrec
        obtain ⟨sa5, hadj, hrec⟩ := hrec
        have l5 : sa5.length = sa.length := (adjustLMS_length hadj).trans l3
        split at hrec
        · simp at hrec
        · rename_i hlt
          simp only [Option.bind_eq_some] at hrec
          obtain ⟨r1, hr1, sa6, hloc, hshuf⟩ := hrec
          have lr := ih _ _ _ _ _ hr1
          have l6 : sa6.length = sa.length := by
            rw [locateLMS_length hloc, List.length_append, lr, List.length_take,
              List.length_drop]
            omega
          exact (shuffleLMS_length hshuf).trans l6
      · exact (clearLMSLen_length hrec).trans l3
    exact (restoreLMS_length hrest).trans l4
  · simp only [Option.some.injEq, Prod.mk.injEq] at hmid
    rw [← hmid.1]
    exact l0

theorem sais_plain_length : ∀ (fuel : Nat) (t sa : List Int) (k : Nat) (rec : Bool)
    (r : SaisOut), sais fuel t sa k false rec = some r → r.sa.length = sa.length := by
  intro fuel
  induction fuel with
  | zero => intro t sa k rec r h; simp [sais] at h
  | succ fuel ih =>
    intro t sa k rec r h
    obtain ⟨hist, bkt0, sa1, bkt1, ms, _, hl, hf⟩ := sais_mid ih h
    exact (finish_length (Or.inl rfl) hf).trans hl

/-- What `sais` returns in BWT mode on a workspace as long as the text: the workspace
keeps its length and the returned index is a position of the text. -/
theorem sais_bwt_index {fuel : Nat} {t sa : List Int} {k : Nat} {rec : Bool} {r : SaisOut}
    (hlen : sa.length = t.length) (h : sais (fuel + 1) t sa k true rec = some r) :
    r.sa.length = sa.length ∧ 0 ≤ r.l ∧ r.l < t.length := by
  obtain ⟨hist, bkt0, sa1, bkt1, ms, _, hl, hf⟩ := sais_mid (sais_plain_length fuel) h
  have hi := induceBWT_some (hl.trans hlen) (finish_bwt_some hf)
  exact ⟨hi.1.trans hl, hi.2.1, hi.2.2⟩

/-- C8, as the code has it: the first value returned by `BWT` is not the length of the BWT
but one more than the index `l` that `induceBWT` tracks for the sentinel row, so whenever
`BWT T` returns `(x, bwt, aux)`, `1 <= x <= len(T) = len(bwt) - 1`. -/
theorem BWT_first_is_index (T : List Int) (x : Int) (bwt : List Int) (aux : Aux)
    (h : BWT T = some (x, bwt, aux)) :
    1 ≤ x ∧ x ≤ T.length ∧ bwt.length = T.length + 1 ∧ x < bwt.length := by
  have hlen := BWT_out_length h
  obtain ⟨r, o, dict, hs, _, _, rfl, _, _⟩ := BWT_some h
  obtain ⟨_, h0, h1⟩ := sais_bwt_index (by simp) hs
  refine ⟨by omega, by omega, hlen, ?_⟩
  rw [hlen]
  push_cast
  omega

/-- The text `abcabca` of the tests is accepted by `BWT`. -/
theorem BWT_abcabca_isSome : (BWT [97, 98, 99, 97, 98, 99, 97]).isSome = true := by decide!

/-- Witness for the amended C8 on the text `abcabca`. -/
theorem BWT_first_is_index_witness :
    ∃ r, BWT [97, 98, 99, 97, 98, 99, 97] = some r ∧ 1 ≤ r.1 ∧ r.1 ≤ 7 ∧ r.1 < r.2.1.length := by
  obtain ⟨⟨x, bwt, aux⟩, hr⟩ := Option.isSome_iff_exists.mp BWT_abcabca_isSome
  have h := BWT_first_is_index _ _ _ _ hr
  exact ⟨_, hr, h.1, h.2.1, h.2.2.2⟩

/-- The value of `BWT` on the text `abcabca` of the tests. -/
theorem BWT_abcabca_value :
    (BWT [97, 98, 99, 97, 98, 99, 97]).map (fun r => (r.1, r.2.1)) =
      some (3, [97, 98, 98, 0, 99, 99, 97, 97]) := by decide!

/-- Counterexample to C8 as stated: on the text `abcabca` of the tests `BWT` returns `3` as
its first value, while the returned BWT has 8 bytes. -/
theorem BWT_first_ne_length :
    ∃ x bwt aux, BWT [97, 98, 99, 97, 98, 99, 97] = some (x, bwt, aux) ∧ x = 3 ∧
      bwt.length = 8 ∧ x ≠ (bwt.length : Int) := by
  obtain ⟨⟨x, bwt, aux⟩, hr⟩ := Option.isSome_iff_exists.mp BWT_abcabca_isSome
  have hv := BWT_abcabca_value
  rw [hr] at hv
  simp only [Option.map_some', Option.some.injEq, Prod.mk.injEq] at hv
  obtain ⟨rfl, rfl⟩ := hv
  exact ⟨_, _, _, hr, rfl, rfl, by decide⟩

/-! ## Inputs on which the code fails -/

/-- The missed case of the dictionary normalisation, for every text: a text without any byte
`>= 2` is rejected, because the dictionary returned by `sais` is then the single cell `[0]`
and the normalisation reads `dict[1]`. -/
theorem BWT_none_of_no_ordinary_byte (T : List Int) (h : ∀ c ∈ T, c < 2) : BWT T = none := by
  cases hb : BWT T with
  | none => rfl
  | some r =>
    obtain ⟨x, bwt, aux⟩ := r
    obtain ⟨r, o, dict, hs, hn, _, _, _, _⟩ := BWT_some hb
    obtain ⟨_, hd⟩ := sais_dict hs
    have hnil : ((List.range' 2 254).filter (fun b : Nat => decide ((b : Int) ∈ T))).map
        (fun b : Nat => (b : Int)) = [] := by
      rw [List.map_eq_nil_iff, List.filter_eq_nil_iff]
      intro b hb2 hmem
      simp only [List.mem_range'_1] at hb2
      simp only [decide_eq_true_eq] at hmem
      have := h _ hmem
      omega
    rw [hd, hnil] at hn
    simp [normDict, getI] at hn

/-- C5, failing input `[1]`: `sais` returns the one-cell dictionary `[0]` (no bucket of a
byte `>= 2` is filled), the normalisation then reads `dict[1]`, which is out of range, and
`BWT` returns nothing. -/
theorem BWT_separator_only_fails :
    (sais 2 [1] [0] alphabetSize true false).map (fun r => r.dict) = some [0] ∧
    normDict [0] = none ∧ BWT [1] = none := by decide!

/-- C1, failing input `[2, 1, 1, 2]` (two consecutive separators): `BWT` returns
`(4, [2, 2, 1, 1, 0])` and `rewindBWT` maps it to `[2, 1, 2, 0]`, not to the text. -/
theorem rewind_consecutive_separators :
    (BWT [2, 1, 1, 2]).map (fun r => (r.1, r.2.1, rewindBWT r.2.1 r.1)) =
      some (4, [2, 2, 1, 1, 0], some [2, 1, 2, 0]) := by decide!

/-- C4, failing input `[3, 1, 2, 1, 1, 2]` (two consecutive separators): `BWT` returns the
index `1` and the bytes `[3, 1, 1, 2, 1, 1, 1]`, which contain no `0` at all. -/
theorem BWT_without_sentinel :
    (BWT [3, 1, 2, 1, 1, 2]).map (fun r => (r.1, r.2.1)) =
      some (1, [3, 1, 1, 2, 1, 1, 1]) := by decide!

/-! ## The rank matrix and the assembly loop of `BWT` -/

theorem sum_set_succ : ∀ (l : List Nat) (i : Nat) (v : Nat), l[i]? = some v →
    (l.set i (v + 1)).sum = l.sum + 1 := by
  intro l
  induction l with
  | nil => intro i v h; simp at h
  | cons a l ih =>
    intro i v h
    cases i with
    | zero =>
      simp only [List.getElem?_cons_zero, Option.some.injEq] at h
      subst h
      simp only [List.set_cons_zero, List.sum_cons]
      omega
    | succ i =>
      simp only [List.getElem?_cons_succ] at h
      simp only [List.set_cons_succ, List.sum_cons, ih i v h]
      omega

theorem rankSum_set : ∀ (rank : List (List Nat)) (i : Nat) (row row' : List Nat),
    rank[i]? = some row → row'.sum = row.sum + 1 →
    rankSum (rank.set i row') = rankSum rank + 1 := by
  intro rank
  induction rank with
  | nil => intro i row row' h; simp at h
  | cons a rank ih =>
    intro i row row' h hs
    cases i with
    | zero =>
      simp only [List.getElem?_cons_zero, Option.some.injEq] at h
      subst h
      simp only [rankSum, List.set_cons_zero, List.map_cons, List.sum_cons, hs]
      omega
    | succ i =>
      simp only [List.getElem?_cons_succ] at h
      have := ih i row row' h hs
      simp only [rankSum, List.set_cons_succ, List.map_cons, List.sum_cons] at this ⊢
      omega

/-- What `updateRank` does: one cell of a row of index at least 1 grows by one. -/
theorem updateRank_some {rank rank' : List (List Nat)} {a b : Int}
    (h : updateRank rank a b = some rank') :
    ∃ (i : Nat) (row : List Nat) (v : Nat), 1 ≤ i ∧ i = (if a < 1 then 1 else a).toNat ∧
      rank[i]? = some row ∧ 0 ≤ b ∧ row[b.toNat]? = some v ∧
      rank' = rank.set i (row.set b.toNat (v + 1)) := by
  unfold updateRank at h
  simp only [Option.bind_eq_bind, Option.bind_eq_some, Option.some.injEq] at h
  obtain ⟨row, hrow, v, hv, row', hset, rfl⟩ := h
  obtain ⟨hb, hv⟩ := getN_some hv
  obtain ⟨_, _, rfl⟩ := setN_some hset
  refine ⟨_, row, v, ?_, rfl, hrow, hb, hv, rfl⟩
  split <;> omega

theorem updateRank_inv {rank rank' : List (List Nat)} {a b : Int}
    (hinv : RankInv rank) (h : updateRank rank a b = some rank') :
    RankInv rank' ∧ rankSum rank' = rankSum rank + 1 := by
  obtain ⟨i, row, v, hi, _, hrow, hb, hv, rfl⟩ := updateRank_some h
  obtain ⟨hlen, hrows, h0⟩ := hinv
  refine ⟨⟨by simpa using hlen, ?_, ?_⟩, rankSum_set _ _ _ _ hrow (sum_set_succ _ _ _ hv)⟩
  · intro r hr
    rcases List.mem_or_eq_of_mem_set hr with hr | rfl
    · exact hrows r hr
    · have := hrows row (List.getElem?_mem hrow)
      simpa using this
  · rw [List.getElem?_set_ne (by omega)]
    exact h0

theorem rankSum_replicate (n m : Nat) : rankSum (List.replicate n (List.replicate m 0)) = 0 := by
  simp [rankSum]

theorem rankInv_zero : RankInv (List.replicate 256 (List.replicate 256 0)) := by
  refine ⟨List.length_replicate _ _, ?_, ?_⟩
  · intro row hrow
    rw [List.eq_of_mem_replicate hrow]
    exact List.length_replicate _ _
  · exact List.getElem?_replicate_of_lt (by omega)
/-- Every iteration of the right-to-left pass of `induceBWT` updates the rank matrix once. -/
theorem bwtSStep_rank {t ptr dict : List Int} {ms : Int} {st st' : BwtSt} {i : Nat}
    (h : bwtSStep t ptr dict ms st i = some st') :
    ∃ a b, updateRank st.rnk a b = some st'.rnk := by
  unfold bwtSStep at h
  simp only [Option.bind_eq_bind, Option.bind_eq_some] at h
  obtain ⟨pi, _, d, _, s, _, h⟩ := h
  split at h
  · simp only [Option.bind_eq_some, Option.some.injEq] at h
    obtain ⟨sa1, _, rnk, hr, rfl⟩ := h
    exact ⟨_, _, hr⟩
  · split at h
    · simp only [Option.bind_eq_some, Option.some.injEq] at h
      obtain ⟨sa1, _, rnk, hr, rfl⟩ := h
      exact ⟨_, _, hr⟩
    · simp only [Option.bind_eq_some, Option.some.injEq] at h
      obtain ⟨m, _, sa1, _, rnk, hr, sw, _, pl, _, rfl⟩ := h
      exact ⟨_, _, hr⟩

/-- A loop whose every step adds one to a measure adds the number of its iterations. -/
theorem foldlM_count {σ α : Type} (P : σ → Prop) (μ : σ → Nat) (f : σ → α → Option σ)
    (hf : ∀ s a s', P s → f s a = some s' → P s' ∧ μ s' = μ s + 1) :
    ∀ (l : List α) (s s' : σ), P s → l.foldlM f s = some s' →
      P s' ∧ μ s' = μ s + l.length := by
  intro l
  induction l with
  | nil =>
    intro s s' hs h
    simp only [List.foldlM_nil, Option.pure_def, Option.some.injEq] at h
    subst h
    exact ⟨hs, rfl⟩
  | cons a l ih =>
    intro s s' hs h
    simp only [List.foldlM_cons, Option.bind_eq_bind, Option.bind_eq_some] at h
    obtain ⟨s1, h1, h2⟩ := h
    obtain ⟨p1, m1⟩ := hf s a s1 hs h1
    obtain ⟨p2, m2⟩ := ih s1 s' p1 h2
    exact ⟨p2, by rw [m2, m1, List.length_cons]; omega⟩

/-- The rank matrix returned by `induceBWT`: 256 rows of 256 cells, row `0` all zero, and
one count for the sentinel row plus one for each iteration of the right-to-left pass. -/
theorem induceBWT_rank {t sa bkt hist : List Int} {ms : Int}
    {r : Int × List Int × List (List Nat) × List Int}
    (h : induceBWT t sa bkt hist ms = some r) :
    RankInv r.2.2.1 ∧ rankSum r.2.2.1 = t.length + 1 := by
  unfold induceBWT at h
  simp only [Option.bind_eq_bind, Option.bind_eq_some, Option.some.injEq] at h
  obtain ⟨cb, _, mc, hmc, p, hp, b, _, sa1, hs, rnk, hrnk, st1, hf1, bkt2, _, b2, _, st2, hf2,
    rfl⟩ := h
  have hzero : mc.2.2 = List.replicate 256 (List.replicate 256 0) := by
    unfold makeCounters at hmc
    simp only [Option.bind_eq_bind] at hmc
    split at hmc
    · simp at hmc
    · simp only [Option.bind_eq_some, Option.some.injEq] at hmc
      obtain ⟨st, _, rfl⟩ := hmc
      rfl
  rw [hzero] at hrnk
  obtain ⟨i1, s1⟩ := updateRank_inv rankInv_zero hrnk
  rw [rankSum_replicate] at s1
  have := foldlM_count (fun s : BwtSt => RankInv s.rnk) (fun s : BwtSt => rankSum s.rnk)
    (bwtSStep t mc.1 mc.2.1 ms)
    (fun s a s' hs hstep => by
      obtain ⟨x, y, hu⟩ := bwtSStep_rank hstep
      exact updateRank_inv hs hu) _ _ _ i1 hf2
  obtain ⟨i2, s2⟩ := this
  refine ⟨i2, ?_⟩
  simp only at s2 ⊢
  rw [s2, s1]
  simp
  omega

/-- The rank matrix returned by `sais` in BWT mode. -/
theorem sais_rank {fuel : Nat} {t sa : List Int} {k : Nat} {rec : Bool} {r : SaisOut}
    (h : sais (fuel + 1) t sa k true rec = some r) :
    RankInv r.rnk ∧ rankSum r.rnk = t.length + 1 := by
  obtain ⟨hist, bkt0, sa1, bkt1, ms, _, hfin⟩ := sais_some h
  exact induceBWT_rank (finish_bwt_some hfin)
theorem copyStep_zero (sz sz2 : Nat) (h2 : sz2 = sz + sz) (rest : List Nat)
    (h : sz ≤ rest.length) :
    copyStep (List.replicate sz 0 ++ rest) sz = some (List.replicate sz2 0 ++ rest.drop sz) := by
  subst h2
  unfold copyStep
  have hlen : (List.replicate sz (0 : Nat) ++ rest).length = sz + rest.length := by simp
  have hmin : min ((List.replicate sz (0 : Nat) ++ rest).length - sz) sz = sz := by
    rw [hlen]; omega
  rw [hmin, if_pos (by rw [hlen]; omega)]
  have e1 : (List.replicate sz (0 : Nat) ++ rest).take sz = List.replicate sz 0 := by
    rw [List.take_left']
    simp
  have e2 : (List.replicate sz (0 : Nat) ++ rest).drop (sz + sz) = rest.drop sz := by
    rw [← List.drop_drop, List.drop_left']
    simp
  rw [e1, e2, ← List.append_assoc, ← List.replicate_add]

/-- The function `reset` zeroes an array of 256 cells. -/
theorem reset_some (chars : List Nat) (h : chars.length = 256) :
    reset chars = some (List.replicate 256 0) := by
  unfold reset
  obtain ⟨a, rest, rfl⟩ : ∃ a rest, chars = a :: rest := by
    cases chars with
    | nil => simp at h
    | cons a rest => exact ⟨a, rest, rfl⟩
  have hr : rest.length = 255 := by simpa using h
  have hl : (List.range 8).map (fun e => 2 ^ e) = [1, 2, 4, 8, 16, 32, 64, 128] := by decide
  have h0 : setN (a :: rest) 0 0 = some (List.replicate 1 0 ++ rest) := by
    simp [setN]
  rw [hl, h0]
  simp only [Option.bind_eq_bind, Option.some_bind, List.foldlM_cons, List.foldlM_nil]
  rw [copyStep_zero 1 2 rfl _ (by omega)]
  simp only [Option.some_bind]
  rw [copyStep_zero 2 4 rfl _ (by simp; omega)]
  simp only [Option.some_bind]
  rw [copyStep_zero 4 8 rfl _ (by simp; omega)]
  simp only [Option.some_bind]
  rw [copyStep_zero 8 16 rfl _ (by simp; omega)]
  simp only [Option.some_bind]
  rw [copyStep_zero 16 32 rfl _ (by simp; omega)]
  simp only [Option.some_bind]
  rw [copyStep_zero 32 64 rfl _ (by simp; omega)]
  simp only [Option.some_bind]
  rw [copyStep_zero 64 128 rfl _ (by simp; omega)]
  simp only [Option.some_bind]
  rw [copyStep_zero 128 256 rfl _ (by simp; omega)]
  simp only [Option.pure_def, Option.some.injEq, List.drop_drop]
  rw [List.drop_of_length_le (by omega), List.append_nil]
  rfl
theorem bump_count {chars chars' : List Nat} {c : Int} (h : bump chars c = some chars') :
    chars'.length = chars.length ∧ 0 ≤ c ∧
    ∀ k : Nat, chars'[k]? = (chars[k]?).map (fun v => v + if (k : Int) = c then 1 else 0) := by
  obtain ⟨v, h0, hlt, hv, rfl⟩ := bump_some h
  refine ⟨by simp, h0, fun k => ?_⟩
  rw [List.getElem?_set]
  by_cases hk : c.toNat = k
  · subst hk
    have : ((c.toNat : Nat) : Int) = c := by omega
    simp [hlt, hv, this]
  · have : ¬ ((k : Nat) : Int) = c := by omega
    simp only [hk, if_false, this, Nat.add_zero]
    cases chars[k]? <;> rfl

theorem fillStep_spec {sa : List Int} {st st' : List Nat × List Int} {bi : Nat}
    (h : fillStep sa st bi = some st') :
    st'.1.length = st.1.length ∧ st'.2.length = st.2.length ∧
    st'.2.getD 0 0 = st.2.getD 0 0 ∧
    (∀ k : Nat, st'.1[k]? =
      (st.1[k]?).map (fun v => v + if (k : Int) = srcSym sa (st.2.getD 0 0) bi then 1 else 0)) ∧
    (∀ j : Nat, st'.2[j]? =
      if j = bi ∧ j ≠ 0 then some (sa.getD (j - 1) 0 % 256) else st.2[j]?) ∧
    (bi ≠ 0 → bi < st.2.length ∧ bi - 1 < sa.length) := by
  unfold fillStep at h
  split at h
  · rename_i hb
    subst hb
    simp only [Option.bind_eq_bind, Option.bind_eq_some, Option.some.injEq] at h
    obtain ⟨c, hc, ch, hbump, rfl⟩ := h
    obtain ⟨hl, _, hk⟩ := bump_count hbump
    have hc0 : st.2.getD 0 0 = c := by
      have := (getI_some hc).2
      simp only [Int.toNat_ofNat, Int.toNat_zero] at this
      simp [List.getD_eq_getElem?_getD, this]
    refine ⟨hl, rfl, rfl, ?_, ?_, fun hne => absurd rfl hne⟩
    · intro k
      rw [hk k, show srcSym sa (st.2.getD 0 0) 0 = c from hc0]
    · intro j
      simp only
      split
      · rename_i hj
        exact absurd hj.1 hj.2
      · rfl
  · rename_i hb
    simp only [Option.bind_eq_bind, Option.bind_eq_some, Option.some.injEq] at h
    obtain ⟨x, hx, t', ht, ch, hbump, rfl⟩ := h
    obtain ⟨hl, _, hk⟩ := bump_count hbump
    obtain ⟨hx0, hxv⟩ := getI_some hx
    obtain ⟨hs0, hslt, rfl⟩ := setI_some ht
    have hi : ((bi : Int) - 1).toNat = bi - 1 := by omega
    have hb' : ((bi : Int)).toNat = bi := by omega
    rw [hi] at hxv
    rw [hb'] at hslt
    have hxd : sa.getD (bi - 1) 0 = x := by
      simp [List.getD_eq_getElem?_getD, hxv]
    refine ⟨hl, by simp, ?_, ?_, ?_, fun _ => ⟨hslt, (List.getElem?_eq_some.mp hxv).1⟩⟩
    · simp only [hb', List.getD_eq_getElem?_getD]
      rw [List.getElem?_set_ne (by omega)]
    · intro k
      rw [hk k]
      simp only [srcSym, hb, if_false, hxd]
    · intro j
      simp only [hb']
      rw [List.getElem?_set]
      by_cases hj : bi = j
      · subst hj
        simp [hslt, hb, hxv]
      · have : ¬ (j = bi ∧ j ≠ 0) := fun hh => hj hh.1.symm
        simp only [hj, if_false, this]

theorem fill_fold {sa : List Int} : ∀ (l : List Nat) (st st' : List Nat × List Int),
    l.foldlM (fillStep sa) st = some st' →
    st'.1.length = st.1.length ∧ st'.2.length = st.2.length ∧
    st'.2.getD 0 0 = st.2.getD 0 0 ∧
    (∀ k : Nat, st'.1[k]? =
      (st.1[k]?).map (fun v => v + (l.map (srcSym sa (st.2.getD 0 0))).count (k : Int))) ∧
    (∀ j : Nat, st'.2[j]? =
      if j ∈ l ∧ j ≠ 0 then some (sa.getD (j - 1) 0 % 256) else st.2[j]?) ∧
    (∀ j ∈ l, j ≠ 0 → j < st.2.length ∧ j - 1 < sa.length) := by
  intro l
  induction l with
  | nil =>
    intro st st' h
    simp only [List.foldlM_nil, Option.pure_def, Option.some.injEq] at h
    subst h
    refine ⟨rfl, rfl, rfl, fun k => ?_, fun j => ?_, fun j hj => ?_⟩
    · cases st.1[k]? <;> simp
    · simp
    · simp at hj
  | cons bi l ih =>
    intro st st' h
    simp only [List.foldlM_cons, Option.bind_eq_bind, Option.bind_eq_some] at h
    obtain ⟨st1, h1, h2⟩ := h
    obtain ⟨a1, a2, a3, a4, a5, a6⟩ := fillStep_spec h1
    obtain ⟨b1, b2, b3, b4, b5, b6⟩ := ih st1 st' h2
    refine ⟨b1.trans a1, b2.trans a2, b3.trans a3, fun k => ?_, fun j => ?_, fun j hj hj0 => ?_⟩
    · rw [b4 k, a4 k, a3]
      cases st.1[k]? with
      | none => rfl
      | some v =>
        simp only [Option.map_some', List.map_cons, List.count_cons, Option.some.injEq]
        by_cases hk : (k : Int) = srcSym sa (st.2.getD 0 0) bi
        · have : (srcSym sa (st.2.getD 0 0) bi == (k : Int)) = true := by simp [hk]
          simp only [if_pos hk, this, ↓reduceIte]
          omega
        · have : (srcSym sa (st.2.getD 0 0) bi == (k : Int)) = false := by
            simp only [beq_eq_false_iff_ne, ne_eq]
            exact fun hh => hk hh.symm
          simp only [if_neg hk, this, Bool.false_eq_true, ↓reduceIte, Nat.add_zero]
    · rw [b5 j, a5 j]
      by_cases hjl : j ∈ l ∧ j ≠ 0
      · have : j ∈ bi :: l ∧ j ≠ 0 := ⟨List.mem_cons_of_mem _ hjl.1, hjl.2⟩
        simp only [hjl, this, if_true, and_self, ne_eq, not_false_eq_true]
      · by_cases hjb : j = bi ∧ j ≠ 0
        · have : j ∈ bi :: l ∧ j ≠ 0 := ⟨hjb.1 ▸ List.mem_cons_self _ _, hjb.2⟩
          rw [if_neg hjl, if_pos hjb, if_pos this]
        · have : ¬ (j ∈ bi :: l ∧ j ≠ 0) := by
            rintro ⟨hm, h0⟩
            rcases List.mem_cons.mp hm with rfl | hm
            · exact hjb ⟨rfl, h0⟩
            · exact hjl ⟨hm, h0⟩
          rw [if_neg hjl, if_neg hjb, if_neg this]
    · rcases List.mem_cons.mp hj with rfl | hj
      · exact a6 hj0
      · have := b6 j hj hj0
        rw [a2] at this
        exact this

theorem pack_foldl (l : List (Nat × Nat)) (H : List Nat) :
    l.foldl packStep H = H ++ l.filterMap
      (fun kc => if 0 < kc.2 then some ((kc.2 <<< 8) ||| kc.1) else none) := by
  induction l generalizing H with
  | nil => simp
  | cons a l ih =>
    simp only [List.foldl_cons, ih, List.filterMap_cons]
    unfold packStep
    by_cases ha : 0 < a.2
    · simp [ha]
    · simp [ha]

theorem enumFrom_filterMap (g : Nat × Nat → Option Nat) (f : Nat → Nat) :
    ∀ (chars : List Nat) (n : Nat), (∀ j (hj : j < chars.length), chars[j] = f (n + j)) →
    (chars.enumFrom n).filterMap g =
      (List.range' n chars.length).filterMap (fun (k : Nat) => g (k, f k)) := by
  intro chars
  induction chars with
  | nil => intro n _; simp
  | cons a chars ih =>
    intro n h
    have h0 := h 0 (by simp)
    simp only [List.getElem_cons_zero, Nat.add_zero] at h0
    have hrest : ∀ j (hj : j < chars.length), chars[j] = f (n + 1 + j) := by
      intro j hj
      have := h (j + 1) (by simp; omega)
      simp only [List.getElem_cons_succ] at this
      rw [this]
      congr 1
      omega
    simp only [List.enumFrom_cons, List.length_cons, List.range'_succ, List.filterMap_cons,
      ih (n + 1) hrest, h0]

/-- The entries appended to `Hist` for a cell: the packed histogram of the symbols counted
in `chars`. -/
theorem pack_chars (chars : List Nat) (H : List Nat) (syms : List Int)
    (hlen : chars.length = 256)
    (hc : ∀ k : Nat, k < 256 → chars[k]? = some (syms.count (k : Int))) :
    chars.enum.foldl packStep H = H ++ packHist syms := by
  rw [pack_foldl, List.enum, enumFrom_filterMap _ (fun k => syms.count (k : Int)) chars 0, hlen]
  · unfold packHist
    rw [List.range_eq_range']
  · intro j hj
    have := hc j (by omega)
    rw [List.getElem?_eq_getElem hj] at this
    simpa using this

theorem fillStep_sym {sa : List Int} {st st' : List Nat × List Int} {bi : Nat}
    (h : fillStep sa st bi = some st') :
    0 ≤ srcSym sa (st.2.getD 0 0) bi ∧ (srcSym sa (st.2.getD 0 0) bi).toNat < st.1.length := by
  unfold fillStep at h
  split at h
  · rename_i hb
    subst hb
    simp only [Option.bind_eq_bind, Option.bind_eq_some, Option.some.injEq] at h
    obtain ⟨c, hc, ch, hbump, rfl⟩ := h
    obtain ⟨v, h0, hlt, _, _⟩ := bump_some hbump
    have hc0 : st.2.getD 0 0 = c := by
      have := (getI_some hc).2
      simp only [Int.toNat_ofNat, Int.toNat_zero] at this
      simp [List.getD_eq_getElem?_getD, this]
    rw [show srcSym sa (st.2.getD 0 0) 0 = c from hc0]
    exact ⟨h0, hlt⟩
  · rename_i hb
    simp only [Option.bind_eq_bind, Option.bind_eq_some, Option.some.injEq] at h
    obtain ⟨x, hx, t', ht, ch, hbump, rfl⟩ := h
    obtain ⟨v, h0, hlt, _, _⟩ := bump_some hbump
    obtain ⟨hx0, hxv⟩ := getI_some hx
    have hi : ((bi : Int) - 1).toNat = bi - 1 := by omega
    rw [hi] at hxv
    have hxd : sa.getD (bi - 1) 0 = x := by
      simp [List.getD_eq_getElem?_getD, hxv]
    simp only [srcSym, hb, if_false, hxd]
    exact ⟨h0, hlt⟩

theorem fill_fold_sym {sa : List Int} : ∀ (l : List Nat) (st st' : List Nat × List Int),
    l.foldlM (fillStep sa) st = some st' →
    ∀ j ∈ l, 0 ≤ srcSym sa (st.2.getD 0 0) j ∧
      (srcSym sa (st.2.getD 0 0) j).toNat < st.1.length := by
  intro l
  induction l with
  | nil => intro st st' _ j hj; simp at hj
  | cons bi l ih =>
    intro st st' h j hj
    simp only [List.foldlM_cons, Option.bind_eq_bind, Option.bind_eq_some] at h
    obtain ⟨st1, h1, h2⟩ := h
    obtain ⟨a1, _, a3, _, _, _⟩ := fillStep_spec h1
    rcases List.mem_cons.mp hj with rfl | hj
    · exact fillStep_sym h1
    · have := ih st1 st' h2 j hj
      rw [a3, a1] at this
      exact this

/-- What the body of `if r > 0` does to the state of the assembly loop. -/
theorem auxCell_spec {sa : List Int} {st : AuxSt} {r : Nat} {out : AuxSt × Nat}
    (hch : st.chars.length = 256) (h : auxCell sa st r = some out) :
    out.2 = st.Dist.length ∧ out.1.sum = st.sum + r ∧ out.1.chars.length = 256 ∧
    out.1.t.length = st.t.length ∧ out.1.t.getD 0 0 = st.t.getD 0 0 ∧
    out.1.Hist = st.Hist ++
      packHist ((List.range' st.sum r).map (srcSym sa (st.t.getD 0 0))) ∧
    out.1.Dist = st.Dist ++ [out.1.Hist.length] ∧
    (∀ j : Nat, out.1.t[j]? =
      if (st.sum ≤ j ∧ j < st.sum + r) ∧ j ≠ 0 then some (sa.getD (j - 1) 0 % 256)
      else st.t[j]?) ∧
    (∀ j : Nat, st.sum ≤ j → j < st.sum + r →
      0 ≤ srcSym sa (st.t.getD 0 0) j ∧ srcSym sa (st.t.getD 0 0) j < 256) := by
  unfold auxCell at h
  rw [reset_some _ hch] at h
  simp only [Option.bind_eq_bind, Option.some_bind, Option.bind_eq_some, Option.some.injEq] at h
  obtain ⟨ct, hf, rfl⟩ := h
  rw [Nat.add_sub_cancel] at hf
  obtain ⟨a1, a2, a3, a4, a5, a6⟩ := fill_fold _ _ _ hf
  have asym := fill_fold_sym _ _ _ hf
  simp only at a1 a2 a3 a4 a5 a6 asym
  have hl : ct.1.length = 256 := by rw [a1]; exact List.length_replicate _ _
  have hcount : ∀ k : Nat, k < 256 → ct.1[k]? =
      some (((List.range' st.sum r).map (srcSym sa (st.t.getD 0 0))).count (k : Int)) := by
    intro k hk
    rw [a4 k, List.getElem?_replicate_of_lt hk]
    simp
  have hH := pack_chars ct.1 st.Hist _ hl hcount
  refine ⟨rfl, rfl, hl, a2, a3, hH, ?_, ?_, ?_⟩
  · simp only
  · intro j
    rw [a5 j]
    simp only [List.mem_range'_1]
  · intro j h1 h2
    have := asym j (List.mem_range'_1.mpr ⟨h1, h2⟩)
    rw [List.length_replicate] at this
    exact ⟨this.1, by omega⟩

theorem cellSegs_append (sym : Nat → Int) : ∀ (done : List Nat) (s r : Nat),
    cellSegs sym s (done ++ [r]) =
      cellSegs sym s done ++ [packHist ((List.range' (s + done.sum) r).map sym)] := by
  intro done
  induction done with
  | nil => intro s r; simp [cellSegs]
  | cons a done ih =>
    intro s r
    rw [List.cons_append, cellSegs, ih, cellSegs, List.sum_cons, Nat.add_assoc, List.cons_append]

theorem cellSegs_length (sym : Nat → Int) : ∀ (done : List Nat) (s : Nat),
    (cellSegs sym s done).length = done.length := by
  intro done
  induction done with
  | nil => intro s; rfl
  | cons a done ih => intro s; simp [cellSegs, ih]

theorem offsets_append : ∀ (xs : List (List Nat)) (a : Nat) (x : List Nat),
    offsets a (xs ++ [x]) = offsets a xs ++ [a + (xs ++ [x]).flatten.length] := by
  intro xs
  induction xs with
  | nil => intro a x; simp [offsets]
  | cons y xs ih =>
    intro a x
    rw [List.cons_append, offsets, ih, offsets, List.cons_append, List.flatten_cons,
      List.length_append, Nat.add_assoc]

theorem offsets_length : ∀ (xs : List (List Nat)) (a : Nat),
    (offsets a xs).length = xs.length + 1 := by
  intro xs
  induction xs with
  | nil => intro a; rfl
  | cons y xs ih => intro a; simp [offsets, ih]

theorem auxInv_init (sa : List Int) (t : List Int) :
    AuxInv sa (t.getD 0 0) [] (auxInit t) := by
  refine ⟨rfl, List.length_replicate _ _, rfl, ?_, rfl, rfl, ?_⟩
  · intro j _ hj
    exact absurd hj (Nat.not_lt_zero _)
  · intro j hj
    exact absurd hj (Nat.not_lt_zero _)

theorem auxCell_inv {sa : List Int} {c0 : Int} {done : List Nat} {st : AuxSt} {r : Nat}
    {out : AuxSt × Nat} (hinv : AuxInv sa c0 done st) (h : auxCell sa st r = some out) :
    AuxInv sa c0 (done ++ [r]) out.1 ∧ out.2 = done.length + 1 := by
  obtain ⟨i1, i2, i3, i4, i5, i6, i7⟩ := hinv
  obtain ⟨c1, c2, c3, c4, c5, c6, c7, c8, c9⟩ := auxCell_spec i2 h
  rw [i3] at c5 c6 c9
  rw [i1] at c6
  have hsegs := cellSegs_append (srcSym sa c0) done 0 r
  rw [Nat.zero_add] at hsegs
  refine ⟨⟨?_, c3, c5, ?_, ?_, ?_, ?_⟩, ?_⟩
  · rw [c2, i1]
    simp
  · intro j hj0 hj
    rw [c8 j]
    by_cases hin : (st.sum ≤ j ∧ j < st.sum + r) ∧ j ≠ 0
    · rw [if_pos hin]
    · rw [if_neg hin]
      refine i4 j hj0 ?_
      rw [c2] at hj
      by_contra hlt
      exact hin ⟨⟨by omega, hj⟩, hj0⟩
  · rw [c6, hsegs, i5, List.flatten_append]
    simp
  · rw [c7, hsegs, offsets_append, ← i6, Nat.zero_add, c6, i5, ← hsegs, hsegs,
      List.flatten_append]
    simp
  · intro j hj
    rw [c2] at hj
    by_cases hlt : j < st.sum
    · exact i7 j hlt
    · exact c9 j (by omega) hj
  · rw [c1, i6, offsets_length, cellSegs_length]

theorem auxRow_inv {sa : List Int} {c0 : Int} : ∀ (row : List Nat) (done : List Nat)
    (st : AuxSt) (out : AuxSt × List Nat), AuxInv sa c0 done st →
    auxRow sa st row = some out →
    AuxInv sa c0 (done ++ row.filter (fun r => decide (0 < r))) out.1 ∧
      out.2 = renumber (done.length + 1) row := by
  intro row
  induction row with
  | nil =>
    intro done st out hinv h
    simp only [auxRow, Option.some.injEq] at h
    subst h
    simp only [List.filter_nil, List.append_nil, renumber]
    exact ⟨hinv, trivial⟩
  | cons r rs ih =>
    intro done st out hinv h
    unfold auxRow at h
    split at h
    · rename_i hr
      simp only [Option.bind_eq_bind, Option.bind_eq_some, Option.some.injEq] at h
      obtain ⟨⟨st1, v⟩, h1, ⟨st2, rs'⟩, h2, rfl⟩ := h
      obtain ⟨hi1, hv⟩ := auxCell_inv hinv h1
      obtain ⟨hi2, hrs⟩ := ih (done ++ [r]) st1 (st2, rs') hi1 h2
      simp only at hv hrs hi2 ⊢
      have hf : (r :: rs).filter (fun r => decide (0 < r)) =
          r :: rs.filter (fun r => decide (0 < r)) := by
        simp [List.filter_cons, hr]
      rw [hf, renumber, if_pos hr, hrs, hv]
      refine ⟨?_, by simp⟩
      simpa using hi2
    · rename_i hr
      simp only [Option.bind_eq_bind, Option.bind_eq_some, Option.some.injEq] at h
      obtain ⟨⟨st2, rs'⟩, h2, rfl⟩ := h
      obtain ⟨hi2, hrs⟩ := ih done st (st2, rs') hinv h2
      simp only at hrs hi2 ⊢
      have hf : (r :: rs).filter (fun r => decide (0 < r)) =
          rs.filter (fun r => decide (0 < r)) := by
        simp [List.filter_cons, hr]
      rw [hf, renumber, if_neg hr, hrs]
      exact ⟨hi2, rfl⟩

theorem auxRows_inv {sa : List Int} {c0 : Int} : ∀ (rows : List (List Nat)) (done : List Nat)
    (st : AuxSt) (out : AuxSt × List (List Nat)), AuxInv sa c0 done st →
    auxRows sa st rows = some out →
    AuxInv sa c0 (done ++ rankCounts rows) out.1 ∧
      out.2 = renumberRows (done.length + 1) rows := by
  intro rows
  induction rows with
  | nil =>
    intro done st out hinv h
    simp only [auxRows, Option.some.injEq] at h
    subst h
    simp only [rankCounts, List.flatten_nil, List.filter_nil, List.append_nil, renumberRows]
    exact ⟨hinv, trivial⟩
  | cons row rows ih =>
    intro done st out hinv h
    unfold auxRows at h
    simp only [Option.bind_eq_bind, Option.bind_eq_some, Option.some.injEq] at h
    obtain ⟨⟨st1, row'⟩, h1, ⟨st2, rows'⟩, h2, rfl⟩ := h
    obtain ⟨hi1, hrow⟩ := auxRow_inv row done st _ hinv h1
    obtain ⟨hi2, hrows⟩ := ih _ st1 (st2, rows') hi1 h2
    simp only at hrow hrows hi2 ⊢
    have hc : rankCounts (row :: rows) =
        row.filter (fun r => decide (0 < r)) ++ rankCounts rows := by
      simp [rankCounts]
    rw [hc, renumberRows, hrow, hrows, ← List.append_assoc]
    refine ⟨hi2, ?_⟩
    rw [List.length_append, Nat.add_right_comm]

theorem renumber_length : ∀ (row : List Nat) (k : Nat), (renumber k row).length = row.length := by
  intro row
  induction row with
  | nil => intro k; rfl
  | cons r rs ih =>
    intro k
    unfold renumber
    split <;> simp [ih]

theorem renumber_getD : ∀ (row : List Nat) (k col : Nat), 0 < k →
    (0 < (renumber k row).getD col 0 ↔ 0 < row.getD col 0) := by
  intro row
  induction row with
  | nil => intro k col _; simp [renumber]
  | cons r rs ih =>
    intro k col hk
    unfold renumber
    by_cases hr : 0 < r
    · rw [if_pos hr]
      cases col with
      | zero => simp [hr, hk]
      | succ col =>
        simp only [List.getD_cons_succ]
        exact ih (k + 1) col (by omega)
    · rw [if_neg hr]
      cases col with
      | zero => simp
      | succ col =>
        simp only [List.getD_cons_succ]
        exact ih k col hk

theorem renumber_filter : ∀ (row : List Nat) (k : Nat), 0 < k →
    (renumber k row).filter (fun r => decide (0 < r)) =
      List.range' k (row.filter (fun r => decide (0 < r))).length := by
  intro row
  induction row with
  | nil => intro k _; simp [renumber]
  | cons r rs ih =>
    intro k hk
    unfold renumber
    by_cases hr : 0 < r
    · rw [if_pos hr]
      simp only [List.filter_cons, hk, hr, decide_True, if_true, List.length_cons,
        List.range'_succ, ih (k + 1) (by omega)]
    · rw [if_neg hr]
      simp only [List.filter_cons, hr, decide_False, Bool.false_eq_true, if_false, ih k hk]

theorem renumberRows_length : ∀ (rows : List (List Nat)) (k : Nat),
    (renumberRows k rows).length = rows.length := by
  intro rows
  induction rows with
  | nil => intro k; rfl
  | cons row rows ih => intro k; simp [renumberRows, ih]

theorem renumberRows_cell : ∀ (rows : List (List Nat)) (k c col : Nat), 0 < k →
    (0 < cellAt (renumberRows k rows) c col ↔ 0 < cellAt rows c col) := by
  intro rows
  induction rows with
  | nil => intro k c col _; simp [renumberRows]
  | cons row rows ih =>
    intro k c col hk
    unfold renumberRows
    cases c with
    | zero =>
      simp only [cellAt, List.getD_cons_zero]
      exact renumber_getD row k col hk
    | succ c =>
      have := ih (k + (row.filter (fun r => decide (0 < r))).length) c col (by omega)
      simpa only [cellAt, List.getD_cons_succ] using this

theorem renumberRows_row_length : ∀ (rows : List (List Nat)) (k n : Nat),
    (∀ row ∈ rows, row.length = n) → ∀ row ∈ renumberRows k rows, row.length = n := by
  intro rows
  induction rows with
  | nil => intro k n _ row hrow; simp [renumberRows] at hrow
  | cons r rows ih =>
    intro k n h row hrow
    unfold renumberRows at hrow
    rcases List.mem_cons.mp hrow with rfl | hrow
    · rw [renumber_length]
      exact h r (List.mem_cons_self _ _)
    · exact ih _ n (fun x hx => h x (List.mem_cons_of_mem _ hx)) row hrow

theorem renumberRows_counts : ∀ (rows : List (List Nat)) (k : Nat), 0 < k →
    rankCounts (renumberRows k rows) = List.range' k (rankCounts rows).length := by
  intro rows
  induction rows with
  | nil => intro k _; simp [renumberRows, rankCounts]
  | cons row rows ih =>
    intro k hk
    have hc : ∀ (x : List Nat) (xs : List (List Nat)), rankCounts (x :: xs) =
        x.filter (fun r => decide (0 < r)) ++ rankCounts xs := by
      intro x xs
      simp [rankCounts]
    rw [renumberRows, hc, hc, renumber_filter row k hk, ih _ (by omega), List.length_append,
      List.range'_append_1, Nat.add_comm]

theorem pack_shift (c k : Nat) (hk : k < 256) :
    ((c <<< 8) ||| k) >>> 8 = c ∧ ((c <<< 8) ||| k) % 256 = k := by
  have h : (c <<< 8) ||| k = 2 ^ 8 * c + k := by
    rw [Nat.mul_add_lt_is_or (by simpa using hk), Nat.shiftLeft_eq, Nat.mul_comm]
  rw [h, Nat.shiftRight_eq_div_pow]
  constructor <;> omega

theorem indicator_zero (a : Int) : ∀ (n : Nat), (∀ k : Nat, k < n → (k : Int) ≠ a) →
    ((List.range n).map (fun (k : Nat) => if a = (k : Int) then 1 else 0)).sum = 0 := by
  intro n
  induction n with
  | zero => intro _; rfl
  | succ n ih =>
    intro h
    rw [List.range_succ, List.map_append, List.sum_append, ih (fun k hk => h k (by omega))]
    have := h n (by omega)
    simp [Ne.symm this]

theorem indicator_one (a : Int) (ha0 : 0 ≤ a) : ∀ (n : Nat), a < n →
    ((List.range n).map (fun (k : Nat) => if a = (k : Int) then 1 else 0)).sum = 1 := by
  intro n
  induction n with
  | zero => intro h; omega
  | succ n ih =>
    intro h
    rw [List.range_succ, List.map_append, List.sum_append]
    by_cases hn : a = (n : Int)
    · rw [indicator_zero a n (fun k hk => by omega)]
      simp [hn]
    · rw [ih (by omega)]
      simp [hn]

theorem count_range_sum (n : Nat) : ∀ (syms : List Int),
    (∀ s ∈ syms, 0 ≤ s ∧ s < n) →
    ((List.range n).map (fun (k : Nat) => syms.count (k : Int))).sum = syms.length := by
  intro syms
  induction syms with
  | nil => intro _; simp
  | cons a syms ih =>
    intro h
    have ha := h a (List.mem_cons_self _ _)
    have e : (fun (k : Nat) => (a :: syms).count (k : Int)) =
        fun (k : Nat) => syms.count (k : Int) + (if a = (k : Int) then 1 else 0) := by
      funext k
      rw [List.count_cons]
      by_cases hk : a = (k : Int)
      · simp [hk]
      · have : (a == (k : Int)) = false := by simpa using hk
        simp [hk, this]
    rw [e, List.sum_map_add, ih (fun s hs => h s (List.mem_cons_of_mem _ hs)),
      indicator_one a ha.1 n ha.2, List.length_cons]

theorem packHist_sum_aux (syms : List Int) : ∀ (l : List Nat), (∀ k ∈ l, k < 256) →
    ((l.filterMap fun (k : Nat) =>
        if 0 < syms.count (k : Int) then some ((syms.count (k : Int) <<< 8) ||| k)
        else none).map (fun h => h >>> 8)).sum =
      (l.map (fun (k : Nat) => syms.count (k : Int))).sum := by
  intro l
  induction l with
  | nil => intro _; rfl
  | cons k l ih =>
    intro h
    have ih' := ih (fun x hx => h x (List.mem_cons_of_mem _ hx))
    have hk := h k (List.mem_cons_self _ _)
    rw [List.filterMap_cons]
    by_cases hc : 0 < syms.count (k : Int)
    · simp only [hc, if_true, List.map_cons, List.sum_cons, ih', (pack_shift _ k hk).1]
    · simp only [hc, if_false, List.map_cons, List.sum_cons, ih']
      omega

/-- The counts packed in a histogram add up to the number of symbols. -/
theorem packHist_sum (syms : List Int) (h : ∀ s ∈ syms, 0 ≤ s ∧ s < 256) :
    ((packHist syms).map (fun h => h >>> 8)).sum = syms.length := by
  unfold packHist
  rw [packHist_sum_aux syms _ (fun k hk => List.mem_range.mp hk)]
  exact count_range_sum 256 syms (by simpa using h)

/-- Every entry of a packed histogram has a count of at least one. -/
theorem packHist_pos (syms : List Int) : ∀ h ∈ packHist syms, 1 ≤ h >>> 8 := by
  intro h hh
  unfold packHist at hh
  rw [List.mem_filterMap] at hh
  obtain ⟨k, hk, he⟩ := hh
  split at he
  · rename_i hc
    simp only [Option.some.injEq] at he
    subst he
    rw [(pack_shift _ k (List.mem_range.mp hk)).1]
    exact hc
  · simp at he

theorem cellSegs_sum (sym : Nat → Int) : ∀ (done : List Nat) (s : Nat),
    (∀ j : Nat, j < s + done.sum → 0 ≤ sym j ∧ sym j < 256) →
    (((cellSegs sym s done).flatten).map (fun h => h >>> 8)).sum = done.sum := by
  intro done
  induction done with
  | nil => intro s _; rfl
  | cons r done ih =>
    intro s h
    rw [cellSegs, List.flatten_cons, List.map_append, List.sum_append, List.sum_cons,
      ih (s + r) (fun j hj => h j (by rw [List.sum_cons]; omega)), packHist_sum]
    · simp
    · intro x hx
      rw [List.mem_map] at hx
      obtain ⟨j, hj, rfl⟩ := hx
      rw [List.mem_range'_1] at hj
      exact h j (by rw [List.sum_cons]; omega)

theorem filter_pos_sum : ∀ (l : List Nat), (l.filter (fun r => decide (0 < r))).sum = l.sum := by
  intro l
  induction l with
  | nil => rfl
  | cons a l ih =>
    rw [List.filter_cons]
    by_cases ha : 0 < a
    · simp [ha, ih]
    · have : a = 0 := by omega
      simp [this, ih]

theorem rankCounts_sum (rnk : List (List Nat)) : (rankCounts rnk).sum = rankSum rnk := by
  unfold rankCounts rankSum
  rw [filter_pos_sum, List.sum_flatten]

theorem offsets_getD : ∀ (L : List (List Nat)) (a k : Nat), k ≤ L.length →
    (offsets a L).getD k 0 = a + ((L.map List.length).take k).sum := by
  intro L
  induction L with
  | nil =>
    intro a k hk
    have : k = 0 := by simpa using hk
    subst this
    simp [offsets]
  | cons x L ih =>
    intro a k hk
    cases k with
    | zero => simp [offsets]
    | succ k =>
      rw [offsets, List.getD_cons_succ, ih _ k (by simpa using hk)]
      simp [Nat.add_assoc]

theorem cellSegs_getD (sym : Nat → Int) : ∀ (done : List Nat) (s k : Nat), k < done.length →
    (cellSegs sym s done).getD k [] =
      packHist ((List.range' (s + (done.take k).sum) (done.getD k 0)).map sym) := by
  intro done
  induction done with
  | nil => intro s k hk; simp at hk
  | cons r done ih =>
    intro s k hk
    cases k with
    | zero => simp [cellSegs]
    | succ k =>
      rw [cellSegs, List.getD_cons_succ, ih _ k (by simpa using hk)]
      simp [Nat.add_assoc]

/-- The slice of a concatenation between two consecutive offsets is the list placed there. -/
theorem offsets_segment (L : List (List Nat)) (k : Nat) (hk : k < L.length) :
    (L.flatten.drop ((offsets 0 L).getD k 0)).take
      ((offsets 0 L).getD (k + 1) 0 - (offsets 0 L).getD k 0) = L.getD k [] := by
  rw [offsets_getD L 0 k (by omega), offsets_getD L 0 (k + 1) (by omega), Nat.zero_add,
    Nat.zero_add, ← List.drop_take, List.drop_take_succ_flatten_eq_getElem L k hk,
    List.getD_eq_getElem _ _ hk]

theorem packHist_sorted (syms : List Int) :
    ((packHist syms).map (fun h => h % 256)).Pairwise (fun a b => a < b) := by
  unfold packHist
  have h : ∀ (l : List Nat), (∀ k ∈ l, k < 256) → l.Pairwise (fun a b => a < b) →
      ((l.filterMap fun (k : Nat) =>
        if 0 < syms.count (k : Int) then some ((syms.count (k : Int) <<< 8) ||| k)
        else none).map (fun h => h % 256)).Pairwise (fun a b => a < b) := by
    intro l
    induction l with
    | nil => intro _ _; simp
    | cons k l ih =>
      intro hl hp
      have hk := hl k (List.mem_cons_self _ _)
      have hl' : ∀ x ∈ l, x < 256 := fun x hx => hl x (List.mem_cons_of_mem _ hx)
      rw [List.pairwise_cons] at hp
      have ih' := ih hl' hp.2
      rw [List.filterMap_cons]
      by_cases hc : 0 < syms.count (k : Int)
      · simp only [hc, if_true, List.map_cons, (pack_shift _ k hk).2, List.pairwise_cons]
        refine ⟨?_, ih'⟩
        intro b hb
        rw [List.mem_map] at hb
        obtain ⟨e, he, rfl⟩ := hb
        rw [List.mem_filterMap] at he
        obtain ⟨j, hj, hje⟩ := he
        split at hje
        · simp only [Option.some.injEq] at hje
          subst hje
          rw [(pack_shift _ j (hl' j hj)).2]
          exact hp.1 j hj
        · simp at hje
      · simp only [hc, if_false]
        exact ih'
  exact h _ (fun k hk => List.mem_range.mp hk) (List.pairwise_lt_range 256)

/-- What `BWT` returns, in terms of the result of `sais` and of the invariant of the assembly
loop at its end. -/
theorem BWT_assembly {T : List Int} {p : Int} {bwt : List Int} {aux : Aux}
    (h : BWT T = some (p, bwt, aux)) :
    ∃ (r : SaisOut) (st : AuxSt),
      sais (T.length + 1) T (List.replicate T.length 0) alphabetSize true false = some r ∧
      RankInv r.rnk ∧ rankSum r.rnk = T.length + 1 ∧
      AuxInv r.sa ((T ++ [1]).getD 0 0) (rankCounts r.rnk) st ∧
      aux.Eob = renumberRows 1 r.rnk ∧ bwt = st.t ∧ aux.Dist = st.Dist ∧
      aux.Hist = st.Hist ∧ aux.Len = T.length + 1 := by
  obtain ⟨r, o, dict, hs, _, ha, _, rfl, rfl⟩ := BWT_some h
  obtain ⟨hri, hrs⟩ := sais_rank hs
  obtain ⟨hinv, hrows⟩ := auxRows_inv _ [] _ _ (auxInv_init r.sa (T ++ [1])) ha
  rw [List.nil_append] at hinv
  exact ⟨r, o.1, hs, hri, hrs, hinv, hrows, rfl, rfl, rfl, by simp⟩

theorem renumber_zero : ∀ (n k : Nat), renumber k (List.replicate n 0) = List.replicate n 0 := by
  intro n
  induction n with
  | zero => intro k; rfl
  | succ n ih =>
    intro k
    rw [List.replicate_succ, renumber, if_neg (Nat.lt_irrefl 0), ih]

theorem auxInv_dist_length {sa : List Int} {c0 : Int} {done : List Nat} {st : AuxSt}
    (hinv : AuxInv sa c0 done st) : st.Dist.length = done.length + 1 := by
  obtain ⟨_, _, _, _, _, i6, _⟩ := hinv
  rw [i6, offsets_length, cellSegs_length]

/-- C11: whenever `BWT T` returns `aux`, `aux.Eob` has 256 rows of 256 entries, an entry of
`aux.Eob` is positive exactly when the rank matrix returned by `sais` in BWT mode is positive
in the same cell, and the positive entries of `aux.Eob` read in row-major order are
`1, 2, .., len(aux.Dist) - 1`. -/
theorem BWT_eob (T : List Int) (p : Int) (bwt : List Int) (aux : Aux)
    (h : BWT T = some (p, bwt, aux)) :
    ∃ r, sais (T.length + 1) T (List.replicate T.length 0) alphabetSize true false = some r ∧
      aux.Eob.length = 256 ∧ (∀ row ∈ aux.Eob, row.length = 256) ∧
      (∀ c col : Nat, 0 < cellAt aux.Eob c col ↔ 0 < cellAt r.rnk c col) ∧
      rankCounts aux.Eob = List.range' 1 (aux.Dist.length - 1) := by
  obtain ⟨r, st, hs, ⟨hl, hrows, _⟩, _, hinv, he, _, hd, _, _⟩ := BWT_assembly h
  refine ⟨r, hs, ?_, ?_, ?_, ?_⟩
  · rw [he, renumberRows_length, hl]
  · rw [he]
    exact renumberRows_row_length _ _ _ hrows
  · intro c col
    rw [he]
    exact renumberRows_cell _ _ _ _ (by omega)
  · rw [he, hd, auxInv_dist_length hinv, renumberRows_counts _ _ (by omega)]
    rfl

/-- Witness for C11 on the text `[3, 2, 3]`. -/
theorem BWT_eob_witness :
    ∃ x r, BWT [3, 2, 3] = some x ∧
      sais 4 [3, 2, 3] [0, 0, 0] alphabetSize true false = some r ∧
      x.2.2.Eob.length = 256 ∧ rankCounts x.2.2.Eob = List.range' 1 (x.2.2.Dist.length - 1) := by
  obtain ⟨⟨p, bwt, aux⟩, hr⟩ := Option.isSome_iff_exists.mp BWT_three_isSome
  obtain ⟨r, hs, h1, _, _, h4⟩ := BWT_eob _ _ _ _ hr
  exact ⟨_, r, hr, hs, h1, h4⟩

/-- C25: `updateRank` never touches row `0` of the rank matrix (a row index below `1` is
clamped to `1`), so whenever `BWT T` returns `aux`, row `0` of `aux.Eob` is 256 zeros. -/
theorem BWT_eob_row_zero (T : List Int) (p : Int) (bwt : List Int) (aux : Aux)
    (h : BWT T = some (p, bwt, aux)) :
    (∀ (rank rank' : List (List Nat)) (a b : Int), updateRank rank a b = some rank' →
      rank'[0]? = rank[0]?) ∧
    aux.Eob[0]? = some (List.replicate 256 0) ∧ ∀ col : Nat, cellAt aux.Eob 0 col = 0 := by
  obtain ⟨r, st, hs, ⟨hl, hrows, h0⟩, _, hinv, he, _, hd, _, _⟩ := BWT_assembly h
  have hrow : aux.Eob[0]? = some (List.replicate 256 0) := by
    rw [he]
    cases hr : r.rnk with
    | nil => rw [hr] at hl; simp at hl
    | cons row rows =>
      rw [hr] at h0
      simp only [List.getElem?_cons_zero, Option.some.injEq] at h0
      rw [renumberRows, List.getElem?_cons_zero, h0, renumber_zero]
  refine ⟨?_, hrow, ?_⟩
  · intro rank rank' a b hu
    obtain ⟨i, row, v, hi, _, _, _, _, rfl⟩ := updateRank_some hu
    exact List.getElem?_set_ne (by omega)
  · intro col
    have e : aux.Eob.getD 0 [] = List.replicate 256 0 := by
      rw [List.getD_eq_getElem?_getD, hrow, Option.getD_some]
    unfold cellAt
    rw [e, List.getD_eq_getElem?_getD]
    by_cases hc : col < 256
    · rw [List.getElem?_replicate_of_lt hc, Option.getD_some]
    · rw [List.getElem?_eq_none (by rw [List.length_replicate]; omega), Option.getD_none]

/-- Witness for C25 on the text `[3, 2, 3]`. -/
theorem BWT_eob_row_zero_witness :
    ∃ x, BWT [3, 2, 3] = some x ∧ x.2.2.Eob[0]? = some (List.replicate 256 0) := by
  obtain ⟨⟨p, bwt, aux⟩, hr⟩ := Option.isSome_iff_exists.mp BWT_three_isSome
  exact ⟨_, hr, (BWT_eob_row_zero _ _ _ _ hr).2.1⟩

/-- C24: whenever `BWT T` returns `aux`, the entries of the rank matrix returned by `sais`
in BWT mode add up to `len(T) + 1` (one update for the sentinel row and one for each
iteration of the right-to-left pass), and the counts `h >> 8` of the entries `h` of
`aux.Hist` add up to `aux.Len`. -/
theorem BWT_rows_counted (T : List Int) (p : Int) (bwt : List Int) (aux : Aux)
    (h : BWT T = some (p, bwt, aux)) :
    ∃ r, sais (T.length + 1) T (List.replicate T.length 0) alphabetSize true false = some r ∧
      rankSum r.rnk = T.length + 1 ∧ (aux.Hist.map (fun e => e >>> 8)).sum = aux.Len := by
  obtain ⟨r, st, hs, _, hsum, hinv, _, _, _, hh, hlen⟩ := BWT_assembly h
  refine ⟨r, hs, hsum, ?_⟩
  obtain ⟨i1, _, _, _, i5, _, i7⟩ := hinv
  rw [hh, i5, hlen, cellSegs_sum _ _ 0 (fun j hj => i7 j (by rw [i1]; omega)), rankCounts_sum,
    hsum]

/-- Witness for C24 on the text `[3, 2, 3]`. -/
theorem BWT_rows_counted_witness :
    ∃ x, BWT [3, 2, 3] = some x ∧ (x.2.2.Hist.map (fun e => e >>> 8)).sum = x.2.2.Len := by
  obtain ⟨⟨p, bwt, aux⟩, hr⟩ := Option.isSome_iff_exists.mp BWT_three_isSome
  obtain ⟨r, _, _, h3⟩ := BWT_rows_counted _ _ _ _ hr
  exact ⟨_, hr, h3⟩

theorem take_sum_le : ∀ (rs : List Nat) (k : Nat), k < rs.length →
    (rs.take k).sum + rs.getD k 0 ≤ rs.sum := by
  intro rs
  induction rs with
  | nil => intro k hk; simp at hk
  | cons r rs ih =>
    intro k hk
    cases k with
    | zero => simp
    | succ k =>
      have := ih k (by simpa using hk)
      simp only [List.take_succ_cons, List.sum_cons, List.getD_cons_succ]
      omega

theorem auxInv_sym {sa : List Int} {c0 : Int} {done : List Nat} {st : AuxSt}
    (hinv : AuxInv sa c0 done st) (j : Nat) (hj : j < done.sum) :
    srcSym sa c0 j = cellSym st.t j := by
  obtain ⟨i1, _, i3, i4, _, _, _⟩ := hinv
  unfold srcSym cellSym
  by_cases h0 : j = 0
  · rw [if_pos h0, if_pos h0, i3]
  · rw [if_neg h0, if_neg h0]
    have := i4 j h0 (by rw [i1]; exact hj)
    rw [List.getD_eq_getElem?_getD st.t, this, Option.getD_some]

/-- C12, as the code has it: whenever `BWT T` returns `(p, bwt, aux)`, let `rs` be the
non-zero counts of the rank matrix returned by `sais` in BWT mode, in row-major order. Then
`aux.Dist` has one entry more than `rs`, and for each `k` the entries of `aux.Hist` between
`aux.Dist[k]` and `aux.Dist[k+1]` are the packed histogram (`(count << 8) | symbol` for
every symbol of positive count, in strictly ascending order of the symbols) of the bytes
`bwt[rs[0] + .. + rs[k-1] .. rs[0] + .. + rs[k])`, where a byte `0` is counted under the
symbol `1` except at index `0` of `bwt`, which is counted under its own value; the counts of
the segment add up to `rs[k]` and every entry has a count of at least one. -/
theorem BWT_hist_segments (T : List Int) (p : Int) (bwt : List Int) (aux : Aux)
    (h : BWT T = some (p, bwt, aux)) :
    ∃ r, sais (T.length + 1) T (List.replicate T.length 0) alphabetSize true false = some r ∧
      aux.Dist.length = (rankCounts r.rnk).length + 1 ∧
      ∀ k : Nat, k < (rankCounts r.rnk).length →
        histSegment aux.Hist aux.Dist k =
          packHist (sliceSyms (cellSym bwt) (rankCounts r.rnk) k) ∧
        ((histSegment aux.Hist aux.Dist k).map (fun e => e >>> 8)).sum =
          (rankCounts r.rnk).getD k 0 ∧
        (∀ e ∈ histSegment aux.Hist aux.Dist k, 1 ≤ e >>> 8) ∧
        ((histSegment aux.Hist aux.Dist k).map (fun e => e % 256)).Pairwise
          (fun a b => a < b) := by
  obtain ⟨r, st, hs, _, _, hinv, _, hb, hd, hh, _⟩ := BWT_assembly h
  refine ⟨r, hs, by rw [hd, auxInv_dist_length hinv], ?_⟩
  intro k hk
  have hseg : histSegment aux.Hist aux.Dist k =
      packHist (sliceSyms (cellSym bwt) (rankCounts r.rnk) k) := by
    have i5 := hinv.2.2.2.2.1
    have i6 := hinv.2.2.2.2.2.1
    unfold histSegment sliceSyms
    rw [hh, hd, i5, i6, offsets_segment _ k (by rw [cellSegs_length]; exact hk),
      cellSegs_getD _ _ _ _ hk, Nat.zero_add]
    congr 1
    apply List.map_congr_left
    intro j hj
    rw [List.mem_range'_1] at hj
    rw [hb]
    exact auxInv_sym hinv j (by have := take_sum_le _ k hk; omega)
  have hrange : ∀ s ∈ sliceSyms (cellSym bwt) (rankCounts r.rnk) k, 0 ≤ s ∧ s < 256 := by
    intro s hs
    unfold sliceSyms at hs
    rw [List.mem_map] at hs
    obtain ⟨j, hj, rfl⟩ := hs
    rw [List.mem_range'_1] at hj
    have hlt : j < (rankCounts r.rnk).sum := by have := take_sum_le _ k hk; omega
    rw [hb, ← auxInv_sym hinv j hlt]
    exact hinv.2.2.2.2.2.2 j (by rw [hinv.1]; exact hlt)
  rw [hseg]
  refine ⟨rfl, ?_, packHist_pos _, packHist_sorted _⟩
  rw [packHist_sum _ hrange]
  unfold sliceSyms
  rw [List.length_map, List.length_range']

/-- Witness for the amended C12 on the text `[3, 2, 3]`. -/
theorem BWT_hist_segments_witness :
    ∃ x r, BWT [3, 2, 3] = some x ∧
      sais 4 [3, 2, 3] [0, 0, 0] alphabetSize true false = some r ∧
      x.2.2.Dist.length = (rankCounts r.rnk).length + 1 := by
  obtain ⟨⟨p, bwt, aux⟩, hr⟩ := Option.isSome_iff_exists.mp BWT_three_isSome
  obtain ⟨r, hs, h1, _⟩ := BWT_hist_segments _ _ _ _ hr
  exact ⟨_, r, hr, hs, h1⟩

/-- Counterexample to C12 as stated: on the text `[0, 2]` `BWT` returns the bytes
`[0, 2, 0]`, the rank matrix has three non-zero cells, each of count `1`, and the first
segment of `aux.Hist` is `[256]`, the byte `bwt[0] = 0` counted under the symbol `0`;
counted under the symbol `1` it would be `[257]`. -/
theorem BWT_hist_zero_first :
    (BWT [0, 2]).map (fun x => (x.2.1, x.2.2.Hist, x.2.2.Dist,
      histSegment x.2.2.Hist x.2.2.Dist 0)) =
      some ([0, 2, 0], [256, 258, 257], [0, 1, 2, 3], [256]) ∧
    (sais 3 [0, 2] [0, 0] alphabetSize true false).map (fun r => rankCounts r.rnk) =
      some [1, 1, 1] ∧
    packHist (([0] : List Int).map (fun b => if b = 0 then 1 else b)) = [257] := by decide!

/-! ## Bucket cursors -/

theorem histStep_total {h : List Int} {c : Int} (h0 : 0 ≤ c) (hlt : c < h.length) :
    ∃ h', histStep h c = some h' ∧ h'.length = h.length := by
  have hi : c.toNat < h.length := by omega
  refine ⟨h.set c.toNat (h[c.toNat] + 1), ?_, by simp⟩
  unfold histStep getI setI
  simp [Int.not_lt.mpr h0, List.getElem?_eq_getElem hi]

theorem hist_fold_total : ∀ (t : List Int) (h0 : List Int),
    (∀ c ∈ t, 0 ≤ c ∧ c < h0.length) → ∃ h, t.foldlM histStep h0 = some h := by
  intro t
  induction t with
  | nil => intro h0 _; exact ⟨h0, rfl⟩
  | cons c t ih =>
    intro h0 h
    obtain ⟨hc0, hc1⟩ := h c (List.mem_cons_self _ _)
    obtain ⟨h1, hs, hl⟩ := histStep_total hc0 hc1
    obtain ⟨h2, hf⟩ := ih h1 (fun x hx => by rw [hl]; exact h x (List.mem_cons_of_mem _ hx))
    exact ⟨h2, by simp only [List.foldlM_cons, Option.bind_eq_bind, hs, Option.some_bind, hf]⟩

/-- The function `histgram` returns on every text whose symbols are below `k`. -/
theorem histgram_total (t : List Int) (k : Nat) (h : ∀ c ∈ t, 0 ≤ c ∧ c < k) :
    ∃ hist, histgram t k = some (hist, List.replicate k 0) := by
  obtain ⟨hist, hf⟩ := hist_fold_total t (List.replicate k 0) (by simpa using h)
  exact ⟨hist, by unfold histgram; simp only [Option.bind_eq_bind, hf, Option.some_bind]⟩

theorem bktBegLoop_spec : ∀ (hs bs : List Int) (sum : Int), hs.length ≤ bs.length →
    ∃ r, bktBegLoop sum hs bs = some r ∧ r.length = bs.length ∧
      ∀ i : Nat, i < hs.length → r[i]? = some (sum + (hs.take i).sum) := by
  intro hs
  induction hs with
  | nil => intro bs sum _; exact ⟨bs, by simp [bktBegLoop], rfl, fun i hi => by simp at hi⟩
  | cons h hs ih =>
    intro bs sum hl
    cases bs with
    | nil => simp at hl
    | cons b bs =>
      obtain ⟨r, hr, hrl, hri⟩ := ih bs (sum + h) (by simpa using hl)
      refine ⟨sum :: r, ?_, by simp [hrl], ?_⟩
      · simp only [bktBegLoop, Option.bind_eq_bind, hr, Option.some_bind]
      · intro i hi
        cases i with
        | zero => simp
        | succ i =>
          rw [List.getElem?_cons_succ, hri i (by simpa using hi), List.take_succ_cons,
            List.sum_cons, Int.add_assoc]

theorem bktEndLoop_spec : ∀ (hs bs : List Int) (sum : Int), hs.length ≤ bs.length →
    ∃ r, bktEndLoop sum hs bs = some r ∧ r.length = bs.length ∧
      ∀ i : Nat, i < hs.length → r[i]? = some (sum + (hs.take (i + 1)).sum) := by
  intro hs
  induction hs with
  | nil => intro bs sum _; exact ⟨bs, by simp [bktEndLoop], rfl, fun i hi => by simp at hi⟩
  | cons h hs ih =>
    intro bs sum hl
    cases bs with
    | nil => simp at hl
    | cons b bs =>
      obtain ⟨r, hr, hrl, hri⟩ := ih bs (sum + h) (by simpa using hl)
      refine ⟨(sum + h) :: r, ?_, by simp [hrl], ?_⟩
      · simp only [bktEndLoop, Option.bind_eq_bind, hr, Option.some_bind]
      · intro i hi
        cases i with
        | zero => simp
        | succ i =>
          rw [List.getElem?_cons_succ, hri i (by simpa using hi), List.take_succ_cons,
            List.sum_cons, Int.add_assoc]

theorem countP_lt_succ : ∀ (t : List Int) (c : Int),
    t.countP (fun x => decide (x < c + 1)) = t.countP (fun x => decide (x < c)) + t.count c := by
  intro t
  induction t with
  | nil => intro c; rfl
  | cons a t ih =>
    intro c
    rw [List.countP_cons, List.countP_cons, List.count_cons, ih c]
    by_cases h1 : a < c
    · have h2 : a < c + 1 := by omega
      have h3 : (a == c) = false := by simp; omega
      simp [h1, h2, h3]
      omega
    · by_cases h2 : a = c
      · subst h2
        simp
        omega
      · have h3 : ¬ a < c + 1 := by omega
        have h4 : (a == c) = false := by simpa using h2
        simp [h1, h3, h4]

theorem countP_lt_zero (t : List Int) (h : ∀ c ∈ t, 0 ≤ c) :
    t.countP (fun x => decide (x < 0)) = 0 := by
  rw [List.countP_eq_zero]
  intro a ha
  have := h a ha
  simpa using this

/-- The sum of the first `c` cells of a histogram is the number of symbols below `c`. -/
theorem hist_take_sum (t : List Int) (h0 : ∀ c ∈ t, 0 ≤ c) (hist : List Int) :
    ∀ (c : Nat), c ≤ hist.length →
    (∀ i : Nat, i < c → hist[i]? = some (t.count (i : Int) : Int)) →
    (hist.take c).sum = (t.countP (fun x => decide (x < (c : Int))) : Int) := by
  intro c
  induction c with
  | zero =>
    intro _ _
    rw [List.take_zero, List.sum_nil]
    have := countP_lt_zero t h0
    simp only [Nat.cast_zero] at this ⊢
    rw [this]
    rfl
  | succ c ih =>
    intro hc hget
    have hlt : c < hist.length := by omega
    have hgc := hget c (by omega)
    rw [List.getElem?_eq_getElem hlt] at hgc
    simp only [Option.some.injEq] at hgc
    rw [List.take_succ, List.sum_append, ih (by omega) (fun i hi => hget i (by omega)),
      List.getElem?_eq_getElem hlt]
    simp only [Option.toList_some, List.sum_cons, List.sum_nil, Int.add_zero, hgc]
    have := countP_lt_succ t (c : Int)
    push_cast
    rw [this]
    push_cast
    rfl

/-- The bucket heads: `setBktBeg` returns on every cursor array as long as the histogram and
leaves in the cell `c` the number of symbols below `c`. -/
theorem setBktBeg_spec {t : List Int} {k : Nat} {hist bkt0 : List Int}
    (hh : histgram t k = some (hist, bkt0)) (bkt : List Int) (hb : bkt.length = k) :
    ∃ head, setBktBeg bkt hist = some head ∧ head.length = k ∧
      ∀ c : Nat, c < k → head[c]? = some (t.countP (fun x => decide (x < (c : Int))) : Int) := by
  obtain ⟨hlen, hget⟩ := histgram_some hh
  have hmem := histgram_mem hh
  obtain ⟨r, hr, hrl, hri⟩ := bktBegLoop_spec hist bkt 0 (by omega)
  refine ⟨r, hr, by omega, fun c hc => ?_⟩
  rw [hri c (by omega), Int.zero_add,
    hist_take_sum t (fun x hx => (hmem x hx).1) hist c (by omega)
      (fun i hi => hget i (by omega))]

/-- The bucket tails: `setBktEnd` returns on every cursor array as long as the histogram and
leaves in the cell `c` the number of symbols up to `c`. -/
theorem setBktEnd_spec {t : List Int} {k : Nat} {hist bkt0 : List Int}
    (hh : histgram t k = some (hist, bkt0)) (bkt : List Int) (hb : bkt.length = k) :
    ∃ tail, setBktEnd bkt hist = some tail ∧ tail.length = k ∧
      ∀ c : Nat, c < k → tail[c]? = some (t.countP (fun x => decide (x ≤ (c : Int))) : Int) := by
  obtain ⟨hlen, hget⟩ := histgram_some hh
  have hmem := histgram_mem hh
  obtain ⟨r, hr, hrl, hri⟩ := bktEndLoop_spec hist bkt 0 (by omega)
  refine ⟨r, hr, by omega, fun c hc => ?_⟩
  rw [hri c (by omega), Int.zero_add,
    hist_take_sum t (fun x hx => (hmem x hx).1) hist (c + 1) (by omega)
      (fun i hi => hget i (by omega))]
  have : (fun x : Int => decide (x < ((c + 1 : Nat) : Int))) = fun x => decide (x ≤ (c : Int)) := by
    funext x
    simp only [decide_eq_decide]
    omega
  rw [this]

theorem histgram_bkt {t : List Int} {k : Nat} {hist bkt : List Int}
    (h : histgram t k = some (hist, bkt)) : bkt = List.replicate k 0 := by
  unfold histgram at h
  simp only [Option.bind_eq_bind, Option.bind_eq_some, Option.some.injEq, Prod.mk.injEq] at h
  obtain ⟨h1, _, _, rfl⟩ := h
  rfl

/-- C22: for every text `t` whose symbols are in `0..k-1`, `histgram(t, k)` returns `hist` and
`bkt` with `hist[c]` the number of occurrences of `c`; `setBktBeg(bkt, hist)` leaves in
`bkt[c]` the number of symbols below `c` and `setBktEnd(bkt, hist)` the number of symbols up
to `c`; so `tail[c] - head[c] = hist[c]`, `head[0] = 0`, `head[c+1] = tail[c]` and
`tail[k-1] = len(t)`. -/
theorem bucket_layout (t : List Int) (k : Nat) (h : ∀ c ∈ t, 0 ≤ c ∧ c < k) :
    ∃ hist bkt head tail, histgram t k = some (hist, bkt) ∧
      setBktBeg bkt hist = some head ∧ setBktEnd bkt hist = some tail ∧
      hist.length = k ∧ head.length = k ∧ tail.length = k ∧
      (∀ c : Nat, c < k →
        hist[c]? = some (t.count (c : Int) : Int) ∧
        head[c]? = some (t.countP (fun x => decide (x < (c : Int))) : Int) ∧
        tail[c]? = some (t.countP (fun x => decide (x ≤ (c : Int))) : Int) ∧
        tail.getD c 0 - head.getD c 0 = hist.getD c 0 ∧
        (c + 1 < k → head.getD (c + 1) 0 = tail.getD c 0)) ∧
      (0 < k → head.getD 0 0 = 0 ∧ tail.getD (k - 1) 0 = t.length) := by
  obtain ⟨hist, hh⟩ := histgram_total t k h
  obtain ⟨hlen, hget⟩ := histgram_some hh
  obtain ⟨head, hb, hbl, hbg⟩ := setBktBeg_spec hh (List.replicate k 0) (by simp)
  obtain ⟨tail, he, hel, heg⟩ := setBktEnd_spec hh (List.replicate k 0) (by simp)
  have hsucc : ∀ c : Nat, (fun x : Int => decide (x < ((c + 1 : Nat) : Int))) =
      fun x => decide (x ≤ (c : Int)) := by
    intro c
    funext x
    simp only [decide_eq_decide]
    omega
  refine ⟨hist, _, head, tail, hh, hb, he, hlen, hbl, hel, ?_, ?_⟩
  · intro c hc
    refine ⟨hget c hc, hbg c hc, heg c hc, ?_, ?_⟩
    · rw [List.getD_eq_getElem?_getD, List.getD_eq_getElem?_getD, List.getD_eq_getElem?_getD,
        hget c hc, hbg c hc, heg c hc]
      simp only [Option.getD_some]
      have := countP_lt_succ t (c : Int)
      have e : (fun x : Int => decide (x < (c : Int) + 1)) = fun x => decide (x ≤ (c : Int)) := by
        funext x
        simp only [decide_eq_decide]
        omega
      rw [e] at this
      rw [this]
      push_cast
      omega
    · intro hc1
      rw [List.getD_eq_getElem?_getD, List.getD_eq_getElem?_getD, hbg (c + 1) hc1, heg c hc,
        hsucc c]
  · intro hk
    constructor
    · rw [List.getD_eq_getElem?_getD, hbg 0 hk]
      simp only [Option.getD_some, Nat.cast_zero]
      rw [countP_lt_zero t (fun x hx => (h x hx).1)]
      rfl
    · rw [List.getD_eq_getElem?_getD, heg (k - 1) (by omega)]
      simp only [Option.getD_some, Nat.cast_inj]
      rw [List.countP_eq_length]
      intro x hx
      have := h x hx
      simp only [decide_eq_true_eq]
      omega

/-- Witness for C22 on the text `[2, 3, 2]` with `k = 4`. -/
theorem bucket_layout_witness :
    ∃ hist bkt head tail, histgram [2, 3, 2] 4 = some (hist, bkt) ∧
      setBktBeg bkt hist = some head ∧ setBktEnd bkt hist = some tail ∧
      tail.getD 3 0 = 3 := by
  have hsym : ∀ c ∈ ([2, 3, 2] : List Int), 0 ≤ c ∧ c < ((4 : Nat) : Int) := by decide
  obtain ⟨hist, bkt, head, tail, h1, h2, h3, _, _, _, _, h8⟩ := bucket_layout [2, 3, 2] 4 hsym
  exact ⟨hist, bkt, head, tail, h1, h2, h3, (h8 (by decide)).2⟩

theorem countLoop_drop : ∀ (hs : List Int) (i : Nat) (c : Int),
    countLoop i hs c = c + (((hs.drop (2 - i)).filter (fun h => decide (0 < h))).length : Int) := by
  intro hs
  induction hs with
  | nil => intro i c; simp [countLoop]
  | cons h hs ih =>
    intro i c
    rw [countLoop, ih]
    by_cases hi : 1 < i
    · have e1 : 2 - (i + 1) = 0 := by omega
      have e2 : 2 - i = 0 := by omega
      rw [e1, e2, List.drop_zero, List.drop_zero, List.filter_cons]
      by_cases hp : 0 < h
      · simp [hp, hi]
        omega
      · simp [hp]
    · have e1 : 2 - i = (2 - (i + 1)) + 1 := by omega
      rw [e1, List.drop_succ_cons]
      have : ¬ (h > 0 ∧ i > 1) := fun hh => hi hh.2
      rw [if_neg this]

/-- C23, as the code has it: `countBktBeg(bkt, hist)` leaves in `bkt` what
`setBktBeg(bkt, hist)` leaves there (the bucket heads, and it fails exactly when `setBktBeg`
fails), and returns one more than the number of indices `i >= 2` with `hist[i] > 0`: the
counter starts at `1`. -/
theorem countBktBeg_spec (bkt hist : List Int) :
    countBktBeg bkt hist = (setBktBeg bkt hist).map fun head =>
      (1 + (((hist.drop 2).filter (fun h => decide (0 < h))).length : Int), head) := by
  unfold countBktBeg setBktBeg
  rw [countLoop_drop hist 0 1]
  cases bktBegLoop 0 hist bkt <;> rfl

/-- Counterexample to C23 as stated: for the histogram `[0, 0, 1]`, whose only index `i >= 2`
with `hist[i] > 0` is `2`, `countBktBeg` returns `2`, not `1`. -/
theorem countBktBeg_counts_one_more :
    countBktBeg [0, 0, 0] [0, 0, 1] = some (2, [0, 0, 0]) ∧
    (([0, 0, 1] : List Int).drop 2).filter (fun h => decide (0 < h)) = [1] := by decide

/-! ## The LMS count of `findLMS` -/

theorem filter_range_succ (q : Nat → Bool) (n : Nat) :
    ((List.range (n + 1)).filter q).length =
      (if q 0 = true then 1 else 0) + ((List.range n).filter (q ∘ Nat.succ)).length := by
  rw [List.range_succ_eq_map, List.filter_cons, List.filter_map]
  by_cases h : q 0 = true
  · simp [h]
    omega
  · simp [h]

theorem lmsScan_spec : ∀ (rest : List Int) (p : Int) (s : Bool),
    lmsScan p s rest = ((List.range (rest.length + 1)).filter (isLMS (p :: rest))).length +
      (if s = true ∧ sType (p :: rest) = true then 1 else 0) := by
  intro rest
  induction rest with
  | nil =>
    intro p s
    simp [lmsScan, sType, isLMS, List.range_succ]
  | cons c r ih =>
    intro p s
    have hsplit : ((List.range ((c :: r).length + 1)).filter (isLMS (p :: c :: r))).length =
        (if sType (c :: r) = true ∧ sType (p :: c :: r) = false then 1 else 0) +
        ((List.range (r.length + 1)).filter (isLMS (c :: r))).length := by
      rw [List.length_cons, filter_range_succ, filter_range_succ,
        filter_range_succ (isLMS (c :: r))]
      have h0 : isLMS (p :: c :: r) 0 = false := by simp [isLMS]
      have h1 : (isLMS (p :: c :: r) ∘ Nat.succ) 0 =
          (sType (c :: r) && !sType (p :: c :: r)) := by simp [isLMS]
      have h2 : (isLMS (p :: c :: r) ∘ Nat.succ) ∘ Nat.succ = isLMS (c :: r) ∘ Nat.succ := by
        funext i
        simp [isLMS]
      have h3 : isLMS (c :: r) 0 = false := by simp [isLMS]
      rw [h0, h1, h2, h3]
      cases hA : sType (c :: r) <;> cases hB : sType (p :: c :: r) <;> simp
    rw [hsplit, lmsScan]
    have hty : sType (p :: c :: r) = (decide (p < c) || (decide (p = c) && sType (c :: r))) := rfl
    by_cases h1 : p < c
    · have hS : sType (p :: c :: r) = true := by rw [hty]; simp [h1]
      cases s with
      | true =>
        rw [if_pos ⟨rfl, h1⟩, ih c false, hS]
        simp
      | false =>
        have hn : ¬ ((false = true) ∧ p < c) := by simp
        have hn2 : ¬ p > c := by omega
        rw [if_neg hn, if_neg hn2, ih c false, hS]
        simp
    · by_cases h2 : p > c
      · have hS : sType (p :: c :: r) = false := by
          rw [hty]
          have : ¬ p = c := by omega
          simp [h1, this]
        have hn : ¬ (s = true ∧ p < c) := fun hh => h1 hh.2
        rw [if_neg hn, if_pos h2, ih c true, hS]
        cases hA : sType (c :: r) <;> simp [Nat.add_comm]
      · have hpc : p = c := by omega
        have hS : sType (p :: c :: r) = sType (c :: r) := by
          rw [hty]
          simp [hpc]
        have hn : ¬ (s = true ∧ p < c) := fun hh => h1 hh.2
        rw [if_neg hn, if_neg h2, ih c s, hS]
        cases hA : sType (c :: r) <;> simp [Nat.add_comm]

theorem lmsScan_count (c : Int) (rest : List Int) :
    lmsScan c false rest = lmsCount (c :: rest) := by
  rw [lmsScan_spec, lmsCount]
  simp

theorem findStep_ok {t : List Int} {rec : Bool} {n k : Nat} {st : FindSt} {i : Nat} {c : Int}
    (rest : List Int) (hc : getI t i = some c) (hp0 : 0 ≤ st.p) (hpk : st.p < k)
    (hi : i < n) (hinv : FindInv n k (List.count 1 (st.p :: rest)) st) :
    ∃ st', findStep t rec st i = some st' ∧ FindInv n k (List.count 1 rest) st' ∧ st'.p = c ∧
      st'.m = st.m + (if st.s = true ∧ st.p < c then 1 else 0) ∧
      st'.s = (if st.s = true ∧ st.p < c then false else if st.p > c then true else st.s) := by
  obtain ⟨h1, h2, h3, h4, h5, h6⟩ := hinv
  have hcnt : List.count 1 rest ≤ List.count 1 (st.p :: rest) := by
    rw [List.count_cons]
    omega
  unfold findStep
  simp only [hc, Option.bind_eq_bind, Option.some_bind]
  by_cases hA : st.s = true ∧ st.p < c
  · simp only [hA, and_self, if_true]
    by_cases hB : rec = false ∧ st.p = separator
    · rw [if_pos hB]
      have hsep : st.p = 1 := hB.2
      have hcnt1 : List.count 1 (st.p :: rest) = List.count 1 rest + 1 := by
        rw [hsep]
        simp
      have hlt : st.sbkt.toNat < st.sa.length := by omega
      have hset : setI st.sa st.sbkt i = some (st.sa.set st.sbkt.toNat i) := by
        unfold setI
        rw [if_neg (by omega), List.getElem?_eq_getElem hlt]
      simp only [hset, Option.some_bind]
      refine ⟨_, rfl, ⟨by simpa using h1, h2, by simp; omega, h4, by simp; omega, ?_⟩, rfl, rfl,
        rfl⟩
      simp only
      omega
    · rw [if_neg hB]
      have hpl : st.p.toNat < st.bkt.length := by omega
      have hsa : ∃ sa', (if st.lms ≥ 0 then setI st.sa st.lms st.l else some st.sa) = some sa' ∧
          sa'.length = n := by
        by_cases hl : st.lms ≥ 0
        · have hlt : st.lms.toNat < st.sa.length := by omega
          refine ⟨st.sa.set st.lms.toNat st.l, ?_, by simpa using h1⟩
          rw [if_pos hl]
          unfold setI
          rw [if_neg (by omega), List.getElem?_eq_getElem hlt]
        · exact ⟨st.sa, by rw [if_neg hl], h1⟩
      obtain ⟨sa', hsa', hsal⟩ := hsa
      have hget : getI st.bkt st.p = some (st.bkt[st.p.toNat]) := by
        unfold getI
        rw [if_neg (by omega), List.getElem?_eq_getElem hpl]
      have hset : setI st.bkt st.p (st.bkt[st.p.toNat] - 1) =
          some (st.bkt.set st.p.toNat (st.bkt[st.p.toNat] - 1)) := by
        unfold setI
        rw [if_neg (by omega), List.getElem?_eq_getElem hpl]
      have hv : st.bkt[st.p.toNat] ≤ n := h4 _ (List.getElem_mem _)
      simp only [hsa', hget, hset, Option.some_bind]
      refine ⟨_, rfl, ⟨hsal, by simpa using h2, by simp; omega, ?_, h5, by simp; omega⟩, rfl,
        rfl, rfl⟩
      intro v hv'
      rcases List.mem_or_eq_of_mem_set hv' with hv' | rfl
      · exact h4 v hv'
      · omega
  · rw [if_neg hA]
    by_cases hC : st.p > c
    · rw [if_pos hC]
      exact ⟨_, rfl, ⟨h1, h2, h3, h4, h5, by simp; omega⟩, rfl, by simp [hA], by simp [hA, hC]⟩
    · rw [if_neg hC]
      exact ⟨_, rfl, ⟨h1, h2, h3, h4, h5, by simp; omega⟩, rfl, by simp [hA], by simp [hA, hC]⟩

theorem findInv_mono {n k a b : Nat} {st : FindSt} (h : b ≤ a) (hinv : FindInv n k a st) :
    FindInv n k b st := by
  obtain ⟨h1, h2, h3, h4, h5, h6⟩ := hinv
  exact ⟨h1, h2, h3, h4, h5, by omega⟩

theorem findLMS_fold {t : List Int} {rec : Bool} {k : Nat}
    (hsym : ∀ x ∈ t, 0 ≤ x ∧ x < k) :
    ∀ (rest : List Int) (i : Nat) (st : FindSt), t.drop i = rest → 0 ≤ st.p → st.p < k →
    FindInv t.length k (List.count 1 (st.p :: rest)) st →
    ∃ st', (List.range' i rest.length).foldlM (findStep t rec) st = some st' ∧
      FindInv t.length k 0 st' ∧ st'.m = st.m + lmsScan st.p st.s rest := by
  intro rest
  induction rest with
  | nil =>
    intro i st _ _ _ hinv
    exact ⟨st, rfl, findInv_mono (Nat.zero_le _) hinv, by simp [lmsScan]⟩
  | cons c r ih =>
    intro i st hd hp0 hpk hinv
    have hlt : i < t.length := by
      by_contra hge
      rw [List.drop_of_length_le (by omega)] at hd
      simp at hd
    have hci : t[i]? = some c := by
      have := List.getElem?_drop t i 0
      rw [hd] at this
      simpa using this.symm
    have hc : getI t i = some c := by
      unfold getI
      rw [if_neg (by omega)]
      simpa using hci
    have hcm : c ∈ t := List.getElem?_mem hci
    have hdr : t.drop (i + 1) = r := by
      rw [← List.drop_drop, hd]
      rfl
    obtain ⟨st1, hs1, hinv1, hp1, hm1, hs1'⟩ := @findStep_ok t rec _ _ _ _ _ (c :: r) hc hp0 hpk hlt hinv
    rw [← hp1] at hinv1
    obtain ⟨st2, hf2, hinv2, hm2⟩ := ih (i + 1) st1 hdr (by rw [hp1]; exact (hsym c hcm).1)
      (by rw [hp1]; exact (hsym c hcm).2) hinv1
    refine ⟨st2, ?_, hinv2, ?_⟩
    · rw [List.length_cons, List.range'_succ]
      simp only [List.foldlM_cons, Option.bind_eq_bind, hs1, Option.some_bind]
      exact hf2
    · rw [hm2, hm1, hs1', hp1, lmsScan]
      by_cases hA : st.s = true ∧ st.p < c
      · simp only [hA, and_self, if_true]
        push_cast
        omega
      · rw [if_neg hA, if_neg hA, if_neg hA]
        by_cases hC : st.p > c
        · rw [if_pos hC, if_pos hC]
          omega
        · rw [if_neg hC, if_neg hC]
          omega

theorem countP_le_zero_add_count_one : ∀ (t : List Int),
    t.countP (fun x => decide (x ≤ 0)) + t.count 1 ≤ t.length := by
  intro t
  induction t with
  | nil => simp
  | cons a t ih =>
    rw [List.countP_cons, List.count_cons, List.length_cons]
    by_cases h1 : a ≤ 0
    · have : (a == 1) = false := by simp; omega
      simp only [h1, decide_True, if_true, this, Bool.false_eq_true, if_false]
      omega
    · simp only [h1, decide_False, Bool.false_eq_true, if_false]
      split <;> omega

/-- C21: for every text `t` of length `n >= 1` whose histogram `histgram(t, k)` is `hist` (with
the fresh cursor array `bkt`), `findLMS` on a zero-filled `sa` of length `n` returns, in both
modes, a first value `m` equal to the number of indices `0 < i < n` such that `t[i]` is S-type
and `t[i-1]` is L-type. -/
theorem findLMS_count (t : List Int) (k : Nat) (rec : Bool) (hist bkt : List Int)
    (hn : 1 ≤ t.length) (hh : histgram t k = some (hist, bkt)) :
    ∃ m ms sa1 bkt1, findLMS t (List.replicate t.length 0) bkt hist rec =
      some (m, ms, sa1, bkt1) ∧ m = lmsCount t := by
  have hsym := histgram_mem hh
  have hb := histgram_bkt hh
  obtain ⟨a, rest, rfl⟩ : ∃ a rest, t = a :: rest := by
    cases t with
    | nil => simp at hn
    | cons a rest => exact ⟨a, rest, rfl⟩
  have ha := hsym a (List.mem_cons_self _ _)
  have hk : 0 < k := by omega
  obtain ⟨tail, he, hel, heg⟩ := setBktEnd_spec hh bkt (by rw [hb]; simp)
  have h0 := heg 0 hk
  have hsb : getI tail (separator - 1) = some
      ((a :: rest).countP (fun x => decide (x ≤ ((0 : Nat) : Int))) : Int) := by
    unfold getI separator
    simpa using h0
  have hp : getI (a :: rest) 0 = some a := by simp [getI]
  have hinv : FindInv (a :: rest).length k (List.count 1 (a :: rest))
      { m := 0, ms := 0, l := 0, lms := -1,
        sbkt := ((a :: rest).countP (fun x => decide (x ≤ ((0 : Nat) : Int))) : Int),
        p := a, s := false, sa := List.replicate (a :: rest).length 0, bkt := tail } := by
    refine ⟨by simp, hel, by simp; omega, ?_, by simp, ?_⟩
    · intro v hv
      have hv2 : v ∈ tail := hv
      obtain ⟨c, hc, rfl⟩ := List.getElem_of_mem hv2
      have := heg c (by omega)
      rw [List.getElem?_eq_getElem hc] at this
      simp only [Option.some.injEq] at this
      rw [this]
      exact_mod_cast List.countP_le_length _
    · have := countP_le_zero_add_count_one (a :: rest)
      simp only [Nat.cast_zero]
      exact_mod_cast this
  obtain ⟨st, hf, hinv', hm⟩ := @findLMS_fold (a :: rest) rec k hsym rest 1 _ rfl ha.1 ha.2 hinv
  obtain ⟨i1, _, i3, _, _, _⟩ := hinv'
  have hfin : ∃ sa1, (if st.m = 1 ∧ st.lms ≥ 0 then setI st.sa st.lms st.l else some st.sa) =
      some sa1 := by
    by_cases hc : st.m = 1 ∧ st.lms ≥ 0
    · have hlt : st.lms.toNat < st.sa.length := by omega
      refine ⟨st.sa.set st.lms.toNat st.l, ?_⟩
      rw [if_pos hc]
      unfold setI
      rw [if_neg (by omega), List.getElem?_eq_getElem hlt]
    · exact ⟨st.sa, by rw [if_neg hc]⟩
  obtain ⟨sa1, hsa1⟩ := hfin
  refine ⟨st.m, st.ms, sa1, st.bkt, ?_, ?_⟩
  · unfold findLMS
    simp only [he, hsb, hp, Option.bind_eq_bind, Option.some_bind, List.length_cons,
      Nat.add_sub_cancel] at hf ⊢
    rw [hf]
    simp only [Option.some_bind, hsa1]
  · rw [hm, lmsScan_count]
    simp

/-- Witness for C21: the text `sisisim$sisisim$anana` of the comment in `sais`, with `$ = 1`,
has `m = 9`. -/
theorem findLMS_count_witness :
    ∃ hist bkt m ms sa1 bkt1,
      histgram [115, 105, 115, 105, 115, 105, 109, 1, 115, 105, 115, 105, 115, 105, 109, 1,
        97, 110, 97, 110, 97] 256 = some (hist, bkt) ∧
      findLMS [115, 105, 115, 105, 115, 105, 109, 1, 115, 105, 115, 105, 115, 105, 109, 1,
        97, 110, 97, 110, 97] (List.replicate 21 0) bkt hist false = some (m, ms, sa1, bkt1) ∧
      m = 9 := by
  obtain ⟨hist, hh⟩ := histgram_total [115, 105, 115, 105, 115, 105, 109, 1, 115, 105, 115, 105,
    115, 105, 109, 1, 97, 110, 97, 110, 97] 256 (by decide)
  obtain ⟨m, ms, sa1, bkt1, hf, hm⟩ := findLMS_count _ 256 false hist _ (by decide) hh
  refine ⟨hist, _, m, ms, sa1, bkt1, hh, hf, ?_⟩
  rw [hm]
  decide

/-! ## Termination of `sais` -/

theorem sais_succ (fuel : Nat) (t sa : List Int) (k : Nat) (bwt rec : Bool) :
    sais (fuel + 1) t sa k bwt rec = saisBody (sais fuel) t sa k bwt rec := rfl

theorem sais_iterate : ∀ (fuel : Nat),
    sais fuel = Nat.iterate saisBody fuel (fun _ _ _ _ _ => none) := by
  intro fuel
  induction fuel with
  | zero =>
    funext t sa k bwt rec
    rfl
  | succ fuel ih =>
    funext t sa k bwt rec
    rw [sais_succ, ih, Function.iterate_succ_apply']

theorem lmsScan_le : ∀ (rest : List Int) (p : Int) (s : Bool),
    2 * lmsScan p s rest ≤ rest.length + (if s = true then 1 else 0) := by
  intro rest
  induction rest with
  | nil => intro p s; simp [lmsScan]
  | cons c r ih =>
    intro p s
    rw [lmsScan, List.length_cons]
    by_cases hA : s = true ∧ p < c
    · rw [if_pos hA, if_pos hA.1]
      have := ih c false
      simp only [Bool.false_eq_true, if_false] at this
      omega
    · rw [if_neg hA]
      by_cases hC : p > c
      · rw [if_pos hC]
        have := ih c true
        simp only [if_true] at this
        split <;> omega
      · rw [if_neg hC]
        have := ih c s
        omega

theorem findStep_m {t : List Int} {rec : Bool} {st st' : FindSt} {i : Nat}
    (h : findStep t rec st i = some st') :
    ∃ c, getI t i = some c ∧ st'.p = c ∧
      st'.m = st.m + (if st.s = true ∧ st.p < c then 1 else 0) ∧
      st'.s = (if st.s = true ∧ st.p < c then false else if st.p > c then true else st.s) := by
  unfold findStep at h
  simp only [Option.bind_eq_bind, Option.bind_eq_some] at h
  obtain ⟨c, hc, h⟩ := h
  refine ⟨c, hc, ?_⟩
  by_cases hA : st.s = true ∧ st.p < c
  · rw [if_pos hA] at h
    rw [if_pos hA, if_pos hA]
    split at h
    · simp only [Option.bind_eq_bind, Option.bind_eq_some, Option.some.injEq] at h
      obtain ⟨sa, _, rfl⟩ := h
      exact ⟨rfl, rfl, rfl⟩
    · simp only [Option.bind_eq_bind, Option.bind_eq_some, Option.some.injEq] at h
      obtain ⟨sa, _, v, _, bkt, _, rfl⟩ := h
      exact ⟨rfl, rfl, rfl⟩
  · rw [if_neg hA] at h
    rw [if_neg hA, if_neg hA]
    split at h
    · rename_i hC
      simp only [Option.some.injEq] at h
      subst h
      exact ⟨rfl, by simp, by simp [hC]⟩
    · rename_i hC
      simp only [Option.some.injEq] at h
      subst h
      exact ⟨rfl, by simp, by simp [hC]⟩

theorem findLMS_fold_m {t : List Int} {rec : Bool} :
    ∀ (rest : List Int) (i : Nat) (st st' : FindSt), t.drop i = rest →
    (List.range' i rest.length).foldlM (findStep t rec) st = some st' →
    st'.m = st.m + lmsScan st.p st.s rest := by
  intro rest
  induction rest with
  | nil =>
    intro i st st' _ h
    simp only [List.length_nil, List.range'_zero, List.foldlM_nil, Option.pure_def,
      Option.some.injEq] at h
    subst h
    simp [lmsScan]
  | cons c r ih =>
    intro i st st' hd h
    have hlt : i < t.length := by
      by_contra hge
      rw [List.drop_of_length_le (by omega)] at hd
      simp at hd
    have hci : t[i]? = some c := by
      have := List.getElem?_drop t i 0
      rw [hd] at this
      simpa using this.symm
    have hdr : t.drop (i + 1) = r := by
      rw [← List.drop_drop, hd]
      rfl
    rw [List.length_cons, List.range'_succ] at h
    simp only [List.foldlM_cons, Option.bind_eq_bind, Option.bind_eq_some] at h
    obtain ⟨st1, h1, h2⟩ := h
    obtain ⟨c', hc', hp1, hm1, hs1⟩ := findStep_m h1
    have hcc : c' = c := by
      have := (getI_some hc').2
      simp only [Int.toNat_ofNat] at this
      rw [hci] at this
      exact (Option.some.inj this).symm
    subst hcc
    rw [ih (i + 1) st1 st' hdr h2, hm1, hs1, hp1, lmsScan]
    by_cases hA : st.s = true ∧ st.p < c'
    · simp only [hA, and_self, if_true]
      push_cast
      omega
    · rw [if_neg hA, if_neg hA, if_neg hA]
      by_cases hC : st.p > c'
      · rw [if_pos hC, if_pos hC]
        omega
      · rw [if_neg hC, if_neg hC]
        omega

/-- The LMS count returned by `findLMS` is at most half the length of the text. -/
theorem findLMS_bound {t sa bkt hist : List Int} {rec : Bool}
    {r : Int × Int × List Int × List Int} (h : findLMS t sa bkt hist rec = some r) :
    0 ≤ r.1 ∧ 2 * r.1 < t.length := by
  unfold findLMS at h
  simp only [Option.bind_eq_bind, Option.bind_eq_some, Option.some.injEq] at h
  obtain ⟨bkt1, _, sbkt, _, p, hp, st, hf, sa1, _, rfl⟩ := h
  obtain ⟨a, rest, rfl⟩ : ∃ a rest, t = a :: rest := by
    cases t with
    | nil => simp [getI] at hp
    | cons a rest => exact ⟨a, rest, rfl⟩
  simp only [List.length_cons, Nat.add_sub_cancel] at hf
  have hm := @findLMS_fold_m (a :: rest) rec rest 1 _ st rfl hf
  have hb := lmsScan_le rest p false
  simp only [Bool.false_eq_true, if_false, Nat.add_zero] at hb hm
  simp only [List.length_cons]
  rw [hm]
  push_cast
  omega

theorem bind_congr_some {α β : Type} {o : Option α} {f g : α → Option β}
    (h : ∀ a, o = some a → f a = g a) : o.bind f = o.bind g := by
  cases o with
  | none => rfl
  | some a => exact h a rfl

theorem nameStep_pos {t : List Int} {m : Int} {rec : Bool} {st st' : Int × Int × List Int}
    {i : Nat} (h : nameStep t m rec st i = some st') : st.2.1 ≤ st'.2.1 := by
  unfold nameStep at h
  simp only [Option.bind_eq_bind, Option.bind_eq_some, Option.some.injEq] at h
  obtain ⟨si, _, len, _, d, _, sa, _, rfl⟩ := h
  simp only
  split <;> omega

/-- The number of names returned by `nameLMS` is at least one. -/
theorem nameLMS_pos {t sa : List Int} {m : Int} {rec : Bool} {r : Int × List Int}
    (h : nameLMS t sa m rec = some r) : 1 ≤ r.1 := by
  unfold nameLMS at h
  simp only [Option.bind_eq_bind, Option.bind_eq_some, Option.some.injEq] at h
  obtain ⟨st1, _, p, _, st2, _, s0, _, plen, _, sa1, _, st3, hf, rfl⟩ := h
  exact foldlM_inv (fun s : Int × Int × List Int => 1 ≤ s.2.1) (nameStep t m rec)
    (fun s a s' hs hstep => Int.le_trans hs (nameStep_pos hstep)) _ _ _ (Int.le_refl 1) hf

/-- The body of `sais` uses the function at its recursive call site only in plain recursive
mode, on a text of at least two names and less than half the length of `t`, with a workspace
as long as that text and an alphabet no larger. -/
theorem saisBody_congr (self1 self2 : List Int → List Int → Nat → Bool → Bool → Option SaisOut)
    (t sa : List Int) (k : Nat) (bwt rec : Bool)
    (H : ∀ (t1 sa1 : List Int) (k1 : Nat), 2 ≤ t1.length → 2 * t1.length < t.length →
      sa1.length = t1.length → k1 ≤ t1.length →
      self1 t1 sa1 k1 false true = self2 t1 sa1 k1 false true) :
    saisBody self1 t sa k bwt rec = saisBody self2 t sa k bwt rec := by
  unfold saisBody
  refine bind_congr_some (fun hb _ => ?_)
  refine bind_congr_some (fun f hf => ?_)
  obtain ⟨hm0, hm2⟩ := findLMS_bound hf
  congr 1
  by_cases hc : f.1 > 1 ∨ f.2.1 > 1
  · rw [if_pos hc, if_pos hc]
    refine bind_congr_some (fun s _ => ?_)
    refine bind_congr_some (fun nm hnm => ?_)
    have hn1 := nameLMS_pos hnm
    congr 1
    by_cases hn : nm.1 < f.1
    · rw [if_pos hn, if_pos hn]
      refine bind_congr_some (fun sa2 _ => ?_)
      by_cases hl : (sa2.length : Int) < 2 * f.1
      · rw [if_pos hl, if_pos hl]
      · rw [if_neg hl, if_neg hl]
        congr 1
        have e1 : ((sa2.drop f.1.toNat).take f.1.toNat).length = f.1.toNat := by
          rw [List.length_take, List.length_drop]
          omega
        have e2 : (sa2.take f.1.toNat).length = f.1.toNat := by
          rw [List.length_take]
          omega
        exact H _ _ _ (by rw [e1]; omega) (by rw [e1]; omega) (by rw [e1, e2])
          (by rw [e1]; omega)
    · rw [if_neg hn, if_neg hn]
  · rw [if_neg hc, if_neg hc]

theorem sais_iterate_eq : ∀ (fuel : Nat) (t sa : List Int) (k : Nat) (bwt rec : Bool)
    (self : List Int → List Int → Nat → Bool → Bool → Option SaisOut), t.length < 2 ^ fuel →
    Nat.iterate saisBody (fuel + 1) self t sa k bwt rec = sais (fuel + 1) t sa k bwt rec := by
  intro fuel
  induction fuel with
  | zero =>
    intro t sa k bwt rec self ht
    rw [Function.iterate_succ_apply', sais_succ]
    exact saisBody_congr _ _ t sa k bwt rec (fun t1 sa1 k1 h2 hlt _ _ => by
      simp only [Nat.pow_zero] at ht
      omega)
  | succ fuel ih =>
    intro t sa k bwt rec self ht
    rw [Function.iterate_succ_apply', sais_succ]
    exact saisBody_congr _ _ t sa k bwt rec (fun t1 sa1 k1 h2 hlt _ _ =>
      ih t1 sa1 k1 false true self (by rw [Nat.pow_succ] at ht; omega))

/-- C17: `sais` terminates on every input. For every text `t`, the LMS count `m` that
`findLMS` returns satisfies `2 * m < len(t)`, so `sa[m:2*m]` and `sa[:m]` are disjoint slices
within a workspace as long as the text; the body of `sais` calls itself only on a name array
of length `m >= 2` with `2 * m < len(t)`, a workspace of the same length and an alphabet of
at most `m` symbols, in plain recursive mode; hence the recursion ends within `len(t) + 1`
levels: the result of `len(t) + 1` nested bodies does not depend on what a further call would
return, and more fuel does not change it. -/
theorem sais_terminates (t sa : List Int) (k : Nat) (bwt rec : Bool) :
    (∀ (bkt hist : List Int) (r : Int × Int × List Int × List Int),
      findLMS t sa bkt hist rec = some r →
      0 ≤ r.1 ∧ 2 * r.1 < t.length ∧ (sa.length = t.length → 2 * r.1 ≤ sa.length)) ∧
    (∀ self1 self2 : List Int → List Int → Nat → Bool → Bool → Option SaisOut,
      (∀ (t1 sa1 : List Int) (k1 : Nat), 2 ≤ t1.length → 2 * t1.length < t.length →
        sa1.length = t1.length → k1 ≤ t1.length →
        self1 t1 sa1 k1 false true = self2 t1 sa1 k1 false true) →
      saisBody self1 t sa k bwt rec = saisBody self2 t sa k bwt rec) ∧
    (∀ self : List Int → List Int → Nat → Bool → Bool → Option SaisOut,
      Nat.iterate saisBody (t.length + 1) self t sa k bwt rec =
        sais (t.length + 1) t sa k bwt rec) ∧
    (∀ j : Nat, sais (t.length + 1 + j) t sa k bwt rec = sais (t.length + 1) t sa k bwt rec) := by
  refine ⟨?_, fun self1 self2 H => saisBody_congr self1 self2 t sa k bwt rec H,
    fun self => sais_iterate_eq _ t sa k bwt rec self (Nat.lt_two_pow t.length), ?_⟩
  · intro bkt hist r h
    obtain ⟨h0, h2⟩ := findLMS_bound h
    exact ⟨h0, h2, fun hl => by omega⟩
  · intro j
    rw [sais_iterate (t.length + 1 + j), Function.iterate_add_apply]
    exact sais_iterate_eq _ t sa k bwt rec _ (Nat.lt_two_pow t.length)

/-! ## Rejected and accepted inputs -/

/-- C18: `BWT` applied to the empty byte sequence returns nothing; the failure is the read
of `t[0]` in `findLMS`, which fails on the empty text whatever its other arguments are. -/
theorem BWT_empty :
    BWT [] = none ∧
    getI ([] : List Int) 0 = none ∧
    ∀ (sa bkt hist : List Int) (rec : Bool), findLMS [] sa bkt hist rec = none := by
  refine ⟨by decide!, rfl, ?_⟩
  intro sa bkt hist rec
  unfold findLMS
  cases setBktEnd bkt hist with
  | none => rfl
  | some b =>
    simp only [Option.bind_eq_bind, Option.some_bind]
    cases getI b (separator - 1) with
    | none => rfl
    | some v => rfl

/-- The value of `BWT` on the text `[0, 2]`. -/
theorem BWT_zero_two_value :
    (BWT [0, 2]).map (fun x => (x.1, x.2.1)) = some (2, [0, 2, 0]) := by decide!

/-- On a non-empty text whose symbols are below `k`, `findLMS` returns, whatever the symbols
are. -/
theorem findLMS_returns (t : List Int) (k : Nat) (rec : Bool) (hist bkt : List Int)
    (hn : 1 ≤ t.length) (hh : histgram t k = some (hist, bkt)) :
    ∃ r, findLMS t (List.replicate t.length 0) bkt hist rec = some r := by
  have hsym := histgram_mem hh
  have hb := histgram_bkt hh
  obtain ⟨a, rest, rfl⟩ : ∃ a rest, t = a :: rest := by
    cases t with
    | nil => simp at hn
    | cons a rest => exact ⟨a, rest, rfl⟩
  have ha := hsym a (List.mem_cons_self _ _)
  have hk : 0 < k := by omega
  obtain ⟨tail, he, hel, heg⟩ := setBktEnd_spec hh bkt (by rw [hb]; simp)
  have h0 := heg 0 hk
  have hsb : getI tail (separator - 1) = some
      ((a :: rest).countP (fun x => decide (x ≤ ((0 : Nat) : Int))) : Int) := by
    unfold getI separator
    simpa using h0
  have hp : getI (a :: rest) 0 = some a := by simp [getI]
  have hinv : FindInv (a :: rest).length k (List.count 1 (a :: rest))
      { m := 0, ms := 0, l := 0, lms := -1,
        sbkt := ((a :: rest).countP (fun x => decide (x ≤ ((0 : Nat) : Int))) : Int),
        p := a, s := false, sa := List.replicate (a :: rest).length 0, bkt := tail } := by
    refine ⟨by simp, hel, by simp; omega, ?_, by simp, ?_⟩
    · intro v hv
      have hv2 : v ∈ tail := hv
      obtain ⟨c, hc, rfl⟩ := List.getElem_of_mem hv2
      have := heg c (by omega)
      rw [List.getElem?_eq_getElem hc] at this
      simp only [Option.some.injEq] at this
      rw [this]
      exact_mod_cast List.countP_le_length _
    · have := countP_le_zero_add_count_one (a :: rest)
      simp only [Nat.cast_zero]
      exact_mod_cast this
  obtain ⟨st, hf, hinv1, _⟩ := @findLMS_fold (a :: rest) rec k hsym rest 1 _ rfl ha.1 ha.2 hinv
  obtain ⟨i1, _, i3, _, _, _⟩ := hinv1
  have hfin : ∃ sa1, (if st.m = 1 ∧ st.lms ≥ 0 then setI st.sa st.lms st.l else some st.sa) =
      some sa1 := by
    by_cases hc : st.m = 1 ∧ st.lms ≥ 0
    · have hlt : st.lms.toNat < st.sa.length := by omega
      refine ⟨st.sa.set st.lms.toNat st.l, ?_⟩
      rw [if_pos hc]
      unfold setI
      rw [if_neg (by omega), List.getElem?_eq_getElem hlt]
    · exact ⟨st.sa, by rw [if_neg hc]⟩
  obtain ⟨sa1, hsa1⟩ := hfin
  refine ⟨(st.m, st.ms, sa1, st.bkt), ?_⟩
  unfold findLMS
  simp only [he, hsb, hp, Option.bind_eq_bind, Option.some_bind, List.length_cons,
    Nat.add_sub_cancel] at hf ⊢
  rw [hf]
  simp only [Option.some_bind, hsa1]

/-- C19, as the code has it: `BWT` has no check for the byte `0`. For every byte sequence `T`
that contains the byte `0`, the first two steps of `sais` return: `histgram(T, 256)` counts
the byte `0` in `hist[0]` like any other byte, and `findLMS` returns on the text. Such a text
can be accepted: `BWT([0, 2])` returns the index `2` and the bytes `[0, 2, 0]`. -/
theorem BWT_no_zero_check (T : List Int) (hb : ∀ c ∈ T, 0 ≤ c ∧ c < 256)
    (h0 : (0 : Int) ∈ T) :
    (∃ hist bkt, histgram T alphabetSize = some (hist, bkt) ∧
      hist[0]? = some (T.count 0 : Int) ∧ 0 < T.count 0 ∧
      ∃ r, findLMS T (List.replicate T.length 0) bkt hist false = some r) ∧
    (BWT [0, 2]).map (fun x => (x.1, x.2.1)) = some (2, [0, 2, 0]) := by
  obtain ⟨hist, hh⟩ := histgram_total T alphabetSize (by simpa [alphabetSize] using hb)
  have hget := (histgram_some hh).2 0 (by decide)
  have hn : 1 ≤ T.length := List.length_pos_of_mem h0
  refine ⟨⟨hist, _, hh, ?_, List.count_pos_iff.mpr h0, findLMS_returns T _ false hist _ hn hh⟩,
    BWT_zero_two_value⟩
  simpa using hget

/-- Witness for the amended C19 on the text `[0, 2]`. -/
theorem BWT_no_zero_check_witness :
    ∃ hist bkt r, histgram [0, 2] alphabetSize = some (hist, bkt) ∧ hist[0]? = some 1 ∧
      findLMS [0, 2] (List.replicate 2 0) bkt hist false = some r := by
  obtain ⟨⟨hist, bkt, hh, h1, _, r, hr⟩, _⟩ :=
    BWT_no_zero_check [0, 2] (by decide) (by decide)
  exact ⟨hist, bkt, r, hh, by simpa using h1, hr⟩

/-- Counterexample to C19 as stated: the text `[0, 2]` contains the byte `0` and `BWT`
returns the index `2` and the bytes `[0, 2, 0]` for it. -/
theorem BWT_zero_accepted :
    (0 : Int) ∈ ([0, 2] : List Int) ∧
    (BWT [0, 2]).map (fun x => (x.1, x.2.1)) = some (2, [0, 2, 0]) := by decide!

/-- C13, failing input `[2, 3, 1, 2, 1, 1, 3]` (two consecutive separators): in plain mode
`sais` leaves `[5, 4, 2, 0, 3, 1, 1]` in `sa`, in which `1` occurs twice and `6` does not
occur. -/
theorem sais_consecutive_separators_not_permutation :
    (sais 8 [2, 3, 1, 2, 1, 1, 3] (List.replicate 7 0) alphabetSize false false).map
      (fun r => r.sa) = some [5, 4, 2, 0, 3, 1, 1] := by decide!

/-! ## Order of the plain array and payload of the BWT mode: inputs that separate them -/

theorem cons_lt_cons_iff (a b : Int) (l m : List Int) :
    a :: l < b :: m ↔ a < b ∨ (a = b ∧ l < m) := by
  constructor
  · intro h
    cases h with
    | cons h => exact Or.inr ⟨rfl, h⟩
    | rel h => exact Or.inl h
  · rintro (h | ⟨rfl, h⟩)
    · exact List.Lex.rel h
    · exact List.Lex.cons h

theorem nil_lt_cons_int (a : Int) (l : List Int) : ([] : List Int) < a :: l := List.Lex.nil

theorem not_lt_nil_int (l : List Int) : ¬ l < ([] : List Int) := List.Lex.not_nil_right _ _

theorem rkey_ne_nil (t : List Int) (p : Nat) : rkey t p ≠ [] := by
  cases p <;> simp [rkey]

theorem rkey_length (t : List Int) (p : Nat) : (rkey t p).length = p + 1 := by
  induction p with
  | zero => rfl
  | succ p ih => simp [rkey, ih]

/-- The key of `p` is the reversed prefix of the text that ends at `p`. -/
theorem rkey_eq_reverse_take (t : List Int) (p : Nat) (hp : p < t.length) :
    rkey t p = (t.take (p + 1)).reverse := by
  induction p with
  | zero =>
    cases t with
    | nil => simp at hp
    | cons a t => simp [rkey, sym]
  | succ p ih =>
    have : t[p + 1]? = some (sym t (p + 1)) := by
      unfold sym
      rw [List.getD_eq_getElem?_getD, List.getElem?_eq_getElem hp]
      rfl
    rw [rkey, ih (by omega), List.take_succ (n := p + 1), List.reverse_append, this]
    rfl

theorem lType_iff (t : List Int) (p : Nat) :
    lType t (p + 1) = true ↔
      sym t p < sym t (p + 1) ∨ (sym t p = sym t (p + 1) ∧ lType t p = true) := by
  simp [lType]

theorem lType_false_iff (t : List Int) (p : Nat) :
    lType t (p + 1) = false ↔
      sym t (p + 1) < sym t p ∨ (sym t p = sym t (p + 1) ∧ lType t p = false) := by
  rw [← Bool.not_eq_true, lType_iff]
  constructor
  · intro h
    by_cases h1 : sym t (p + 1) < sym t p
    · exact Or.inl h1
    · have h2 : ¬ sym t p < sym t (p + 1) := fun hh => h (Or.inl hh)
      have h3 : sym t p = sym t (p + 1) := by omega
      refine Or.inr ⟨h3, ?_⟩
      cases hl : lType t p
      · rfl
      · exact absurd (Or.inr ⟨h3, hl⟩) h
  · rintro (h | ⟨h1, h2⟩) (h3 | ⟨h4, h5⟩)
    · omega
    · omega
    · omega
    · rw [h2] at h5
      exact absurd h5 (by decide)

/-- An L-type position has a greater key than its predecessor, an S-type one a smaller. -/
theorem lType_iff_rkey (t : List Int) (p : Nat) :
    lType t (p + 1) = true ↔ rkey t p < rkey t (p + 1) := by
  induction p with
  | zero =>
    rw [lType_iff]
    simp only [rkey, lType, cons_lt_cons_iff]
    constructor
    · rintro (h | ⟨h, _⟩)
      · exact Or.inl h
      · exact Or.inr ⟨h, nil_lt_cons_int _ _⟩
    · rintro (h | ⟨h, _⟩)
      · exact Or.inl h
      · exact Or.inr ⟨h, trivial⟩
  | succ p ih =>
    rw [lType_iff, ih]
    show _ ↔ sym t (p + 1) :: rkey t p < sym t (p + 1 + 1) :: rkey t (p + 1)
    rw [cons_lt_cons_iff]

/-- Among the positions with the same symbol, the L-type ones have the smaller keys. -/
theorem rkey_lt_of_types (t : List Int) : ∀ (p q : Nat), lType t p = true → lType t q = false →
    sym t p = sym t q → rkey t p < rkey t q := by
  intro p
  induction p with
  | zero =>
    intro q _ hq hs
    cases q with
    | zero => simp [lType] at hq
    | succ q =>
      simp only [rkey, cons_lt_cons_iff]
      refine Or.inr ⟨hs, ?_⟩
      cases q <;> exact nil_lt_cons_int _ _
  | succ p ih =>
    intro q hp hq hs
    cases q with
    | zero => simp [lType] at hq
    | succ q =>
      simp only [rkey, cons_lt_cons_iff]
      refine Or.inr ⟨hs, ?_⟩
      rw [lType_iff] at hp
      rw [lType_false_iff] at hq
      have hlt : ∀ a b : Nat, sym t a < sym t b → rkey t a < rkey t b := by
        intro a b hab
        cases a <;> cases b <;> simp only [rkey, cons_lt_cons_iff] <;> exact Or.inl hab
      rcases hp with hp | ⟨hp1, hp2⟩
      · rcases hq with hq | ⟨hq1, _⟩
        · exact hlt _ _ (by omega)
        · exact hlt _ _ (by omega)
      · rcases hq with hq | ⟨hq1, hq2⟩
        · exact hlt _ _ (by omega)
        · exact ih q hp2 hq2 (by omega)

theorem ecode_nonneg (t : List Int) (p : Nat) (h : 0 ≤ sym t p) : 0 ≤ ecode t p := by
  unfold ecode
  split <;> omega

theorem ckey_succ (t : List Int) (sep : Int) (sr : Nat → Int) (p : Nat)
    (hr : sym t (p + 1) ≠ sep) :
    ckey t sep sr (p + 1) = ecode t (p + 1) ::
      (if cstart t p then [2 * sym t p + 1, sr p] else ckey t sep sr p) := by
  show (if sym t (p + 1) = sep then _ else _) = _
  rw [if_neg hr]
  rfl

theorem ckey_root (t : List Int) (sep : Int) (sr : Nat → Int) (p : Nat)
    (hr : sym t (p + 1) = sep) :
    ckey t sep sr (p + 1) = [ecode t (p + 1), sr (p + 1)] := by
  show (if sym t (p + 1) = sep then _ else _) = _
  rw [if_pos hr]

theorem ckey_length_pos (t : List Int) (sep : Int) (sr : Nat → Int) (p : Nat) :
    0 < (ckey t sep sr p).length := by
  cases p with
  | zero => simp [ckey]
  | succ p =>
    by_cases hr : sym t (p + 1) = sep
    · rw [ckey_root t sep sr p hr]
      simp
    · rw [ckey_succ t sep sr p hr]
      simp

theorem ckey_succ_length (t : List Int) (sep : Int) (sr : Nat → Int) (p : Nat) :
    2 ≤ (ckey t sep sr (p + 1)).length := by
  by_cases hr : sym t (p + 1) = sep
  · rw [ckey_root t sep sr p hr]
    simp
  · rw [ckey_succ t sep sr p hr]
    split
    · simp
    · have := ckey_length_pos t sep sr p
      simp only [List.length_cons]
      omega

theorem ckey_pair_nonneg (t : List Int) (sep : Int) (sr : Nat → Int) (hs : ∀ x, 0 ≤ sym t x) :
    ∀ (q : Nat) (a b : Int), ckey t sep sr q = [a, b] →
      (sym t q = sep ∧ 1 ≤ q ∧ b = sr q) ∨ cstart t (q - 1) ∨ 0 ≤ b := by
  intro q a b h
  cases q with
  | zero => simp [ckey] at h
  | succ q =>
    by_cases hr : sym t (q + 1) = sep
    · left
      rw [ckey_root t sep sr q hr] at h
      simp only [List.cons.injEq, and_true] at h
      exact ⟨hr, by omega, h.2.symm⟩
    · right
      rw [ckey_succ t sep sr q hr] at h
      by_cases hc : cstart t q
      · exact Or.inl hc
      · rw [if_neg hc] at h
        right
        cases q with
        | zero =>
          simp only [ckey, List.cons.injEq, and_true] at h
          rw [← h.2]
          exact ecode_nonneg t 0 (hs 0)
        | succ q =>
          have := ckey_succ_length t sep sr q
          simp only [List.cons.injEq] at h
          rw [h.2] at this
          simp at this

/-! ## Ranks in a finite set ordered by an injective key -/

theorem rankIn_lt_iff (S : Finset Nat) (κ : Nat → List Int)
    (hinj : ∀ a ∈ S, ∀ b ∈ S, κ a = κ b → a = b) {a b : Nat} (ha : a ∈ S) (hb : b ∈ S) :
    rankIn S κ a < rankIn S κ b ↔ κ a < κ b := by
  have mono : ∀ x ∈ S, ∀ y ∈ S, κ x < κ y → rankIn S κ x < rankIn S κ y := by
    intro x hx y _ hxy
    unfold rankIn
    apply Finset.card_lt_card
    rw [Finset.ssubset_iff_of_subset]
    · exact ⟨x, Finset.mem_filter.mpr ⟨hx, hxy⟩, fun h => lt_irrefl _ (Finset.mem_filter.mp h).2⟩
    · intro z hz
      rw [Finset.mem_filter] at hz ⊢
      exact ⟨hz.1, lt_trans hz.2 hxy⟩
  constructor
  · intro h
    rcases lt_trichotomy (κ a) (κ b) with h1 | h1 | h1
    · exact h1
    · rw [hinj a ha b hb h1] at h
      exact absurd h (lt_irrefl _)
    · exact absurd (mono b hb a ha h1) (by omega)
  · exact mono a ha b hb

theorem rankIn_inj (S : Finset Nat) (κ : Nat → List Int)
    (hinj : ∀ a ∈ S, ∀ b ∈ S, κ a = κ b → a = b) {a b : Nat} (ha : a ∈ S) (hb : b ∈ S)
    (h : rankIn S κ a = rankIn S κ b) : a = b := by
  rcases lt_trichotomy (κ a) (κ b) with h1 | h1 | h1
  · have := (rankIn_lt_iff S κ hinj ha hb).mpr h1
    omega
  · exact hinj a ha b hb h1
  · have := (rankIn_lt_iff S κ hinj hb ha).mpr h1
    omega

theorem rankIn_lt_card (S : Finset Nat) (κ : Nat → List Int) {a : Nat} (ha : a ∈ S) :
    rankIn S κ a < S.card := by
  unfold rankIn
  apply Finset.card_lt_card
  rw [Finset.ssubset_iff_of_subset (Finset.filter_subset _ _)]
  exact ⟨a, ha, fun h => lt_irrefl _ (Finset.mem_filter.mp h).2⟩

/-- Every rank below the size of the set is the rank of an element. -/
theorem rankIn_surj (S : Finset Nat) (κ : Nat → List Int)
    (hinj : ∀ a ∈ S, ∀ b ∈ S, κ a = κ b → a = b) (j : Nat) (hj : j < S.card) :
    ∃ a ∈ S, rankIn S κ a = j := by
  have := Finset.surj_on_of_inj_on_of_card_le (s := S) (t := Finset.range S.card)
    (fun a _ => rankIn S κ a)
    (fun a ha => Finset.mem_range.mpr (rankIn_lt_card S κ ha))
    (fun a b ha hb h => rankIn_inj S κ hinj ha hb h)
    (by simp) j (Finset.mem_range.mpr hj)
  obtain ⟨a, ha, h⟩ := this
  exact ⟨a, ha, h.symm⟩

/-! ## Buckets -/

theorem sym_of_ge (t : List Int) (x : Nat) (h : t.length ≤ x) : sym t x = 0 := by
  unfold sym
  rw [List.getD_eq_getElem?_getD, List.getElem?_eq_none h]
  rfl

theorem card_filter_sym (c : Int) : ∀ (t : List Int),
    ((Finset.range t.length).filter (fun x => sym t x = c)).card = t.count c := by
  intro t
  induction t with
  | nil => simp
  | cons a t ih =>
    rw [Finset.card_filter] at ih ⊢
    rw [List.length_cons, Finset.sum_range_succ', List.count_cons, ← ih]
    simp only [sym, List.getD_cons_succ, List.getD_cons_zero, beq_iff_eq]

theorem tl_eq (t : List Int) (c : Int) : tl t c = hd t c + t.count c := by
  unfold tl hd
  rw [← countP_lt_succ]
  congr 1
  funext x
  simp only [decide_eq_decide]
  omega

theorem tl_le_hd (t : List Int) {c d : Int} (h : c < d) : tl t c ≤ hd t d := by
  unfold tl hd
  apply List.countP_mono_left
  intro x _ hx
  simp only [decide_eq_true_eq] at hx ⊢
  omega

theorem tl_le_length (t : List Int) (c : Int) : tl t c ≤ t.length := List.countP_le_length _

theorem ecode_eq_iff (t : List Int) (x y : Nat) :
    ecode t x = ecode t y ↔ sym t x = sym t y ∧ lType t x = lType t y := by
  unfold ecode
  cases lType t x <;> cases lType t y <;> simp <;> omega

theorem ecode_lt_iff (t : List Int) (x y : Nat) :
    ecode t x < ecode t y ↔
      sym t x < sym t y ∨ (sym t x = sym t y ∧ lType t x = true ∧ lType t y = false) := by
  unfold ecode
  cases lType t x <;> cases lType t y <;> simp <;> omega

theorem ecode_of_L {t : List Int} {x : Nat} (h : lType t x = true) : ecode t x = 2 * sym t x := by
  simp [ecode, h]

theorem ecode_of_S {t : List Int} {x : Nat} (h : lType t x = false) :
    ecode t x = 2 * sym t x + 1 := by
  simp [ecode, h]

theorem Seeds.mem_cls (M : Seeds) (e : Int) (x : Nat) :
    x ∈ M.cls e ↔ M.lv x ∧ ecode M.t x = e := by
  unfold Seeds.cls Seeds.lv
  rw [Finset.mem_filter, Finset.mem_range]
  exact ⟨fun h => ⟨⟨h.1, h.2.1⟩, h.2.2⟩, fun h => ⟨h.1.1, h.1.2, h.2⟩⟩

theorem Seeds.mem_cls_self (M : Seeds) {x : Nat} (h : M.lv x) : x ∈ M.cls (ecode M.t x) :=
  (M.mem_cls _ _).mpr ⟨h, rfl⟩

/-- The two classes of a symbol fit in its bucket. -/
theorem Seeds.cls_card (M : Seeds) (c : Int) :
    (M.cls (2 * c)).card + (M.cls (2 * c + 1)).card ≤ M.t.count c := by
  rw [← card_filter_sym, ← Finset.card_union_of_disjoint]
  · apply Finset.card_le_card
    intro x hx
    rw [Finset.mem_union, M.mem_cls, M.mem_cls] at hx
    rw [Finset.mem_filter, Finset.mem_range]
    unfold ecode at hx
    rcases hx with ⟨h1, h2⟩ | ⟨h1, h2⟩
    · split at h2 <;> exact ⟨h1.1, by omega⟩
    · split at h2 <;> exact ⟨h1.1, by omega⟩
  · rw [Finset.disjoint_left]
    intro x h1 h2
    rw [M.mem_cls] at h1 h2
    omega

/-! ## Chain keys of the positions that take part -/

theorem Seeds.K_succ (M : Seeds) (p : Nat) (hr : ¬ M.root (p + 1)) :
    M.K (p + 1) = ecode M.t (p + 1) :: M.tk p :=
  ckey_succ M.t M.sep M.sr p hr

theorem Seeds.K_root (M : Seeds) (p : Nat) (hr : M.root (p + 1)) :
    M.K (p + 1) = [ecode M.t (p + 1), M.sr (p + 1)] :=
  ckey_root M.t M.sep M.sr p hr

theorem Seeds.K_zero (M : Seeds) : M.K 0 = [ecode M.t 0] := rfl

theorem Seeds.K_head (M : Seeds) (p : Nat) : ∃ r, M.K p = ecode M.t p :: r := by
  cases p with
  | zero => exact ⟨[], rfl⟩
  | succ p =>
    by_cases hr : M.root (p + 1)
    · exact ⟨[M.sr (p + 1)], M.K_root p hr⟩
    · exact ⟨M.tk p, M.K_succ p hr⟩

theorem Seeds.root_lt (M : Seeds) (hV : M.Valid) {x : Nat} (hr : M.root x) : x < M.t.length := by
  by_contra h
  have := sym_of_ge M.t x (by omega)
  unfold Seeds.root at hr
  rw [this] at hr
  exact hV.hsep hr.symm

theorem Seeds.root_cstart (M : Seeds) (hV : M.Valid) {x : Nat} (hr : M.root x) : cstart M.t x :=
  (hV.hroot x (M.root_lt hV hr) hr).1

theorem Seeds.not_root_of_L (M : Seeds) (hV : M.Valid) {x : Nat} (hl : lType M.t x = true) :
    ¬ M.root x := by
  intro hr
  have := (M.root_cstart hV hr).2
  rw [hl] at this
  exact Bool.noConfusion this

theorem Seeds.not_root_of_succ_S (M : Seeds) (hV : M.Valid) {x : Nat}
    (hl : lType M.t (x + 1) = false) : ¬ M.root x := by
  intro hr
  have := (M.root_cstart hV hr).1
  rw [hl] at this
  exact Bool.noConfusion this

theorem Seeds.lv_pred (M : Seeds) (hV : M.Valid) {x : Nat} (hx : M.lv (x + 1))
    (hr : ¬ M.root (x + 1)) : M.lv x := hV.hclosed x hx hr

theorem Seeds.lv_of_succ_L (M : Seeds) (hV : M.Valid) {x : Nat} (hx : M.lv (x + 1))
    (hl : lType M.t (x + 1) = true) : M.lv x := hV.hclosed x hx (M.not_root_of_L hV hl)

theorem Seeds.root_of_ecode_eq (M : Seeds) {x y : Nat} (h : ecode M.t x = ecode M.t y)
    (hr : M.root x) : M.root y := by
  unfold Seeds.root at hr ⊢
  rw [← ((ecode_eq_iff _ _ _).mp h).1, hr]

theorem cstart_S {t : List Int} {x : Nat} (h : cstart t x) : lType t x = false := h.2

theorem not_cstart_of_L {t : List Int} {x : Nat} (h : lType t x = true) : ¬ cstart t x := by
  intro hc
  rw [hc.2] at h
  exact Bool.noConfusion h

theorem not_cstart_of_succ_S {t : List Int} {x : Nat} (h : lType t (x + 1) = false) :
    ¬ cstart t x := by
  intro hc
  rw [hc.1] at h
  exact Bool.noConfusion h

theorem Seeds.tk_of_L (M : Seeds) {x : Nat} (h : lType M.t x = true) : M.tk x = M.K x := by
  unfold Seeds.tk
  rw [if_neg (not_cstart_of_L h)]

theorem Seeds.tk_of_succ_S (M : Seeds) {x : Nat} (h : lType M.t (x + 1) = false) :
    M.tk x = M.K x := by
  unfold Seeds.tk
  rw [if_neg (not_cstart_of_succ_S h)]

theorem Seeds.tk_head (M : Seeds) (p : Nat) : ∃ r, M.tk p = ecode M.t p :: r := by
  unfold Seeds.tk
  split
  · rename_i h
    exact ⟨[M.sr p], by rw [ecode_of_S h.2]⟩
  · exact M.K_head p

theorem Seeds.sr_neg (M : Seeds) (hV : M.Valid) {x : Nat} (hx : M.lv (x + 1))
    (hc : cstart M.t x) : M.sr x < 0 := by
  have h1 := hV.hg_hi x hx hc
  have h2 := tl_le_length M.t (sym M.t x)
  unfold Seeds.sr
  omega

theorem Seeds.sr_inj (M : Seeds) (hV : M.Valid) {x y : Nat} (hx : M.lv (x + 1))
    (hy : M.lv (y + 1)) (hcx : cstart M.t x) (hcy : cstart M.t y) (h : M.sr x = M.sr y) :
    x = y := by
  apply hV.hg_inj x y hx hy hcx hcy
  unfold Seeds.sr at h
  omega

theorem Seeds.K_root_ne (M : Seeds) (hV : M.Valid) {p q : Nat} (hrp : M.root (p + 1))
    (hrq : ¬ M.root (q + 1)) : M.K (p + 1) ≠ M.K (q + 1) := by
  intro h
  have hp := hV.hroot (p + 1) (M.root_lt hV hrp) hrp
  rw [M.K_root p hrp, M.K_succ q hrq] at h
  simp only [List.cons.injEq] at h
  obtain ⟨_, h⟩ := h
  unfold Seeds.tk at h
  split at h
  · simp at h
  · cases q with
    | zero =>
      rw [M.K_zero] at h
      simp only [List.cons.injEq, and_true] at h
      have h1 := M.sr_neg hV hp.2.2.1 hp.1
      have h2 := ecode_nonneg M.t 0 (hV.hsym 0)
      omega
    | succ q =>
      have := ckey_succ_length M.t M.sep M.sr q
      unfold Seeds.K at h
      rw [← h] at this
      simp at this

theorem Seeds.K_injective (M : Seeds) (hV : M.Valid) :
    ∀ (p q : Nat), M.lv p → M.lv q → M.K p = M.K q → p = q := by
  have hs := hV.hsym
  intro p
  induction p with
  | zero =>
    intro q _ _ h
    cases q with
    | zero => rfl
    | succ q =>
      have := ckey_succ_length M.t M.sep M.sr q
      unfold Seeds.K at h
      rw [← h] at this
      simp [ckey] at this
  | succ p ih =>
    intro q hp hq h
    cases q with
    | zero =>
      have := ckey_succ_length M.t M.sep M.sr p
      unfold Seeds.K at h
      rw [h] at this
      simp [ckey] at this
    | succ q =>
      by_cases hrp : M.root (p + 1)
      · by_cases hrq : M.root (q + 1)
        · have h1 := hV.hroot (p + 1) (M.root_lt hV hrp) hrp
          have h2 := hV.hroot (q + 1) (M.root_lt hV hrq) hrq
          rw [M.K_root p hrp, M.K_root q hrq] at h
          simp only [List.cons.injEq, and_true] at h
          exact M.sr_inj hV h1.2.2.1 h2.2.2.1 h1.1 h2.1 h.2
        · exact absurd h (M.K_root_ne hV hrp hrq)
      · by_cases hrq : M.root (q + 1)
        · exact absurd h.symm (M.K_root_ne hV hrq hrp)
        · have hp0 := M.lv_pred hV hp hrp
          have hq0 := M.lv_pred hV hq hrq
          rw [M.K_succ p hrp, M.K_succ q hrq] at h
          simp only [List.cons.injEq] at h
          obtain ⟨_, h⟩ := h
          unfold Seeds.tk at h
          have mixed : ∀ (a b : Nat), M.lv (a + 1) → cstart M.t a → ¬ cstart M.t b →
              [2 * sym M.t a + 1, M.sr a] = M.K b → False := by
            intro a b ha hca hcb hab
            unfold Seeds.K at hab
            rcases ckey_pair_nonneg M.t M.sep M.sr hs b _ _ hab.symm with ⟨h1, h2, h3⟩ | h1 | h1
            · have hb := hV.hroot b (M.root_lt hV h1) h1
              exact hcb hb.1
            · cases b with
              | zero =>
                simp [ckey] at hab
              | succ b =>
                simp only [Nat.add_sub_cancel] at h1
                have hrb : ¬ M.root (b + 1) := fun hr => hcb (M.root_cstart hV hr)
                rw [ckey_succ M.t M.sep M.sr b hrb, if_pos h1] at hab
                simp at hab
            · have := M.sr_neg hV ha hca
              omega
          by_cases hcp : cstart M.t p
          · rw [if_pos hcp] at h
            by_cases hcq : cstart M.t q
            · rw [if_pos hcq] at h
              simp only [List.cons.injEq, and_true] at h
              rw [M.sr_inj hV hp hq hcp hcq h.2]
            · rw [if_neg hcq] at h
              exact (mixed p q hp hcp hcq h).elim
          · rw [if_neg hcp] at h
            by_cases hcq : cstart M.t q
            · rw [if_pos hcq] at h
              exact (mixed q p hq hcq hcp h.symm).elim
            · rw [if_neg hcq] at h
              rw [ih q hp0 hq0 h]

theorem Seeds.K_inj_on (M : Seeds) (hV : M.Valid) (e : Int) :
    ∀ a ∈ M.cls e, ∀ b ∈ M.cls e, M.K a = M.K b → a = b := by
  intro a ha b hb h
  rw [M.mem_cls] at ha hb
  exact M.K_injective hV a b ha.1 hb.1 h

theorem Seeds.K_lt_of_ecode_lt (M : Seeds) {u v : Nat} (h : ecode M.t u < ecode M.t v) :
    M.K u < M.K v := by
  obtain ⟨r1, h1⟩ := M.K_head u
  obtain ⟨r2, h2⟩ := M.K_head v
  rw [h1, h2]
  exact List.Lex.rel h

theorem Seeds.tk_lt_of_ecode_lt (M : Seeds) {u v : Nat} (h : ecode M.t u < ecode M.t v) :
    M.tk u < M.tk v := by
  obtain ⟨r1, h1⟩ := M.tk_head u
  obtain ⟨r2, h2⟩ := M.tk_head v
  rw [h1, h2]
  exact List.Lex.rel h

/-! ## Cells -/

theorem Seeds.clsS_le_tl (M : Seeds) (c : Int) :
    hd M.t c + (M.cls (2 * c)).card + (M.cls (2 * c + 1)).card ≤ tl M.t c := by
  have := M.cls_card c
  have := tl_eq M.t c
  omega

theorem Seeds.slot_L (M : Seeds) (_hV : M.Valid) {x : Nat} (hx : M.lv x)
    (hl : lType M.t x = true) :
    hd M.t (sym M.t x) ≤ M.slot x ∧
    M.slot x < hd M.t (sym M.t x) + (M.cls (2 * sym M.t x)).card := by
  have h1 := rankIn_lt_card (M.cls (ecode M.t x)) M.K (M.mem_cls_self hx)
  unfold Seeds.slot Seeds.base
  rw [if_pos hl]
  rw [ecode_of_L hl] at h1 ⊢
  omega

theorem Seeds.slot_S (M : Seeds) (hV : M.Valid) {x : Nat} (hx : M.lv x)
    (hl : lType M.t x = false) :
    hd M.t (sym M.t x) + (M.cls (2 * sym M.t x)).card ≤ M.slot x ∧
    M.slot x < tl M.t (sym M.t x) := by
  have h1 := rankIn_lt_card (M.cls (ecode M.t x)) M.K (M.mem_cls_self hx)
  have h2 := M.clsS_le_tl (sym M.t x)
  unfold Seeds.slot Seeds.base
  rw [if_neg (by simp [hl])]
  rw [ecode_of_S hl] at h1 ⊢
  omega

theorem Seeds.slot_bucket (M : Seeds) (hV : M.Valid) {x : Nat} (hx : M.lv x) :
    hd M.t (sym M.t x) ≤ M.slot x ∧ M.slot x < tl M.t (sym M.t x) := by
  have h2 := M.clsS_le_tl (sym M.t x)
  cases hl : lType M.t x
  · have := M.slot_S hV hx hl
    omega
  · have := M.slot_L hV hx hl
    omega

theorem Seeds.slot_lt_length (M : Seeds) (hV : M.Valid) {x : Nat} (hx : M.lv x) :
    M.slot x < M.t.length := by
  have := M.slot_bucket hV hx
  have := tl_le_length M.t (sym M.t x)
  omega

theorem Seeds.sigma_bucket (M : Seeds) (hV : M.Valid) {u : Nat} (hu : M.srcL u) :
    hd M.t (sym M.t u) ≤ M.sigma u ∧ M.sigma u < tl M.t (sym M.t u) := by
  unfold Seeds.sigma
  rcases hu with ⟨hl, hu⟩ | ⟨hc, hu⟩
  · rw [if_neg (not_cstart_of_L hl)]
    exact M.slot_bucket hV hu
  · rw [if_pos hc]
    have := hV.hg_lo u hu hc
    have := hV.hg_hi u hu hc
    omega

theorem Seeds.sigma_lt_of_ecode_lt (M : Seeds) (hV : M.Valid) {u v : Nat} (hu : M.srcL u)
    (hv : M.srcL v) (h : ecode M.t u < ecode M.t v) : M.sigma u < M.sigma v := by
  rw [ecode_lt_iff] at h
  rcases h with h | ⟨h1, h2, h3⟩
  · have := M.sigma_bucket hV hu
    have := M.sigma_bucket hV hv
    have := tl_le_hd M.t h
    omega
  · rcases hu with ⟨_, hu⟩ | ⟨hc, _⟩
    · rcases hv with ⟨hl, _⟩ | ⟨hc, hv⟩
      · rw [hl] at h3
        exact Bool.noConfusion h3
      · unfold Seeds.sigma
        rw [if_neg (not_cstart_of_L h2), if_pos hc]
        have := M.slot_L hV hu h2
        have := hV.hg_lo v hv hc
        rw [← h1] at this
        omega
    · rw [hc.2] at h2
      exact Bool.noConfusion h2

theorem Seeds.slot_lt_of_ecode_lt (M : Seeds) (hV : M.Valid) {u v : Nat} (hu : M.lv u)
    (hv : M.lv v) (h : ecode M.t u < ecode M.t v) : M.slot u < M.slot v := by
  rw [ecode_lt_iff] at h
  rcases h with h | ⟨h1, h2, h3⟩
  · have := M.slot_bucket hV hu
    have := M.slot_bucket hV hv
    have := tl_le_hd M.t h
    omega
  · have := M.slot_L hV hu h2
    have := M.slot_S hV hv h3
    rw [← h1] at this
    omega

/-- The cells follow the chain keys. -/
theorem Seeds.slot_lt_iff (M : Seeds) (hV : M.Valid) {u v : Nat} (hu : M.lv u)
    (hv : M.lv v) : M.slot u < M.slot v ↔ M.K u < M.K v := by
  rcases lt_trichotomy (ecode M.t u) (ecode M.t v) with h | h | h
  · exact ⟨fun _ => M.K_lt_of_ecode_lt h, fun _ => M.slot_lt_of_ecode_lt hV hu hv h⟩
  · have hb : M.base u = M.base v := by
      unfold Seeds.base
      rw [h, ((ecode_eq_iff _ _ _).mp h).1, ((ecode_eq_iff _ _ _).mp h).2]
    unfold Seeds.slot
    rw [hb, h, Nat.add_lt_add_iff_left]
    exact rankIn_lt_iff _ _ (M.K_inj_on hV _) ((M.mem_cls _ _).mpr ⟨hu, h⟩) (M.mem_cls_self hv)
  · have h1 := M.K_lt_of_ecode_lt h
    have h2 := M.slot_lt_of_ecode_lt hV hv hu h
    exact ⟨fun h3 => absurd h3 (by omega), fun h3 => absurd (lt_trans h1 h3) (lt_irrefl _)⟩

theorem Seeds.slot_injective (M : Seeds) (hV : M.Valid) {u v : Nat} (hu : M.lv u)
    (hv : M.lv v) (h : M.slot u = M.slot v) : u = v := by
  rcases lt_trichotomy (M.K u) (M.K v) with h1 | h1 | h1
  · have := (M.slot_lt_iff hV hu hv).mpr h1
    omega
  · exact M.K_injective hV u v hu hv h1
  · have := (M.slot_lt_iff hV hv hu).mpr h1
    omega

/-- The cells of the sources of the left-to-right pass follow their keys. -/
theorem Seeds.sigma_lt_iff (M : Seeds) (hV : M.Valid) {u v : Nat} (hu : M.srcL u)
    (hv : M.srcL v) : M.sigma u < M.sigma v ↔ M.tk u < M.tk v := by
  rcases lt_trichotomy (ecode M.t u) (ecode M.t v) with h | h | h
  · exact ⟨fun _ => M.tk_lt_of_ecode_lt h, fun _ => M.sigma_lt_of_ecode_lt hV hu hv h⟩
  · have hty := ((ecode_eq_iff _ _ _).mp h).2
    have hsy := ((ecode_eq_iff _ _ _).mp h).1
    rcases hu with ⟨hl, hu⟩ | ⟨hc, hu⟩
    · rcases hv with ⟨hl2, hv⟩ | ⟨hc2, _⟩
      · unfold Seeds.sigma
        rw [M.tk_of_L hl, M.tk_of_L hl2, if_neg (not_cstart_of_L hl),
          if_neg (not_cstart_of_L hl2)]
        exact M.slot_lt_iff hV hu hv
      · rw [hl, hc2.2] at hty
        exact Bool.noConfusion hty
    · rcases hv with ⟨hl2, _⟩ | ⟨hc2, hv⟩
      · rw [hl2, hc.2] at hty
        exact Bool.noConfusion hty
      · unfold Seeds.sigma Seeds.tk
        rw [if_pos hc, if_pos hc2, if_pos hc, if_pos hc2, hsy, cons_lt_cons_iff,
          cons_lt_cons_iff]
        unfold Seeds.sr
        constructor
        · intro h1
          exact Or.inr ⟨rfl, Or.inl (by omega)⟩
        · rintro (h1 | ⟨_, h1 | ⟨_, h1⟩⟩)
          · omega
          · omega
          · exact absurd h1 (not_lt_nil_int _)
  · have h1 := M.tk_lt_of_ecode_lt h
    have h2 := M.sigma_lt_of_ecode_lt hV hv hu h
    exact ⟨fun h3 => absurd h3 (by omega), fun h3 => absurd (lt_trans h1 h3) (lt_irrefl _)⟩

/-! ## A position is written after its source is read -/

theorem Seeds.K_lt_cons_self (M : Seeds) (hV : M.Valid) : ∀ (x : Nat), lType M.t x = true →
    M.K x < ecode M.t x :: M.K x := by
  intro x
  induction x with
  | zero =>
    intro _
    rw [M.K_zero]
    exact List.Lex.cons List.Lex.nil
  | succ x ih =>
    intro hl
    rw [M.K_succ x (M.not_root_of_L hV hl)]
    apply List.Lex.cons
    rcases (lType_iff M.t x).mp hl with h | ⟨h1, h2⟩
    · obtain ⟨r, hr⟩ := M.tk_head x
      rw [hr]
      apply List.Lex.rel
      rw [ecode_of_L hl]
      unfold ecode
      split <;> omega
    · rw [M.tk_of_L h2]
      have := ih h2
      rwa [ecode_of_L hl, ← h1, ← ecode_of_L h2]

theorem Seeds.tk_lt_K_succ (M : Seeds) (hV : M.Valid) (x : Nat)
    (hl : lType M.t (x + 1) = true) : M.tk x < M.K (x + 1) := by
  rw [M.K_succ x (M.not_root_of_L hV hl)]
  rcases (lType_iff M.t x).mp hl with h | ⟨h1, h2⟩
  · obtain ⟨r, hr⟩ := M.tk_head x
    rw [hr]
    apply List.Lex.rel
    rw [ecode_of_L hl]
    unfold ecode
    split <;> omega
  · rw [M.tk_of_L h2]
    have := M.K_lt_cons_self hV x h2
    rwa [ecode_of_L hl, ← h1, ← ecode_of_L h2]

theorem Seeds.srcL_of_succ_L (M : Seeds) (hV : M.Valid) {x : Nat} (hx : M.lv (x + 1))
    (hl : lType M.t (x + 1) = true) : M.srcL x := by
  cases h : lType M.t x
  · exact Or.inr ⟨⟨hl, h⟩, hx⟩
  · exact Or.inl ⟨h, M.lv_of_succ_L hV hx hl⟩

theorem Seeds.srcL_of_L (M : Seeds) {x : Nat} (hx : M.lv x) (hl : lType M.t x = true) :
    M.srcL x := Or.inl ⟨hl, hx⟩

theorem Seeds.sigma_of_L (M : Seeds) {x : Nat} (hl : lType M.t x = true) :
    M.sigma x = M.slot x := by
  unfold Seeds.sigma
  rw [if_neg (not_cstart_of_L hl)]

theorem Seeds.sigma_of_succ_S (M : Seeds) {x : Nat} (hl : lType M.t (x + 1) = false) :
    M.sigma x = M.slot x := by
  unfold Seeds.sigma
  rw [if_neg (not_cstart_of_succ_S hl)]

/-- The left-to-right pass reads the source of an L-type position before the cell of the
position. -/
theorem Seeds.sigma_lt_slot (M : Seeds) (hV : M.Valid) {x : Nat} (hx : M.lv (x + 1))
    (hl : lType M.t (x + 1) = true) : M.sigma x < M.slot (x + 1) := by
  have h := (M.sigma_lt_iff hV (M.srcL_of_succ_L hV hx hl) (M.srcL_of_L hx hl)).mpr
    (by rw [M.tk_of_L hl]; exact M.tk_lt_K_succ hV x hl)
  rwa [M.sigma_of_L hl] at h

theorem Seeds.sym_lt_of_root_succ (M : Seeds) (hV : M.Valid) {x : Nat} (hr : M.root (x + 1)) :
    sym M.t (x + 1) < sym M.t x := by
  have hc := M.root_cstart hV hr
  rcases (lType_false_iff M.t x).mp hc.2 with h | ⟨h1, h2⟩
  · exact h
  · exfalso
    have hr0 : M.root x := by
      unfold Seeds.root at hr ⊢
      rw [h1, hr]
    have := (M.root_cstart hV hr0).1
    rw [hc.2] at this
    exact Bool.noConfusion this

theorem Seeds.K_succ_lt (M : Seeds) (hV : M.Valid) : ∀ (x : Nat), lType M.t (x + 1) = false →
    M.K (x + 1) < M.K x := by
  have hlt : ∀ x, lType M.t (x + 1) = false → sym M.t (x + 1) < sym M.t x →
      M.K (x + 1) < M.K x := by
    intro x hl h
    apply M.K_lt_of_ecode_lt
    rw [ecode_of_S hl]
    unfold ecode
    split <;> omega
  intro x
  induction x with
  | zero =>
    intro hl
    rcases (lType_false_iff M.t 0).mp hl with h | ⟨_, h2⟩
    · exact hlt 0 hl h
    · simp [lType] at h2
  | succ x ih =>
    intro hl
    rcases (lType_false_iff M.t (x + 1)).mp hl with h | ⟨h1, h2⟩
    · exact hlt (x + 1) hl h
    · have hr1 : ¬ M.root (x + 1 + 1) := fun hr => by
        have := M.sym_lt_of_root_succ hV hr
        omega
      have hr0 : ¬ M.root (x + 1) := M.not_root_of_succ_S hV hl
      rw [M.K_succ (x + 1) hr1, M.tk_of_succ_S hl]
      have := ih h2
      rw [M.K_succ x hr0, M.tk_of_succ_S h2] at this ⊢
      rw [ecode_of_S hl, ← h1, ← ecode_of_S h2]
      exact List.Lex.cons this

/-- The right-to-left pass reads the source of an S-type position before the cell of the
position. -/
theorem Seeds.slot_succ_lt (M : Seeds) (hV : M.Valid) {x : Nat} (hx : M.lv (x + 1))
    (hx0 : M.lv x) (hl : lType M.t (x + 1) = false) : M.slot (x + 1) < M.slot x :=
  (M.slot_lt_iff hV hx hx0).mpr (M.K_succ_lt hV x hl)

/-! ## The cursor of a bucket is the cell of the next position -/

theorem Seeds.placedL_iff (M : Seeds) (hV : M.Valid) {x y : Nat} (hx : M.lv (x + 1))
    (hl : lType M.t (x + 1) = true) (hy : y ∈ M.cls (ecode M.t (x + 1))) :
    M.placedL (M.sigma x) y ↔ M.K y < M.K (x + 1) := by
  rw [M.mem_cls] at hy
  have hly : lType M.t y = true := by
    rw [((ecode_eq_iff _ _ _).mp hy.2).2, hl]
  have hrx := M.not_root_of_L hV hl
  unfold Seeds.placedL
  cases y with
  | zero =>
    rw [M.K_zero, M.K_succ x hrx, hy.2]
    obtain ⟨r, hr⟩ := M.tk_head x
    rw [hr]
    exact ⟨fun _ => List.Lex.cons List.Lex.nil, fun _ => Or.inl rfl⟩
  | succ y =>
    rw [M.K_succ y (M.not_root_of_L hV hly), M.K_succ x hrx, hy.2, cons_lt_cons_iff,
      Nat.add_sub_cancel,
      M.sigma_lt_iff hV (M.srcL_of_succ_L hV hy.1 hly) (M.srcL_of_succ_L hV hx hl)]
    constructor
    · rintro (h | ⟨_, h⟩)
      · omega
      · exact Or.inr ⟨rfl, h⟩
    · rintro (h | ⟨_, h⟩)
      · exact absurd h (lt_irrefl _)
      · exact Or.inr ⟨by omega, h⟩

theorem Seeds.placedL_count (M : Seeds) (hV : M.Valid) {x : Nat} (hx : M.lv (x + 1))
    (hl : lType M.t (x + 1) = true) :
    ((M.cls (ecode M.t (x + 1))).filter (fun y => M.placedL (M.sigma x) y)).card =
      rankIn (M.cls (ecode M.t (x + 1))) M.K (x + 1) := by
  unfold rankIn
  congr 1
  apply Finset.filter_congr
  intro y hy
  exact M.placedL_iff hV hx hl hy

theorem rank_add_above (S : Finset Nat) (κ : Nat → List Int)
    (hinj : ∀ a ∈ S, ∀ b ∈ S, κ a = κ b → a = b) {a : Nat} (ha : a ∈ S) :
    rankIn S κ a + (S.filter (fun b => κ a < κ b)).card + 1 = S.card := by
  have h1 := Finset.filter_card_add_filter_neg_card_eq_card (s := S) (fun b => κ b < κ a)
  have h2 : S.filter (fun b => ¬ κ b < κ a) = insert a (S.filter (fun b => κ a < κ b)) := by
    ext b
    rw [Finset.mem_filter, Finset.mem_insert, Finset.mem_filter]
    constructor
    · rintro ⟨hb, h⟩
      rcases lt_trichotomy (κ b) (κ a) with h3 | h3 | h3
      · exact absurd h3 h
      · exact Or.inl (hinj b hb a ha h3)
      · exact Or.inr ⟨hb, h3⟩
    · rintro (rfl | ⟨hb, h⟩)
      · exact ⟨ha, lt_irrefl _⟩
      · exact ⟨hb, fun h3 => lt_irrefl _ (lt_trans h h3)⟩
  rw [h2, Finset.card_insert_of_not_mem] at h1
  · unfold rankIn
    omega
  · intro h
    exact lt_irrefl _ (Finset.mem_filter.mp h).2

theorem Seeds.placedS_iff (M : Seeds) (hV : M.Valid) {x y : Nat} (hx : M.lv (x + 1))
    (hr : ¬ M.root (x + 1)) (hl : lType M.t (x + 1) = false)
    (hy : y ∈ M.cls (ecode M.t (x + 1))) :
    M.placedS (M.slot x + 1) y ↔ M.K (x + 1) < M.K y := by
  rw [M.mem_cls] at hy
  have hly : lType M.t y = false := by
    rw [((ecode_eq_iff _ _ _).mp hy.2).2, hl]
  have hx0 := M.lv_pred hV hx hr
  unfold Seeds.placedS
  cases y with
  | zero => simp [lType] at hly
  | succ y =>
    have hry : ¬ M.root (y + 1) := fun h => hr (M.root_of_ecode_eq hy.2 h)
    have hy0 := M.lv_pred hV hy.1 hry
    rw [M.K_succ x hr, M.K_succ y hry, hy.2, cons_lt_cons_iff, Nat.add_sub_cancel,
      M.tk_of_succ_S hl, M.tk_of_succ_S hly, ← M.slot_lt_iff hV hx0 hy0]
    constructor
    · intro h
      exact Or.inr ⟨rfl, by omega⟩
    · rintro (h | ⟨_, h⟩)
      · exact absurd h (lt_irrefl _)
      · exact ⟨by omega, hy0, by omega⟩

theorem Seeds.placedS_count (M : Seeds) (hV : M.Valid) {x : Nat} (hx : M.lv (x + 1))
    (hr : ¬ M.root (x + 1)) (hl : lType M.t (x + 1) = false) :
    M.slot (x + 1) + ((M.cls (ecode M.t (x + 1))).filter
      (fun y => M.placedS (M.slot x + 1) y)).card + 1 = tl M.t (sym M.t (x + 1)) := by
  have h1 : (M.cls (ecode M.t (x + 1))).filter (fun y => M.placedS (M.slot x + 1) y) =
      (M.cls (ecode M.t (x + 1))).filter (fun y => M.K (x + 1) < M.K y) := by
    apply Finset.filter_congr
    intro y hy
    exact M.placedS_iff hV hx hr hl hy
  have h2 := rank_add_above _ _ (M.K_inj_on hV (ecode M.t (x + 1))) (M.mem_cls_self hx)
  have h3 := M.clsS_le_tl (sym M.t (x + 1))
  rw [h1]
  unfold Seeds.slot Seeds.base
  rw [if_neg (by simp [hl])]
  rw [ecode_of_S hl] at h2 ⊢
  omega

/-! ## Reads, writes and loops -/

theorem getI_ofNat (a : List Int) (i : Nat) : getI a (i : Int) = a[i]? := by
  unfold getI
  rw [if_neg (by omega)]
  rfl

theorem getI_eq {a : List Int} {i : Int} (j : Nat) (h : i = (j : Int)) : getI a i = a[j]? := by
  rw [h, getI_ofNat]

theorem setI_ofNat (a : List Int) (i : Nat) (v : Int) (h : i < a.length) :
    setI a (i : Int) v = some (a.set i v) := by
  unfold setI
  rw [if_neg (by omega)]
  simp only [Int.toNat_ofNat, List.getElem?_eq_getElem h]

theorem setI_eq {a : List Int} {i : Int} (j : Nat) (v : Int) (h : i = (j : Int))
    (hj : j < a.length) : setI a i v = some (a.set j v) := by
  rw [h, setI_ofNat a j v hj]

theorem getI_sym (t : List Int) (x : Nat) (h : x < t.length) :
    getI t (x : Int) = some (sym t x) := by
  rw [getI_ofNat, List.getElem?_eq_getElem h]
  unfold sym
  rw [List.getD_eq_getElem?_getD, List.getElem?_eq_getElem h]
  rfl

theorem getI_sym_eq {t : List Int} {i : Int} (x : Nat) (h : i = (x : Int)) (hx : x < t.length) :
    getI t i = some (sym t x) := by
  rw [h, getI_sym t x hx]

theorem sym_mem (t : List Int) (x : Nat) (h : x < t.length) : sym t x ∈ t := by
  unfold sym
  rw [List.getD_eq_getElem?_getD, List.getElem?_eq_getElem h]
  exact List.getElem_mem h

/-- A loop over `0 .. n-1` whose steps return and carry an invariant from `i` to `i + 1`
returns and carries it from `0` to `n`. -/
theorem foldlM_range_spec {σ : Type} (P : Nat → σ → Prop) (f : σ → Nat → Option σ) :
    ∀ (n : Nat), (∀ i s, i < n → P i s → ∃ s', f s i = some s' ∧ P (i + 1) s') →
    ∀ s0, P 0 s0 → ∃ s', (List.range n).foldlM f s0 = some s' ∧ P n s' := by
  intro n
  induction n with
  | zero =>
    intro _ s0 h0
    exact ⟨s0, rfl, h0⟩
  | succ n ih =>
    intro hstep s0 h0
    obtain ⟨s1, h1, hp1⟩ := ih (fun i s hi hp => hstep i s (by omega) hp) s0 h0
    obtain ⟨s2, h2, hp2⟩ := hstep n s1 (by omega) hp1
    refine ⟨s2, ?_, hp2⟩
    rw [List.range_succ, List.foldlM_append, h1]
    simp only [Option.bind_eq_bind, Option.some_bind, List.foldlM_cons, List.foldlM_nil, h2,
      Option.pure_def]

/-- A loop over `n-1 .. 0` whose steps return and carry an invariant from `i + 1` to `i`
returns and carries it from `n` to `0`. -/
theorem foldlM_range_rev_spec {σ : Type} (P : Nat → σ → Prop) (f : σ → Nat → Option σ) :
    ∀ (n : Nat), (∀ i s, i < n → P (i + 1) s → ∃ s', f s i = some s' ∧ P i s') →
    ∀ s0, P n s0 → ∃ s', (List.range n).reverse.foldlM f s0 = some s' ∧ P 0 s' := by
  intro n
  induction n with
  | zero =>
    intro _ s0 h0
    exact ⟨s0, rfl, h0⟩
  | succ n ih =>
    intro hstep s0 h0
    obtain ⟨s1, h1, hp1⟩ := hstep n s0 (by omega) h0
    obtain ⟨s2, h2, hp2⟩ := ih (fun i s hi hp => hstep i s (by omega) hp) s1 hp1
    refine ⟨s2, ?_, hp2⟩
    rw [List.range_succ, List.reverse_append]
    simp only [List.reverse_cons, List.reverse_nil, List.nil_append, List.singleton_append,
      List.foldlM_cons, h1, Option.bind_eq_bind, Option.some_bind, h2]

/-- A loop over `a .. a+n-1`. -/
theorem foldlM_range'_spec {σ : Type} (P : Nat → σ → Prop) (f : σ → Nat → Option σ) :
    ∀ (n a : Nat), (∀ i s, a ≤ i → i < a + n → P i s → ∃ s', f s i = some s' ∧ P (i + 1) s') →
    ∀ s0, P a s0 → ∃ s', (List.range' a n).foldlM f s0 = some s' ∧ P (a + n) s' := by
  intro n
  induction n with
  | zero =>
    intro a _ s0 h0
    exact ⟨s0, rfl, h0⟩
  | succ n ih =>
    intro a hstep s0 h0
    obtain ⟨s1, h1, hp1⟩ := hstep a s0 (by omega) (by omega) h0
    obtain ⟨s2, h2, hp2⟩ := ih (a + 1) (fun i s hi1 hi2 hp => hstep i s (by omega) (by omega) hp)
      s1 hp1
    refine ⟨s2, ?_, by rw [show a + (n + 1) = a + 1 + n by omega]; exact hp2⟩
    rw [List.range'_succ]
    simp only [List.foldlM_cons, h1, Option.bind_eq_bind, Option.some_bind, h2]

/-! ## The bucket switch -/

theorem switchBkt_cur {k : Nat} {cur : Int → Int} {bkt : List Int} {b p : Int}
    (h : Cur k cur bkt b p) (c : Int) (h0 : 0 ≤ c) (h1 : c < k) :
    ∃ bkt', switchBkt bkt b p c = some (bkt', cur c, c) ∧ Cur k cur bkt' (cur c) c := by
  obtain ⟨hlen, hp0, hp1, hb, hcur⟩ := h
  unfold switchBkt
  by_cases hpc : p = c
  · rw [if_neg (by simpa using hpc)]
    subst hpc
    exact ⟨bkt, by rw [hb], hlen, hp0, hp1, rfl, hcur⟩
  · rw [if_pos hpc]
    rw [hcur c h0 h1 (fun h => hpc h.symm)]
    have hset := setI_eq (a := bkt) (i := p) p.toNat b (by omega) (by omega)
    rw [hset]
    refine ⟨bkt.set p.toNat b, rfl, by simpa using hlen, h0, h1, rfl, ?_⟩
    intro d hd0 hd1 hdc
    by_cases hdp : d = p
    · subst hdp
      rw [getI_eq d.toNat (by omega), List.getElem?_set_self (by omega), hb]
    · have := hcur d hd0 hd1 hdp
      rw [getI_eq d.toNat (by omega)] at this ⊢
      rw [List.getElem?_set_ne (by omega)]
      exact this

theorem Cur.update {k : Nat} {cur cur' : Int → Int} {bkt : List Int} {b p : Int}
    (h : Cur k cur bkt b p) (b' : Int) (hb : b' = cur' p) (hc : ∀ c, c ≠ p → cur' c = cur c) :
    Cur k cur' bkt b' p := by
  obtain ⟨hlen, hp0, hp1, _, hcur⟩ := h
  refine ⟨hlen, hp0, hp1, hb, fun c h0 h1 hne => ?_⟩
  rw [hc c hne]
  exact hcur c h0 h1 hne

/-! ## The cursors of the two passes -/

theorem Seeds.sigma_injective (M : Seeds) (hV : M.Valid) {u v : Nat} (hu : M.srcL u)
    (hv : M.srcL v) (h : M.sigma u = M.sigma v) : u = v := by
  rcases lt_trichotomy (ecode M.t u) (ecode M.t v) with h1 | h1 | h1
  · have := M.sigma_lt_of_ecode_lt hV hu hv h1
    omega
  · have hty := ((ecode_eq_iff _ _ _).mp h1).2
    rcases hu with ⟨hl, hu⟩ | ⟨hc, hu⟩
    · rcases hv with ⟨hl2, hv⟩ | ⟨hc2, _⟩
      · rw [M.sigma_of_L hl, M.sigma_of_L hl2] at h
        exact M.slot_injective hV hu hv h
      · rw [hl, hc2.2] at hty
        exact Bool.noConfusion hty
    · rcases hv with ⟨hl2, _⟩ | ⟨hc2, hv⟩
      · rw [hl2, hc.2] at hty
        exact Bool.noConfusion hty
      · unfold Seeds.sigma at h
        rw [if_pos hc, if_pos hc2] at h
        exact hV.hg_inj u v hu hv hc hc2 h
  · have := M.sigma_lt_of_ecode_lt hV hv hu h1
    omega

theorem Seeds.g_ne_slot (M : Seeds) (hV : M.Valid) {y x : Nat} (hy : M.lv (y + 1))
    (hc : cstart M.t y) (hx : M.lv x) (hl : lType M.t x = true) : M.g y ≠ M.slot x := by
  intro h
  have h1 : M.sigma y = M.sigma x := by
    rw [M.sigma_of_L hl]
    unfold Seeds.sigma
    rw [if_pos hc, h]
  have := M.sigma_injective hV (Or.inr ⟨hc, hy⟩) (Or.inl ⟨hl, hx⟩) h1
  have h2 := hc.2
  rw [this, hl] at h2
  exact Bool.noConfusion h2

theorem Seeds.placedL_succ_iff (M : Seeds) (i y : Nat) :
    M.placedL (i + 1) y ↔ M.placedL i y ∨ (1 ≤ y ∧ M.sigma (y - 1) = i) := by
  unfold Seeds.placedL
  constructor
  · rintro (h | ⟨h1, h2⟩)
    · exact Or.inl (Or.inl h)
    · by_cases h3 : M.sigma (y - 1) = i
      · exact Or.inr ⟨h1, h3⟩
      · exact Or.inl (Or.inr ⟨h1, by omega⟩)
  · rintro ((h | ⟨h1, h2⟩) | ⟨h1, h2⟩)
    · exact Or.inl h
    · exact Or.inr ⟨h1, by omega⟩
    · exact Or.inr ⟨h1, by omega⟩

theorem Seeds.curL_succ_none (M : Seeds) (i : Nat)
    (h : ∀ y, M.lv (y + 1) → lType M.t (y + 1) = true → M.sigma y ≠ i) (c : Int) :
    M.curL (i + 1) c = M.curL i c := by
  unfold Seeds.curL
  congr 3
  apply Finset.filter_congr
  intro y hy
  rw [M.mem_cls] at hy
  rw [M.placedL_succ_iff]
  constructor
  · rintro (h1 | ⟨h1, h2⟩)
    · exact h1
    · obtain ⟨z, rfl⟩ : ∃ z, y = z + 1 := ⟨y - 1, by omega⟩
      have hl : lType M.t (z + 1) = true := by
        have := hy.2
        unfold ecode at this
        split at this
        · assumption
        · omega
      exact absurd h2 (h z hy.1 hl)
  · exact Or.inl

theorem Seeds.lType_of_mem_cls_even (M : Seeds) {c : Int} {y : Nat} (hy : y ∈ M.cls (2 * c)) :
    M.lv y ∧ lType M.t y = true ∧ sym M.t y = c := by
  rw [M.mem_cls] at hy
  have := hy.2
  unfold ecode at this
  split at this
  · exact ⟨hy.1, by assumption, by omega⟩
  · omega

theorem Seeds.lType_of_mem_cls_odd (M : Seeds) {c : Int} {y : Nat} (hy : y ∈ M.cls (2 * c + 1)) :
    M.lv y ∧ lType M.t y = false ∧ sym M.t y = c := by
  rw [M.mem_cls] at hy
  have := hy.2
  unfold ecode at this
  split at this
  · omega
  · exact ⟨hy.1, by simpa using ‹¬ lType M.t y = true›, by omega⟩

theorem Seeds.curL_succ_target (M : Seeds) (hV : M.Valid) {x : Nat} (hx : M.lv (x + 1))
    (hl : lType M.t (x + 1) = true) (c : Int) :
    M.curL (M.sigma x + 1) c = M.curL (M.sigma x) c + (if c = sym M.t (x + 1) then 1 else 0) := by
  unfold Seeds.curL
  by_cases hc : c = sym M.t (x + 1)
  · rw [if_pos hc]
    have : (M.cls (2 * c)).filter (fun y => M.placedL (M.sigma x + 1) y) =
        insert (x + 1) ((M.cls (2 * c)).filter (fun y => M.placedL (M.sigma x) y)) := by
      ext y
      rw [Finset.mem_insert, Finset.mem_filter, Finset.mem_filter, M.placedL_succ_iff]
      constructor
      · rintro ⟨h1, h2 | ⟨h2, h3⟩⟩
        · exact Or.inr ⟨h1, h2⟩
        · left
          obtain ⟨z, rfl⟩ : ∃ z, y = z + 1 := ⟨y - 1, by omega⟩
          obtain ⟨hz1, hz2, _⟩ := M.lType_of_mem_cls_even h1
          rw [Nat.add_sub_cancel] at h3
          rw [M.sigma_injective hV (M.srcL_of_succ_L hV hz1 hz2) (M.srcL_of_succ_L hV hx hl) h3]
      · rintro (h1 | ⟨h1, h2⟩)
        · subst h1
          refine ⟨?_, Or.inr ⟨by omega, by rw [Nat.add_sub_cancel]⟩⟩
          rw [M.mem_cls, ecode_of_L hl, hc]
          exact ⟨hx, rfl⟩
        · exact ⟨h1, Or.inl h2⟩
    rw [this, Finset.card_insert_of_not_mem]
    · push_cast
      omega
    · intro h
      have := (Finset.mem_filter.mp h).2
      unfold Seeds.placedL at this
      rw [Nat.add_sub_cancel] at this
      omega
  · rw [if_neg hc, Int.add_zero]
    congr 3
    apply Finset.filter_congr
    intro y hy
    rw [M.placedL_succ_iff]
    constructor
    · rintro (h1 | ⟨h1, h2⟩)
      · exact h1
      · exfalso
        obtain ⟨z, rfl⟩ : ∃ z, y = z + 1 := ⟨y - 1, by omega⟩
        obtain ⟨hz1, hz2, hz3⟩ := M.lType_of_mem_cls_even hy
        rw [Nat.add_sub_cancel] at h2
        rw [M.sigma_injective hV (M.srcL_of_succ_L hV hz1 hz2) (M.srcL_of_succ_L hV hx hl) h2] at hz3
        exact hc hz3.symm
    · exact Or.inl

theorem Seeds.curL_target (M : Seeds) (hV : M.Valid) {x : Nat} (hx : M.lv (x + 1))
    (hl : lType M.t (x + 1) = true) :
    M.curL (M.sigma x) (sym M.t (x + 1)) = (M.slot (x + 1) : Int) := by
  have := M.placedL_count hV hx hl
  rw [ecode_of_L hl] at this
  unfold Seeds.curL Seeds.slot Seeds.base
  rw [if_pos hl, this, ecode_of_L hl]

theorem Seeds.placedS_pred_iff (M : Seeds) (i y : Nat) :
    M.placedS i y ↔ M.placedS (i + 1) y ∨ (1 ≤ y ∧ M.lv (y - 1) ∧ M.slot (y - 1) = i) := by
  unfold Seeds.placedS
  constructor
  · rintro ⟨h1, h0, h2⟩
    by_cases h3 : M.slot (y - 1) = i
    · exact Or.inr ⟨h1, h0, h3⟩
    · exact Or.inl ⟨h1, h0, by omega⟩
  · rintro (⟨h1, h0, h2⟩ | ⟨h1, h0, h2⟩)
    · exact ⟨h1, h0, by omega⟩
    · exact ⟨h1, h0, by omega⟩

theorem Seeds.curS_pred_none (M : Seeds) (i : Nat)
    (h : ∀ y, M.lv (y + 1) → M.lv y → lType M.t (y + 1) = false → M.slot y ≠ i) (c : Int) :
    M.curS i c = M.curS (i + 1) c := by
  unfold Seeds.curS
  congr 3
  apply Finset.filter_congr
  intro y hy
  obtain ⟨hy1, hy2, _⟩ := M.lType_of_mem_cls_odd hy
  rw [M.placedS_pred_iff]
  constructor
  · rintro (h1 | ⟨h1, h0, h2⟩)
    · exact h1
    · obtain ⟨z, rfl⟩ : ∃ z, y = z + 1 := ⟨y - 1, by omega⟩
      exact absurd h2 (h z hy1 h0 hy2)
  · exact Or.inl

theorem Seeds.curS_pred_target (M : Seeds) (hV : M.Valid) {x : Nat} (hx : M.lv (x + 1))
    (hx0 : M.lv x) (hl : lType M.t (x + 1) = false) (c : Int) :
    M.curS (M.slot x) c = M.curS (M.slot x + 1) c - (if c = sym M.t (x + 1) then 1 else 0) := by
  unfold Seeds.curS
  by_cases hc : c = sym M.t (x + 1)
  · rw [if_pos hc]
    have : (M.cls (2 * c + 1)).filter (fun y => M.placedS (M.slot x) y) =
        insert (x + 1) ((M.cls (2 * c + 1)).filter (fun y => M.placedS (M.slot x + 1) y)) := by
      ext y
      rw [Finset.mem_insert, Finset.mem_filter, Finset.mem_filter, M.placedS_pred_iff]
      constructor
      · rintro ⟨h1, h2 | ⟨h2, h0, h3⟩⟩
        · exact Or.inr ⟨h1, h2⟩
        · left
          obtain ⟨z, rfl⟩ : ∃ z, y = z + 1 := ⟨y - 1, by omega⟩
          rw [Nat.add_sub_cancel] at h3 h0
          rw [M.slot_injective hV h0 hx0 h3]
      · rintro (h1 | ⟨h1, h2⟩)
        · subst h1
          refine ⟨?_, Or.inr ⟨by omega, by rw [Nat.add_sub_cancel]; exact hx0,
            by rw [Nat.add_sub_cancel]⟩⟩
          rw [M.mem_cls, ecode_of_S hl, hc]
          exact ⟨hx, rfl⟩
        · exact ⟨h1, Or.inl h2⟩
    rw [this, Finset.card_insert_of_not_mem]
    · push_cast
      omega
    · intro h
      have := (Finset.mem_filter.mp h).2
      unfold Seeds.placedS at this
      rw [Nat.add_sub_cancel] at this
      omega
  · rw [if_neg hc, Int.sub_zero]
    congr 3
    apply Finset.filter_congr
    intro y hy
    rw [M.placedS_pred_iff]
    constructor
    · rintro (h1 | ⟨h1, h0, h2⟩)
      · exact h1
      · exfalso
        obtain ⟨z, rfl⟩ : ∃ z, y = z + 1 := ⟨y - 1, by omega⟩
        obtain ⟨hz1, _, hz3⟩ := M.lType_of_mem_cls_odd hy
        rw [Nat.add_sub_cancel] at h2 h0
        rw [M.slot_injective hV h0 hx0 h2] at hz3
        exact hc hz3.symm
    · exact Or.inl

theorem Seeds.curS_target (M : Seeds) (hV : M.Valid) {x : Nat} (hx : M.lv (x + 1))
    (hr : ¬ M.root (x + 1)) (hl : lType M.t (x + 1) = false) :
    M.curS (M.slot x + 1) (sym M.t (x + 1)) - 1 = (M.slot (x + 1) : Int) := by
  have := M.placedS_count hV hx hr hl
  rw [ecode_of_S hl] at this
  unfold Seeds.curS
  omega

/-- The cursor of a bucket in the right-to-left pass never passes the tail of the bucket. -/
theorem Seeds.curS_le_tl (M : Seeds) (e : Nat) (c : Int) : M.curS e c ≤ (tl M.t c : Int) := by
  unfold Seeds.curS
  omega

/-! ## The left-to-right pass of `induce` -/

theorem induceLStep_zero {t : List Int} {st : IndSt} {i : Nat} (h : st.sa[i]? = some 0) :
    induceLStep t st i = some st := by
  unfold induceLStep
  rw [getI_ofNat, h]
  rfl

theorem induceLStep_neg {t : List Int} {st : IndSt} {i : Nat} {s : Int}
    (h : st.sa[i]? = some s) (hs : s < 0) :
    induceLStep t st i = some { st with sa := st.sa.set i (compl s) } := by
  have hi : i < st.sa.length := (List.getElem?_eq_some.mp h).1
  unfold induceLStep
  rw [getI_ofNat, h]
  simp only [Option.bind_eq_bind, Option.some_bind]
  rw [if_neg (by omega), if_pos hs, setI_ofNat _ _ _ hi]
  rfl

theorem induceLStep_last {t : List Int} {st : IndSt} {i : Nat} {s : Int}
    (h : st.sa[i]? = some s) (hs : 0 < s) (hn : (t.length : Int) ≤ s) :
    induceLStep t st i = some { st with sa := st.sa.set i (compl (s - 1)) } := by
  have hi : i < st.sa.length := (List.getElem?_eq_some.mp h).1
  unfold induceLStep
  rw [getI_ofNat, h]
  simp only [Option.bind_eq_bind, Option.some_bind]
  rw [if_neg (by omega), if_neg (by omega), if_pos (by omega), setI_ofNat _ _ _ hi]
  rfl

theorem induceLStep_pos {t : List Int} {st : IndSt} {i : Nat} (x : Nat) (bkt' : List Int)
    (b' : Nat) (h : st.sa[i]? = some ((x : Int) + 1)) (hx : x + 1 < t.length)
    (hsw : switchBkt st.bkt st.b st.p (sym t (x + 1)) = some (bkt', (b' : Int), sym t (x + 1)))
    (hb : b' < st.sa.length) :
    induceLStep t st i = some
      { sa := (st.sa.set i (compl x)).set b'
          (if x + 2 < t.length ∧ sym t (x + 2) < sym t (x + 1) then compl ((x : Int) + 1)
           else (x : Int) + 2),
        bkt := bkt', b := (b' : Int) + 1, p := sym t (x + 1) } := by
  have hi : i < st.sa.length := (List.getElem?_eq_some.mp h).1
  unfold induceLStep
  rw [getI_ofNat, h]
  simp only [Option.bind_eq_bind, Option.some_bind]
  rw [if_neg (by omega), if_neg (by omega), if_neg (by omega), setI_ofNat _ _ _ hi]
  simp only [Option.some_bind]
  rw [getI_sym_eq (x + 1) (by push_cast; ring) hx]
  simp only [Option.some_bind, hsw]
  have e1 : (x : Int) + 1 - 1 = x := by ring
  have e2 : (x : Int) + 1 + 1 = x + 2 := by ring
  by_cases h2 : x + 2 < t.length
  · rw [if_pos (by omega), getI_sym_eq (x + 2) (by push_cast; ring) h2]
    simp only [Option.some_bind]
    rw [setI_ofNat _ _ _ (by simpa using hb)]
    simp only [Option.some_bind, h2, true_and, gt_iff_lt, e1, e2]
  · rw [if_neg (by omega), setI_ofNat _ _ _ (by simpa using hb)]
    simp only [Option.some_bind, h2, false_and, if_false, e1, e2]

theorem Seeds.sigma_lt_length (M : Seeds) (hV : M.Valid) {u : Nat} (hu : M.srcL u) :
    M.sigma u < M.t.length := by
  have := M.sigma_bucket hV hu
  have := tl_le_length M.t (sym M.t u)
  omega

theorem Seeds.placedL_mono (M : Seeds) {i j y : Nat} (hij : i ≤ j) (h : M.placedL i y) :
    M.placedL j y := by
  unfold Seeds.placedL at h ⊢
  rcases h with h | ⟨h1, h2⟩
  · exact Or.inl h
  · exact Or.inr ⟨h1, by omega⟩

theorem Seeds.placedL_of_sigma (M : Seeds) (hV : M.Valid) {u : Nat} (hu : M.srcL u) :
    cstart M.t u ∨ M.placedL (M.sigma u) u := by
  rcases hu with ⟨hl, hu⟩ | ⟨hc, _⟩
  · right
    cases u with
    | zero => exact Or.inl rfl
    | succ w =>
      refine Or.inr ⟨by omega, ?_⟩
      rw [Nat.add_sub_cancel, M.sigma_of_L hl]
      exact M.sigma_lt_slot hV hu hl
  · exact Or.inl hc

theorem Seeds.not_succS_of_succ_L (M : Seeds) {u : Nat} (hl : lType M.t (u + 1) = true) :
    ¬ M.succS u := by
  intro h
  have := h.2
  rcases (lType_iff M.t u).mp hl with h1 | ⟨h1, _⟩ <;> omega

theorem Seeds.succ_L_of_not_succS (M : Seeds) {u : Nat} (hu : M.srcL u) (h : ¬ M.succS u)
    (hn : u + 1 < M.t.length) : lType M.t (u + 1) = true := by
  rcases hu with ⟨hl, _⟩ | ⟨hc, _⟩
  · rw [lType_iff]
    unfold Seeds.succS at h
    by_cases h1 : sym M.t u < sym M.t (u + 1)
    · exact Or.inl h1
    · exact Or.inr ⟨by omega, hl⟩
  · exact hc.1

theorem Seeds.placedL_succ_of_ne (M : Seeds) (_hV : M.Valid) {i w : Nat} (hw : M.lv w)
    (hl : lType M.t w = true)
    (hne : ∀ y, M.lv (y + 1) → lType M.t (y + 1) = true → M.sigma y = i → w ≠ y + 1) :
    M.placedL (i + 1) w ↔ M.placedL i w := by
  rw [M.placedL_succ_iff]
  constructor
  · rintro (h | ⟨h1, h2⟩)
    · exact h
    · obtain ⟨z, rfl⟩ : ∃ z, w = z + 1 := ⟨w - 1, by omega⟩
      exact absurd rfl (hne z hw hl h2)
  · exact Or.inl

theorem Seeds.PassL.keep {M : Seeds} {raw vis : Nat → Int} (hV : M.Valid) {i : Nat}
    {sa : List Int} (h : M.PassL raw vis i sa) (hi : i < M.t.length)
    (hno : ∀ y, M.lv (y + 1) → lType M.t (y + 1) = true → M.sigma y ≠ i)
    (v : Int) (hv1 : ∀ u, M.srcL u → M.sigma u = i → v = vis u)
    (hv2 : (∀ u, M.srcL u → M.sigma u ≠ i) → v = 0) : M.PassL raw vis (i + 1) (sa.set i v) := by
  have hlen := h.len
  refine ⟨by simpa using hlen, fun u hu => ?_, fun j hj hnone => ?_⟩
  · by_cases hσ : M.sigma u = i
    · rw [hσ, List.getElem?_set_self (by omega), hv1 u hu hσ]
      have hp : cstart M.t u ∨ M.placedL (i + 1) u := by
        rcases M.placedL_of_sigma hV hu with h1 | h1
        · exact Or.inl h1
        · exact Or.inr (M.placedL_mono (by omega) h1)
      rw [if_pos hp, if_pos (by omega)]
    · rw [List.getElem?_set_ne (fun hh => hσ hh.symm), h.hsrc u hu]
      have e1 : (M.sigma u < i + 1) ↔ (M.sigma u < i) := by omega
      have e2 : (cstart M.t u ∨ M.placedL (i + 1) u) ↔ (cstart M.t u ∨ M.placedL i u) := by
        rcases hu with ⟨hl, hu⟩ | ⟨hc, _⟩
        · rw [M.placedL_succ_of_ne hV hu hl (fun y hy hly hsy => absurd hsy (hno y hy hly))]
        · exact ⟨fun _ => Or.inl hc, fun _ => Or.inl hc⟩
      simp only [e1, e2]
  · by_cases hji : j = i
    · subst hji
      rw [List.getElem?_set_self (by omega), hv2 hnone]
    · rw [List.getElem?_set_ne (fun hh => hji hh.symm)]
      exact h.hzero j hj hnone

theorem Seeds.PassL.put {M : Seeds} {raw vis : Nat → Int} (hV : M.Valid) {i : Nat}
    {sa : List Int} (h : M.PassL raw vis i sa) {u : Nat} (hu : M.srcL u) (hσ : M.sigma u = i)
    (hx : M.lv (u + 1)) (hl : lType M.t (u + 1) = true) :
    M.PassL raw vis (i + 1) ((sa.set i (vis u)).set (M.slot (u + 1)) (raw (u + 1))) := by
  have hlen := h.len
  have hi : i < M.t.length := by rw [← hσ]; exact M.sigma_lt_length hV hu
  have hsl : i < M.slot (u + 1) := by rw [← hσ]; exact M.sigma_lt_slot hV hx hl
  have hsn : M.slot (u + 1) < M.t.length := M.slot_lt_length hV hx
  have hu1 : M.srcL (u + 1) := M.srcL_of_L hx hl
  refine ⟨by simpa using hlen, fun w hw => ?_, fun j hj hnone => ?_⟩
  · by_cases hw1 : w = u + 1
    · subst hw1
      rw [M.sigma_of_L hl, List.getElem?_set_self (by simpa using (by omega))]
      have hp : cstart M.t (u + 1) ∨ M.placedL (i + 1) (u + 1) :=
        Or.inr (Or.inr ⟨by omega, by rw [Nat.add_sub_cancel]; omega⟩)
      rw [if_pos hp, if_neg (by omega)]
    · have hne : M.sigma w ≠ M.slot (u + 1) := by
        intro hh
        rw [← M.sigma_of_L hl] at hh
        exact hw1 (M.sigma_injective hV hw hu1 hh)
      rw [List.getElem?_set_ne (fun hh => hne hh.symm)]
      by_cases hwi : M.sigma w = i
      · have : w = u := M.sigma_injective hV hw hu (by omega)
        subst this
        rw [hwi, List.getElem?_set_self (by omega)]
        have hp : cstart M.t w ∨ M.placedL (i + 1) w := by
          rcases M.placedL_of_sigma hV hu with h1 | h1
          · exact Or.inl h1
          · exact Or.inr (M.placedL_mono (by omega) h1)
        rw [if_pos hp, if_pos (by omega)]
      · rw [List.getElem?_set_ne (fun hh => hwi hh.symm), h.hsrc w hw]
        have e1 : (M.sigma w < i + 1) ↔ (M.sigma w < i) := by omega
        have e2 : (cstart M.t w ∨ M.placedL (i + 1) w) ↔ (cstart M.t w ∨ M.placedL i w) := by
          rcases hw with ⟨hlw, hw⟩ | ⟨hc, _⟩
          · rw [M.placedL_succ_of_ne hV hw hlw]
            intro y hy hly hsy hwy
            have : y = u := M.sigma_injective hV (M.srcL_of_succ_L hV hy hly) hu (by omega)
            omega
          · exact ⟨fun _ => Or.inl hc, fun _ => Or.inl hc⟩
        simp only [e1, e2]
  · have h1 : j ≠ M.slot (u + 1) := by
      have := hnone (u + 1) hu1
      rw [M.sigma_of_L hl] at this
      exact fun hh => this hh.symm
    have h2 : j ≠ i := by
      have := hnone u hu
      omega
    rw [List.getElem?_set_ne (fun hh => h1 hh.symm), List.getElem?_set_ne (fun hh => h2 hh.symm)]
    exact h.hzero j hj hnone

theorem set_self_of_getElem? {a : List Int} {i : Nat} {v : Int} (h : a[i]? = some v) :
    a.set i v = a := by
  apply List.ext_getElem? 
  intro j
  by_cases hj : i = j
  · subst hj
    rw [List.getElem?_set_self (List.getElem?_eq_some.mp h).1, h]
  · rw [List.getElem?_set_ne hj]

theorem Seeds.sym_nonneg_lt (M : Seeds) (hV : M.Valid) {k : Nat} (hk : M.Sized k) (x : Nat) :
    0 ≤ sym M.t x ∧ sym M.t x < k := ⟨hV.hsym x, hk x⟩

theorem Seeds.rawL_succ (M : Seeds) (u : Nat) :
    (if u + 2 < M.t.length ∧ sym M.t (u + 2) < sym M.t (u + 1) then compl ((u : Int) + 1)
      else (u : Int) + 2) = M.rawL (u + 1) := by
  unfold Seeds.rawL Seeds.succS
  push_cast
  rfl

/-- One step of the left-to-right pass of `induce` returns and keeps the state of the
array and of the cursors. -/
theorem induceLStep_spec (M : Seeds) (hV : M.Valid) (hfull : ∀ x, x < M.t.length → M.lv x) (k : Nat)
    (hk : M.Sized k) (i : Nat) (hi : i < M.t.length) (st : IndSt)
    (hc : Cur k (M.curL i) st.bkt st.b st.p) (hs : M.PassL M.rawL M.visL i st.sa) :
    ∃ st', induceLStep M.t st i = some st' ∧ Cur k (M.curL (i + 1)) st'.bkt st'.b st'.p ∧
      M.PassL M.rawL M.visL (i + 1) st'.sa := by
  have hlen := hs.len
  by_cases hex : ∃ u, M.srcL u ∧ M.sigma u = i
  · obtain ⟨u, hu, hσ⟩ := hex
    have hval := hs.hsrc u hu
    have hp : cstart M.t u ∨ M.placedL i u := by rw [← hσ]; exact M.placedL_of_sigma hV hu
    rw [hσ, if_pos hp, if_neg (by omega)] at hval
    have huniq : ∀ w, M.srcL w → M.sigma w = i → w = u := fun w hw hwi =>
      M.sigma_injective hV hw hu (by omega)
    by_cases hsucc : M.succS u
    · have hraw : M.rawL u = compl u := by unfold Seeds.rawL; rw [if_pos hsucc]
      have hno : ∀ y, M.lv (y + 1) → lType M.t (y + 1) = true → M.sigma y ≠ i := by
        intro y hy hly hyi
        have := huniq y (M.srcL_of_succ_L hV hy hly) hyi
        subst this
        exact M.not_succS_of_succ_L hly hsucc
      rw [hraw] at hval
      refine ⟨_, induceLStep_neg hval (by unfold compl; omega), ?_, ?_⟩
      · exact hc.update _ (by rw [M.curL_succ_none i hno]; exact hc.2.2.2.1)
          (fun c _ => M.curL_succ_none i hno c)
      · apply hs.keep hV hi hno
        · intro w hw hwi
          rw [huniq w hw hwi]
          unfold Seeds.visL compl
          rw [if_pos hsucc]
          omega
        · intro hnone
          exact absurd hσ (hnone u hu)
    · have hraw : M.rawL u = (u : Int) + 1 := by unfold Seeds.rawL; rw [if_neg hsucc]
      rw [hraw] at hval
      by_cases hn : u + 1 < M.t.length
      · have hl := M.succ_L_of_not_succS hu hsucc hn
        have hx : M.lv (u + 1) := hfull _ hn
        obtain ⟨h0, h1⟩ := M.sym_nonneg_lt hV hk (u + 1)
        obtain ⟨bkt', hsw, hcur⟩ := switchBkt_cur hc (sym M.t (u + 1)) h0 h1
        have hb : M.curL i (sym M.t (u + 1)) = (M.slot (u + 1) : Int) := by
          rw [← hσ]
          exact M.curL_target hV hx hl
        rw [hb] at hsw hcur
        have hsn : M.slot (u + 1) < st.sa.length := by
          rw [hlen]
          exact M.slot_lt_length hV hx
        refine ⟨_, induceLStep_pos u bkt' (M.slot (u + 1)) hval hn hsw hsn, ?_, ?_⟩
        · apply hcur.update
          · show (M.slot (u + 1) : Int) + 1 = M.curL (i + 1) (sym M.t (u + 1))
            rw [← hσ, M.curL_succ_target hV hx hl, if_pos rfl, hσ, hb]
          · intro c hcne
            rw [← hσ, M.curL_succ_target hV hx hl, if_neg hcne, Int.add_zero]
        · show M.PassL M.rawL M.visL (i + 1) _
          have hvis : M.visL u = compl u := by
            unfold Seeds.visL
            rw [if_neg (M.not_succS_of_succ_L hl)]
          rw [M.rawL_succ, ← hvis]
          exact hs.put hV hu hσ hx hl
      · have hno : ∀ y, M.lv (y + 1) → lType M.t (y + 1) = true → M.sigma y ≠ i := by
          intro y hy hly hyi
          have := huniq y (M.srcL_of_succ_L hV hy hly) hyi
          have := hy.1
          omega
        refine ⟨_, induceLStep_last hval (by omega) (by omega), ?_, ?_⟩
        · exact hc.update _ (by rw [M.curL_succ_none i hno]; exact hc.2.2.2.1)
            (fun c _ => M.curL_succ_none i hno c)
        · apply hs.keep hV hi hno
          · intro w hw hwi
            rw [huniq w hw hwi]
            unfold Seeds.visL
            rw [if_neg hsucc]
            congr 1
            omega
          · intro hnone
            exact absurd hσ (hnone u hu)
  · have hnone : ∀ u, M.srcL u → M.sigma u ≠ i := fun u hu hui => hex ⟨u, hu, hui⟩
    have hval := hs.hzero i hi hnone
    have hno : ∀ y, M.lv (y + 1) → lType M.t (y + 1) = true → M.sigma y ≠ i :=
      fun y hy hly => hnone y (M.srcL_of_succ_L hV hy hly)
    refine ⟨st, induceLStep_zero hval, ?_, ?_⟩
    · exact hc.update _ (by rw [M.curL_succ_none i hno]; exact hc.2.2.2.1)
        (fun c _ => M.curL_succ_none i hno c)
    · have := hs.keep hV hi hno 0 (fun u hu hui => absurd hui (hnone u hu)) (fun _ => rfl)
      rwa [set_self_of_getElem? hval] at this

/-! ## The right-to-left pass of `induce` -/

theorem induceSStep_neg {t : List Int} {st : IndSt} {i : Nat} {s : Int}
    (h : st.sa[i]? = some s) (hs : s < 0) :
    induceSStep t st i = some { st with sa := st.sa.set i (compl s) } := by
  have hi : i < st.sa.length := (List.getElem?_eq_some.mp h).1
  unfold induceSStep
  rw [getI_ofNat, h]
  simp only [Option.bind_eq_bind, Option.some_bind]
  rw [if_pos hs, setI_ofNat _ _ _ hi]
  rfl

theorem induceSStep_pos {t : List Int} {st : IndSt} {i : Nat} (x : Nat) (bkt' : List Int)
    (b' : Nat) (h : st.sa[i]? = some (x : Int)) (hx : x + 1 < t.length)
    (hsw : switchBkt st.bkt st.b st.p (sym t (x + 1)) =
      some (bkt', (b' : Int) + 1, sym t (x + 1)))
    (hb : b' < st.sa.length) :
    induceSStep t st i = some
      { sa := st.sa.set b'
          (if x + 2 < t.length ∧ ¬ sym t (x + 1) < sym t (x + 2) then (x : Int) + 1
           else compl ((x : Int) + 1)),
        bkt := bkt', b := (b' : Int), p := sym t (x + 1) } := by
  unfold induceSStep
  rw [getI_ofNat, h]
  simp only [Option.bind_eq_bind, Option.some_bind]
  rw [if_neg (by omega), if_neg (by omega)]
  rw [getI_sym_eq (x + 1) (by push_cast; ring) hx]
  simp only [Option.some_bind, hsw]
  have e1 : (b' : Int) + 1 - 1 = b' := by ring
  by_cases h2 : x + 2 < t.length
  · rw [if_neg (by omega), getI_sym_eq (x + 2) (by push_cast; ring) h2]
    simp only [Option.some_bind, e1]
    rw [setI_ofNat _ _ _ hb]
    simp only [Option.some_bind, h2, true_and]
    by_cases h3 : sym t (x + 1) < sym t (x + 2)
    · simp only [h3, if_true, not_true_eq_false, if_false]
    · simp only [h3, if_false, not_false_eq_true, if_true]
  · rw [if_pos (by omega)]
    simp only [e1]
    rw [setI_ofNat _ _ _ hb]
    simp only [Option.some_bind, h2, false_and, if_false]

theorem Seeds.preS_succ (M : Seeds) (u : Nat) (hl : lType M.t (u + 1) = false) :
    (if u + 2 < M.t.length ∧ ¬ sym M.t (u + 1) < sym M.t (u + 2) then (u : Int) + 1
      else compl ((u : Int) + 1)) = M.preS (u + 1) := by
  unfold Seeds.preS
  have e : (lType M.t (u + 1 + 1) = false) ↔ ¬ sym M.t (u + 1) < sym M.t (u + 2) := by
    rw [lType_false_iff, show u + 1 + 1 = u + 2 from rfl]
    constructor
    · rintro (h | ⟨h, _⟩) <;> omega
    · intro h
      by_cases h1 : sym M.t (u + 2) < sym M.t (u + 1)
      · exact Or.inl h1
      · exact Or.inr ⟨by omega, hl⟩
  simp only [e]
  push_cast
  rfl

theorem Seeds.visL_eq_preS (M : Seeds) {x : Nat} (hl : lType M.t x = true) :
    M.visL x = M.preS x := by
  unfold Seeds.visL Seeds.preS Seeds.succS
  have e : (lType M.t (x + 1) = false) ↔ sym M.t (x + 1) < sym M.t x := by
    rw [lType_false_iff]
    constructor
    · rintro (h | ⟨_, h⟩)
      · exact h
      · rw [hl] at h
        exact Bool.noConfusion h
    · exact Or.inl
  simp only [e]

theorem Seeds.placedS_of_S (M : Seeds) (hV : M.Valid) {x : Nat} (hx : M.lv x)
    (hr : ¬ M.root x) (hl : lType M.t x = false) : M.placedS (M.slot x + 1) x := by
  cases x with
  | zero => simp [lType] at hl
  | succ w =>
    have hw := M.lv_pred hV hx hr
    refine ⟨by omega, by rw [Nat.add_sub_cancel]; exact hw, ?_⟩
    rw [Nat.add_sub_cancel]
    exact M.slot_succ_lt hV hx hw hl

theorem Seeds.IndS.keepS {M : Seeds} (_hV : M.Valid) {i : Nat} {sa : List Int}
    (h : M.IndS (i + 1) sa) (hi : i < M.t.length)
    (hno : ∀ y, M.lv (y + 1) → M.lv y → lType M.t (y + 1) = false → M.slot y ≠ i)
    (v : Int) (hv : ∀ x, M.lv x → M.slot x = i → v = (x : Int)) :
    M.IndS i (sa.set i v) := by
  have hlen := h.len
  refine ⟨by simpa using hlen, fun x hx hpl => ?_⟩
  have hpl' : lType M.t x = true ∨ M.placedS (i + 1) x := by
    rcases hpl with h1 | h1
    · exact Or.inl h1
    · cases hl : lType M.t x
      · right
        rcases (M.placedS_pred_iff i x).mp h1 with h2 | ⟨h2, h0, h3⟩
        · exact h2
        · obtain ⟨z, rfl⟩ : ∃ z, x = z + 1 := ⟨x - 1, by omega⟩
          exact absurd h3 (hno z hx h0 hl)
      · exact Or.inl rfl
  by_cases hxi : M.slot x = i
  · rw [hxi, List.getElem?_set_self (by omega), hv x hx hxi, if_pos (le_refl _)]
  · rw [List.getElem?_set_ne (fun hh => hxi hh.symm), h.hpos x hx hpl']
    have e : (i + 1 ≤ M.slot x) ↔ (i ≤ M.slot x) := by omega
    simp only [e]

theorem Seeds.IndS.putS {M : Seeds} (hV : M.Valid) {i : Nat} {sa : List Int}
    (h : M.IndS (i + 1) sa) {u : Nat} (hσ : M.slot u = i) (hx : M.lv (u + 1))
    (hu : M.lv u) (hl : lType M.t (u + 1) = false) :
    M.IndS i (sa.set (M.slot (u + 1)) (M.preS (u + 1))) := by
  have hlen := h.len
  have hsl : M.slot (u + 1) < i := by rw [← hσ]; exact M.slot_succ_lt hV hx hu hl
  have hsn : M.slot (u + 1) < M.t.length := M.slot_lt_length hV hx
  have hpu : M.preS u = (u : Int) := by
    unfold Seeds.preS
    rw [if_pos ⟨hx.1, hl⟩]
  refine ⟨by simpa using hlen, fun x hx' hpl => ?_⟩
  by_cases hx1 : x = u + 1
  · subst hx1
    rw [List.getElem?_set_self (by omega), if_neg (by omega)]
  · have hne : M.slot x ≠ M.slot (u + 1) := fun hh => hx1 (M.slot_injective hV hx' hx hh)
    have hpl' : lType M.t x = true ∨ M.placedS (i + 1) x := by
      rcases hpl with h1 | h1
      · exact Or.inl h1
      · right
        rcases (M.placedS_pred_iff i x).mp h1 with h2 | ⟨h2, h0, h3⟩
        · exact h2
        · exfalso
          have : x - 1 = u := M.slot_injective hV h0 hu (by omega)
          omega
    rw [List.getElem?_set_ne (fun hh => hne hh.symm), h.hpos x hx' hpl']
    by_cases hxi : M.slot x = i
    · have : x = u := M.slot_injective hV hx' hu (by omega)
      subst this
      rw [if_neg (by omega), if_pos (by omega), hpu]
    · have e : (i + 1 ≤ M.slot x) ↔ (i ≤ M.slot x) := by omega
      simp only [e]

/-- When every position takes part, every cell is the cell of a position. -/
theorem Seeds.slot_surj (M : Seeds) (hV : M.Valid) (hfull : ∀ x, x < M.t.length → M.lv x) (j : Nat)
    (hj : j < M.t.length) : ∃ x, M.lv x ∧ M.slot x = j := by
  have := Finset.surj_on_of_inj_on_of_card_le (s := Finset.range M.t.length)
    (t := Finset.range M.t.length) (fun a _ => M.slot a)
    (fun a ha => Finset.mem_range.mpr (M.slot_lt_length hV (hfull a (Finset.mem_range.mp ha))))
    (fun a b ha hb h => M.slot_injective hV (hfull a (Finset.mem_range.mp ha))
      (hfull b (Finset.mem_range.mp hb)) h)
    (le_refl _) j (Finset.mem_range.mpr hj)
  obtain ⟨a, ha, h⟩ := this
  exact ⟨a, hfull a (Finset.mem_range.mp ha), h.symm⟩

/-- One step of the right-to-left pass of `induce` returns and keeps the state of the
array and of the cursors. -/
theorem induceSStep_spec (M : Seeds) (hV : M.Valid) (hfull : ∀ x, x < M.t.length → M.lv x)
    (hnr : ∀ x, ¬ M.root x) (k : Nat) (hk : M.Sized k) (i : Nat) (hi : i < M.t.length) (st : IndSt)
    (hc : Cur k (M.curS (i + 1)) st.bkt st.b st.p) (hs : M.IndS (i + 1) st.sa) :
    ∃ st', induceSStep M.t st i = some st' ∧ Cur k (M.curS i) st'.bkt st'.b st'.p ∧
      M.IndS i st'.sa := by
  have hlen := hs.len
  obtain ⟨x, hx, hxi⟩ := M.slot_surj hV hfull i hi
  have hpl : lType M.t x = true ∨ M.placedS (i + 1) x := by
    cases hl : lType M.t x
    · right
      rw [← hxi]
      exact M.placedS_of_S hV hx (hnr x) hl
    · exact Or.inl rfl
  have hval := hs.hpos x hx hpl
  rw [hxi, if_neg (by omega)] at hval
  have huniq : ∀ w, M.lv w → M.slot w = i → w = x := fun w hw hwi =>
    M.slot_injective hV hw hx (by omega)
  by_cases hgo : x + 1 < M.t.length ∧ lType M.t (x + 1) = false
  · have hpre : M.preS x = (x : Int) := by unfold Seeds.preS; rw [if_pos hgo]
    rw [hpre] at hval
    have hx1 : M.lv (x + 1) := hfull _ hgo.1
    obtain ⟨h0, h1⟩ := M.sym_nonneg_lt hV hk (x + 1)
    obtain ⟨bkt', hsw, hcur⟩ := switchBkt_cur hc (sym M.t (x + 1)) h0 h1
    have hb : M.curS (i + 1) (sym M.t (x + 1)) = (M.slot (x + 1) : Int) + 1 := by
      have := M.curS_target hV hx1 (hnr _) hgo.2
      rw [hxi] at this
      omega
    rw [hb] at hsw hcur
    have hsn : M.slot (x + 1) < st.sa.length := by
      rw [hlen]
      exact M.slot_lt_length hV hx1
    refine ⟨_, induceSStep_pos x bkt' (M.slot (x + 1)) hval hgo.1 hsw hsn, ?_, ?_⟩
    · apply hcur.update
      · show (M.slot (x + 1) : Int) = M.curS i (sym M.t (x + 1))
        rw [← hxi, M.curS_pred_target hV hx1 hx hgo.2, if_pos rfl, hxi, hb]
        omega
      · intro c hcne
        rw [← hxi, M.curS_pred_target hV hx1 hx hgo.2, if_neg hcne, Int.sub_zero]
    · show M.IndS i _
      rw [M.preS_succ x hgo.2]
      exact hs.putS hV hxi hx1 hx hgo.2
  · have hpre : M.preS x = compl x := by unfold Seeds.preS; rw [if_neg hgo]
    rw [hpre] at hval
    have hno : ∀ y, M.lv (y + 1) → M.lv y → lType M.t (y + 1) = false → M.slot y ≠ i := by
      intro y hy hy0 hly hyi
      have := huniq y hy0 hyi
      subst this
      exact hgo ⟨hy.1, hly⟩
    refine ⟨_, induceSStep_neg hval (by unfold compl; omega), ?_, ?_⟩
    · exact hc.update _ (by rw [M.curS_pred_none i hno]; exact hc.2.2.2.1)
        (fun c _ => M.curS_pred_none i hno c)
    · apply hs.keepS hV hi hno
      intro w hw hwi
      rw [huniq w hw hwi]
      unfold compl
      omega

/-! ## The function `induce` -/

theorem hd_toNat (t : List Int) {c : Int} (h : 0 ≤ c) : hd t ((c.toNat : Nat) : Int) = hd t c := by
  rw [Int.toNat_of_nonneg h]

theorem setBktBeg_cur {t : List Int} {k : Nat} {hist bkt0 : List Int}
    (hh : histgram t k = some (hist, bkt0)) (bkt : List Int) (hb : bkt.length = k) :
    ∃ head, setBktBeg bkt hist = some head ∧ head.length = k ∧
      ∀ c : Int, 0 ≤ c → c < k → getI head c = some (hd t c : Int) := by
  obtain ⟨head, h1, h2, h3⟩ := setBktBeg_spec hh bkt hb
  refine ⟨head, h1, h2, fun c h0 hc => ?_⟩
  rw [getI_eq c.toNat (by omega), h3 c.toNat (by omega)]
  unfold hd
  rw [Int.toNat_of_nonneg h0]

theorem setBktEnd_cur {t : List Int} {k : Nat} {hist bkt0 : List Int}
    (hh : histgram t k = some (hist, bkt0)) (bkt : List Int) (hb : bkt.length = k) :
    ∃ tail, setBktEnd bkt hist = some tail ∧ tail.length = k ∧
      ∀ c : Int, 0 ≤ c → c < k → getI tail c = some (tl t c : Int) := by
  obtain ⟨tail, h1, h2, h3⟩ := setBktEnd_spec hh bkt hb
  refine ⟨tail, h1, h2, fun c h0 hc => ?_⟩
  rw [getI_eq c.toNat (by omega), h3 c.toNat (by omega)]
  unfold tl
  rw [Int.toNat_of_nonneg h0]

theorem lType_zero (t : List Int) : lType t 0 = true := rfl

theorem Seeds.rank_zero (M : Seeds) : rankIn (M.cls (ecode M.t 0)) M.K 0 = 0 := by
  unfold rankIn
  rw [Finset.card_eq_zero, Finset.filter_eq_empty_iff]
  intro y hy h
  rw [M.mem_cls] at hy
  obtain ⟨r, hr⟩ := M.K_head y
  rw [hr, hy.2, M.K_zero, cons_lt_cons_iff] at h
  rcases h with h | ⟨_, h⟩
  · exact lt_irrefl _ h
  · exact not_lt_nil_int _ h

theorem Seeds.slot_zero (M : Seeds) : M.slot 0 = hd M.t (sym M.t 0) := by
  unfold Seeds.slot Seeds.base
  rw [M.rank_zero, if_pos (lType_zero _), Nat.add_zero]

theorem Seeds.placedL_zero_iff (M : Seeds) (y : Nat) : M.placedL 0 y ↔ y = 0 := by
  unfold Seeds.placedL
  constructor
  · rintro (h | ⟨_, h⟩)
    · exact h
    · omega
  · exact Or.inl

theorem Seeds.curL_zero (M : Seeds) (hV : M.Valid) (c : Int) :
    M.curL 0 c = (hd M.t c : Int) + (if c = sym M.t 0 then 1 else 0) := by
  unfold Seeds.curL
  have : (M.cls (2 * c)).filter (fun y => M.placedL 0 y) =
      if c = sym M.t 0 then {0} else ∅ := by
    ext y
    rw [Finset.mem_filter, M.placedL_zero_iff, M.mem_cls]
    split
    · rename_i hc
      rw [Finset.mem_singleton]
      constructor
      · exact fun h => h.2
      · rintro rfl
        exact ⟨⟨hV.hlive0, by rw [ecode_of_L (lType_zero _), hc]⟩, rfl⟩
    · rename_i hc
      simp only [Finset.not_mem_empty, iff_false, not_and]
      rintro ⟨_, h⟩ rfl
      rw [ecode_of_L (lType_zero _)] at h
      omega
  rw [this]
  split <;> simp

theorem Seeds.curS_length (M : Seeds) (hV : M.Valid) (c : Int) :
    M.curS M.t.length c = (tl M.t c : Int) := by
  unfold Seeds.curS
  have : (M.cls (2 * c + 1)).filter (fun y => M.placedS M.t.length y) = ∅ := by
    rw [Finset.filter_eq_empty_iff]
    intro y hy h
    unfold Seeds.placedS at h
    have := M.slot_lt_length hV h.2.1
    omega
  rw [this]
  simp

theorem Seeds.IndPre.toPassL {M : Seeds} (hV : M.Valid) {raw vis : Nat → Int}
    (hraw : ∀ u, M.lv (u + 1) → cstart M.t u → raw u = (u : Int) + 1) {sa : List Int}
    (h : M.IndPre sa) :
    M.PassL raw vis 0 (sa.set (M.slot 0) (raw 0)) := by
  have hlen := h.len
  have h0 : M.srcL 0 := Or.inl ⟨lType_zero _, hV.hlive0⟩
  have hs0 : M.slot 0 < M.t.length := M.slot_lt_length hV hV.hlive0
  refine ⟨by simpa using hlen, fun u hu => ?_, fun j hj hnone => ?_⟩
  · rcases hu with ⟨hl, hu⟩ | ⟨hc, hu⟩
    · rw [M.sigma_of_L hl]
      by_cases hu0 : u = 0
      · subst hu0
        have hp : cstart M.t 0 ∨ M.placedL 0 0 := Or.inr (Or.inl rfl)
        rw [List.getElem?_set_self (by omega), if_pos hp, if_neg (by omega)]
      · have hne : M.slot u ≠ M.slot 0 := fun hh =>
          hu0 (M.slot_injective hV hu hV.hlive0 hh)
        rw [List.getElem?_set_ne (fun hh => hne hh.symm), if_neg]
        · apply h.hzero _ (M.slot_lt_length hV hu)
          intro y hy hcy hh
          exact M.g_ne_slot hV hy hcy hu hl hh
        · rintro (h1 | h1)
          · exact not_cstart_of_L hl h1
          · exact hu0 ((M.placedL_zero_iff u).mp h1)
    · have hne : M.g u ≠ M.slot 0 := M.g_ne_slot hV hu hc hV.hlive0 (lType_zero _)
      have hσ : M.sigma u = M.g u := by unfold Seeds.sigma; rw [if_pos hc]
      rw [hσ, List.getElem?_set_ne (fun hh => hne hh.symm), h.hseed u hu hc, if_pos (Or.inl hc),
        if_neg (by omega), hraw u hu hc]
  · have hne : j ≠ M.slot 0 := by
      have := hnone 0 h0
      rw [M.sigma_of_L (lType_zero _)] at this
      exact fun hh => this hh.symm
    rw [List.getElem?_set_ne (fun hh => hne hh.symm)]
    apply h.hzero j hj
    intro y hy hcy hh
    apply hnone y (Or.inr ⟨hcy, hy⟩)
    unfold Seeds.sigma
    rw [if_pos hcy, hh]

theorem Seeds.rawL_of_cstart (M : Seeds) (u : Nat) (hc : cstart M.t u) :
    M.rawL u = (u : Int) + 1 := by
  unfold Seeds.rawL
  rw [if_neg (M.not_succS_of_succ_L hc.1)]

theorem Seeds.PassL.toIndS {M : Seeds} (hV : M.Valid) {sa : List Int}
    (h : M.PassL M.rawL M.visL M.t.length sa) : M.IndS M.t.length sa := by
  refine ⟨h.len, fun x hx hpl => ?_⟩
  have hsl := M.slot_lt_length hV hx
  rcases hpl with hl | hpl
  · have := h.hsrc x (Or.inl ⟨hl, hx⟩)
    rw [M.sigma_of_L hl] at this
    have hp : cstart M.t x ∨ M.placedL M.t.length x := by
      right
      cases x with
      | zero => exact Or.inl rfl
      | succ w =>
        refine Or.inr ⟨by omega, ?_⟩
        rw [Nat.add_sub_cancel]
        exact M.sigma_lt_length hV (M.srcL_of_succ_L hV hx hl)
    rw [this, if_pos hp, if_pos hsl, if_neg (by omega), M.visL_eq_preS hl]
  · unfold Seeds.placedS at hpl
    have := M.slot_lt_length hV hpl.2.1
    omega

/-- The function `induce` returns, and puts every position in its cell. -/
theorem induce_spec (M : Seeds) (hV : M.Valid) (hfull : ∀ x, x < M.t.length → M.lv x)
    (hnr : ∀ x, ¬ M.root x) (k : Nat) (hk : M.Sized k) (hn : 2 ≤ M.t.length) {hist bkt0 : List Int}
    (hh : histgram M.t k = some (hist, bkt0)) (bkt : List Int) (hbl : bkt.length = k)
    (sa : List Int) (hpre : M.IndPre sa) (ms : Int) :
    ∃ sa', induce M.t sa bkt hist ms = some sa' ∧ sa'.length = M.t.length ∧
      ∀ x, M.lv x → sa'[M.slot x]? = some (x : Int) := by
  obtain ⟨head, hhead, hheadl, hheadc⟩ := setBktBeg_cur hh bkt hbl
  obtain ⟨p0, p1⟩ := M.sym_nonneg_lt hV hk 0
  have hs0 : M.slot 0 < sa.length := by rw [hpre.len]; exact M.slot_lt_length hV hV.hlive0
  have hraw : (if sym M.t 0 > sym M.t 1 then compl 0 else 1) = M.rawL 0 := by
    unfold Seeds.rawL Seeds.succS
    simp only [gt_iff_lt, Nat.zero_add, Nat.cast_zero, Int.zero_add]
    by_cases h1 : sym M.t 1 < sym M.t 0
    · rw [if_pos h1, if_pos ⟨by omega, h1⟩]
    · rw [if_neg h1, if_neg (fun hh => h1 hh.2)]
  -- the left-to-right pass
  have hL := foldlM_range_spec
    (fun i (st : IndSt) => Cur k (M.curL i) st.bkt st.b st.p ∧ M.PassL M.rawL M.visL i st.sa)
    (induceLStep M.t) M.t.length
    (fun i st hi hP => by
      obtain ⟨st', h1, h2, h3⟩ := induceLStep_spec M hV hfull k hk i hi st hP.1 hP.2
      exact ⟨st', h1, h2, h3⟩)
    { sa := sa.set (M.slot 0) (M.rawL 0), bkt := head, b := (M.slot 0 : Int) + 1,
      p := sym M.t 0 }
    ⟨⟨hheadl, p0, p1, by rw [M.curL_zero hV, if_pos rfl, M.slot_zero],
      fun c h0 h1 hne => by rw [M.curL_zero hV, if_neg hne, Int.add_zero]; exact hheadc c h0 h1⟩,
     hpre.toPassL hV (fun u _ hc => M.rawL_of_cstart u hc)⟩
  obtain ⟨st1, hf1, hc1, hi1⟩ := hL
  obtain ⟨tail, htail, htaill, htailc⟩ := setBktEnd_cur hh st1.bkt hc1.1
  have hk0 : (0 : Int) < k := by omega
  have hS := foldlM_range_rev_spec
    (fun e (st : IndSt) => Cur k (M.curS e) st.bkt st.b st.p ∧ M.IndS e st.sa)
    (induceSStep M.t) M.t.length
    (fun i st hi hP => by
      obtain ⟨st', h1, h2, h3⟩ := induceSStep_spec M hV hfull hnr k hk i hi st hP.1 hP.2
      exact ⟨st', h1, h2, h3⟩)
    { sa := st1.sa, bkt := tail, b := (tl M.t 0 : Int), p := 0 }
    ⟨⟨htaill, le_refl _, hk0, by rw [M.curS_length hV],
      fun c h0 h1 _ => by rw [M.curS_length hV]; exact htailc c h0 h1⟩,
     hi1.toIndS hV⟩
  obtain ⟨st2, hf2, _, hi2⟩ := hS
  refine ⟨st2.sa, ?_, hi2.len, fun x hx => ?_⟩
  · unfold induce
    simp only [Option.bind_eq_bind, hhead, Option.some_bind]
    rw [getI_sym_eq 0 (by simp) (by omega)]
    simp only [Option.some_bind]
    rw [hheadc _ p0 p1]
    simp only [Option.some_bind]
    rw [getI_sym_eq 1 (by simp) (by omega)]
    simp only [Option.some_bind]
    rw [hraw, ← M.slot_zero, setI_ofNat _ _ _ hs0]
    simp only [Option.some_bind, List.length_set, hpre.len, hf1, htail]
    rw [htailc 0 (le_refl _) hk0]
    simp only [Option.some_bind, hf2]
  · have := hi2.hpos x hx (by
      cases hl : lType M.t x
      · right
        cases x with
        | zero => simp [lType] at hl
        | succ w => exact ⟨by omega, M.lv_pred hV hx (hnr _), Nat.zero_le _⟩
      · exact Or.inl rfl)
    rw [this, if_pos (Nat.zero_le _)]

/-! ## With the seeds in key order, the cells are in key order -/

theorem rkey_head (t : List Int) (p : Nat) : ∃ r, rkey t p = sym t p :: r := by
  cases p with
  | zero => exact ⟨[], rfl⟩
  | succ p => exact ⟨rkey t p, rfl⟩

theorem rkey_lt_of_sym_lt (t : List Int) {a b : Nat} (h : sym t a < sym t b) :
    rkey t a < rkey t b := by
  obtain ⟨r1, h1⟩ := rkey_head t a
  obtain ⟨r2, h2⟩ := rkey_head t b
  rw [h1, h2]
  exact List.Lex.rel h

theorem rkey_lt_of_ecode_lt (t : List Int) {a b : Nat} (h : ecode t a < ecode t b) :
    rkey t a < rkey t b := by
  rw [ecode_lt_iff] at h
  rcases h with h | ⟨h1, h2, h3⟩
  · exact rkey_lt_of_sym_lt t h
  · exact rkey_lt_of_types t a b h2 h3 h1

theorem rkey_injective (t : List Int) {a b : Nat} (h : rkey t a = rkey t b) : a = b := by
  have := congrArg List.length h
  rw [rkey_length, rkey_length] at this
  omega

theorem SepOK.cstart_of_sep {t : List Int} {sep : Int} (h : SepOK t sep) {x : Nat}
    (hx : x < t.length) (hs : sym t x = sep) : cstart t x := (h.hseed x hx hs).1

theorem SepOK.not_sep_of_L {t : List Int} {sep : Int} (h : SepOK t sep) {x : Nat}
    (hl : lType t x = true) : sym t x ≠ sep := by
  intro hs
  by_cases hx : x < t.length
  · have := (h.cstart_of_sep hx hs).2
    rw [hl] at this
    exact Bool.noConfusion this
  · rw [sym_of_ge t x (by omega)] at hs
    exact h.hne hs.symm

theorem SepOK.sep_pos {t : List Int} {sep : Int} (h : SepOK t sep) {x : Nat}
    (hx : x < t.length) (hs : sym t x = sep) : 1 ≤ x := by
  cases x with
  | zero => exact absurd hs (h.not_sep_of_L (lType_zero t))
  | succ x => omega

theorem cstart_iff (t : List Int) (q : Nat) :
    cstart t q ↔ lType t q = false ∧ sym t q < sym t (q + 1) := by
  unfold cstart
  rw [lType_iff]
  constructor
  · rintro ⟨h1 | ⟨_, h1⟩, h2⟩
    · exact ⟨h2, h1⟩
    · rw [h2] at h1
      exact Bool.noConfusion h1
  · rintro ⟨h1, h2⟩
    exact ⟨Or.inl h2, h1⟩

/-! ## The keys with the separators told apart -/

theorem dsym_of_sep {t : List Int} {sep : Int} {x : Nat} (h : sym t x = sep) :
    dsym t sep x = (x : Int) - (t.length : Int) := by
  unfold dsym
  rw [if_pos h]

theorem dsym_of_ne {t : List Int} {sep : Int} {x : Nat} (h : sym t x ≠ sep) :
    dsym t sep x = sym t x := by
  unfold dsym
  rw [if_neg h]

theorem dkey_head (t : List Int) (sep : Int) (p : Nat) :
    ∃ r, dkey t sep p = dsym t sep p :: r := by
  cases p with
  | zero => exact ⟨[], rfl⟩
  | succ p => exact ⟨dkey t sep p, rfl⟩

theorem dkey_length (t : List Int) (sep : Int) (p : Nat) : (dkey t sep p).length = p + 1 := by
  induction p with
  | zero => rfl
  | succ p ih => simp [dkey, ih]

theorem dkey_injective (t : List Int) (sep : Int) {a b : Nat}
    (h : dkey t sep a = dkey t sep b) : a = b := by
  have := congrArg List.length h
  rw [dkey_length, dkey_length] at this
  omega

/-- Without separators the keys are the reversed prefixes of the text. -/
theorem dkey_eq_rkey (t : List Int) (sep : Int) (h : ∀ x, sym t x ≠ sep) (p : Nat) :
    dkey t sep p = rkey t p := by
  induction p with
  | zero => simp [dkey, rkey, dsym_of_ne (h 0)]
  | succ p ih => simp [dkey, rkey, dsym_of_ne (h (p + 1)), ih]

theorem dsym_lt_of_sym_lt {t : List Int} {sep : Int} (hS : SepOK t sep)
    (hsym : ∀ x, 0 ≤ sym t x) {a b : Nat} (ha : a < t.length) (h : sym t a < sym t b) :
    dsym t sep a < dsym t sep b := by
  have h1 := hS.hmin a ha
  have h2 := hsym b
  rw [dsym_of_ne (show sym t b ≠ sep by omega)]
  by_cases hs : sym t a = sep
  · rw [dsym_of_sep hs]
    omega
  · rw [dsym_of_ne hs]
    exact h

theorem dsym_eq_of_sym_eq {t : List Int} {sep : Int} {a b : Nat} (h : sym t a = sym t b)
    (hs : sym t a ≠ sep) : dsym t sep a = dsym t sep b := by
  rw [dsym_of_ne hs, dsym_of_ne (by rw [← h]; exact hs), h]

theorem dsym_lt_of_sep_lt {t : List Int} {sep : Int} {a b : Nat} (ha : sym t a = sep)
    (hb : sym t b = sep) (h : a < b) : dsym t sep a < dsym t sep b := by
  rw [dsym_of_sep ha, dsym_of_sep hb]
  omega

theorem dkey_lt_of_dsym_lt (t : List Int) (sep : Int) {a b : Nat}
    (h : dsym t sep a < dsym t sep b) : dkey t sep a < dkey t sep b := by
  obtain ⟨r1, h1⟩ := dkey_head t sep a
  obtain ⟨r2, h2⟩ := dkey_head t sep b
  rw [h1, h2]
  exact List.Lex.rel h

theorem dkey_lt_of_sym_lt {t : List Int} {sep : Int} (hS : SepOK t sep)
    (hsym : ∀ x, 0 ≤ sym t x) {a b : Nat} (ha : a < t.length) (h : sym t a < sym t b) :
    dkey t sep a < dkey t sep b :=
  dkey_lt_of_dsym_lt t sep (dsym_lt_of_sym_lt hS hsym ha h)

/-- Among the positions with the same symbol, the L-type ones have the smaller keys. -/
theorem dkey_lt_of_types {t : List Int} {sep : Int} (hS : SepOK t sep)
    (hsym : ∀ x, 0 ≤ sym t x) : ∀ (p q : Nat), p < t.length → lType t p = true →
      lType t q = false → sym t p = sym t q → dkey t sep p < dkey t sep q := by
  intro p
  induction p with
  | zero =>
    intro q _ hp hq hs
    cases q with
    | zero => simp [lType] at hq
    | succ q =>
      simp only [dkey, cons_lt_cons_iff]
      refine Or.inr ⟨dsym_eq_of_sym_eq hs (hS.not_sep_of_L hp), ?_⟩
      cases q <;> exact nil_lt_cons_int _ _
  | succ p ih =>
    intro q hpn hp hq hs
    cases q with
    | zero => simp [lType] at hq
    | succ q =>
      simp only [dkey, cons_lt_cons_iff]
      refine Or.inr ⟨dsym_eq_of_sym_eq hs (hS.not_sep_of_L hp), ?_⟩
      have hp' := (lType_iff t p).mp hp
      have hq' := (lType_false_iff t q).mp hq
      have hlt : sym t p < sym t q → dkey t sep p < dkey t sep q :=
        fun hab => dkey_lt_of_sym_lt hS hsym (by omega) hab
      rcases hp' with hp' | ⟨hp1, hp2⟩
      · rcases hq' with hq' | ⟨hq1, _⟩
        · exact hlt (by omega)
        · exact hlt (by omega)
      · rcases hq' with hq' | ⟨hq1, hq2⟩
        · exact hlt (by omega)
        · exact ih q (by omega) hp2 hq2 (by omega)

theorem dkey_lt_of_ecode_lt {t : List Int} {sep : Int} (hS : SepOK t sep)
    (hsym : ∀ x, 0 ≤ sym t x) {a b : Nat} (ha : a < t.length)
    (h : ecode t a < ecode t b) : dkey t sep a < dkey t sep b := by
  rw [ecode_lt_iff] at h
  rcases h with h | ⟨h1, h2, h3⟩
  · exact dkey_lt_of_sym_lt hS hsym ha h
  · exact dkey_lt_of_types hS hsym a b ha h2 h3 h1

theorem Seeds.sepOK (M : Seeds) (hV : M.Valid) (hm : M.SepMin) : SepOK M.t M.sep :=
  ⟨hV.hsep, hm, fun x hx hs => ⟨(hV.hroot x hx hs).1, (hV.hroot x hx hs).2.2.1.1⟩⟩

/-! ## With the seeds in key order, the cells are in key order -/

theorem Seeds.K_lt_imp_dkey_lt (M : Seeds) (hV : M.Valid) (hm : M.SepMin) (hO : M.Ordered) :
    ∀ (u v : Nat), M.lv u → M.lv v → M.K u < M.K v →
      dkey M.t M.sep u < dkey M.t M.sep v := by
  have hS := M.sepOK hV hm
  have hsym := hV.hsym
  have hroot : ∀ a b, M.lv (a + 1) → M.lv b → M.root (a + 1) → M.K (a + 1) < M.K b →
      dkey M.t M.sep (a + 1) < dkey M.t M.sep b := by
    intro a b ha hb hr h
    have hra := hV.hroot (a + 1) ha.1 hr
    rw [M.K_root a hr] at h
    cases b with
    | zero =>
      rw [M.K_zero, cons_lt_cons_iff] at h
      rcases h with h | ⟨_, h⟩
      · exact dkey_lt_of_ecode_lt hS hsym ha.1 h
      · exact absurd h (not_lt_nil_int _)
    | succ b =>
      by_cases hrb : M.root (b + 1)
      · have hrbv := hV.hroot (b + 1) hb.1 hrb
        rw [M.K_root b hrb, cons_lt_cons_iff] at h
        rcases h with h | ⟨_, h⟩
        · exact dkey_lt_of_ecode_lt hS hsym ha.1 h
        · rw [cons_lt_cons_iff] at h
          rcases h with h | ⟨_, h⟩
          · apply hO (a + 1) (b + 1) hra.2.2.1 hrbv.2.2.1 hra.1 hrbv.1
            · have h1 : sym M.t (a + 1) = M.sep := hr
              have h2 : sym M.t (b + 1) = M.sep := hrb
              rw [h1, h2]
            · unfold Seeds.sr at h
              omega
          · exact absurd h (not_lt_nil_int _)
      · rw [M.K_succ b hrb, cons_lt_cons_iff] at h
        rcases h with h | ⟨he, _⟩
        · exact dkey_lt_of_ecode_lt hS hsym ha.1 h
        · exact absurd (M.root_of_ecode_eq he hr) hrb
  intro u
  induction u with
  | zero =>
    intro v hu _ h
    cases v with
    | zero => exact absurd h (lt_irrefl _)
    | succ v =>
      obtain ⟨r, hr⟩ := M.K_head (v + 1)
      rw [M.K_zero, hr, cons_lt_cons_iff] at h
      rcases h with h | ⟨h, _⟩
      · exact dkey_lt_of_ecode_lt hS hsym hu.1 h
      · show [dsym M.t M.sep 0] < dsym M.t M.sep (v + 1) :: dkey M.t M.sep v
        rw [dsym_eq_of_sym_eq ((ecode_eq_iff _ _ _).mp h).1 (hS.not_sep_of_L (lType_zero _))]
        obtain ⟨r, hr⟩ := dkey_head M.t M.sep v
        rw [hr]
        exact List.Lex.cons List.Lex.nil
  | succ u ih =>
    intro v hu hv h
    by_cases hru : M.root (u + 1)
    · exact hroot u v hu hv hru h
    · cases v with
      | zero =>
        rw [M.K_zero, M.K_succ u hru, cons_lt_cons_iff] at h
        rcases h with h | ⟨_, h⟩
        · exact dkey_lt_of_ecode_lt hS hsym hu.1 h
        · exact absurd h (not_lt_nil_int _)
      | succ v =>
        by_cases hrv : M.root (v + 1)
        · rw [M.K_succ u hru, M.K_root v hrv, cons_lt_cons_iff] at h
          rcases h with h | ⟨he, _⟩
          · exact dkey_lt_of_ecode_lt hS hsym hu.1 h
          · exact absurd (M.root_of_ecode_eq he.symm hrv) hru
        · have hu0 := M.lv_pred hV hu hru
          have hv0 := M.lv_pred hV hv hrv
          rw [M.K_succ u hru, M.K_succ v hrv, cons_lt_cons_iff] at h
          rcases h with h | ⟨he, h⟩
          · exact dkey_lt_of_ecode_lt hS hsym hu.1 h
          · obtain ⟨hsy, hty⟩ := (ecode_eq_iff _ _ _).mp he
            show dsym M.t M.sep (u + 1) :: dkey M.t M.sep u <
              dsym M.t M.sep (v + 1) :: dkey M.t M.sep v
            rw [dsym_eq_of_sym_eq hsy hru]
            apply List.Lex.cons
            unfold Seeds.tk at h
            by_cases hcu : cstart M.t u
            · by_cases hcv : cstart M.t v
              · rw [if_pos hcu, if_pos hcv, cons_lt_cons_iff, cons_lt_cons_iff] at h
                rcases h with h | ⟨h1, h2⟩
                · exact dkey_lt_of_sym_lt hS hsym hu0.1 (by omega)
                · rcases h2 with h2 | ⟨_, h2⟩
                  · apply hO u v hu hv hcu hcv (by omega)
                    unfold Seeds.sr at h2
                    omega
                  · exact absurd h2 (not_lt_nil_int _)
              · rw [if_pos hcu, if_neg hcv] at h
                obtain ⟨r, hr⟩ := M.K_head v
                rw [hr, cons_lt_cons_iff] at h
                rcases h with h | ⟨h, _⟩
                · unfold ecode at h
                  split at h <;> exact dkey_lt_of_sym_lt hS hsym hu0.1 (by omega)
                · exfalso
                  apply hcv
                  have hsv : lType M.t v = false := by
                    cases hlv : lType M.t v
                    · rfl
                    · rw [ecode_of_L hlv] at h
                      omega
                  refine ⟨?_, hsv⟩
                  rw [← hty]
                  exact hcu.1
            · rw [if_neg hcu] at h
              by_cases hcv : cstart M.t v
              · rw [if_pos hcv] at h
                obtain ⟨r, hr⟩ := M.K_head u
                rw [hr, cons_lt_cons_iff] at h
                rcases h with h | ⟨h, _⟩
                · apply dkey_lt_of_ecode_lt hS hsym hu0.1
                  rw [ecode_of_S hcv.2]
                  exact h
                · exfalso
                  apply hcu
                  have hsu : lType M.t u = false := by
                    cases hlu : lType M.t u
                    · rfl
                    · rw [ecode_of_L hlu] at h
                      omega
                  refine ⟨?_, hsu⟩
                  rw [hty]
                  exact hcv.1
              · rw [if_neg hcv] at h
                exact ih v hu0 hv0 h

/-- The cells are in the order of the keys. -/
theorem Seeds.slot_lt_iff_dkey (M : Seeds) (hV : M.Valid) (hm : M.SepMin) (hO : M.Ordered)
    {u v : Nat} (hu : M.lv u) (hv : M.lv v) :
    M.slot u < M.slot v ↔ dkey M.t M.sep u < dkey M.t M.sep v := by
  rw [M.slot_lt_iff hV hu hv]
  constructor
  · exact M.K_lt_imp_dkey_lt hV hm hO u v hu hv
  · intro h
    rcases lt_trichotomy (M.K u) (M.K v) with h1 | h1 | h1
    · exact h1
    · rw [M.K_injective hV u v hu hv h1] at h
      exact absurd h (lt_irrefl _)
    · exact absurd (lt_trans h (M.K_lt_imp_dkey_lt hV hm hO v u hv hu h1)) (lt_irrefl _)

/-! ## The seeds of `findLMS` -/

theorem cntLt_succ (t : List Int) (i : Nat) (c : Int) :
    cntLt t (i + 1) c = cntLt t i c + (if cstart t i ∧ sym t i = c then 1 else 0) := by
  unfold cntLt
  rw [Finset.range_succ, Finset.filter_insert]
  split
  · rw [Finset.card_insert_of_not_mem]
    intro h
    have := Finset.mem_range.mp (Finset.mem_filter.mp h).1
    omega
  · rfl

theorem mLt_succ (t : List Int) (i : Nat) :
    mLt t (i + 1) = mLt t i + (if cstart t i then 1 else 0) := by
  unfold mLt
  rw [Finset.range_succ, Finset.filter_insert]
  split
  · rw [Finset.card_insert_of_not_mem]
    intro h
    have := Finset.mem_range.mp (Finset.mem_filter.mp h).1
    omega
  · rfl

theorem cntLt_mono (t : List Int) {i j : Nat} (h : i ≤ j) (c : Int) : cntLt t i c ≤ cntLt t j c := by
  unfold cntLt
  apply Finset.card_le_card
  apply Finset.filter_subset_filter
  intro x hx
  rw [Finset.mem_range] at hx ⊢
  omega

theorem cntLt_le_count (t : List Int) {i : Nat} (h : i ≤ t.length) (c : Int) :
    cntLt t i c ≤ t.count c := by
  rw [← card_filter_sym]
  unfold cntLt
  apply Finset.card_le_card
  intro x hx
  rw [Finset.mem_filter, Finset.mem_range] at hx ⊢
  exact ⟨by omega, hx.2.2⟩

theorem cntLt_le_tl (t : List Int) {i : Nat} (h : i ≤ t.length) (c : Int) :
    cntLt t i c ≤ tl t c := by
  have := cntLt_le_count t h c
  have := tl_eq t c
  omega

theorem mLt_eq_zero (t : List Int) {i : Nat} (h : mLt t i = 0) : ∀ y, y < i → ¬ cstart t y := by
  intro y hy hc
  unfold mLt at h
  rw [Finset.card_eq_zero, Finset.filter_eq_empty_iff] at h
  exact h (Finset.mem_range.mpr hy) hc

theorem cntLt_pos (t : List Int) {q : Nat} (hc : cstart t q) : 0 < cntLt t (q + 1) (sym t q) := by
  rw [cntLt_succ, if_pos ⟨hc, rfl⟩]
  omega

theorem prevS_le (t : List Int) : ∀ q, prevS t q ≤ q := by
  intro q
  induction q with
  | zero => exact le_refl _
  | succ q ih =>
    rw [prevS]
    split <;> omega

theorem prevS_spec (t : List Int) : ∀ q, (mLt t q = 0 → prevS t q = 0) ∧
    (0 < mLt t q → cstart t (prevS t q) ∧ prevS t q < q ∧ mLt t (prevS t q) + 1 = mLt t q) := by
  intro q
  induction q with
  | zero => exact ⟨fun _ => rfl, fun h => by simp [mLt] at h⟩
  | succ q ih =>
    rw [prevS, mLt_succ]
    by_cases hc : cstart t q
    · rw [if_pos hc, if_pos hc]
      exact ⟨fun h => by omega, fun _ => ⟨hc, by omega, rfl⟩⟩
    · rw [if_neg hc, if_neg hc, Nat.add_zero]
      exact ⟨ih.1, fun h => ⟨(ih.2 h).1, by have := (ih.2 h).2.1; omega, (ih.2 h).2.2⟩⟩

theorem mLt_eq_one (t : List Int) {i ql : Nat} (h : mLt t i = 1) (hql : ql < i)
    (hc : cstart t ql) : ∀ y, y < i → cstart t y → y = ql := by
  intro y hy hcy
  unfold mLt at h
  rw [Finset.card_eq_one] at h
  obtain ⟨a, ha⟩ := h
  have h1 : ql ∈ (Finset.range i).filter (fun y => cstart t y) :=
    Finset.mem_filter.mpr ⟨Finset.mem_range.mpr hql, hc⟩
  have h2 : y ∈ (Finset.range i).filter (fun y => cstart t y) :=
    Finset.mem_filter.mpr ⟨Finset.mem_range.mpr hy, hcy⟩
  rw [ha, Finset.mem_singleton] at h1 h2
  omega

theorem mLt_pos (t : List Int) {i ql : Nat} (hql : ql < i) (hc : cstart t ql) : 0 < mLt t i := by
  unfold mLt
  rw [Finset.card_pos]
  exact ⟨ql, Finset.mem_filter.mpr ⟨Finset.mem_range.mpr hql, hc⟩⟩

theorem prevS_lt (t : List Int) {z : Nat} (h : cstart t (prevS t z)) : prevS t z < z := by
  cases z with
  | zero =>
    exfalso
    have := h.2
    simp [prevS, lType] at this
  | succ z =>
    have := prevS_le t z
    rw [prevS]
    split <;> omega

theorem prevS_succ_of_cstart (t : List Int) {q : Nat} (h : cstart t q) : prevS t (q + 1) = q := by
  rw [prevS, if_pos h]

theorem prevS_succ_of_not (t : List Int) {q : Nat} (h : ¬ cstart t q) :
    prevS t (q + 1) = prevS t q := by
  rw [prevS, if_neg h]

theorem mem_sym (t : List Int) {c : Int} (h : c ∈ t) : ∃ x, x < t.length ∧ sym t x = c := by
  obtain ⟨i, hi, rfl⟩ := List.mem_iff_getElem.mp h
  refine ⟨i, hi, ?_⟩
  unfold sym
  rw [List.getD_eq_getElem?_getD, List.getElem?_eq_getElem hi]
  rfl

theorem sepOf_iff (rec : Bool) {p : Int} (hp : 0 ≤ p) :
    (rec = false ∧ p = separator) ↔ p = sepOf rec := by
  unfold sepOf separator
  cases rec
  · simp
  · simp
    omega

theorem SepOK.hd_sep {t : List Int} {sep : Int} (h : SepOK t sep) : hd t sep = 0 := by
  unfold hd
  rw [List.countP_eq_zero]
  intro c hc
  obtain ⟨x, hx, rfl⟩ := mem_sym t hc
  have := h.hmin x hx
  simp only [decide_eq_true_eq]
  omega

theorem SepOK.tl_zero {t : List Int} {sep : Int} (h : SepOK t sep) (hs : 0 < sep) :
    tl t 0 = 0 := by
  unfold tl
  rw [List.countP_eq_zero]
  intro c hc
  obtain ⟨x, hx, rfl⟩ := mem_sym t hc
  have := h.hmin x hx
  simp only [decide_eq_true_eq]
  omega

theorem SepOK.hd_of_lt {t : List Int} {sep : Int} (h : SepOK t sep) {c : Int} (hc : c ≤ sep) :
    hd t c = 0 := by
  unfold hd
  rw [List.countP_eq_zero]
  intro d hd'
  obtain ⟨x, hx, rfl⟩ := mem_sym t hd'
  have := h.hmin x hx
  simp only [decide_eq_true_eq]
  omega

theorem cntLt_lt_of_lt (t : List Int) {x y : Nat} (h : x < y) (hc : cstart t x) :
    cntLt t x (sym t x) < cntLt t y (sym t x) := by
  have h1 := cntLt_mono t (show x + 1 ≤ y from h) (sym t x)
  have h2 := cntLt_succ t x (sym t x)
  rw [if_pos ⟨hc, rfl⟩] at h2
  omega

/-! ## The cells of the seeds -/

theorem gF_sep (t : List Int) {sep : Int} {q : Nat} (h : sym t q = sep) :
    gF t sep q = cntLt t q sep := by
  unfold gF
  rw [if_pos h]

theorem gF_reg (t : List Int) {sep : Int} {q : Nat} (h : sym t q ≠ sep) :
    gF t sep q = tl t (sym t q) - cntLt t (q + 1) (sym t q) := by
  unfold gF
  rw [if_neg h]

theorem gF_cast (t : List Int) {sep : Int} {q : Nat} (h : sym t q ≠ sep) (hq : q + 1 ≤ t.length) :
    (gF t sep q : Int) = (tl t (sym t q) : Int) - (cntLt t (q + 1) (sym t q) : Int) := by
  rw [gF_reg t h]
  have := cntLt_le_tl t hq (sym t q)
  omega

theorem gF_bucket (t : List Int) {sep : Int} (hS : SepOK t sep) {q : Nat}
    (hq : q + 1 ≤ t.length) (hc : cstart t q) :
    hd t (sym t q) ≤ gF t sep q ∧ gF t sep q < tl t (sym t q) := by
  have h1 := cntLt_le_count t hq (sym t q)
  have h2 := tl_eq t (sym t q)
  have h3 := cntLt_succ t q (sym t q)
  rw [if_pos ⟨hc, rfl⟩] at h3
  by_cases hs : sym t q = sep
  · rw [gF_sep t hs]
    have := hS.hd_sep
    rw [← hs] at this ⊢
    omega
  · rw [gF_reg t hs]
    omega

theorem gF_lt_length (t : List Int) {sep : Int} (hS : SepOK t sep) {q : Nat}
    (hq : q + 1 ≤ t.length) (hc : cstart t q) : gF t sep q < t.length := by
  have := gF_bucket t hS hq hc
  have := tl_le_length t (sym t q)
  omega

theorem gF_injective (t : List Int) {sep : Int} (hS : SepOK t sep) {x y : Nat}
    (hx : x + 1 ≤ t.length) (hy : y + 1 ≤ t.length)
    (hcx : cstart t x) (hcy : cstart t y) (h : gF t sep x = gF t sep y) : x = y := by
  have bx := gF_bucket t hS hx hcx
  have b_y := gF_bucket t hS hy hcy
  rcases lt_trichotomy (sym t x) (sym t y) with h1 | h1 | h1
  · have := tl_le_hd t h1
    omega
  · by_cases hs : sym t x = sep
    · have hs2 : sym t y = sep := by rw [← h1, hs]
      rw [gF_sep t hs, gF_sep t hs2] at h
      rcases lt_trichotomy x y with h2 | h2 | h2
      · have := cntLt_lt_of_lt t h2 hcx
        rw [hs] at this
        omega
      · exact h2
      · have := cntLt_lt_of_lt t h2 hcy
        rw [hs2] at this
        omega
    · have hs2 : sym t y ≠ sep := by rw [← h1]; exact hs
      have e1 := gF_cast t hs hx
      have e2 := gF_cast t hs2 hy
      rw [h1] at e1
      rcases lt_trichotomy x y with h2 | h2 | h2
      · have := cntLt_mono t (show x + 1 ≤ y from h2) (sym t y)
        have h3 := cntLt_succ t y (sym t y)
        rw [if_pos ⟨hcy, rfl⟩] at h3
        omega
      · exact h2
      · have := cntLt_mono t (show y + 1 ≤ x from h2) (sym t y)
        have h3 := cntLt_succ t x (sym t y)
        rw [if_pos ⟨hcx, h1⟩] at h3
        omega
  · have := tl_le_hd t h1
    omega

/-! ## The seeds that `findLMS` has written -/

theorem wrF_succ_of_not (t : List Int) (sep : Int) {q : Nat} (hc : ¬ cstart t q) (y : Nat) :
    wrF t sep (q + 1) y ↔ wrF t sep q y := by
  unfold wrF
  constructor
  · rintro ⟨h1, h2, h3⟩
    have hy : y ≠ q := fun h => hc (h ▸ h1)
    refine ⟨h1, by omega, ?_⟩
    rcases h3 with h3 | ⟨z, hz, h4⟩
    · exact Or.inl h3
    · have hzq : z ≠ q := fun h => hc (h ▸ h4.1)
      exact Or.inr ⟨z, by omega, h4⟩
  · rintro ⟨h1, h2, h3⟩
    refine ⟨h1, by omega, ?_⟩
    rcases h3 with h3 | ⟨z, hz, h4⟩
    · exact Or.inl h3
    · exact Or.inr ⟨z, by omega, h4⟩

theorem wrF_succ_sep (t : List Int) {sep : Int} {q : Nat} (hc : cstart t q)
    (hs : sym t q = sep) (y : Nat) :
    wrF t sep (q + 1) y ↔ wrF t sep q y ∨ y = q := by
  unfold wrF
  constructor
  · rintro ⟨h1, h2, h3⟩
    by_cases hy : y = q
    · exact Or.inr hy
    · left
      refine ⟨h1, by omega, ?_⟩
      rcases h3 with h3 | ⟨z, hz, h4⟩
      · exact Or.inl h3
      · have hzq : z ≠ q := fun h => h4.2.1 (h ▸ hs)
        exact Or.inr ⟨z, by omega, h4⟩
  · rintro (⟨h1, h2, h3⟩ | rfl)
    · refine ⟨h1, by omega, ?_⟩
      rcases h3 with h3 | ⟨z, hz, h4⟩
      · exact Or.inl h3
      · exact Or.inr ⟨z, by omega, h4⟩
    · exact ⟨hc, by omega, Or.inl hs⟩

theorem wrF_succ_reg (t : List Int) {sep : Int} {q : Nat} (hc : cstart t q)
    (hs : sym t q ≠ sep) (y : Nat) :
    wrF t sep (q + 1) y ↔ wrF t sep q y ∨ (y = prevS t q ∧ cstart t y) := by
  unfold wrF
  constructor
  · rintro ⟨h1, h2, h3⟩
    rcases h3 with h3 | ⟨z, hz, h4⟩
    · have hy : y ≠ q := fun h => hs (h ▸ h3)
      exact Or.inl ⟨h1, by omega, Or.inl h3⟩
    · by_cases hzq : z = q
      · subst hzq
        exact Or.inr ⟨h4.2.2.symm, h1⟩
      · have hlt : y < z := by
          have := prevS_lt t (z := z) (by rw [h4.2.2]; exact h1)
          omega
        exact Or.inl ⟨h1, by omega, Or.inr ⟨z, by omega, h4⟩⟩
  · rintro (⟨h1, h2, h3⟩ | ⟨rfl, h1⟩)
    · refine ⟨h1, by omega, ?_⟩
      rcases h3 with h3 | ⟨z, hz, h4⟩
      · exact Or.inl h3
      · exact Or.inr ⟨z, by omega, h4⟩
    · have := prevS_lt t h1
      exact ⟨h1, by omega, Or.inr ⟨q, by omega, hc, hs, rfl⟩⟩

theorem wrF_zero (t : List Int) (sep : Int) (y : Nat) : ¬ wrF t sep 0 y := by
  unfold wrF
  rintro ⟨_, h, _⟩
  omega

theorem wrF_cstart {t : List Int} {sep : Int} {lim y : Nat} (h : wrF t sep lim y) :
    cstart t y ∧ y < lim := ⟨h.1, h.2.1⟩

/-! ## The loop of `findLMS` -/

theorem findStep_lms {t : List Int} {rec : Bool} {st : FindSt} {i : Nat} (hi : i < t.length)
    (hs : st.s = true) (hp : st.p < sym t i) (hsep : ¬ (rec = false ∧ st.p = separator))
    (sa' : List Int)
    (hsa : (if st.lms ≥ 0 then setI st.sa st.lms st.l else some st.sa) = some sa')
    (v : Int) (hv : getI st.bkt st.p = some v) :
    findStep t rec st i = some { st with m := st.m + 1, sa := sa', lms := v - 1, l := i,
                                         bkt := st.bkt.set st.p.toNat (v - 1), s := false,
                                         p := sym t i } := by
  unfold findStep
  rw [getI_sym t i hi]
  simp only [Option.bind_eq_bind, Option.some_bind]
  rw [if_pos ⟨hs, hp⟩, if_neg hsep, hsa]
  simp only [Option.some_bind, hv]
  have := getI_lt hv
  rw [setI_eq st.p.toNat _ (by omega) this.2]
  rfl

theorem findStep_other {t : List Int} {rec : Bool} {st : FindSt} {i : Nat} (hi : i < t.length)
    (h : ¬ (st.s = true ∧ st.p < sym t i)) :
    findStep t rec st i = some { st with s := (if st.p > sym t i then true else st.s),
                                         p := sym t i } := by
  unfold findStep
  rw [getI_sym t i hi]
  simp only [Option.bind_eq_bind, Option.some_bind]
  rw [if_neg h]
  split <;> rfl

theorem findStep_sep {t : List Int} {rec : Bool} {st : FindSt} {i : Nat} (hi : i < t.length)
    (hs : st.s = true) (hp : st.p < sym t i) (hsep : rec = false ∧ st.p = separator)
    (j : Nat) (hj : st.sbkt = (j : Int)) (hjl : j < st.sa.length) :
    findStep t rec st i = some { st with m := st.m + 1, sa := st.sa.set j (i : Int), lms := -1,
                                         sbkt := st.sbkt + 1, ms := st.ms + 1, s := false,
                                         p := sym t i } := by
  unfold findStep
  rw [getI_sym t i hi]
  simp only [Option.bind_eq_bind, Option.some_bind]
  rw [if_pos ⟨hs, hp⟩, if_pos hsep, setI_eq j _ hj hjl]
  rfl

theorem sepOf_pos {rec : Bool} (h : rec = false) : 0 < sepOf rec := by
  rw [h]
  decide

theorem cntLt_succ_ne (t : List Int) {q : Nat} {c : Int} (h : sym t q ≠ c) :
    cntLt t (q + 1) c = cntLt t q c := by
  rw [cntLt_succ, if_neg (fun hh => h hh.2), Nat.add_zero]

theorem findStep_spec (t : List Int) (k : Nat) (hsym : ∀ x, 0 ≤ sym t x ∧ sym t x < k)
    (rec : Bool) (hS : SepOK t (sepOf rec)) (q : Nat) (hq : q + 1 < t.length)
    (st : FindSt) (h : FindI t k (sepOf rec) q st) :
    ∃ st', findStep t rec st (q + 1) = some st' ∧ FindI t k (sepOf rec) (q + 1) st' := by
  by_cases hc : cstart t q
  · obtain ⟨hc1, hc2⟩ := (cstart_iff t q).mp hc
    have hs : st.s = true := by rw [h.hs, hc1]; rfl
    have hp : st.p < sym t (q + 1) := by rw [h.hp]; exact hc2
    obtain ⟨p0, p1⟩ := hsym q
    have hmm := mLt_succ t q
    rw [if_pos hc] at hmm
    have hprev := prevS_succ_of_cstart t hc
    have hqlt := gF_lt_length t hS (show q + 1 ≤ t.length by omega) hc
    by_cases hsq : sym t q = sepOf rec
    · have hcode : rec = false ∧ st.p = separator :=
        (sepOf_iff rec (by rw [h.hp]; exact p0)).mpr (by rw [h.hp]; exact hsq)
      have htl0 := hS.tl_zero (sepOf_pos hcode.1)
      have hgq := gF_sep t hsq
      have hcnt := cntLt_succ t q (sepOf rec)
      rw [if_pos ⟨hc, hsq⟩] at hcnt
      refine ⟨_, findStep_sep hq hs hp hcode (cntLt t q (sepOf rec))
        (by rw [h.hsb, htl0]; simp) (by rw [h.hlen, ← hgq]; exact hqlt), ?_⟩
      refine ⟨rfl, ?_, ?_, ?_, ?_, h.hbl, ?_, by simpa using h.hlen, ?_, ?_, ?_⟩
      · show false = !lType t (q + 1)
        rw [hc.1]
        rfl
      · show st.ms + 1 = _
        rw [h.hms, hcnt]
        push_cast
        rfl
      · show st.sbkt + 1 = _
        rw [h.hsb, hcnt]
        push_cast
        ring
      · show st.m + 1 = _
        rw [h.hm, hmm]
        push_cast
        rfl
      · intro c c0 c1
        show getI st.bkt c = _
        rw [h.hb c c0 c1]
        by_cases hcs : c = sepOf rec
        · rw [if_pos hcs, if_pos hcs]
        · rw [if_neg hcs, if_neg hcs, cntLt_succ_ne t (fun hh => hcs (by rw [← hh, hsq]))]
      · rw [hprev, if_neg (fun hh => hh.2 hsq)]
      · intro y hy
        show (st.sa.set (cntLt t q (sepOf rec)) _)[gF t (sepOf rec) y]? = _
        rw [← hgq]
        rcases (wrF_succ_sep t hc hsq y).mp hy with hy' | rfl
        · have hyc := wrF_cstart hy'
          have hne : gF t (sepOf rec) q ≠ gF t (sepOf rec) y := fun hh => by
            have := gF_injective t hS (by omega) (by omega) hc hyc.1 hh
            omega
          rw [List.getElem?_set_ne hne]
          exact h.hsa y hy'
        · rw [List.getElem?_set_self (by rw [h.hlen]; exact hqlt)]
          push_cast
          rfl
      · intro j hj hne
        show (st.sa.set (cntLt t q (sepOf rec)) _)[j]? = _
        rw [← hgq]
        have h1 : gF t (sepOf rec) q ≠ j := hne q ((wrF_succ_sep t hc hsq q).mpr (Or.inr rfl))
        rw [List.getElem?_set_ne h1]
        exact h.hz j hj (fun y hy => hne y ((wrF_succ_sep t hc hsq y).mpr (Or.inl hy)))
    · have hsp : ¬ (rec = false ∧ st.p = separator) := fun hh =>
        hsq (by rw [← h.hp]; exact (sepOf_iff rec (by rw [h.hp]; exact p0)).mp hh)
      have hpe : st.p = sym t q := h.hp
      have hv := h.hb st.p (by rw [h.hp]; exact p0) (by rw [h.hp]; exact p1)
      rw [if_neg (by rw [h.hp]; exact hsq)] at hv
      have hcnt := cntLt_succ t q (sym t q)
      rw [if_pos ⟨hc, rfl⟩] at hcnt
      have hcs := cntLt_succ_ne t hsq
      have hg : (tl t st.p : Int) - (cntLt t q st.p : Int) - 1 = (gF t (sepOf rec) q : Int) := by
        rw [gF_cast t hsq (by omega), h.hp, hcnt]
        push_cast
        ring
      have hwr := wrF_succ_reg t hc hsq
      have hbkt : ∀ c : Int, 0 ≤ c → c < k → getI (st.bkt.set st.p.toNat
          ((tl t st.p : Int) - (cntLt t q st.p : Int) - 1)) c =
          some ((tl t c : Int) - (if c = sepOf rec then 0 else (cntLt t (q + 1) c : Int))) := by
        intro c c0 c1
        rw [getI_eq c.toNat (by omega)]
        by_cases hcp : c = st.p
        · subst hcp
          rw [List.getElem?_set_self (by rw [h.hbl]; omega),
            if_neg (by rw [h.hp]; exact hsq), h.hp, hcnt]
          push_cast
          congr 1
          ring
        · have hold := h.hb c c0 c1
          rw [getI_eq c.toNat (by omega)] at hold
          rw [List.getElem?_set_ne (by omega), hold]
          by_cases hcsep : c = sepOf rec
          · rw [if_pos hcsep, if_pos hcsep]
          · rw [if_neg hcsep, if_neg hcsep,
              cntLt_succ_ne t (fun hh => hcp (by rw [h.hp, hh]))]
      by_cases hpd : cstart t (prevS t q) ∧ sym t (prevS t q) ≠ sepOf rec
      · have hpend := h.hpend
        rw [if_pos hpd] at hpend
        obtain ⟨hl, hlms⟩ := hpend
        have hplt := prevS_lt t hpd.1
        have hglt := gF_lt_length t hS (show prevS t q + 1 ≤ t.length by omega) hpd.1
        have hsa : (if st.lms ≥ 0 then setI st.sa st.lms st.l else some st.sa) =
            some (st.sa.set (gF t (sepOf rec) (prevS t q)) ((prevS t q : Int) + 1)) := by
          rw [if_pos (by omega), hl, setI_eq (gF t (sepOf rec) (prevS t q)) _ hlms
            (by rw [h.hlen]; exact hglt)]
        refine ⟨_, findStep_lms hq hs hp hsp _ hsa _ hv, ?_⟩
        refine ⟨rfl, ?_, ?_, ?_, ?_, by simpa using h.hbl, hbkt, by simpa using h.hlen,
          ?_, ?_, ?_⟩
        · show false = !lType t (q + 1)
          rw [hc.1]
          rfl
        · show st.ms = _
          rw [h.hms, hcs]
        · show st.sbkt = _
          rw [h.hsb, hcs]
        · show st.m + 1 = _
          rw [h.hm, hmm]
          push_cast
          rfl
        · rw [hprev, if_pos ⟨hc, hsq⟩]
          exact ⟨by push_cast; rfl, hg⟩
        · intro y hy
          show (st.sa.set (gF t (sepOf rec) (prevS t q)) _)[gF t (sepOf rec) y]? = _
          by_cases hyl : y = prevS t q
          · subst hyl
            rw [List.getElem?_set_self (by rw [h.hlen]; exact hglt)]
          · rcases (hwr y).mp hy with hy' | ⟨hy', _⟩
            · have hyc := wrF_cstart hy'
              have hne : gF t (sepOf rec) (prevS t q) ≠ gF t (sepOf rec) y := fun hh =>
                hyl (gF_injective t hS (by omega) (by omega) hyc.1 hpd.1 hh.symm)
              rw [List.getElem?_set_ne hne]
              exact h.hsa y hy'
            · exact absurd hy' hyl
        · intro j hj hne
          show (st.sa.set (gF t (sepOf rec) (prevS t q)) _)[j]? = _
          have h1 : gF t (sepOf rec) (prevS t q) ≠ j :=
            hne _ ((hwr _).mpr (Or.inr ⟨rfl, hpd.1⟩))
          rw [List.getElem?_set_ne h1]
          exact h.hz j hj (fun y hy => hne y ((hwr y).mpr (Or.inl hy)))
      · have hpend := h.hpend
        rw [if_neg hpd] at hpend
        have hold : ∀ y, wrF t (sepOf rec) (q + 1) y → wrF t (sepOf rec) q y := by
          intro y hy
          rcases (hwr y).mp hy with hy' | ⟨rfl, hy'⟩
          · exact hy'
          · have hsy : sym t (prevS t q) = sepOf rec := by
              by_contra hh
              exact hpd ⟨hy', hh⟩
            exact ⟨hy', prevS_lt t hy', Or.inl hsy⟩
        refine ⟨_, findStep_lms hq hs hp hsp st.sa (by rw [if_neg (by omega)]) _ hv, ?_⟩
        refine ⟨rfl, ?_, ?_, ?_, ?_, by simpa using h.hbl, hbkt, h.hlen, ?_, ?_, ?_⟩
        · show false = !lType t (q + 1)
          rw [hc.1]
          rfl
        · show st.ms = _
          rw [h.hms, hcs]
        · show st.sbkt = _
          rw [h.hsb, hcs]
        · show st.m + 1 = _
          rw [h.hm, hmm]
          push_cast
          rfl
        · rw [hprev, if_pos ⟨hc, hsq⟩]
          exact ⟨by push_cast; rfl, hg⟩
        · intro y hy
          exact h.hsa y (hold y hy)
        · intro j hj hne
          exact h.hz j hj (fun y hy => hne y ((hwr y).mpr (Or.inl hy)))
  · have hcond : ¬ (st.s = true ∧ st.p < sym t (q + 1)) := by
      rintro ⟨h1, h2⟩
      apply hc
      rw [cstart_iff]
      rw [h.hs] at h1
      rw [h.hp] at h2
      exact ⟨by simpa using h1, h2⟩
    have hcnt : ∀ c, cntLt t (q + 1) c = cntLt t q c := by
      intro c
      rw [cntLt_succ, if_neg (fun hh => hc hh.1), Nat.add_zero]
    have hmm := mLt_succ t q
    rw [if_neg hc, Nat.add_zero] at hmm
    have hprev := prevS_succ_of_not t hc
    have hwr := wrF_succ_of_not t (sepOf rec) hc
    refine ⟨_, findStep_other hq hcond, ?_⟩
    refine ⟨rfl, ?_, by rw [hcnt]; exact h.hms, by rw [hcnt]; exact h.hsb,
      by rw [hmm]; exact h.hm, h.hbl, ?_, h.hlen, ?_, ?_, ?_⟩
    · show (if st.p > sym t (q + 1) then true else st.s) = !lType t (q + 1)
      rw [h.hp, h.hs]
      by_cases h1 : sym t q > sym t (q + 1)
      · rw [if_pos h1, (lType_false_iff t q).mpr (Or.inl h1)]
        rfl
      · rw [if_neg h1]
        congr 1
        by_cases h2 : sym t q = sym t (q + 1)
        · simp [lType, h2]
        · have h3 : sym t q < sym t (q + 1) := by omega
          have h4 : lType t q = true := by
            cases h5 : lType t q
            · exact absurd ((cstart_iff t q).mpr ⟨h5, h3⟩) hc
            · rfl
          rw [h4, (lType_iff t q).mpr (Or.inl h3)]
    · intro c c0 c1
      rw [hcnt]
      exact h.hb c c0 c1
    · rw [hprev]
      exact h.hpend
    · intro y hy
      exact h.hsa y ((hwr y).mp hy)
    · intro j hj hne
      exact h.hz j hj (fun y hy => hne y ((hwr y).mpr hy))

theorem lType_false_of_cstart {t : List Int} {y : Nat} (h : cstart t y) : lType t y = false := h.2

/-! ## The setting of the passes after `findLMS` -/

theorem cntLt_lt_iff (t : List Int) {c : Int} {x y : Nat} (hy : cstart t y)
    (hsy : sym t y = c) : cntLt t y c < cntLt t x c ↔ y < x := by
  constructor
  · intro h
    by_contra hh
    have := cntLt_mono t (show x ≤ y by omega) c
    omega
  · intro h
    have := cntLt_lt_of_lt t h hy
    rwa [hsy] at this

/-- The number of the separators is the size of their bucket. -/
theorem SepOK.cntLt_total {t : List Int} {sep : Int} (h : SepOK t sep) :
    cntLt t (t.length - 1) sep = tl t sep := by
  have h1 := tl_eq t sep
  rw [h.hd_sep, Nat.zero_add, ← card_filter_sym] at h1
  rw [h1]
  unfold cntLt
  congr 1
  ext x
  rw [Finset.mem_filter, Finset.mem_filter, Finset.mem_range, Finset.mem_range]
  constructor
  · rintro ⟨h2, _, h3⟩
    exact ⟨by omega, h3⟩
  · rintro ⟨h2, h3⟩
    have := h.hseed x h2 h3
    exact ⟨by omega, this.1, h3⟩

/-- A separator whose cell is the number of the separators before it is in the cell that the
order of the keys gives it. -/
theorem Seeds.slot_root_of_cnt (M : Seeds) (hS : SepOK M.t M.sep)
    (hlive : ∀ x, x < M.t.length → sym M.t x = M.sep → M.live x = true)
    (hg : ∀ x, x < M.t.length → sym M.t x = M.sep → M.g x = cntLt M.t x M.sep)
    {x : Nat} (hx : x < M.t.length) (hr : sym M.t x = M.sep) : M.slot x = M.g x := by
  have hc := hS.cstart_of_sep hx hr
  have hcard : (M.cls (2 * M.sep + 1)).card = tl M.t M.sep := by
    have h1 := tl_eq M.t M.sep
    rw [hS.hd_sep, Nat.zero_add, ← card_filter_sym] at h1
    rw [h1]
    congr 1
    ext y
    rw [M.mem_cls, Finset.mem_filter, Finset.mem_range]
    constructor
    · rintro ⟨h2, h3⟩
      refine ⟨h2.1, ?_⟩
      unfold ecode at h3
      split at h3 <;> omega
    · rintro ⟨h2, h3⟩
      refine ⟨⟨h2, hlive y h2 h3⟩, ?_⟩
      rw [ecode_of_S (hS.cstart_of_sep h2 h3).2, h3]
  have hrank : rankIn (M.cls (2 * M.sep + 1)) M.K x = cntLt M.t x M.sep := by
    unfold rankIn cntLt
    congr 1
    ext y
    rw [Finset.mem_filter, Finset.mem_filter, Finset.mem_range, M.mem_cls]
    have hkey : ∀ z, z < M.t.length → sym M.t z = M.sep →
        M.K z = [ecode M.t z, M.sr z] := by
      intro z hz hsz
      obtain ⟨w, rfl⟩ : ∃ w, z = w + 1 := ⟨z - 1, by have := hS.sep_pos hz hsz; omega⟩
      exact M.K_root w hsz
    constructor
    · rintro ⟨⟨h2, h3⟩, h4⟩
      have hsy : sym M.t y = M.sep := by
        unfold ecode at h3
        split at h3 <;> omega
      have hcy := hS.cstart_of_sep h2.1 hsy
      rw [hkey y h2.1 hsy, hkey x hx hr, ecode_of_S hcy.2, ecode_of_S hc.2, hsy, hr,
        cons_lt_cons_iff] at h4
      refine ⟨?_, hcy, hsy⟩
      rcases h4 with h4 | ⟨_, h4⟩
      · omega
      · rw [cons_lt_cons_iff] at h4
        rcases h4 with h4 | ⟨_, h4⟩
        · unfold Seeds.sr at h4
          rw [hg y h2.1 hsy, hg x hx hr] at h4
          exact (cntLt_lt_iff M.t hcy hsy).mp (by omega)
        · exact absurd h4 (not_lt_nil_int _)
    · rintro ⟨h2, hcy, hsy⟩
      have hy : y < M.t.length := by omega
      refine ⟨⟨⟨hy, hlive y hy hsy⟩, by rw [ecode_of_S hcy.2, hsy]⟩, ?_⟩
      rw [hkey y hy hsy, hkey x hx hr, ecode_of_S hcy.2, ecode_of_S hc.2, hsy, hr,
        cons_lt_cons_iff]
      refine Or.inr ⟨rfl, ?_⟩
      rw [cons_lt_cons_iff]
      left
      have := (cntLt_lt_iff M.t hcy hsy).mpr h2
      unfold Seeds.sr
      rw [hg y hy hsy, hg x hx hr]
      omega
  unfold Seeds.slot Seeds.base
  rw [if_neg (by rw [hc.2]; simp), ecode_of_S hc.2, hr, hcard, hrank, hg x hx hr]
  omega

/-- The cells of `findLMS` make a valid setting of the induction passes. -/
theorem gF_valid (t : List Int) (sep : Int) (hS : SepOK t sep) (hsym : ∀ x, 0 ≤ sym t x)
    (hn : 0 < t.length) (live : Nat → Bool) (h0 : live 0 = true)
    (hcl : ∀ x, x + 1 < t.length → live (x + 1) = true → sym t (x + 1) ≠ sep → live x = true)
    (hseeds : ∀ y, y + 1 < t.length → cstart t y → live y = true)
    (hrt : ∀ x, x < t.length → sym t x = sep → live (x + 1) = true) :
    Seeds.Valid ⟨t, live, sep, gF t sep⟩ := by
  refine ⟨⟨hn, h0⟩, ?_, hsym, hS.hne, ?_, ?_, ?_, ?_⟩
  · intro x hx hr
    exact ⟨Nat.lt_of_succ_lt hx.1, hcl x hx.1 hx.2 hr⟩
  · intro x hx hc
    have hx1 : x + 1 < t.length := hx.1
    show hd t (sym t x) + (Seeds.cls ⟨t, live, sep, gF t sep⟩ (2 * sym t x)).card ≤ gF t sep x
    by_cases hs : sym t x = sep
    · have hempty : Seeds.cls ⟨t, live, sep, gF t sep⟩ (2 * sym t x) = ∅ := by
        rw [Finset.eq_empty_iff_forall_not_mem]
        intro y hy
        obtain ⟨_, hl, hsy⟩ := Seeds.lType_of_mem_cls_even _ hy
        exact hS.not_sep_of_L hl (by rw [← hs]; exact hsy)
      rw [hempty, Finset.card_empty, hs, hS.hd_sep]
      omega
    · have h1 : hd t (sym t x) + (Seeds.cls ⟨t, live, sep, gF t sep⟩ (2 * sym t x)).card +
          (Seeds.cls ⟨t, live, sep, gF t sep⟩ (2 * sym t x + 1)).card ≤ tl t (sym t x) :=
        Seeds.clsS_le_tl ⟨t, live, sep, gF t sep⟩ (sym t x)
      have h2 : cntLt t (x + 1) (sym t x) ≤
          (Seeds.cls ⟨t, live, sep, gF t sep⟩ (2 * sym t x + 1)).card := by
        unfold cntLt
        apply Finset.card_le_card
        intro y hy
        rw [Finset.mem_filter, Finset.mem_range] at hy
        rw [Seeds.mem_cls]
        refine ⟨⟨by show y < t.length; omega, hseeds y (by omega) hy.2.1⟩, ?_⟩
        show ecode t y = _
        rw [ecode_of_S hy.2.1.2, hy.2.2]
      rw [gF_reg t hs]
      omega
  · intro x hx hc
    exact (gF_bucket t hS (show x + 1 ≤ t.length from le_of_lt hx.1) hc).2
  · intro x y hx hy hcx hcy h
    exact gF_injective t hS (le_of_lt hx.1) (le_of_lt hy.1) hcx hcy h
  · intro x hx hr
    have hc := hS.hseed x hx hr
    refine ⟨hc.1, ⟨hx, hseeds x hc.2 hc.1⟩, ⟨hc.2, hrt x hx hr⟩, ?_⟩
    exact Seeds.slot_root_of_cnt ⟨t, live, sep, gF t sep⟩ hS
      (fun y hy hsy => hseeds y (hS.hseed y hy hsy).2 (hS.hseed y hy hsy).1)
      (fun y _ hsy => gF_sep t hsy) hx hr

/-! ## The positions that take part in `sortLMS` -/

theorem liveF_iff (t : List Int) (sep : Int) (x : Nat) :
    liveF t sep x = true ↔
      (sym t x = sep ∨ ¬ cstart t (prevS t x) ∨ wrF t sep (t.length - 1) (prevS t x)) := by
  unfold liveF
  rw [decide_eq_true_iff]

theorem liveF_zero (t : List Int) (sep : Int) : liveF t sep 0 = true := by
  rw [liveF_iff]
  right
  left
  intro h
  have := h.2
  simp [prevS, lType] at this

theorem liveF_seed (t : List Int) (sep : Int) {y : Nat} (hy : y + 1 < t.length)
    (hc : cstart t y) : liveF t sep y = true := by
  rw [liveF_iff]
  by_cases hs : sym t y = sep
  · exact Or.inl hs
  · right
    by_cases hp : cstart t (prevS t y)
    · right
      have := prevS_lt t hp
      exact ⟨hp, by omega, Or.inr ⟨y, by omega, hc, hs, rfl⟩⟩
    · exact Or.inl hp

theorem liveF_succ_iff (t : List Int) {sep : Int} (hS : SepOK t sep) {y : Nat}
    (hc : cstart t y) : liveF t sep (y + 1) = true ↔ wrF t sep (t.length - 1) y := by
  rw [liveF_iff, prevS_succ_of_cstart t hc]
  constructor
  · rintro (h | h | h)
    · exact absurd h (hS.not_sep_of_L hc.1)
    · exact absurd hc h
    · exact h
  · exact fun h => Or.inr (Or.inr h)

theorem liveF_closed (t : List Int) (sep : Int) {x : Nat} (hx : x + 1 < t.length)
    (h : liveF t sep (x + 1) = true) (hs : sym t (x + 1) ≠ sep) : liveF t sep x = true := by
  by_cases hc : cstart t x
  · exact liveF_seed t sep hx hc
  · rw [liveF_iff, prevS_succ_of_not t hc] at h
    rw [liveF_iff]
    rcases h with h | h | h
    · exact absurd h hs
    · exact Or.inr (Or.inl h)
    · exact Or.inr (Or.inr h)

theorem liveF_root_succ (t : List Int) {sep : Int} (hS : SepOK t sep) {x : Nat}
    (hx : x < t.length) (hs : sym t x = sep) : liveF t sep (x + 1) = true := by
  have hc := hS.hseed x hx hs
  rw [liveF_succ_iff t hS hc.1]
  exact ⟨hc.1, by omega, Or.inl hs⟩

theorem liveF_fwd (t : List Int) {sep : Int} (hS : SepOK t sep) {x : Nat} (hx : x < t.length)
    (h : liveF t sep x = true) (hc : ¬ cstart t x) : liveF t sep (x + 1) = true := by
  rw [liveF_iff] at h
  rw [liveF_iff, prevS_succ_of_not t hc]
  rcases h with h | h | h
  · exact absurd (hS.cstart_of_sep hx h) hc
  · exact Or.inr (Or.inl h)
  · exact Or.inr (Or.inr h)

/-- The setting of `sortLMS` after `findLMS` is valid. -/
theorem liveF_valid (t : List Int) (sep : Int) (hS : SepOK t sep) (hsym : ∀ x, 0 ≤ sym t x)
    (hn : 0 < t.length) : Seeds.Valid ⟨t, liveF t sep, sep, gF t sep⟩ :=
  gF_valid t sep hS hsym hn (liveF t sep) (liveF_zero t sep)
    (fun _ hx h hs => liveF_closed t sep hx h hs)
    (fun _ hy hc => liveF_seed t sep hy hc)
    (fun _ hx hs => liveF_root_succ t hS hx hs)

/-- When every position takes part, the cells of `findLMS` make a valid setting. -/
theorem full_valid (t : List Int) (sep : Int) (hS : SepOK t sep) (hsym : ∀ x, 0 ≤ sym t x)
    (hn : 0 < t.length) : Seeds.Valid ⟨t, fun _ => true, sep, gF t sep⟩ :=
  gF_valid t sep hS hsym hn (fun _ => true) rfl (fun _ _ _ _ => rfl) (fun _ _ _ => rfl)
    (fun _ _ _ => rfl)

/-- The function `findLMS` returns the number of the seeds and the number of the separators,
and leaves the seeds that it has written, as position plus one, in their cells: every seed
when there is at most one, and otherwise the separators and the seeds followed by a seed that
is not a separator. -/
theorem findLMS_spec (t : List Int) (k : Nat) (hsym : ∀ x, 0 ≤ sym t x ∧ sym t x < k)
    (hn : 2 ≤ t.length) (rec : Bool) (hS : SepOK t (sepOf rec))
    {hist bkt0 : List Int} (hh : histgram t k = some (hist, bkt0)) (bkt : List Int)
    (hbl : bkt.length = k) (sa : List Int) (hlen : sa.length = t.length)
    (hz : ∀ j, j < t.length → sa[j]? = some 0) :
    ∃ sa' bkt' live, findLMS t sa bkt hist rec =
        some ((mLt t (t.length - 1) : Int), (tl t (sepOf rec) : Int), sa', bkt') ∧
      bkt'.length = k ∧
      Seeds.IndPre ⟨t, live, sepOf rec, gF t (sepOf rec)⟩ sa' ∧
      ((mLt t (t.length - 1) ≤ 1 ∧ live = fun _ => true) ∨
       (2 ≤ mLt t (t.length - 1) ∧ live = liveF t (sepOf rec))) := by
  obtain ⟨tail, htail, htaill, htailc⟩ := setBktEnd_cur hh bkt hbl
  have hk0 : (0 : Int) < k := by
    have := hsym 0
    omega
  have hfold := foldlM_range'_spec
    (fun i (st : FindSt) => ∃ q, i = q + 1 ∧ FindI t k (sepOf rec) q st) (findStep t rec)
    (t.length - 1) 1
    (fun i st h1 h2 hP => by
      obtain ⟨q, hq, hF⟩ := hP
      subst hq
      obtain ⟨st', hs1, hs2⟩ := findStep_spec t k hsym rec hS q (by omega) st hF
      exact ⟨st', hs1, q + 1, rfl, hs2⟩)
    { m := 0, ms := 0, l := 0, lms := -1, sbkt := (tl t 0 : Int), p := sym t 0, s := false,
      sa := sa, bkt := tail }
    ⟨0, rfl, rfl, rfl, by simp [cntLt], by simp [cntLt], by simp [mLt], htaill,
      fun c c0 c1 => by
        rw [htailc c c0 c1]
        simp [cntLt],
      hlen, by
        rw [if_neg]
        rintro ⟨h1, _⟩
        have := h1.2
        simp [prevS, lType] at this,
      fun y hy => absurd hy (wrF_zero t _ y), fun j hj _ => hz j hj⟩
  obtain ⟨st, hf, q, hq, hF⟩ := hfold
  have hq' : q = t.length - 1 := by omega
  subst hq'
  have hfun : ∀ sa', (if st.m = 1 ∧ st.lms ≥ 0 then setI st.sa st.lms st.l else some st.sa) =
      some sa' → findLMS t sa bkt hist rec =
        some ((mLt t (t.length - 1) : Int), (tl t (sepOf rec) : Int), sa', st.bkt) := by
    intro sa' hsa'
    unfold findLMS
    simp only [Option.bind_eq_bind, htail, Option.some_bind]
    rw [show separator - 1 = (0 : Int) from rfl, htailc 0 (le_refl _) hk0]
    simp only [Option.some_bind]
    rw [getI_sym_eq 0 (by simp) (by omega)]
    simp only [Option.some_bind, hf, hsa']
    rw [hF.hm, hF.hms, hS.cntLt_total]
  have hseedlt : ∀ y, cstart t y → y + 1 < t.length → y < t.length - 1 := fun y _ h => by omega
  by_cases hm1 : mLt t (t.length - 1) ≤ 1
  · by_cases hpd : cstart t (prevS t (t.length - 1)) ∧
        sym t (prevS t (t.length - 1)) ≠ sepOf rec
    · have hpend := hF.hpend
      rw [if_pos hpd] at hpend
      obtain ⟨hl, hlms⟩ := hpend
      have hplt := prevS_lt t hpd.1
      have hpn : prevS t (t.length - 1) + 1 < t.length := by omega
      have hpos := mLt_pos t hplt hpd.1
      have huniq := mLt_eq_one t (show mLt t (t.length - 1) = 1 by omega) hplt hpd.1
      have hglt := gF_lt_length t hS (show prevS t (t.length - 1) + 1 ≤ t.length by omega)
        hpd.1
      refine ⟨st.sa.set (gF t (sepOf rec) (prevS t (t.length - 1)))
        ((prevS t (t.length - 1) : Int) + 1), st.bkt, fun _ => true, hfun _ ?_, hF.hbl, ?_,
        Or.inl ⟨hm1, rfl⟩⟩
      · have hm_eq : st.m = 1 := by
          have : mLt t (t.length - 1) = 1 := by omega
          rw [hF.hm, this]
          rfl
        have hl0 : st.lms ≥ 0 := by
          rw [hlms]
          exact Int.natCast_nonneg _
        rw [if_pos ⟨hm_eq, hl0⟩, hl,
          setI_eq (gF t (sepOf rec) (prevS t (t.length - 1))) _ hlms
            (by rw [hF.hlen]; exact hglt)]
      · refine ⟨by simpa using hF.hlen, fun y hy hcy => ?_, fun j hj hne => ?_⟩
        · rw [huniq y (hseedlt y hcy hy.1) hcy]
          show (st.sa.set (gF t (sepOf rec) _) _)[gF t (sepOf rec) _]? = _
          rw [List.getElem?_set_self (by rw [hF.hlen]; exact hglt)]
        · have h1 : gF t (sepOf rec) (prevS t (t.length - 1)) ≠ j :=
            hne _ ⟨hpn, rfl⟩ hpd.1
          rw [List.getElem?_set_ne h1]
          apply hF.hz j hj
          intro y hy
          have := wrF_cstart hy
          have hyn : y + 1 < t.length := by omega
          exact hne y ⟨hyn, rfl⟩ this.1
    · have hpend := hF.hpend
      rw [if_neg hpd] at hpend
      refine ⟨st.sa, st.bkt, fun _ => true, hfun _ (by rw [if_neg (by omega)]), hF.hbl, ?_,
        Or.inl ⟨hm1, rfl⟩⟩
      refine ⟨hF.hlen, fun y hy hcy => ?_, fun j hj hne => ?_⟩
      · apply hF.hsa
        have hylt := hseedlt y hcy hy.1
        have hpos := mLt_pos t hylt hcy
        obtain ⟨h1, h2, _⟩ := (prevS_spec t (t.length - 1)).2 hpos
        have hy2 := mLt_eq_one t (show mLt t (t.length - 1) = 1 by omega) h2 h1 y hylt hcy
        refine ⟨hcy, hylt, Or.inl ?_⟩
        by_contra hh
        exact hpd ⟨h1, by rw [← hy2]; exact hh⟩
      · apply hF.hz j hj
        intro y hy
        have := wrF_cstart hy
        have hyn : y + 1 < t.length := by omega
        exact hne y ⟨hyn, rfl⟩ this.1
  · refine ⟨st.sa, st.bkt, liveF t (sepOf rec), hfun _ ?_, hF.hbl, ?_, Or.inr ⟨by omega, rfl⟩⟩
    · rw [if_neg]
      rintro ⟨h1, _⟩
      rw [hF.hm] at h1
      exact hm1 (by have : mLt t (t.length - 1) = 1 := by exact_mod_cast h1
                    omega)
    · refine ⟨hF.hlen, fun y hy hcy => ?_, fun j hj hne => ?_⟩
      · exact hF.hsa y ((liveF_succ_iff t hS hcy).mp hy.2)
      · apply hF.hz j hj
        intro y hy
        have := wrF_cstart hy
        have hyn : y + 1 < t.length := by omega
        exact hne y ⟨hyn, (liveF_succ_iff t hS this.1).mpr hy⟩ this.1

/-! ## The left-to-right pass of `sortLMS` -/

theorem sortLStep_zero {t : List Int} {ms : Int} {st : IndSt} {i : Nat}
    (h : st.sa[i]? = some 0) : sortLStep t ms st i = some st := by
  unfold sortLStep
  rw [getI_ofNat, h]
  rfl

theorem sortLStep_neg {t : List Int} {ms : Int} {st : IndSt} {i : Nat} {s : Int}
    (h : st.sa[i]? = some s) (hs : s < 0) :
    sortLStep t ms st i = some { st with sa := st.sa.set i (compl s) } := by
  have hi : i < st.sa.length := (List.getElem?_eq_some.mp h).1
  unfold sortLStep
  rw [getI_ofNat, h]
  simp only [Option.bind_eq_bind, Option.some_bind]
  rw [if_neg (by omega), if_pos hs, setI_ofNat _ _ _ hi]
  rfl

theorem sortLStep_pos {t : List Int} {ms : Int} {st : IndSt} {i : Nat} (x : Nat)
    (bkt' : List Int) (b' : Nat) (h : st.sa[i]? = some ((x : Int) + 1)) (hx : x + 1 < t.length)
    (hsw : switchBkt st.bkt st.b st.p (sym t (x + 1)) = some (bkt', (b' : Int), sym t (x + 1)))
    (hb : b' < st.sa.length) (hbi : b' ≠ i) :
    sortLStep t ms st i = some
      { sa := (st.sa.set b'
          (if x + 2 < t.length then
            (if sym t (x + 2) < sym t (x + 1) then compl ((x : Int) + 2) else (x : Int) + 2)
           else 0)).set i (if (i : Int) ≥ ms then 0 else compl x),
        bkt := bkt', b := (b' : Int) + 1, p := sym t (x + 1) } := by
  have hi : i < st.sa.length := (List.getElem?_eq_some.mp h).1
  have e2 : (x : Int) + 1 + 1 = x + 2 := by ring
  have hfin : ∀ (sa1 : List Int), sa1.length = st.sa.length → sa1[i]? = some ((x : Int) + 1) →
      (if (i : Int) ≥ ms then setI sa1 i 0
        else (getI sa1 i).bind fun v => setI sa1 i (compl (v - 1))) =
      some (sa1.set i (if (i : Int) ≥ ms then 0 else compl x)) := by
    intro sa1 hl1 hv1
    by_cases hg : (i : Int) ≥ ms
    · rw [if_pos hg, if_pos hg, setI_ofNat _ _ _ (by omega)]
    · rw [if_neg hg, if_neg hg, getI_ofNat, hv1]
      simp only [Option.some_bind]
      rw [setI_ofNat _ _ _ (by omega)]
      congr 3
      ring
  unfold sortLStep
  rw [getI_ofNat, h]
  simp only [Option.bind_eq_bind, Option.some_bind]
  rw [if_pos (by omega), getI_sym_eq (x + 1) (by push_cast; ring) hx]
  simp only [Option.some_bind, hsw]
  by_cases hx2 : x + 2 < t.length
  · rw [if_neg (by omega), getI_sym_eq (x + 2) (by push_cast; ring) hx2]
    simp only [Option.some_bind]
    rw [setI_ofNat _ _ _ hb]
    simp only [Option.some_bind]
    rw [hfin _ (by simp) (by rw [List.getElem?_set_ne hbi]; exact h)]
    simp only [Option.some_bind, gt_iff_lt, e2, if_pos hx2]
  · rw [if_pos (by omega), setI_ofNat _ _ _ hb]
    simp only [Option.some_bind]
    rw [hfin _ (by simp) (by rw [List.getElem?_set_ne hbi]; exact h)]
    simp only [Option.some_bind, if_neg hx2]

theorem Seeds.rawL1_of_cstart (M : Seeds) (hV : M.Valid) (u : Nat) (hu : M.lv (u + 1))
    (hc : cstart M.t u) : M.rawL1 u = (u : Int) + 1 := by
  have _ := hV
  unfold Seeds.rawL1
  rw [if_neg (M.not_succS_of_succ_L hc.1), if_pos hu.1]

theorem Seeds.rawL1_succ (M : Seeds) (u : Nat) :
    (if u + 2 < M.t.length then
      (if sym M.t (u + 2) < sym M.t (u + 1) then compl ((u : Int) + 2) else (u : Int) + 2)
     else 0) = M.rawL1 (u + 1) := by
  unfold Seeds.rawL1 Seeds.succS
  have e2 : ((u + 1 : Nat) : Int) + 1 = (u : Int) + 2 := by push_cast; ring
  rw [e2]
  show _ = if u + 2 < M.t.length ∧ sym M.t (u + 2) < sym M.t (u + 1) then compl ((u : Int) + 2)
    else if u + 2 < M.t.length then (u : Int) + 2 else 0
  by_cases h1 : u + 2 < M.t.length
  · rw [if_pos h1]
    by_cases h2 : sym M.t (u + 2) < sym M.t (u + 1)
    · rw [if_pos h2, if_pos ⟨h1, h2⟩]
    · rw [if_neg h2, if_neg (fun hh => h2 hh.2), if_pos h1]
  · rw [if_neg h1, if_neg (fun hh => h1 hh.1), if_neg h1]

theorem Seeds.srcL_lt (M : Seeds) {u : Nat} (hu : M.srcL u) : u < M.t.length := by
  rcases hu with ⟨_, hu⟩ | ⟨_, hu⟩
  · exact hu.1
  · exact Nat.lt_of_succ_lt hu.1

/-- The cells of the separators are the cells before the end of their bucket. -/
theorem Seeds.sigma_lt_ms_iff (M : Seeds) (hV : M.Valid) (hm : M.SepMin) {u : Nat}
    (hu : M.srcL u) : M.sigma u < tl M.t M.sep ↔ M.root u := by
  constructor
  · intro h
    by_contra hr
    have h1 := hm u (M.srcL_lt hu)
    have h2 : M.sep < sym M.t u := by
      unfold Seeds.root at hr
      omega
    have h3 := tl_le_hd M.t h2
    have h4 := M.sigma_bucket hV hu
    omega
  · intro hr
    have h1 := hV.hroot u (M.srcL_lt hu) hr
    have h2 := hV.hg_hi u h1.2.2.1 h1.1
    unfold Seeds.sigma
    rw [if_pos h1.1]
    unfold Seeds.root at hr
    rwa [hr] at h2

theorem Seeds.slot_ge_ms (M : Seeds) (hV : M.Valid) (hm : M.SepMin) {x : Nat} (hx : M.lv x)
    (hr : ¬ M.root x) : tl M.t M.sep ≤ M.slot x := by
  have h1 := hm x hx.1
  have h2 : M.sep < sym M.t x := by
    unfold Seeds.root at hr
    omega
  have h3 := tl_le_hd M.t h2
  have h4 := M.slot_bucket hV hx
  omega

theorem Seeds.lv_succ_of_src (M : Seeds) (hF : M.Fwd) {u : Nat} (hu : M.srcL u)
    (hn : u + 1 < M.t.length) : M.lv (u + 1) := by
  rcases hu with ⟨hl, hu⟩ | ⟨_, hu⟩
  · exact hF u hu (not_cstart_of_L hl) hn
  · exact hu

/-- One step of the left-to-right pass of `sortLMS` returns and keeps the state of the array
and of the cursors. -/
theorem sortLStep_spec (M : Seeds) (hV : M.Valid) (hF : M.Fwd) (hm : M.SepMin) (k : Nat)
    (hk : M.Sized k) (i : Nat) (hi : i < M.t.length) (st : IndSt)
    (hc : Cur k (M.curL i) st.bkt st.b st.p) (hs : M.PassL M.rawL1 M.visL1 i st.sa) :
    ∃ st', sortLStep M.t (tl M.t M.sep) st i = some st' ∧
      Cur k (M.curL (i + 1)) st'.bkt st'.b st'.p ∧ M.PassL M.rawL1 M.visL1 (i + 1) st'.sa := by
  have hlen := hs.len
  by_cases hex : ∃ u, M.srcL u ∧ M.sigma u = i
  · obtain ⟨u, hu, hσ⟩ := hex
    have hval := hs.hsrc u hu
    have hp : cstart M.t u ∨ M.placedL i u := by rw [← hσ]; exact M.placedL_of_sigma hV hu
    rw [hσ, if_pos hp, if_neg (by omega)] at hval
    have huniq : ∀ w, M.srcL w → M.sigma w = i → w = u := fun w hw hwi =>
      M.sigma_injective hV hw hu (by omega)
    by_cases hsucc : M.succS u
    · have hraw : M.rawL1 u = compl ((u : Int) + 1) := by unfold Seeds.rawL1; rw [if_pos hsucc]
      have hno : ∀ y, M.lv (y + 1) → lType M.t (y + 1) = true → M.sigma y ≠ i := by
        intro y hy hly hyi
        have := huniq y (M.srcL_of_succ_L hV hy hly) hyi
        subst this
        exact M.not_succS_of_succ_L hly hsucc
      rw [hraw] at hval
      refine ⟨_, sortLStep_neg hval (by unfold compl; omega), ?_, ?_⟩
      · exact hc.update _ (by rw [M.curL_succ_none i hno]; exact hc.2.2.2.1)
          (fun c _ => M.curL_succ_none i hno c)
      · apply hs.keep hV hi hno
        · intro w hw hwi
          rw [huniq w hw hwi]
          unfold Seeds.visL1 compl
          rw [if_pos hsucc]
          omega
        · intro hnone
          exact absurd hσ (hnone u hu)
    · by_cases hn : u + 1 < M.t.length
      · have hraw : M.rawL1 u = (u : Int) + 1 := by
          unfold Seeds.rawL1
          rw [if_neg hsucc, if_pos hn]
        rw [hraw] at hval
        have hx : M.lv (u + 1) := M.lv_succ_of_src hF hu hn
        have hl := M.succ_L_of_not_succS hu hsucc hn
        obtain ⟨h0, h1⟩ := M.sym_nonneg_lt hV hk (u + 1)
        obtain ⟨bkt', hsw, hcur⟩ := switchBkt_cur hc (sym M.t (u + 1)) h0 h1
        have hb : M.curL i (sym M.t (u + 1)) = (M.slot (u + 1) : Int) := by
          rw [← hσ]
          exact M.curL_target hV hx hl
        rw [hb] at hsw hcur
        have hsn : M.slot (u + 1) < st.sa.length := by
          rw [hlen]
          exact M.slot_lt_length hV hx
        have hsl : i < M.slot (u + 1) := by rw [← hσ]; exact M.sigma_lt_slot hV hx hl
        refine ⟨_, sortLStep_pos u bkt' (M.slot (u + 1)) hval hn hsw hsn (by omega), ?_, ?_⟩
        · apply hcur.update
          · show (M.slot (u + 1) : Int) + 1 = M.curL (i + 1) (sym M.t (u + 1))
            rw [← hσ, M.curL_succ_target hV hx hl, if_pos rfl, hσ, hb]
          · intro c hcne
            rw [← hσ, M.curL_succ_target hV hx hl, if_neg hcne, Int.add_zero]
        · show M.PassL M.rawL1 M.visL1 (i + 1) _
          have hvis : M.visL1 u = (if (i : Int) ≥ (tl M.t M.sep : Int) then 0 else compl u) := by
            unfold Seeds.visL1
            rw [if_neg hsucc]
            have := M.sigma_lt_ms_iff hV hm hu
            rw [hσ] at this
            by_cases hr : M.root u
            · rw [if_pos hr, if_neg (by have := this.mpr hr; omega)]
            · rw [if_neg hr, if_pos (by
                have : ¬ i < tl M.t M.sep := fun hh => hr (this.mp hh)
                omega)]
          have key := hs.put hV hu hσ hx hl
          rw [hvis, List.set_comm _ _ _ (show i ≠ M.slot (u + 1) by omega)] at key
          rw [M.rawL1_succ u]
          exact key
      · have hraw : M.rawL1 u = 0 := by
          unfold Seeds.rawL1
          rw [if_neg hsucc, if_neg hn]
        rw [hraw] at hval
        have hno : ∀ y, M.lv (y + 1) → lType M.t (y + 1) = true → M.sigma y ≠ i := by
          intro y hy hly hyi
          have := huniq y (M.srcL_of_succ_L hV hy hly) hyi
          subst this
          exact hn hy.1
        refine ⟨st, sortLStep_zero hval, ?_, ?_⟩
        · exact hc.update _ (by rw [M.curL_succ_none i hno]; exact hc.2.2.2.1)
            (fun c _ => M.curL_succ_none i hno c)
        · have := hs.keep hV hi hno 0 (fun w hw hwi => by
            rw [huniq w hw hwi]
            unfold Seeds.visL1
            rw [if_neg hsucc, if_neg]
            intro hr
            exact hn (hV.hroot u (M.srcL_lt hu) hr).2.2.1.1) (fun _ => rfl)
          rwa [set_self_of_getElem? hval] at this
  · have hnone : ∀ u, M.srcL u → M.sigma u ≠ i := fun u hu hui => hex ⟨u, hu, hui⟩
    have hval := hs.hzero i hi hnone
    have hno : ∀ y, M.lv (y + 1) → lType M.t (y + 1) = true → M.sigma y ≠ i :=
      fun y hy hly => hnone y (M.srcL_of_succ_L hV hy hly)
    refine ⟨st, sortLStep_zero hval, ?_, ?_⟩
    · exact hc.update _ (by rw [M.curL_succ_none i hno]; exact hc.2.2.2.1)
        (fun c _ => M.curL_succ_none i hno c)
    · have := hs.keep hV hi hno 0 (fun u hu hui => absurd hui (hnone u hu)) (fun _ => rfl)
      rwa [set_self_of_getElem? hval] at this

/-! ## The right-to-left pass of `sortLMS` -/

theorem sortSStep_nonpos {t : List Int} {ms : Int} {st : IndSt} {i : Nat} {s : Int}
    (h : st.sa[i]? = some s) (hs : s ≤ 0) : sortSStep t ms st i = some st := by
  unfold sortSStep
  rw [getI_ofNat, h]
  simp only [Option.bind_eq_bind, Option.some_bind]
  rw [if_neg (by omega)]

theorem sortSStep_put {t : List Int} {ms : Int} {st : IndSt} {i : Nat} (x : Nat)
    (bkt' : List Int) (b' : Nat) (h : st.sa[i]? = some ((x : Int) + 1)) (hx : x + 1 < t.length)
    (hsw : switchBkt st.bkt st.b st.p (sym t (x + 1)) =
      some (bkt', (b' : Int) + 1, sym t (x + 1)))
    (hb : b' < st.sa.length)
    (hg : x + 2 < t.length → sym t (x + 1) < sym t (x + 2) → (b' : Int) ≥ ms) :
    sortSStep t ms st i = some
      { sa := (st.sa.set b'
          (if x + 2 < t.length then
            (if sym t (x + 1) < sym t (x + 2) then compl ((x : Int) + 1) else (x : Int) + 2)
           else 0)).set i 0,
        bkt := bkt', b := (b' : Int), p := sym t (x + 1) } := by
  have hi : i < st.sa.length := (List.getElem?_eq_some.mp h).1
  have e1 : (b' : Int) + 1 - 1 = b' := by ring
  have e2 : (x : Int) + 1 + 1 = x + 2 := by ring
  unfold sortSStep
  rw [getI_ofNat, h]
  simp only [Option.bind_eq_bind, Option.some_bind]
  rw [if_pos (by omega), getI_sym_eq (x + 1) (by push_cast; ring) hx]
  simp only [Option.some_bind, hsw, e1]
  by_cases hx2 : x + 2 < t.length
  · rw [if_neg (by omega), getI_sym_eq (x + 2) (by push_cast; ring) hx2]
    simp only [Option.some_bind, e2]
    by_cases h3 : sym t (x + 1) < sym t (x + 2)
    · rw [if_pos h3, if_pos (hg hx2 h3), setI_ofNat _ _ _ hb]
      simp only [Option.some_bind]
      rw [setI_ofNat _ _ _ (by simpa using hi)]
      simp only [h3, hx2, if_true, Option.some_bind]
    · rw [if_neg h3, setI_ofNat _ _ _ hb]
      simp only [Option.some_bind]
      rw [setI_ofNat _ _ _ (by simpa using hi)]
      simp only [h3, hx2, if_false, if_true, Option.some_bind]
  · rw [if_pos (by omega), setI_ofNat _ _ _ hb]
    simp only [Option.some_bind]
    rw [setI_ofNat _ _ _ (by simpa using hi)]
    simp only [hx2, if_false, Option.some_bind]

theorem sortSStep_skip {t : List Int} {ms : Int} {st : IndSt} {i : Nat} (x : Nat)
    (bkt' : List Int) (b : Int) (h : st.sa[i]? = some ((x : Int) + 1)) (hx2 : x + 2 < t.length)
    (hsw : switchBkt st.bkt st.b st.p (sym t (x + 1)) = some (bkt', b, sym t (x + 1)))
    (h3 : sym t (x + 1) < sym t (x + 2)) (hg : b - 1 < ms) :
    sortSStep t ms st i = some
      { sa := st.sa.set i 0, bkt := bkt', b := b - 1, p := sym t (x + 1) } := by
  have hi : i < st.sa.length := (List.getElem?_eq_some.mp h).1
  unfold sortSStep
  rw [getI_ofNat, h]
  simp only [Option.bind_eq_bind, Option.some_bind]
  rw [if_pos (by omega), getI_sym_eq (x + 1) (by push_cast; ring) (by omega)]
  simp only [Option.some_bind, hsw]
  rw [if_neg (by omega), getI_sym_eq (x + 2) (by push_cast; ring) hx2]
  simp only [Option.some_bind]
  rw [if_pos h3, if_neg (by omega)]
  simp only [Option.some_bind]
  rw [setI_ofNat _ _ _ hi]
  simp only [Option.some_bind]

theorem not_cstart_last (t : List Int) (hsym : ∀ x, 0 ≤ sym t x) {x : Nat}
    (hx : t.length ≤ x + 1) : ¬ cstart t x := by
  intro hc
  have h1 := (cstart_iff t x).mp hc
  rw [sym_of_ge t (x + 1) hx] at h1
  have := hsym x
  omega

theorem Seeds.preS1_succ (M : Seeds) (hV : M.Valid) (hF : M.Fwd) (u : Nat) (hu : M.lv (u + 1))
    (hl : lType M.t (u + 1) = false) :
    (if u + 2 < M.t.length then
      (if sym M.t (u + 1) < sym M.t (u + 2) then compl ((u : Int) + 1) else (u : Int) + 2)
     else 0) = M.preS1 (u + 1) := by
  unfold Seeds.preS1
  have e2 : ((u + 1 : Nat) : Int) + 1 = (u : Int) + 2 := by push_cast; ring
  have e3 : ((u + 1 : Nat) : Int) = (u : Int) + 1 := by push_cast; ring
  by_cases hn : u + 2 < M.t.length
  · rw [if_pos hn]
    by_cases h : sym M.t (u + 1) < sym M.t (u + 2)
    · have hc : cstart M.t (u + 1) := (cstart_iff _ _).mpr ⟨hl, h⟩
      rw [if_pos h, if_neg (fun hh => by
        have h1 := hc.1
        rw [hh.2] at h1
        exact Bool.noConfusion h1), if_pos hc, e3]
    · have hl2 : lType M.t (u + 1 + 1) = false := by
        rw [lType_false_iff]
        by_cases h1 : sym M.t (u + 1 + 1) < sym M.t (u + 1)
        · exact Or.inl h1
        · exact Or.inr ⟨by
            have : sym M.t (u + 1 + 1) = sym M.t (u + 2) := rfl
            omega, hl⟩
      have hnc : ¬ cstart M.t (u + 1) := fun hc => by
        have h1 := hc.1
        rw [hl2] at h1
        exact Bool.noConfusion h1
      rw [if_neg h, if_pos ⟨hF (u + 1) hu hnc hn, hl2⟩, e2]
  · rw [if_neg hn, if_neg (fun hh => hn hh.1.1),
      if_neg (not_cstart_last M.t hV.hsym (by omega))]

theorem Seeds.placedS_mono (M : Seeds) {e e' y : Nat} (h : e' ≤ e) (hp : M.placedS e y) :
    M.placedS e' y := by
  unfold Seeds.placedS at hp ⊢
  exact ⟨hp.1, hp.2.1, by omega⟩

theorem Seeds.srtCond_at (M : Seeds) (hV : M.Valid) {x : Nat} (hx : M.lv x) {e : Nat}
    (he : e ≤ M.slot x + 1) : lType M.t x = true ∨ M.placedS e x ∨ M.root x := by
  cases hl : lType M.t x
  · right
    by_cases hr : M.root x
    · exact Or.inr hr
    · exact Or.inl (M.placedS_mono he (M.placedS_of_S hV hx hr hl))
  · exact Or.inl rfl

theorem Seeds.srtCond_pred (M : Seeds) {i x : Nat}
    (hno : 1 ≤ x → M.lv (x - 1) → M.slot (x - 1) = i → lType M.t x = true ∨ M.root x) :
    (lType M.t x = true ∨ M.placedS i x ∨ M.root x) ↔
      (lType M.t x = true ∨ M.placedS (i + 1) x ∨ M.root x) := by
  rw [M.placedS_pred_iff i x]
  constructor
  · rintro (h1 | (h1 | ⟨h1, h0, h2⟩) | h1)
    · exact Or.inl h1
    · exact Or.inr (Or.inl h1)
    · rcases hno h1 h0 h2 with h3 | h3
      · exact Or.inl h3
      · exact Or.inr (Or.inr h3)
    · exact Or.inr (Or.inr h1)
  · rintro (h1 | h1 | h1)
    · exact Or.inl h1
    · exact Or.inr (Or.inl (Or.inl h1))
    · exact Or.inr (Or.inr h1)

theorem Seeds.SrtS.keepS1 {M : Seeds} (hV : M.Valid) {i : Nat} {sa : List Int}
    (h : M.SrtS (i + 1) sa) (hi : i < M.t.length)
    (hno : ∀ y, M.lv (y + 1) → M.lv y → lType M.t (y + 1) = false → M.slot y ≠ i)
    (v : Int) (hv1 : ∀ x, M.lv x → M.slot x = i → v = M.postS1 x)
    (hv2 : (∀ x, M.lv x → M.slot x ≠ i) → v = 0) : M.SrtS i (sa.set i v) := by
  have hlen := h.len
  refine ⟨by simpa using hlen, fun x hx => ?_, fun j hj hnone => ?_⟩
  · have e2 := M.srtCond_pred (i := i) (x := x) (fun h1 h0 h2 => by
      cases hl : lType M.t x
      · obtain ⟨z, rfl⟩ : ∃ z, x = z + 1 := ⟨x - 1, by omega⟩
        exact absurd h2 (hno z hx h0 hl)
      · exact Or.inl rfl)
    by_cases hxi : M.slot x = i
    · rw [hxi, List.getElem?_set_self (by omega), hv1 x hx hxi,
        if_pos (M.srtCond_at hV hx (by omega)), if_pos (le_refl _)]
    · rw [List.getElem?_set_ne (fun hh => hxi hh.symm), h.hpos x hx]
      have e1 : (i + 1 ≤ M.slot x) ↔ (i ≤ M.slot x) := by omega
      simp only [e1, e2]
  · by_cases hji : j = i
    · subst hji
      rw [List.getElem?_set_self (by omega), hv2 hnone]
    · rw [List.getElem?_set_ne (fun hh => hji hh.symm)]
      exact h.hzero j hj hnone

theorem Seeds.SrtS.putS1 {M : Seeds} (hV : M.Valid) {i : Nat} {sa : List Int}
    (h : M.SrtS (i + 1) sa) {u : Nat} (hσ : M.slot u = i) (hx : M.lv (u + 1)) (hu : M.lv u)
    (hl : lType M.t (u + 1) = false) :
    M.SrtS i ((sa.set (M.slot (u + 1)) (M.preS1 (u + 1))).set i 0) := by
  have hlen := h.len
  have hsl : M.slot (u + 1) < i := by rw [← hσ]; exact M.slot_succ_lt hV hx hu hl
  have hi : i < M.t.length := by rw [← hσ]; exact M.slot_lt_length hV hu
  have hpu : M.postS1 u = 0 := by
    unfold Seeds.postS1
    rw [if_neg (not_cstart_of_succ_S hl)]
  refine ⟨by simpa using hlen, fun x hx' => ?_, fun j hj hnone => ?_⟩
  · by_cases hxu : x = u
    · subst hxu
      rw [hσ, List.getElem?_set_self (by simpa using (by omega)),
        if_pos (M.srtCond_at hV hx' (by omega)), if_pos (le_refl _), hpu]
    · have hne : M.slot x ≠ i := fun hh => hxu (M.slot_injective hV hx' hu (by omega))
      rw [List.getElem?_set_ne (fun hh => hne hh.symm)]
      by_cases hx1 : x = u + 1
      · subst hx1
        have hp : lType M.t (u + 1) = true ∨ M.placedS i (u + 1) ∨ M.root (u + 1) :=
          Or.inr (Or.inl ⟨by omega, by rw [Nat.add_sub_cancel]; exact hu,
            by rw [Nat.add_sub_cancel]; omega⟩)
        rw [List.getElem?_set_self (by omega), if_pos hp, if_neg (by omega)]
      · have hne2 : M.slot x ≠ M.slot (u + 1) := fun hh => hx1 (M.slot_injective hV hx' hx hh)
        rw [List.getElem?_set_ne (fun hh => hne2 hh.symm), h.hpos x hx']
        have e1 : (i + 1 ≤ M.slot x) ↔ (i ≤ M.slot x) := by omega
        have e2 := M.srtCond_pred (i := i) (x := x) (fun h1 h0 h2 => by
          exfalso
          have : x - 1 = u := M.slot_injective hV h0 hu (by omega)
          omega)
        simp only [e1, e2]
  · have h1 : j ≠ i := by
      have := hnone u hu
      omega
    have h2 : j ≠ M.slot (u + 1) := fun hh => hnone (u + 1) hx hh.symm
    rw [List.getElem?_set_ne (fun hh => h1 hh.symm), List.getElem?_set_ne (fun hh => h2 hh.symm)]
    exact h.hzero j hj hnone

theorem Seeds.SrtS.skipS1 {M : Seeds} (hV : M.Valid) {i : Nat} {sa : List Int}
    (h : M.SrtS (i + 1) sa) {u : Nat} (hσ : M.slot u = i) (hu : M.lv u)
    (hr : M.root (u + 1)) : M.SrtS i (sa.set i 0) := by
  have hlen := h.len
  have hi : i < M.t.length := by rw [← hσ]; exact M.slot_lt_length hV hu
  have hl : lType M.t (u + 1) = false := (M.root_cstart hV hr).2
  have hpu : M.postS1 u = 0 := by
    unfold Seeds.postS1
    rw [if_neg (not_cstart_of_succ_S hl)]
  refine ⟨by simpa using hlen, fun x hx' => ?_, fun j hj hnone => ?_⟩
  · by_cases hxu : x = u
    · subst hxu
      rw [hσ, List.getElem?_set_self (by omega),
        if_pos (M.srtCond_at hV hx' (by omega)), if_pos (le_refl _), hpu]
    · have hne : M.slot x ≠ i := fun hh => hxu (M.slot_injective hV hx' hu (by omega))
      rw [List.getElem?_set_ne (fun hh => hne hh.symm), h.hpos x hx']
      have e1 : (i + 1 ≤ M.slot x) ↔ (i ≤ M.slot x) := by omega
      have e2 := M.srtCond_pred (i := i) (x := x) (fun h1 h0 h2 => by
        have : x - 1 = u := M.slot_injective hV h0 hu (by omega)
        have hxe : x = u + 1 := by omega
        rw [hxe]
        exact Or.inr hr)
      simp only [e1, e2]
  · have h1 : j ≠ i := by
      have := hnone u hu
      omega
    rw [List.getElem?_set_ne (fun hh => h1 hh.symm)]
    exact h.hzero j hj hnone

/-- One step of the right-to-left pass of `sortLMS` returns and keeps the state of the array
and of the cursors. -/
theorem sortSStep_spec (M : Seeds) (hV : M.Valid) (hF : M.Fwd) (hm : M.SepMin) (k : Nat)
    (hk : M.Sized k) (i : Nat) (hi : i < M.t.length) (st : IndSt)
    (hc : Cur k (M.curS (i + 1)) st.bkt st.b st.p) (hs : M.SrtS (i + 1) st.sa) :
    ∃ st', sortSStep M.t (tl M.t M.sep) st i = some st' ∧
      Cur k (M.curS i) st'.bkt st'.b st'.p ∧ M.SrtS i st'.sa := by
  have hlen := hs.len
  by_cases hex : ∃ x, M.lv x ∧ M.slot x = i
  · obtain ⟨x, hx, hxi⟩ := hex
    have hval := hs.hpos x hx
    rw [hxi, if_pos (M.srtCond_at hV hx (by omega)), if_neg (by omega)] at hval
    have huniq : ∀ w, M.lv w → M.slot w = i → w = x := fun w hw hwi =>
      M.slot_injective hV hw hx (by omega)
    by_cases hgo : M.lv (x + 1) ∧ lType M.t (x + 1) = false
    · have hpre : M.preS1 x = (x : Int) + 1 := by unfold Seeds.preS1; rw [if_pos hgo]
      rw [hpre] at hval
      obtain ⟨h0, h1⟩ := M.sym_nonneg_lt hV hk (x + 1)
      obtain ⟨bkt', hsw, hcur⟩ := switchBkt_cur hc (sym M.t (x + 1)) h0 h1
      have hstep : ∀ c, M.curS i c =
          M.curS (i + 1) c - (if c = sym M.t (x + 1) then 1 else 0) := by
        intro c
        rw [← hxi]
        exact M.curS_pred_target hV hgo.1 hx hgo.2 c
      by_cases hr : M.root (x + 1)
      · have hrt := hV.hroot (x + 1) hgo.1.1 hr
        have h3 := ((cstart_iff M.t (x + 1)).mp hrt.1).2
        have hle := M.curS_le_tl (i + 1) (sym M.t (x + 1))
        have hrs : tl M.t (sym M.t (x + 1)) = tl M.t M.sep := by
          have : sym M.t (x + 1) = M.sep := hr
          rw [this]
        refine ⟨_, sortSStep_skip x bkt' _ hval hrt.2.2.1.1 hsw h3 (by omega), ?_, ?_⟩
        · apply hcur.update
          · show M.curS (i + 1) (sym M.t (x + 1)) - 1 = M.curS i (sym M.t (x + 1))
            rw [hstep, if_pos rfl]
          · intro c hcne
            rw [hstep, if_neg hcne, Int.sub_zero]
        · exact hs.skipS1 hV hxi hx hr
      · have hb : M.curS (i + 1) (sym M.t (x + 1)) = (M.slot (x + 1) : Int) + 1 := by
          have := M.curS_target hV hgo.1 hr hgo.2
          rw [hxi] at this
          omega
        rw [hb] at hsw hcur
        have hsn : M.slot (x + 1) < st.sa.length := by
          rw [hlen]
          exact M.slot_lt_length hV hgo.1
        have hge := M.slot_ge_ms hV hm hgo.1 hr
        refine ⟨_, sortSStep_put x bkt' (M.slot (x + 1)) hval hgo.1.1 hsw hsn
          (fun _ _ => by omega), ?_, ?_⟩
        · apply hcur.update
          · show (M.slot (x + 1) : Int) = M.curS i (sym M.t (x + 1))
            rw [hstep, if_pos rfl, hb]
            omega
          · intro c hcne
            rw [hstep, if_neg hcne, Int.sub_zero]
        · show M.SrtS i _
          rw [M.preS1_succ hV hF x hgo.1 hgo.2]
          exact hs.putS1 hV hxi hgo.1 hx hgo.2
    · have hpre : M.preS1 x = M.postS1 x := by
        unfold Seeds.preS1 Seeds.postS1
        rw [if_neg hgo]
      rw [hpre] at hval
      have hno : ∀ y, M.lv (y + 1) → M.lv y → lType M.t (y + 1) = false → M.slot y ≠ i := by
        intro y hy hy0 hly hyi
        have := huniq y hy0 hyi
        subst this
        exact hgo ⟨hy, hly⟩
      have hle : M.postS1 x ≤ 0 := by
        unfold Seeds.postS1 compl
        split <;> omega
      refine ⟨st, sortSStep_nonpos hval hle, ?_, ?_⟩
      · exact hc.update _ (by rw [M.curS_pred_none i hno]; exact hc.2.2.2.1)
          (fun c _ => M.curS_pred_none i hno c)
      · have := hs.keepS1 hV hi hno (M.postS1 x)
          (fun w hw hwi => by rw [huniq w hw hwi])
          (fun hnone => absurd hxi (hnone x hx))
        rwa [set_self_of_getElem? hval] at this
  · have hnone : ∀ x, M.lv x → M.slot x ≠ i := fun x hx hxi => hex ⟨x, hx, hxi⟩
    have hval := hs.hzero i hi hnone
    have hno : ∀ y, M.lv (y + 1) → M.lv y → lType M.t (y + 1) = false → M.slot y ≠ i :=
      fun y _ hy _ => hnone y hy
    refine ⟨st, sortSStep_nonpos hval (le_refl _), ?_, ?_⟩
    · exact hc.update _ (by rw [M.curS_pred_none i hno]; exact hc.2.2.2.1)
        (fun c _ => M.curS_pred_none i hno c)
    · have := hs.keepS1 hV hi hno 0 (fun x hx hxi => absurd hxi (hnone x hx)) (fun _ => rfl)
      rwa [set_self_of_getElem? hval] at this

/-! ## The function `sortLMS` -/

theorem Seeds.visL1_eq_preS1 (M : Seeds) (hV : M.Valid) (hF : M.Fwd) {x : Nat} (hx : M.lv x)
    (hl : lType M.t x = true) : M.visL1 x = M.preS1 x := by
  unfold Seeds.visL1 Seeds.preS1 Seeds.succS
  have e : (M.lv (x + 1) ∧ lType M.t (x + 1) = false) ↔
      (x + 1 < M.t.length ∧ sym M.t (x + 1) < sym M.t x) := by
    rw [lType_false_iff]
    constructor
    · rintro ⟨h1, h | ⟨_, h⟩⟩
      · exact ⟨h1.1, h⟩
      · rw [hl] at h
        exact Bool.noConfusion h
    · rintro ⟨h1, h⟩
      exact ⟨hF x hx (not_cstart_of_L hl) h1, Or.inl h⟩
  simp only [e, if_neg (not_cstart_of_L hl), if_neg (M.not_root_of_L hV hl)]

theorem Seeds.visL1_of_cstart (M : Seeds) {u : Nat} (hc : cstart M.t u) :
    M.visL1 u = if M.root u then compl u else 0 := by
  unfold Seeds.visL1
  rw [if_neg (M.not_succS_of_succ_L hc.1)]

theorem Seeds.placedL_length (M : Seeds) (hV : M.Valid) {u : Nat} (hu : M.srcL u) :
    cstart M.t u ∨ M.placedL M.t.length u := by
  rcases hu with ⟨hl, hu⟩ | ⟨hc, _⟩
  · right
    cases u with
    | zero => exact Or.inl rfl
    | succ w =>
      refine Or.inr ⟨by omega, ?_⟩
      rw [Nat.add_sub_cancel]
      exact M.sigma_lt_length hV (M.srcL_of_succ_L hV hu hl)
  · exact Or.inl hc

/-- After the left-to-right pass of `sortLMS`, a cell that is neither the cell of an L-type
position nor the cell of a separator holds zero. -/
theorem Seeds.PassL.seed_zero {M : Seeds} (hV : M.Valid) {sa : List Int}
    (h : M.PassL M.rawL1 M.visL1 M.t.length sa) (j : Nat) (hj : j < M.t.length)
    (hnl : ∀ x, M.lv x → lType M.t x = true → M.slot x ≠ j)
    (hnr : ∀ x, M.lv x → M.root x → M.slot x ≠ j) : sa[j]? = some 0 := by
  by_cases hex : ∃ u, M.srcL u ∧ M.sigma u = j
  · obtain ⟨u, hu, hσ⟩ := hex
    have hval := h.hsrc u hu
    rw [hσ, if_pos (M.placedL_length hV hu), if_pos hj] at hval
    rcases hu with ⟨hl, hu'⟩ | ⟨hc, hu'⟩
    · rw [M.sigma_of_L hl] at hσ
      exact absurd hσ (hnl u hu' hl)
    · rw [hval, M.visL1_of_cstart hc, if_neg]
      intro hr
      have h1 := hV.hroot u (Nat.lt_of_succ_lt hu'.1) hr
      unfold Seeds.sigma at hσ
      rw [if_pos hc, ← h1.2.2.2] at hσ
      exact hnr u h1.2.1 hr hσ
  · exact h.hzero j hj (fun u hu hσ => hex ⟨u, hu, hσ⟩)

theorem Seeds.PassL.toSrtS {M : Seeds} (hV : M.Valid) (hF : M.Fwd) {sa : List Int}
    (h : M.PassL M.rawL1 M.visL1 M.t.length sa) : M.SrtS M.t.length sa := by
  refine ⟨h.len, fun x hx => ?_, fun j hj hnone => ?_⟩
  · have hsl := M.slot_lt_length hV hx
    have hnp : ¬ M.placedS M.t.length x := by
      intro h1
      unfold Seeds.placedS at h1
      have := M.slot_lt_length hV h1.2.1
      omega
    cases hl : lType M.t x
    · by_cases hr : M.root x
      · have h1 := hV.hroot x hx.1 hr
        have hsrc : M.srcL x := Or.inr ⟨h1.1, h1.2.2.1⟩
        have := h.hsrc x hsrc
        have hσ : M.sigma x = M.slot x := by
          unfold Seeds.sigma
          rw [if_pos h1.1, h1.2.2.2]
        rw [hσ] at this
        rw [this, if_pos (Or.inl h1.1), if_pos hsl, if_pos (Or.inr (Or.inr hr)),
          if_neg (by omega), M.visL1_of_cstart h1.1, if_pos hr]
        unfold Seeds.preS1
        rw [if_neg (fun hh => by
          have h2 := h1.1.1
          rw [hh.2] at h2
          exact Bool.noConfusion h2), if_pos h1.1]
      · have hnc : ¬ (false = true ∨ M.placedS M.t.length x ∨ M.root x) := by
          rintro (h1 | h1 | h1)
          · exact Bool.noConfusion h1
          · exact hnp h1
          · exact hr h1
        rw [if_neg hnc]
        apply h.seed_zero hV _ hsl
        · intro y hy hly hh
          have := M.slot_injective hV hy hx hh
          rw [this, hl] at hly
          exact Bool.noConfusion hly
        · intro y hy hry hh
          have := M.slot_injective hV hy hx hh
          rw [this] at hry
          exact hr hry
    · have := h.hsrc x (Or.inl ⟨hl, hx⟩)
      rw [M.sigma_of_L hl] at this
      rw [this, if_pos (M.placedL_length hV (Or.inl ⟨hl, hx⟩)), if_pos hsl, if_pos (Or.inl rfl),
        if_neg (by omega), M.visL1_eq_preS1 hV hF hx hl]
  · exact h.seed_zero hV j hj (fun x hx _ => hnone x hx) (fun x hx _ => hnone x hx)

theorem Seeds.SrtS.toPost {M : Seeds} (hV : M.Valid) {sa : List Int} (h : M.SrtS 0 sa) :
    M.SrtPost sa := by
  refine ⟨h.len, fun x hx => ?_, h.hzero⟩
  rw [h.hpos x hx, if_pos (M.srtCond_at hV hx (Nat.zero_le _)), if_pos (Nat.zero_le _)]
  rfl

/-- The function `sortLMS` returns, and leaves the complement of each seed that takes part in
its cell and zero in the other cells. -/
theorem sortLMS_spec (M : Seeds) (hV : M.Valid) (hF : M.Fwd) (hm : M.SepMin) (k : Nat)
    (hk : M.Sized k) (hn : 2 ≤ M.t.length) {hist bkt0 : List Int}
    (hh : histgram M.t k = some (hist, bkt0)) (bkt : List Int) (hbl : bkt.length = k)
    (sa : List Int) (hpre : M.IndPre sa) :
    ∃ sa' bkt', sortLMS M.t sa bkt hist (tl M.t M.sep) = some (sa', bkt') ∧ bkt'.length = k ∧
      M.SrtPost sa' := by
  obtain ⟨head, hhead, hheadl, hheadc⟩ := setBktBeg_cur hh bkt hbl
  obtain ⟨p0, p1⟩ := M.sym_nonneg_lt hV hk 0
  have hs0 : M.slot 0 < sa.length := by rw [hpre.len]; exact M.slot_lt_length hV hV.hlive0
  have hraw : (if sym M.t 0 > sym M.t 1 then compl 1 else 1) = M.rawL1 0 := by
    unfold Seeds.rawL1 Seeds.succS
    simp only [gt_iff_lt, Nat.zero_add, Nat.cast_zero, Int.zero_add]
    by_cases h1 : sym M.t 1 < sym M.t 0
    · rw [if_pos h1, if_pos ⟨by omega, h1⟩]
    · rw [if_neg h1, if_neg (fun hh => h1 hh.2), if_pos (by omega)]
  have hL := foldlM_range_spec
    (fun i (st : IndSt) => Cur k (M.curL i) st.bkt st.b st.p ∧ M.PassL M.rawL1 M.visL1 i st.sa)
    (sortLStep M.t (tl M.t M.sep)) M.t.length
    (fun i st hi hP => by
      obtain ⟨st', h1, h2, h3⟩ := sortLStep_spec M hV hF hm k hk i hi st hP.1 hP.2
      exact ⟨st', h1, h2, h3⟩)
    { sa := sa.set (M.slot 0) (M.rawL1 0), bkt := head, b := (M.slot 0 : Int) + 1,
      p := sym M.t 0 }
    ⟨⟨hheadl, p0, p1, by rw [M.curL_zero hV, if_pos rfl, M.slot_zero],
      fun c h0 h1 hne => by rw [M.curL_zero hV, if_neg hne, Int.add_zero]; exact hheadc c h0 h1⟩,
     hpre.toPassL hV (fun u hu hc => M.rawL1_of_cstart hV u hu hc)⟩
  obtain ⟨st1, hf1, hc1, hi1⟩ := hL
  obtain ⟨tail, htail, htaill, htailc⟩ := setBktEnd_cur hh st1.bkt hc1.1
  have hk0 : (0 : Int) < k := by omega
  have hSp := foldlM_range_rev_spec
    (fun e (st : IndSt) => Cur k (M.curS e) st.bkt st.b st.p ∧ M.SrtS e st.sa)
    (sortSStep M.t (tl M.t M.sep)) M.t.length
    (fun i st hi hP => by
      obtain ⟨st', h1, h2, h3⟩ := sortSStep_spec M hV hF hm k hk i hi st hP.1 hP.2
      exact ⟨st', h1, h2, h3⟩)
    { sa := st1.sa, bkt := tail, b := (tl M.t 0 : Int), p := 0 }
    ⟨⟨htaill, le_refl _, hk0, by rw [M.curS_length hV],
      fun c h0 h1 _ => by rw [M.curS_length hV]; exact htailc c h0 h1⟩,
     hi1.toSrtS hV hF⟩
  obtain ⟨st2, hf2, hc2, hi2⟩ := hSp
  refine ⟨st2.sa, st2.bkt, ?_, hc2.1, hi2.toPost hV⟩
  unfold sortLMS
  simp only [Option.bind_eq_bind, hhead, Option.some_bind]
  rw [getI_sym_eq 0 (by simp) (by omega)]
  simp only [Option.some_bind]
  rw [hheadc _ p0 p1]
  simp only [Option.some_bind]
  rw [getI_sym_eq 1 (by simp) (by omega)]
  simp only [Option.some_bind]
  rw [hraw, ← M.slot_zero, setI_ofNat _ _ _ hs0]
  simp only [Option.some_bind, List.length_set, hpre.len, hf1, htail]
  rw [htailc 0 (le_refl _) hk0]
  simp only [Option.some_bind, hi1.len, hf2]

/-! ## Chains with the same symbols -/

theorem sameChain_zero_succ (t : List Int) (sep : Int) (b : Nat) : ¬ sameChain t sep 0 (b + 1) := by
  unfold sameChain sameChainB
  simp

theorem sameChain_succ_zero (t : List Int) (sep : Int) (a : Nat) : ¬ sameChain t sep (a + 1) 0 := by
  unfold sameChain sameChainB
  simp

theorem sameChain_succ (t : List Int) (sep : Int) (a b : Nat) :
    sameChain t sep (a + 1) (b + 1) ↔ ecode t (a + 1) = ecode t (b + 1) ∧ sym t (a + 1) ≠ sep ∧
      ((cstart t a ∧ cstart t b ∧ sym t a = sym t b) ∨
       (¬ cstart t a ∧ ¬ cstart t b ∧ sameChain t sep a b)) := by
  unfold sameChain
  rw [sameChainB]
  simp only [Bool.and_eq_true, decide_eq_true_eq]
  by_cases ha : cstart t a <;> by_cases hb : cstart t b <;> simp [ha, hb]

theorem sameChain_ecode (t : List Int) (sep : Int) {a b : Nat} (h : sameChain t sep a b) :
    ecode t a = ecode t b := by
  cases a with
  | zero =>
    cases b with
    | zero => rfl
    | succ b => exact absurd h (sameChain_zero_succ t sep b)
  | succ a =>
    cases b with
    | zero => exact absurd h (sameChain_succ_zero t sep a)
    | succ b => exact ((sameChain_succ t sep a b).mp h).1

theorem dkey_cons_lt {t : List Int} {sep : Int} {u v : Nat} (hs : sym t (u + 1) = sym t (v + 1))
    (hr : sym t (u + 1) ≠ sep) (h : dkey t sep u < dkey t sep v) :
    dkey t sep (u + 1) < dkey t sep (v + 1) := by
  show dsym t sep (u + 1) :: dkey t sep u < dsym t sep (v + 1) :: dkey t sep v
  rw [dsym_eq_of_sym_eq hs hr]
  exact List.Lex.cons h

/-- Two positions in chain-key order are in the order of their keys, unless their chains are
the same. -/
theorem Seeds.K_lt_cases (M : Seeds) (hV : M.Valid) (hm : M.SepMin) (hO : M.RootOrd) :
    ∀ (u v : Nat), M.lv u → M.lv v → M.K u < M.K v →
      dkey M.t M.sep u < dkey M.t M.sep v ∨ sameChain M.t M.sep u v := by
  have hS := M.sepOK hV hm
  have hsym := hV.hsym
  intro u
  induction u with
  | zero =>
    intro v hu _ h
    left
    cases v with
    | zero => exact absurd h (lt_irrefl _)
    | succ v =>
      obtain ⟨r, hr⟩ := M.K_head (v + 1)
      rw [M.K_zero, hr, cons_lt_cons_iff] at h
      rcases h with h | ⟨h, _⟩
      · exact dkey_lt_of_ecode_lt hS hsym hu.1 h
      · show [dsym M.t M.sep 0] < dsym M.t M.sep (v + 1) :: dkey M.t M.sep v
        rw [dsym_eq_of_sym_eq ((ecode_eq_iff _ _ _).mp h).1 (hS.not_sep_of_L (lType_zero _))]
        obtain ⟨r, hr⟩ := dkey_head M.t M.sep v
        rw [hr]
        exact List.Lex.cons List.Lex.nil
  | succ u ih =>
    intro v hu hv h
    cases v with
    | zero =>
      left
      obtain ⟨r, hr⟩ := M.K_head (u + 1)
      rw [M.K_zero, hr, cons_lt_cons_iff] at h
      rcases h with h | ⟨_, h⟩
      · exact dkey_lt_of_ecode_lt hS hsym hu.1 h
      · exact absurd h (not_lt_nil_int _)
    | succ v =>
      by_cases hru : M.root (u + 1)
      · left
        rw [M.K_root u hru] at h
        by_cases hrv : M.root (v + 1)
        · rw [M.K_root v hrv, cons_lt_cons_iff] at h
          rcases h with h | ⟨_, h⟩
          · exact dkey_lt_of_ecode_lt hS hsym hu.1 h
          · rw [cons_lt_cons_iff] at h
            rcases h with h | ⟨_, h⟩
            · apply dkey_lt_of_dsym_lt
              apply dsym_lt_of_sep_lt hru hrv
              apply hO (u + 1) (v + 1) hu.1 hv.1 hru hrv
              unfold Seeds.sr at h
              omega
            · exact absurd h (not_lt_nil_int _)
        · rw [M.K_succ v hrv, cons_lt_cons_iff] at h
          rcases h with h | ⟨he, _⟩
          · exact dkey_lt_of_ecode_lt hS hsym hu.1 h
          · exact absurd (M.root_of_ecode_eq he hru) hrv
      · by_cases hrv : M.root (v + 1)
        · left
          rw [M.K_succ u hru, M.K_root v hrv, cons_lt_cons_iff] at h
          rcases h with h | ⟨he, _⟩
          · exact dkey_lt_of_ecode_lt hS hsym hu.1 h
          · exact absurd (M.root_of_ecode_eq he.symm hrv) hru
        · have hu0 := M.lv_pred hV hu hru
          have hv0 := M.lv_pred hV hv hrv
          rw [M.K_succ u hru, M.K_succ v hrv, cons_lt_cons_iff] at h
          rcases h with h | ⟨he, h⟩
          · exact Or.inl (dkey_lt_of_ecode_lt hS hsym hu.1 h)
          · obtain ⟨hsy, hty⟩ := (ecode_eq_iff _ _ _).mp he
            have hcons : dkey M.t M.sep u < dkey M.t M.sep v →
                dkey M.t M.sep (u + 1) < dkey M.t M.sep (v + 1) := dkey_cons_lt hsy hru
            unfold Seeds.tk at h
            by_cases hcu : cstart M.t u
            · by_cases hcv : cstart M.t v
              · rw [if_pos hcu, if_pos hcv, cons_lt_cons_iff] at h
                rcases h with h | ⟨h1, _⟩
                · exact Or.inl (hcons (dkey_lt_of_sym_lt hS hsym hu0.1 (by omega)))
                · right
                  rw [sameChain_succ]
                  exact ⟨he, hru, Or.inl ⟨hcu, hcv, by omega⟩⟩
              · rw [if_pos hcu, if_neg hcv] at h
                obtain ⟨r, hr⟩ := M.K_head v
                rw [hr, cons_lt_cons_iff] at h
                rcases h with h | ⟨h, _⟩
                · left
                  apply hcons
                  unfold ecode at h
                  split at h <;> exact dkey_lt_of_sym_lt hS hsym hu0.1 (by omega)
                · exfalso
                  apply hcv
                  have hsv : lType M.t v = false := by
                    cases hlv : lType M.t v
                    · rfl
                    · rw [ecode_of_L hlv] at h
                      omega
                  refine ⟨?_, hsv⟩
                  rw [← hty]
                  exact hcu.1
            · rw [if_neg hcu] at h
              by_cases hcv : cstart M.t v
              · rw [if_pos hcv] at h
                obtain ⟨r, hr⟩ := M.K_head u
                rw [hr, cons_lt_cons_iff] at h
                rcases h with h | ⟨h, _⟩
                · left
                  apply hcons
                  apply dkey_lt_of_ecode_lt hS hsym hu0.1
                  rw [ecode_of_S hcv.2]
                  exact h
                · exfalso
                  apply hcu
                  have hsu : lType M.t u = false := by
                    cases hlu : lType M.t u
                    · rfl
                    · rw [ecode_of_L hlu] at h
                      omega
                  refine ⟨?_, hsu⟩
                  rw [hty]
                  exact hcv.1
              · rw [if_neg hcv] at h
                rcases ih v hu0 hv0 h with h1 | h1
                · exact Or.inl (hcons h1)
                · right
                  rw [sameChain_succ]
                  exact ⟨he, hru, Or.inr ⟨hcu, hcv, h1⟩⟩

/-- The positions with the same chain are neighbours in chain-key order. -/
theorem Seeds.sameChain_between (M : Seeds) :
    ∀ (a b c : Nat), sameChain M.t M.sep a b → M.K a < M.K c → M.K c < M.K b →
      sameChain M.t M.sep a c := by
  intro a
  induction a with
  | zero =>
    intro b c hab h1 h2
    cases b with
    | zero => exact absurd (lt_trans h1 h2) (lt_irrefl _)
    | succ b => exact absurd hab (sameChain_zero_succ _ _ b)
  | succ a ih =>
    intro b c hab h1 h2
    cases b with
    | zero => exact absurd hab (sameChain_succ_zero _ _ a)
    | succ b =>
      rw [sameChain_succ] at hab
      obtain ⟨he, hra, hab⟩ := hab
      have hrb : ¬ M.root (b + 1) := fun h => hra (M.root_of_ecode_eq he.symm h)
      obtain ⟨rc, hrc⟩ := M.K_head c
      have hec : ecode M.t (a + 1) = ecode M.t c := by
        rw [M.K_succ a hra, hrc, cons_lt_cons_iff] at h1
        rw [M.K_succ b hrb, hrc, cons_lt_cons_iff] at h2
        rcases h1 with h1 | ⟨h1, _⟩
        · rcases h2 with h2 | ⟨h2, _⟩ <;> omega
        · exact h1
      cases c with
      | zero =>
        exfalso
        rw [M.K_succ a hra, M.K_zero, cons_lt_cons_iff] at h1
        rcases h1 with h1 | ⟨_, h1⟩
        · omega
        · exact not_lt_nil_int _ h1
      | succ c =>
        have hrcc : ¬ M.root (c + 1) := fun h => hra (M.root_of_ecode_eq hec.symm h)
        rw [M.K_succ a hra, M.K_succ c hrcc, cons_lt_cons_iff] at h1
        rw [M.K_succ c hrcc, M.K_succ b hrb, cons_lt_cons_iff] at h2
        have ht1 : M.tk a < M.tk c := by
          rcases h1 with h1 | ⟨_, h1⟩
          · omega
          · exact h1
        have ht2 : M.tk c < M.tk b := by
          rcases h2 with h2 | ⟨_, h2⟩
          · omega
          · exact h2
        have htyc := ((ecode_eq_iff _ _ _).mp hec).2
        rw [sameChain_succ]
        refine ⟨hec, hra, ?_⟩
        unfold Seeds.tk at ht1 ht2
        rcases hab with ⟨hca, hcb, hs⟩ | ⟨hca, hcb, hs⟩
        · rw [if_pos hca] at ht1
          rw [if_pos hcb] at ht2
          by_cases hcc : cstart M.t c
          · rw [if_pos hcc, cons_lt_cons_iff] at ht1 ht2
            left
            refine ⟨hca, hcc, ?_⟩
            rcases ht1 with ht1 | ⟨ht1, _⟩
            · rcases ht2 with ht2 | ⟨ht2, _⟩ <;> omega
            · omega
          · exfalso
            rw [if_neg hcc] at ht1 ht2
            obtain ⟨r, hr⟩ := M.K_head c
            rw [hr, cons_lt_cons_iff] at ht1 ht2
            have : ecode M.t c = 2 * sym M.t a + 1 := by
              rcases ht1 with ht1 | ⟨ht1, _⟩
              · rcases ht2 with ht2 | ⟨ht2, _⟩ <;> omega
              · omega
            apply hcc
            refine ⟨by rw [← htyc]; exact hca.1, ?_⟩
            cases hlc : lType M.t c
            · rfl
            · rw [ecode_of_L hlc] at this
              omega
        · rw [if_neg hca] at ht1
          rw [if_neg hcb] at ht2
          have heab := sameChain_ecode M.t M.sep hs
          by_cases hcc : cstart M.t c
          · exfalso
            rw [if_pos hcc] at ht1 ht2
            obtain ⟨r1, hr1⟩ := M.K_head a
            obtain ⟨r2, hr2⟩ := M.K_head b
            rw [hr1, cons_lt_cons_iff] at ht1
            rw [hr2, cons_lt_cons_iff] at ht2
            have : ecode M.t a = 2 * sym M.t c + 1 := by
              rcases ht1 with ht1 | ⟨ht1, _⟩
              · rcases ht2 with ht2 | ⟨ht2, _⟩ <;> omega
              · omega
            apply hca
            refine ⟨by rw [htyc]; exact hcc.1, ?_⟩
            cases hla : lType M.t a
            · rfl
            · rw [ecode_of_L hla] at this
              omega
          · rw [if_neg hcc] at ht1 ht2
            exact Or.inr ⟨hca, hcc, ih b c hs ht1 ht2⟩

/-! ## The windows that `nameLMS` compares -/

theorem lenTag_pos (t : List Int) (q : Nat) : 0 < lenTag t q := by
  have := prevS_le t q
  unfold lenTag
  omega

theorem lenTag_le (t : List Int) (q : Nat) : lenTag t q ≤ q + 1 := by
  unfold lenTag
  omega

theorem sym_eq_of_ecode_eq {t : List Int} {a b : Nat} (h : ecode t a = ecode t b) :
    sym t a = sym t b := ((ecode_eq_iff _ _ _).mp h).1

/-- Positions with the same chain pass the test of `nameLMS`. -/
theorem sameChain_winEq (t : List Int) (sep : Int) :
    ∀ (a b : Nat), sameChain t sep a b → winEq t a b := by
  intro a
  induction a with
  | zero =>
    intro b h
    cases b with
    | zero => exact ⟨rfl, fun _ _ => rfl⟩
    | succ b => exact absurd h (sameChain_zero_succ _ _ b)
  | succ a ih =>
    intro b h
    cases b with
    | zero => exact absurd h (sameChain_succ_zero _ _ a)
    | succ b =>
      rw [sameChain_succ] at h
      obtain ⟨he, _, h⟩ := h
      have hs0 := sym_eq_of_ecode_eq he
      unfold winEq lenTag
      rw [prevS, prevS]
      rcases h with ⟨hca, hcb, hs⟩ | ⟨hca, hcb, hs⟩
      · rw [if_pos hca, if_pos hcb]
        refine ⟨by omega, fun l hl => ?_⟩
        have : l = 0 ∨ l = 1 := by omega
        rcases this with rfl | rfl
        · exact hs0
        · simpa using hs
      · rw [if_neg hca, if_neg hcb]
        obtain ⟨h1, h2⟩ := ih b hs
        unfold lenTag at h1 h2
        have hpa := prevS_le t a
        have hpb := prevS_le t b
        refine ⟨by omega, fun l hl => ?_⟩
        cases l with
        | zero => exact hs0
        | succ l =>
          have := h2 l (by omega)
          rw [show a + 1 - (l + 1) = a - l by omega, show b + 1 - (l + 1) = b - l by omega]
          exact this

theorem winEq_refl (t : List Int) (a : Nat) : winEq t a a := ⟨rfl, fun _ _ => rfl⟩

theorem winEq_symm {t : List Int} {a b : Nat} (h : winEq t a b) : winEq t b a :=
  ⟨h.1.symm, fun l hl => (h.2 l (by rw [h.1]; exact hl)).symm⟩

theorem winEq_trans {t : List Int} {a b c : Nat} (h1 : winEq t a b) (h2 : winEq t b c) :
    winEq t a c :=
  ⟨h1.1.trans h2.1, fun l hl => (h1.2 l hl).trans (h2.2 l (by rw [← h1.1]; exact hl))⟩

/-- Distinct seeds with the same chain pass the test of `nameLMS`. -/
theorem sameChain_winEqS {t : List Int} {sep : Int} (hS : SepOK t sep) {a b : Nat}
    (h : sameChain t sep a b) : winEqS t sep a b := by
  have hw := sameChain_winEq t sep a b h
  cases a with
  | zero =>
    cases b with
    | zero => exact ⟨hS.not_sep_of_L (lType_zero t), hS.not_sep_of_L (lType_zero t), hw⟩
    | succ b => exact absurd h (sameChain_zero_succ _ _ b)
  | succ a =>
    cases b with
    | zero => exact absurd h (sameChain_succ_zero _ _ a)
    | succ b =>
      rw [sameChain_succ] at h
      refine ⟨h.2.1, ?_, hw⟩
      rw [← sym_eq_of_ecode_eq h.1]
      exact h.2.1

theorem winEqS_symm {t : List Int} {sep : Int} {a b : Nat} (h : winEqS t sep a b) :
    winEqS t sep b a := ⟨h.2.1, h.1, winEq_symm h.2.2⟩

theorem winEqS_trans {t : List Int} {sep : Int} {a b c : Nat} (h1 : winEqS t sep a b)
    (h2 : winEqS t sep b c) : winEqS t sep a c := ⟨h1.1, h2.2.1, winEq_trans h1.2.2 h2.2.2⟩

/-! ## The names of `nameLMS` -/

theorem nameAt_succ_le (t : List Int) (sep : Int) (ord : List Nat) (i : Nat) :
    nameAt t sep ord i ≤ nameAt t sep ord (i + 1) ∧
      nameAt t sep ord (i + 1) ≤ nameAt t sep ord i + 1 := by
  rw [nameAt]
  split <;> omega

theorem nameAt_mono (t : List Int) (sep : Int) (ord : List Nat) {i j : Nat} (h : i ≤ j) :
    nameAt t sep ord i ≤ nameAt t sep ord j := by
  induction j with
  | zero =>
    have : i = 0 := by omega
    rw [this]
  | succ j ih =>
    by_cases hij : i = j + 1
    · rw [hij]
    · have := ih (by omega)
      have := (nameAt_succ_le t sep ord j).1
      omega

theorem nameAt_bounds (t : List Int) (sep : Int) (ord : List Nat) (i : Nat) :
    1 ≤ nameAt t sep ord i ∧ nameAt t sep ord i ≤ (i : Int) + 1 := by
  induction i with
  | zero => exact ⟨le_refl _, by rw [nameAt]; simp⟩
  | succ i ih =>
    have := nameAt_succ_le t sep ord i
    push_cast
    omega

theorem nameAt_eq_winEq (t : List Int) (sep : Int) (ord : List Nat) {i j : Nat} (h : i < j)
    (he : nameAt t sep ord i = nameAt t sep ord j) :
    winEqS t sep (ord.getD i 0) (ord.getD j 0) := by
  induction j with
  | zero => omega
  | succ j ih =>
    have h1 := nameAt_mono t sep ord (show i ≤ j by omega)
    have h2 := nameAt_succ_le t sep ord j
    have h3 : nameAt t sep ord i = nameAt t sep ord j := by omega
    have h4 : nameAt t sep ord (j + 1) = nameAt t sep ord j := by omega
    rw [nameAt] at h4
    have h5 : winEqS t sep (ord.getD j 0) (ord.getD (j + 1) 0) := by
      by_contra hc
      rw [if_neg hc] at h4
      omega
    by_cases hij : i = j
    · rw [hij]
      exact h5
    · exact winEqS_trans (ih (by omega) h3) h5

theorem Seeds.sameChain_nameAt (M : Seeds) (hS : SepOK M.t M.sep) (ord : List Nat)
    (hK : ∀ i j, i < j → j < ord.length → M.K (ord.getD i 0) < M.K (ord.getD j 0))
    {i : Nat} : ∀ (j : Nat), i < j → j < ord.length →
      sameChain M.t M.sep (ord.getD i 0) (ord.getD j 0) →
      nameAt M.t M.sep ord i = nameAt M.t M.sep ord j := by
  have hbetween : ∀ j l, i < l → l < j → j < ord.length →
      sameChain M.t M.sep (ord.getD i 0) (ord.getD j 0) →
      sameChain M.t M.sep (ord.getD i 0) (ord.getD l 0) := by
    intro j l h1 h2 h3 hs
    exact M.sameChain_between _ _ _ hs (hK i l h1 (by omega)) (hK l j h2 h3)
  intro j
  induction j with
  | zero => intro h; omega
  | succ j ih =>
    intro hij hj hs
    have hw := sameChain_winEqS hS hs
    by_cases hi : i = j
    · subst hi
      rw [nameAt, if_pos hw, Int.add_zero]
    · have hs' := hbetween (j + 1) j (by omega) (by omega) hj hs
      have h1 := ih (by omega) (by omega) hs'
      have hw' := sameChain_winEqS hS hs'
      rw [nameAt, if_pos (winEqS_trans (winEqS_symm hw') hw), Int.add_zero, h1]

/-- Entries with different names are in the order of their keys. -/
theorem Seeds.nameAt_lt_dkey (M : Seeds) (hV : M.Valid) (hm : M.SepMin) (hO : M.RootOrd)
    (ord : List Nat)
    (hK : ∀ i j, i < j → j < ord.length → M.K (ord.getD i 0) < M.K (ord.getD j 0))
    (hA : ∀ i, i < ord.length → M.lv (ord.getD i 0)) {i j : Nat} (hi : i < ord.length)
    (hj : j < ord.length) (h : nameAt M.t M.sep ord i < nameAt M.t M.sep ord j) :
    dkey M.t M.sep (ord.getD i 0) < dkey M.t M.sep (ord.getD j 0) := by
  have hij : i < j := by
    by_contra hc
    have := nameAt_mono M.t M.sep ord (show j ≤ i by omega)
    omega
  rcases M.K_lt_cases hV hm hO _ _ (hA i hi) (hA j hj) (hK i j hij hj) with h1 | h1
  · exact h1
  · have := M.sameChain_nameAt (M.sepOK hV hm) ord hK j hij hj h1
    omega

/-! ## The reduced problem -/

theorem prevS_between (t : List Int) : ∀ (q x : Nat), prevS t q < x → x < q → ¬ cstart t x := by
  intro q
  induction q with
  | zero => intro x _ h; omega
  | succ q ih =>
    intro x h1 h2
    by_cases hc : cstart t q
    · rw [prevS_succ_of_cstart t hc] at h1
      omega
    · rw [prevS_succ_of_not t hc] at h1
      by_cases hx : x = q
      · rw [hx]
        exact hc
      · exact ih x h1 (by omega)

theorem SepOK.not_sep_of_not_cstart {t : List Int} {sep : Int} (h : SepOK t sep) {x : Nat}
    (hc : ¬ cstart t x) : sym t x ≠ sep := by
  intro hs
  by_cases hx : x < t.length
  · exact hc (h.cstart_of_sep hx hs)
  · rw [sym_of_ge t x (by omega)] at hs
    exact h.hne hs.symm

theorem dkey_lt_of_prefix (t : List Int) (sep : Int) : ∀ (a b : Nat), a < b →
    (∀ e, e ≤ a → sym t (a - e) = sym t (b - e) ∧ sym t (a - e) ≠ sep) →
    dkey t sep a < dkey t sep b := by
  intro a
  induction a with
  | zero =>
    intro b hab h
    obtain ⟨b', rfl⟩ : ∃ b', b = b' + 1 := ⟨b - 1, by omega⟩
    show [dsym t sep 0] < dsym t sep (b' + 1) :: dkey t sep b'
    have := h 0 (le_refl _)
    simp only [Nat.sub_zero] at this
    rw [dsym_eq_of_sym_eq this.1 this.2]
    obtain ⟨r, hr⟩ := dkey_head t sep b'
    rw [hr]
    exact List.Lex.cons List.Lex.nil
  | succ a ih =>
    intro b hab h
    obtain ⟨b', rfl⟩ : ∃ b', b = b' + 1 := ⟨b - 1, by omega⟩
    have h0 := h 0 (Nat.zero_le _)
    simp only [Nat.sub_zero] at h0
    apply dkey_cons_lt h0.1 h0.2
    apply ih b' (by omega)
    intro e he
    have := h (e + 1) (by omega)
    rw [show a + 1 - (e + 1) = a - e by omega, show b' + 1 - (e + 1) = b' - e by omega] at this
    exact this

theorem dkey_lt_of_common (t : List Int) (sep : Int) (a b : Nat) : ∀ (d : Nat),
    (∀ e, e < d → sym t (a + d - e) = sym t (b + d - e) ∧ sym t (a + d - e) ≠ sep) →
    dkey t sep a < dkey t sep b → dkey t sep (a + d) < dkey t sep (b + d) := by
  intro d
  induction d with
  | zero => intro _ h; exact h
  | succ d ih =>
    intro h hab
    have h0 := h 0 (by omega)
    simp only [Nat.sub_zero] at h0
    rw [show a + (d + 1) = a + d + 1 from rfl, show b + (d + 1) = b + d + 1 from rfl] at h0
    show dkey t sep (a + d + 1) < dkey t sep (b + d + 1)
    apply dkey_cons_lt h0.1 h0.2
    apply ih _ hab
    intro e he
    have := h (e + 1) (by omega)
    rw [show a + (d + 1) - (e + 1) = a + d - e by omega,
      show b + (d + 1) - (e + 1) = b + d - e by omega] at this
    exact this

/-- The order of the reversed prefixes of the name array is the order of the keys of the
text at the seeds. -/
theorem reduction (t R : List Int) (sep : Int) (hS : SepOK t sep) (l : Nat → Nat)
    (nm : Nat → Int) (m : Nat)
    (hR : ∀ i, i < m → sym R i = nm i - 1)
    (hl0 : prevS t (l 0) = 0) (hpos : ∀ i, i < m → 0 < l i)
    (hl : ∀ i, i + 1 < m → prevS t (l (i + 1)) = l i ∧ l i < l (i + 1))
    (h1 : ∀ i j, i < m → j < m → i ≠ j → nm i = nm j → winEqS t sep (l i) (l j))
    (h2 : ∀ i j, i < m → j < m → nm i < nm j → dkey t sep (l i) < dkey t sep (l j)) :
    ∀ (i j : Nat), i < m → j < m → rkey R i < rkey R j →
      dkey t sep (l i) < dkey t sep (l j) := by
  have hns : ∀ q x, sym t q ≠ sep → prevS t q < x → x ≤ q → sym t x ≠ sep := by
    intro q x hq h3 h4
    by_cases hx : x = q
    · rw [hx]
      exact hq
    · exact hS.not_sep_of_not_cstart (prevS_between t q x h3 (by omega))
  intro i
  induction i with
  | zero =>
    intro j hi hj h
    cases j with
    | zero => exact absurd h (lt_irrefl _)
    | succ j =>
      change [sym R 0] < sym R (j + 1) :: rkey R j at h
      rw [cons_lt_cons_iff, hR 0 hi, hR (j + 1) hj] at h
      rcases h with h | ⟨h, _⟩
      · exact h2 0 (j + 1) hi hj (by omega)
      · obtain ⟨hq1, _, hw1, hw2⟩ := h1 0 (j + 1) hi hj (by omega) (by omega)
        have hlj := (hl j hj).2
        have hlen : lenTag t (l 0) = l 0 + 1 := by unfold lenTag; rw [hl0]; rfl
        apply dkey_lt_of_prefix t sep _ _ (by
          have := hpos j (by omega)
          unfold lenTag at hw1
          rw [hl0, (hl j hj).1] at hw1
          omega)
        intro e he
        refine ⟨hw2 e (by omega), ?_⟩
        by_cases he0 : e = l 0
        · rw [he0, Nat.sub_self]
          exact hS.not_sep_of_L (lType_zero t)
        · exact hns (l 0) _ hq1 (by rw [hl0]; omega) (by omega)
  | succ i ih =>
    intro j hi hj h
    cases j with
    | zero =>
      change sym R (i + 1) :: rkey R i < [sym R 0] at h
      rw [cons_lt_cons_iff, hR 0 hj, hR (i + 1) hi] at h
      rcases h with h | ⟨_, h⟩
      · exact h2 (i + 1) 0 hi hj (by omega)
      · exact absurd h (not_lt_nil_int _)
    | succ j =>
      change sym R (i + 1) :: rkey R i < sym R (j + 1) :: rkey R j at h
      rw [cons_lt_cons_iff, hR (j + 1) hj, hR (i + 1) hi] at h
      rcases h with h | ⟨h, ht⟩
      · exact h2 (i + 1) (j + 1) hi hj (by omega)
      · have hne : i + 1 ≠ j + 1 := by
          intro hh
          have : i = j := by omega
          rw [this] at ht
          exact absurd ht (lt_irrefl _)
        obtain ⟨hq1, _, hw1, hw2⟩ := h1 (i + 1) (j + 1) hi hj hne (by omega)
        have hrec := ih j (by omega) (by omega) ht
        obtain ⟨hpi, hli⟩ := hl i hi
        obtain ⟨hpj, hlj⟩ := hl j hj
        unfold lenTag at hw1 hw2
        rw [hpi] at hw1 hw2
        rw [hpj] at hw1
        have hd : l (i + 1) - l i = l (j + 1) - l j := by omega
        have key := dkey_lt_of_common t sep (l i) (l j) (l (i + 1) - l i) (by
          intro e he
          rw [show l i + (l (i + 1) - l i) = l (i + 1) by omega,
            show l j + (l (i + 1) - l i) = l (j + 1) by omega]
          exact ⟨hw2 e (by omega), hns (l (i + 1)) _ hq1 (by rw [hpi]; omega) (by omega)⟩) hrec
        rw [show l i + (l (i + 1) - l i) = l (i + 1) by omega,
          show l j + (l (i + 1) - l i) = l (j + 1) by omega] at key
        exact key

/-! ## The compaction loop of `nameLMS` -/

theorem negPos_append (a b : List Int) : negPos (a ++ b) = negPos a ++ negPos b := by
  unfold negPos
  rw [List.filterMap_append]

theorem negPos_take_succ (sa : List Int) (i : Nat) (v : Int) (h : sa[i]? = some v) :
    negPos (sa.take (i + 1)) =
      negPos (sa.take i) ++ (if v < 0 then [(compl v).toNat] else []) := by
  rw [List.take_succ, negPos_append, h]
  congr 1
  unfold negPos
  by_cases hv : v < 0
  · simp [hv]
  · simp [hv]

theorem negPos_length_le (sa : List Int) : (negPos sa).length ≤ sa.length := by
  unfold negPos
  exact List.length_filterMap_le _ _

theorem negPos_take_length_le (sa : List Int) (i : Nat) : (negPos (sa.take i)).length ≤ i := by
  have := negPos_length_le (sa.take i)
  have := List.length_take_le i sa
  omega

theorem negPos_split (sa : List Int) (i : Nat) :
    negPos sa = negPos (sa.take i) ++ negPos (sa.drop i) := by
  rw [← negPos_append, List.take_append_drop]

theorem negPos_take_mono (sa : List Int) (i : Nat) :
    (negPos (sa.take i)).length ≤ (negPos sa).length := by
  rw [negPos_split sa i, List.length_append]
  omega

theorem negPos_getElem?_take (sa : List Int) (i a : Nat) (h : a < (negPos (sa.take i)).length) :
    (negPos sa)[a]? = (negPos (sa.take i))[a]? := by
  rw [negPos_split sa i, List.getElem?_append_left h]

theorem compactStep_spec (sa0 : List Int) (m : Nat) (hlen : (negPos sa0).length = m)
    (hz : ∀ (a : Nat) (v : Int), sa0[a]? = some v → 0 ≤ v → v = 0) (i : Nat) (hi : i < sa0.length)
    (st : Int × List Int × Bool) (h : CompI sa0 m i st) :
    ∃ st', compactStep m st i = some st' ∧ CompI sa0 m (i + 1) st' := by
  obtain ⟨v, hv⟩ : ∃ v, sa0[i]? = some v := ⟨sa0[i], List.getElem?_eq_getElem hi⟩
  have hts := negPos_take_succ sa0 i v hv
  have hjle := negPos_take_length_le sa0 i
  have hmono := negPos_take_mono sa0 (i + 1)
  have hcur : st.2.1[i]? = some v := by rw [h.hhi i (le_refl _), hv]
  obtain ⟨hj, hl, hlo, hmid, hhi, hstop⟩ := h
  by_cases hneg : v < 0
  · rw [if_pos hneg] at hts
    have hlen1 : (negPos (sa0.take (i + 1))).length = (negPos (sa0.take i)).length + 1 := by
      rw [hts, List.length_append]
      rfl
    have hns : st.2.2 = false := by
      rw [hstop, hj]
      simp only [decide_eq_false_iff_not]
      omega
    have hjn : (negPos (sa0.take i)).length < st.2.1.length := by omega
    have hnew : (negPos sa0)[(negPos (sa0.take i)).length]? = some (compl v).toNat := by
      rw [negPos_getElem?_take sa0 (i + 1) _ (by omega), hts,
        List.getElem?_append_right (le_refl _)]
      simp
    have hcv : ((compl v).toNat : Int) = compl v := by
      unfold compl
      omega
    by_cases hji : (negPos (sa0.take i)).length < i
    · refine ⟨(st.1 + 1, (st.2.1.set (negPos (sa0.take i)).length (compl v)).set i 0,
        decide (st.1 + 1 = (m : Int))), ?_, ?_⟩
      · unfold compactStep
        rw [if_neg (by rw [hns]; simp), getI_ofNat, hcur]
        simp only [Option.bind_eq_bind, Option.some_bind]
        rw [if_pos hneg, setI_eq (negPos (sa0.take i)).length _ hj hjn]
        simp only [Option.some_bind]
        rw [if_pos (by omega), setI_ofNat _ _ _ (by simpa using (by omega))]
        rfl
      · refine ⟨by show st.1 + 1 = _; rw [hlen1, hj]; push_cast; rfl, by simpa using hl,
          ?_, ?_, ?_, rfl⟩
        · intro a ha
          show ((st.2.1.set _ _).set i 0)[a]? = _
          rw [List.getElem?_set_ne (by omega)]
          by_cases haj : a = (negPos (sa0.take i)).length
          · rw [haj, List.getElem?_set_self hjn, hnew]
            simp [hcv]
          · rw [List.getElem?_set_ne (fun hh => haj hh.symm)]
            exact hlo a (by omega)
        · intro a h1 h2
          show ((st.2.1.set _ _).set i 0)[a]? = _
          by_cases hai : a = i
          · rw [hai, List.getElem?_set_self (by simpa using (by omega))]
          · rw [List.getElem?_set_ne (fun hh => hai hh.symm), List.getElem?_set_ne (by omega)]
            exact hmid a (by omega) (by omega)
        · intro a ha
          show ((st.2.1.set _ _).set i 0)[a]? = _
          rw [List.getElem?_set_ne (by omega), List.getElem?_set_ne (by omega)]
          exact hhi a (by omega)
    · have hje : (negPos (sa0.take i)).length = i := by omega
      refine ⟨(st.1 + 1, st.2.1.set (negPos (sa0.take i)).length (compl v),
        decide (st.1 + 1 = (m : Int))), ?_, ?_⟩
      · unfold compactStep
        rw [if_neg (by rw [hns]; simp), getI_ofNat, hcur]
        simp only [Option.bind_eq_bind, Option.some_bind]
        rw [if_pos hneg, setI_eq (negPos (sa0.take i)).length _ hj hjn]
        simp only [Option.some_bind]
        rw [if_neg (by omega)]
        rfl
      · refine ⟨by show st.1 + 1 = _; rw [hlen1, hj]; push_cast; rfl, by simpa using hl,
          ?_, ?_, ?_, rfl⟩
        · intro a ha
          show (st.2.1.set _ _)[a]? = _
          by_cases haj : a = (negPos (sa0.take i)).length
          · rw [haj, List.getElem?_set_self hjn, hnew]
            simp [hcv]
          · rw [List.getElem?_set_ne (fun hh => haj hh.symm)]
            exact hlo a (by omega)
        · intro a h1 h2
          omega
        · intro a ha
          show (st.2.1.set _ _)[a]? = _
          rw [List.getElem?_set_ne (by omega)]
          exact hhi a (by omega)
  · rw [if_neg hneg, List.append_nil] at hts
    have hv0 : v = 0 := hz i v hv (by omega)
    refine ⟨st, ?_, ?_⟩
    · unfold compactStep
      by_cases hs : st.2.2 = true
      · rw [if_pos hs]
      · rw [if_neg hs, getI_ofNat, hcur]
        simp only [Option.bind_eq_bind, Option.some_bind]
        rw [if_neg hneg]
    · refine ⟨by rw [hts]; exact hj, hl, ?_, ?_, ?_, hstop⟩
      · intro a ha
        rw [hts] at ha
        exact hlo a ha
      · intro a h1 h2
        rw [hts] at h1
        by_cases hai : a = i
        · rw [hai, hcur, hv0]
        · exact hmid a h1 (by omega)
      · intro a ha
        exact hhi a (by omega)

/-- The compaction loop of `nameLMS` returns, with the positions whose complements were in
the array at its start, and zeros after them. -/
theorem compact_spec (sa0 : List Int) (m : Nat) (hlen : (negPos sa0).length = m)
    (hz : ∀ (a : Nat) (v : Int), sa0[a]? = some v → 0 ≤ v → v = 0) (hm : 0 < m) :
    ∃ st, (List.range sa0.length).foldlM (compactStep m) (0, sa0, false) = some st ∧
      st.2.1.length = sa0.length ∧
      (∀ a, a < m → st.2.1[a]? = ((negPos sa0)[a]?).map (fun x => (x : Int))) ∧
      (∀ a, m ≤ a → a < sa0.length → st.2.1[a]? = some 0) := by
  obtain ⟨st, hf, hI⟩ := foldlM_range_spec (CompI sa0 m) (compactStep m) sa0.length
    (fun i st hi hP => compactStep_spec sa0 m hlen hz i hi st hP) (0, sa0, false)
    ⟨by simp [negPos], rfl, fun a ha => by simp [negPos] at ha, fun a h1 h2 => by omega,
      fun a _ => rfl, by
        show false = decide ((0 : Int) = (m : Int))
        simp only [Bool.false_eq, decide_eq_false_iff_not]
        omega⟩
  have hfull : (negPos (sa0.take sa0.length)).length = m := by rw [List.take_length, hlen]
  refine ⟨st, hf, hI.hlen, fun a ha => hI.hlo a (by omega), fun a h1 h2 =>
    hI.hmid a (by omega) h2⟩

/-! ## The seeds in the order of their cells -/

theorem mem_negPos (sa : List Int) (a : Nat) :
    a ∈ negPos sa ↔ ∃ (j : Nat) (v : Int), sa[j]? = some v ∧ v < 0 ∧ a = (compl v).toNat := by
  unfold negPos
  rw [List.mem_filterMap]
  constructor
  · rintro ⟨v, hv, h⟩
    obtain ⟨j, hj⟩ := List.mem_iff_getElem?.mp hv
    split at h
    · rename_i hneg
      simp only [Option.some.injEq] at h
      exact ⟨j, v, hj, hneg, h.symm⟩
    · exact absurd h (by simp)
  · rintro ⟨j, v, hj, hneg, rfl⟩
    exact ⟨v, List.mem_iff_getElem?.mpr ⟨j, hj⟩, by rw [if_pos hneg]⟩

theorem negPos_sorted (key : Nat → Nat) : ∀ (sa : List Int),
    (∀ (j : Nat) (v : Int), sa[j]? = some v → v < 0 → key (compl v).toNat = j) →
    (negPos sa).Pairwise (fun a b => key a < key b) := by
  intro sa
  induction sa using List.reverseRecOn with
  | nil => intro _; exact List.Pairwise.nil
  | append_singleton sa v ih =>
    intro h
    have hpre : ∀ (j : Nat) (w : Int), sa[j]? = some w → w < 0 → key (compl w).toNat = j := by
      intro j w hj hw
      apply h j w _ hw
      rw [List.getElem?_append_left (List.getElem?_eq_some.mp hj).1]
      exact hj
    rw [negPos_append, List.pairwise_append]
    refine ⟨ih hpre, ?_, ?_⟩
    · unfold negPos
      simp only [List.filterMap_cons, List.filterMap_nil]
      split <;> simp
    · intro a ha b hb
      obtain ⟨j, w, hj, hw, rfl⟩ := (mem_negPos sa a).mp ha
      obtain ⟨j', w', hj', hw', rfl⟩ := (mem_negPos [v] b).mp hb
      have hjl := (List.getElem?_eq_some.mp hj).1
      have hj0 : j' = 0 := by
        have := (List.getElem?_eq_some.mp hj').1
        simpa using this
      subst hj0
      simp only [List.getElem?_cons_zero, Option.some.injEq] at hj'
      subst hj'
      rw [hpre j w hj hw]
      have := h sa.length v (by simp) hw'
      omega

theorem compl_compl_nat (x : Nat) : (compl (compl (x : Int))).toNat = x := by
  unfold compl
  omega

theorem compl_neg (x : Nat) : compl (x : Int) < 0 := by
  unfold compl
  omega

theorem Seeds.SrtPost.neg_cell {M : Seeds} {sa : List Int} (h : M.SrtPost sa) (j : Nat) (v : Int)
    (hj : sa[j]? = some v) (hv : v ≠ 0) :
    ∃ x, M.lv x ∧ cstart M.t x ∧ M.slot x = j ∧ v = compl x := by
  have hjl : j < M.t.length := by rw [← h.len]; exact (List.getElem?_eq_some.mp hj).1
  by_cases hex : ∃ x, M.lv x ∧ M.slot x = j
  · obtain ⟨x, hx, hxj⟩ := hex
    have := h.hpos x hx
    rw [hxj, hj] at this
    simp only [Option.some.injEq] at this
    by_cases hc : cstart M.t x
    · rw [if_pos hc] at this
      exact ⟨x, hx, hc, hxj, this⟩
    · rw [if_neg hc] at this
      exact absurd this hv
  · have := h.hzero j hjl (fun x hx hxj => hex ⟨x, hx, hxj⟩)
    rw [hj] at this
    simp only [Option.some.injEq] at this
    exact absurd this hv

theorem Seeds.SrtPost.nonneg_zero {M : Seeds} {sa : List Int} (h : M.SrtPost sa) (a : Nat)
    (v : Int) (ha : sa[a]? = some v) (hv : 0 ≤ v) : v = 0 := by
  by_contra hne
  obtain ⟨x, _, _, _, hx⟩ := h.neg_cell a v ha hne
  have := compl_neg x
  omega

theorem Seeds.SrtPost.mem_ord {M : Seeds} (_hV : M.Valid) {sa : List Int} (h : M.SrtPost sa)
    (x : Nat) : x ∈ negPos sa ↔ M.lv x ∧ cstart M.t x := by
  rw [mem_negPos]
  constructor
  · rintro ⟨j, v, hj, hv, rfl⟩
    obtain ⟨x, hx, hc, _, rfl⟩ := h.neg_cell j v hj (by omega)
    rw [compl_compl_nat]
    exact ⟨hx, hc⟩
  · rintro ⟨hx, hc⟩
    refine ⟨M.slot x, compl x, ?_, compl_neg x, (compl_compl_nat x).symm⟩
    rw [h.hpos x hx, if_pos hc]

theorem Seeds.SrtPost.ord_sorted {M : Seeds} {sa : List Int} (h : M.SrtPost sa) :
    (negPos sa).Pairwise (fun a b => M.slot a < M.slot b) := by
  apply negPos_sorted
  intro j v hj hv
  obtain ⟨x, _, _, hxj, rfl⟩ := h.neg_cell j v hj (by omega)
  rw [compl_compl_nat]
  exact hxj

theorem cstart_lt_length (t : List Int) (hsym : ∀ x, 0 ≤ sym t x) {y : Nat} (h : cstart t y) :
    y + 1 < t.length := by
  by_contra hc
  have h1 := (cstart_iff t y).mp h
  have h2 := sym_of_ge t (y + 1) (by omega)
  have := hsym y
  omega

theorem not_cstart_zero (t : List Int) : ¬ cstart t 0 := by
  intro h
  have := h.2
  simp [lType] at this

theorem not_cstart_succ {t : List Int} {y : Nat} (h : cstart t y) : ¬ cstart t (y + 1) := by
  intro h2
  have := h.1
  rw [h2.2] at this
  exact Bool.noConfusion this

theorem Seeds.SrtPost.ord_length {M : Seeds} (hV : M.Valid) (hsym : ∀ x, 0 ≤ sym M.t x)
    (hall : ∀ y, y + 1 < M.t.length → cstart M.t y → M.lv y)
    {sa : List Int} (h : M.SrtPost sa) : (negPos sa).length = mLt M.t (M.t.length - 1) := by
  have hnd : (negPos sa).Nodup := by
    apply List.Pairwise.imp _ h.ord_sorted
    intro a b hab heq
    rw [heq] at hab
    exact lt_irrefl _ hab
  rw [← List.toFinset_card_of_nodup hnd]
  unfold mLt
  congr 1
  ext x
  rw [List.mem_toFinset, h.mem_ord hV, Finset.mem_filter, Finset.mem_range]
  constructor
  · rintro ⟨_, hc⟩
    have := cstart_lt_length M.t hsym hc
    exact ⟨by omega, hc⟩
  · rintro ⟨hx, hc⟩
    exact ⟨hall x (by omega) hc, hc⟩

/-! ## The seeds are at least two positions apart -/

theorem mLt_double (t : List Int) : ∀ i, 2 * mLt t (i + 1) ≤ i + 1 ∧
    (¬ cstart t i → 2 * mLt t (i + 1) ≤ i) := by
  intro i
  induction i with
  | zero =>
    rw [mLt_succ, if_neg (not_cstart_zero t)]
    simp [mLt]
  | succ i ih =>
    rw [mLt_succ]
    by_cases hc : cstart t (i + 1)
    · rw [if_pos hc]
      have hn : ¬ cstart t i := fun h => not_cstart_succ h hc
      have := ih.2 hn
      exact ⟨by omega, fun h => absurd hc h⟩
    · rw [if_neg hc]
      have := ih.1
      exact ⟨by omega, fun _ => by omega⟩

theorem mLt_double_le (t : List Int) (i : Nat) : 2 * mLt t i ≤ i := by
  cases i with
  | zero => simp [mLt]
  | succ i => exact (mLt_double t i).1

theorem lms_cell_lt (t : List Int) {q : Nat} (hq : q + 1 < t.length) :
    mLt t (t.length - 1) + q / 2 < t.length := by
  have := mLt_double_le t (t.length - 1)
  omega

theorem cstart_apart {t : List Int} {x y : Nat} (hx : cstart t x) (hy : cstart t y)
    (hxy : x < y) : x + 2 ≤ y := by
  by_contra hc
  have : y = x + 1 := by omega
  rw [this] at hy
  exact not_cstart_succ hx hy

theorem cstart_half_ne {t : List Int} {x y : Nat} (hx : cstart t x) (hy : cstart t y)
    (hxy : x ≠ y) : x / 2 ≠ y / 2 := by
  rcases Nat.lt_or_gt_of_ne hxy with h | h
  · have := cstart_apart hx hy h
    omega
  · have := cstart_apart hy hx h
    omega

/-! ## The length loop of `nameLMS` -/

theorem lType_succ_of_not_cstart (t : List Int) (q : Nat) (hc : ¬ cstart t q) :
    (if sym t q > sym t (q + 1) then true else !lType t q) = !lType t (q + 1) := by
  by_cases h1 : sym t q > sym t (q + 1)
  · rw [if_pos h1, (lType_false_iff t q).mpr (Or.inl h1)]
    rfl
  · rw [if_neg h1]
    congr 1
    by_cases h2 : sym t q = sym t (q + 1)
    · simp [lType, h2]
    · have h3 : sym t q < sym t (q + 1) := by omega
      have h4 : lType t q = true := by
        cases h5 : lType t q
        · exact absurd ((cstart_iff t q).mpr ⟨h5, h3⟩) hc
        · rfl
      rw [h4, (lType_iff t q).mpr (Or.inl h3)]

theorem tagOf_sep {t : List Int} {sep : Int} {q : Nat} (h : sym t q = sep) :
    tagOf t sep q = -1 := by
  unfold tagOf
  rw [if_pos h]

theorem tagOf_reg {t : List Int} {sep : Int} {q : Nat} (h : sym t q ≠ sep) :
    tagOf t sep q = (lenTag t q : Int) := by
  unfold tagOf
  rw [if_neg h]

theorem tagOf_pos_iff (t : List Int) (sep : Int) (q : Nat) :
    0 < tagOf t sep q ↔ sym t q ≠ sep := by
  have := lenTag_pos t q
  unfold tagOf
  split <;> simp_all

theorem lengthStep_spec (t : List Int) (rec : Bool) (hsym : ∀ x, 0 ≤ sym t x)
    (sa0 : List Int) (q : Nat) (hq : q + 1 < t.length) (st : Int × Int × Bool × List Int)
    (h : LenI t (sepOf rec) (mLt t (t.length - 1)) sa0 q st) :
    ∃ st', lengthStep t (mLt t (t.length - 1) : Int) rec st (q + 1) = some st' ∧
      LenI t (sepOf rec) (mLt t (t.length - 1)) sa0 (q + 1) st' := by
  obtain ⟨hp, hj, hs, hlen, hlo, htag, hz⟩ := h
  have hcell := lms_cell_lt t hq
  have hpl := prevS_le t q
  by_cases hc : cstart t q
  · obtain ⟨hc1, hc2⟩ := (cstart_iff t q).mp hc
    have hidx : ((mLt t (t.length - 1) : Nat) : Int) + (((q + 1 : Nat) : Int) - 1) / 2 =
        ((mLt t (t.length - 1) + q / 2 : Nat) : Int) := by
      push_cast
      omega
    have hval : (if rec = false ∧ st.1 = separator then (-1 : Int)
        else ((q + 1 : Nat) : Int) - st.2.1) = tagOf t (sepOf rec) q := by
      rw [hp, hj]
      by_cases hsq : sym t q = sepOf rec
      · rw [if_pos ((sepOf_iff rec (hsym q)).mpr hsq), tagOf_sep hsq]
      · rw [if_neg (fun h => hsq ((sepOf_iff rec (hsym q)).mp h)), tagOf_reg hsq]
        unfold lenTag
        push_cast
        omega
    refine ⟨(sym t (q + 1), ((q + 1 : Nat) : Int) - 1, false,
      st.2.2.2.set (mLt t (t.length - 1) + q / 2) (tagOf t (sepOf rec) q)), ?_, ?_⟩
    · unfold lengthStep
      rw [getI_sym t (q + 1) hq]
      simp only [Option.bind_eq_bind, Option.some_bind]
      rw [if_pos ⟨by rw [hs, hc1]; rfl, by rw [hp]; exact hc2⟩, hval,
        setI_eq _ _ hidx (by omega)]
      simp only [Option.some_bind]
    · refine ⟨rfl, ?_, ?_, by simpa using hlen, ?_, ?_, ?_⟩
      · show ((q + 1 : Nat) : Int) - 1 = (prevS t (q + 1) : Int)
        rw [prevS, if_pos hc]
        push_cast
        omega
      · show false = !lType t (q + 1)
        rw [hc.1]
        rfl
      · intro a ha
        show (st.2.2.2.set _ _)[a]? = _
        rw [List.getElem?_set_ne (by omega)]
        exact hlo a ha
      · intro y hy hcy
        show (st.2.2.2.set _ _)[_]? = _
        by_cases hyq : y = q
        · subst hyq
          rw [List.getElem?_set_self (by omega)]
        · have := cstart_half_ne hcy hc hyq
          rw [List.getElem?_set_ne (by omega)]
          exact htag y (by omega) hcy
      · intro j h1 h2 hne
        show (st.2.2.2.set _ _)[j]? = _
        have := hne q (by omega) hc
        rw [List.getElem?_set_ne (by omega)]
        exact hz j h1 h2 (fun y hy hcy => hne y (by omega) hcy)
  · have hcond : ¬ (st.2.2.1 = true ∧ st.1 < sym t (q + 1)) := by
      rintro ⟨h1, h2⟩
      apply hc
      rw [cstart_iff]
      rw [hs] at h1
      rw [hp] at h2
      exact ⟨by simpa using h1, h2⟩
    refine ⟨(sym t (q + 1), st.2.1, (if st.1 > sym t (q + 1) then true else st.2.2.1),
      st.2.2.2), ?_, ?_⟩
    · unfold lengthStep
      rw [getI_sym t (q + 1) hq]
      simp only [Option.bind_eq_bind, Option.some_bind]
      rw [if_neg hcond]
      split <;> rfl
    · refine ⟨rfl, ?_, ?_, hlen, hlo, ?_, ?_⟩
      · show st.2.1 = (prevS t (q + 1) : Int)
        rw [prevS, if_neg hc]
        exact hj
      · show (if st.1 > sym t (q + 1) then true else st.2.2.1) = !lType t (q + 1)
        rw [hp, hs]
        exact lType_succ_of_not_cstart t q hc
      · intro y hy hcy
        by_cases hyq : y = q
        · rw [hyq] at hcy
          exact absurd hcy hc
        · exact htag y (by omega) hcy
      · intro j h1 h2 hne
        apply hz j h1 h2
        intro y hy hcy
        exact hne y (by omega) hcy

/-! ## The naming loop of `nameLMS` -/

theorem cmpLoop_all (t : List Int) : ∀ (r : Nat) (x y : Int), (r : Int) ≤ x + 1 →
    (r : Int) ≤ y + 1 → x < t.length → y < t.length →
    (∀ l : Nat, l < r → sym t (x - l).toNat = sym t (y - l).toNat) →
    cmpLoop t r x y = some (0, x - r, y - r) := by
  intro r
  induction r with
  | zero =>
    intro x y _ _ _ _ _
    simp [cmpLoop]
  | succ r ih =>
    intro x y hx hy hxn hyn h
    have h0 := h 0 (by omega)
    simp only [Nat.cast_zero, Int.sub_zero] at h0
    rw [cmpLoop, if_pos ⟨by omega, by omega⟩, getI_sym_eq x.toNat (by omega) (by omega),
      getI_sym_eq y.toNat (by omega) (by omega)]
    simp only [Option.some_bind]
    have e1 : x - 1 - (r : Int) = x - ((r + 1 : Nat) : Int) := by push_cast; ring
    have e2 : y - 1 - (r : Int) = y - ((r + 1 : Nat) : Int) := by push_cast; ring
    rw [if_pos h0, ih (x - 1) (y - 1) (by omega) (by omega) (by omega) (by omega), e1, e2]
    intro l hl
    have := h (l + 1) (by omega)
    rw [show x - 1 - (l : Int) = x - ((l + 1 : Nat) : Int) by push_cast; ring,
      show y - 1 - (l : Int) = y - ((l + 1 : Nat) : Int) by push_cast; ring]
    exact this

theorem cmpLoop_diff (t : List Int) : ∀ (r : Nat) (x y : Int), (r : Int) ≤ x + 1 →
    (r : Int) ≤ y + 1 → x < t.length → y < t.length →
    ¬ (∀ l : Nat, l < r → sym t (x - l).toNat = sym t (y - l).toNat) →
    ∃ r' x' y', cmpLoop t r x y = some (r', x', y') ∧ 0 < r' := by
  intro r
  induction r with
  | zero =>
    intro x y _ _ _ _ h
    exact absurd (fun l hl => absurd hl (Nat.not_lt_zero l)) h
  | succ r ih =>
    intro x y hx hy hxn hyn h
    rw [cmpLoop, if_pos ⟨by omega, by omega⟩, getI_sym_eq x.toNat (by omega) (by omega),
      getI_sym_eq y.toNat (by omega) (by omega)]
    simp only [Option.some_bind]
    by_cases h0 : sym t x.toNat = sym t y.toNat
    · rw [if_pos h0]
      apply ih (x - 1) (y - 1) (by omega) (by omega) (by omega) (by omega)
      intro hall
      apply h
      intro l hl
      cases l with
      | zero => simpa using h0
      | succ l =>
        have := hall l (by omega)
        rw [show x - 1 - (l : Int) = x - ((l + 1 : Nat) : Int) by push_cast; ring,
          show y - 1 - (l : Int) = y - ((l + 1 : Nat) : Int) by push_cast; ring] at this
        exact this
    · rw [if_neg h0]
      exact ⟨r + 1, x, y, rfl, by omega⟩

theorem SepOK.not_sep_before_window {t : List Int} {sep : Int} (hS : SepOK t sep) (a : Nat)
    (h : lenTag t a ≤ a) : sym t (a - lenTag t a) ≠ sep := by
  unfold lenTag at h ⊢
  have hp := prevS_spec t a
  have hle := prevS_le t a
  have hpos : 0 < mLt t a := by
    by_contra h0
    have := hp.1 (by omega)
    omega
  obtain ⟨hc, _, _⟩ := hp.2 hpos
  apply hS.not_sep_of_not_cstart
  intro hc2
  have := not_cstart_succ hc2
  rw [show a - (a + 1 - prevS t a) + 1 = prevS t a by omega] at this
  exact this hc

theorem sameName_spec (t : List Int) (rec : Bool) (hS : SepOK t (sepOf rec))
    (a b : Nat) (ha : a < t.length) (hb : b < t.length) (hab : lenTag t a = lenTag t b) :
    sameName t rec (lenTag t a : Int) a b = some (decide (¬ winEq t a b)) := by
  have hla := lenTag_le t a
  have hlb := lenTag_le t b
  have hconv : (∀ l : Nat, l < lenTag t a →
      sym t ((a : Int) - l).toNat = sym t ((b : Int) - l).toNat) ↔ winEq t a b := by
    unfold winEq
    constructor
    · intro h
      refine ⟨hab, fun l hl => ?_⟩
      have := h l hl
      rw [show ((a : Int) - l).toNat = a - l by omega,
        show ((b : Int) - l).toNat = b - l by omega] at this
      exact this
    · rintro ⟨_, h⟩ l hl
      rw [show ((a : Int) - l).toNat = a - l by omega,
        show ((b : Int) - l).toNat = b - l by omega]
      exact h l hl
  unfold sameName
  simp only [Int.toNat_ofNat, Option.bind_eq_bind]
  by_cases hw : winEq t a b
  · rw [cmpLoop_all t (lenTag t a) a b (by omega) (by omega) (by omega) (by omega)
      (hconv.mpr hw)]
    simp only [Option.some_bind]
    have hdw : decide (¬ winEq t a b) = false := decide_eq_false (fun h => h hw)
    rw [hdw]
    split
    · rename_i hcond
      rw [getI_sym_eq (a - lenTag t a) (by omega) (by omega)]
      simp only [Option.some_bind]
      rw [if_neg (by
        have := hS.not_sep_before_window a (by omega)
        rw [hcond.1] at this
        exact this)]
    · rfl
  · obtain ⟨r', x', y', hc, hr⟩ := cmpLoop_diff t (lenTag t a) a b (by omega) (by omega)
      (by omega) (by omega) (fun hh => hw (hconv.mp hh))
    rw [hc]
    simp only [Option.some_bind]
    rw [if_neg (by
      rintro ⟨_, h2, _⟩
      omega)]
    have hdw : decide (¬ winEq t a b) = true := decide_eq_true hw
    rw [hdw, decide_eq_true hr]

theorem nameStep_spec (t : List Int) (rec : Bool) (hS : SepOK t (sepOf rec))
    (m : Nat) (ord : List Nat)
    (hc : ∀ a, a < m → cstart t (ord.getD a 0) ∧ ord.getD a 0 + 1 < t.length)
    (hinj : ∀ a b, a < m → b < m → ord.getD a 0 = ord.getD b 0 → a = b)
    (hcell : ∀ a, a < m → m + ord.getD a 0 / 2 < t.length)
    (i : Nat) (hi1 : 1 ≤ i) (hi : i < m) (st : Int × Int × List Int)
    (h : NameI t (sepOf rec) m ord i st) :
    ∃ st', nameStep t (m : Int) rec st i = some st' ∧ NameI t (sepOf rec) m ord (i + 1) st' := by
  obtain ⟨hplen, hn, hlen, hlo, hname, htag, hz⟩ := h
  obtain ⟨hci, hli⟩ := hc i hi
  obtain ⟨hcp, hlp⟩ := hc (i - 1) (by omega)
  have hidx : (m : Int) + ((ord.getD i 0 : Nat) : Int) / 2 = ((m + ord.getD i 0 / 2 : Nat) : Int) := by
    push_cast
    rfl
  have hce := hcell i hi
  have hprev : st.2.2[i - 1]? = some (ord.getD (i - 1) 0 : Int) := hlo (i - 1) (by omega)
  have hd : ((if st.1 > 0 ∧ st.1 = tagOf t (sepOf rec) (ord.getD i 0) then
      (getI st.2.2 ((i : Int) - 1)).bind fun x => sameName t rec st.1 x (ord.getD i 0 : Int)
      else some true) : Option Bool) =
      some (decide (¬ winEqS t (sepOf rec) (ord.getD (i - 1) 0) (ord.getD i 0))) := by
    by_cases hcond : st.1 > 0 ∧ st.1 = tagOf t (sepOf rec) (ord.getD i 0)
    · have hp1 : sym t (ord.getD (i - 1) 0) ≠ sepOf rec := by
        rw [← tagOf_pos_iff, ← hplen]
        exact hcond.1
      have hp2 : sym t (ord.getD i 0) ≠ sepOf rec := by
        rw [← tagOf_pos_iff, ← hcond.2]
        exact hcond.1
      have hpl : st.1 = (lenTag t (ord.getD (i - 1) 0) : Int) := by
        rw [hplen, tagOf_reg hp1]
      rw [if_pos hcond, getI_eq (i - 1) (by omega), hprev]
      simp only [Option.some_bind]
      rw [hpl, sameName_spec t rec hS _ _ (by omega) (by omega) (by
        have := hcond.2
        rw [hpl, tagOf_reg hp2] at this
        exact_mod_cast this)]
      congr 1
      apply decide_eq_decide.mpr
      constructor
      · intro h1 h2
        exact h1 h2.2.2
      · intro h1 h2
        exact h1 ⟨hp1, hp2, h2⟩
    · rw [if_neg hcond]
      have : ¬ winEqS t (sepOf rec) (ord.getD (i - 1) 0) (ord.getD i 0) := by
        rintro ⟨h1, h2, hw⟩
        apply hcond
        have := lenTag_pos t (ord.getD (i - 1) 0)
        rw [hplen, tagOf_reg h1, tagOf_reg h2]
        exact ⟨by omega, by exact_mod_cast hw.1⟩
      rw [decide_eq_true this]
  have hnm : (if decide (¬ winEqS t (sepOf rec) (ord.getD (i - 1) 0) (ord.getD i 0)) = true
      then st.2.1 + 1 else st.2.1) = nameAt t (sepOf rec) ord i := by
    obtain ⟨j, rfl⟩ : ∃ j, i = j + 1 := ⟨i - 1, by omega⟩
    rw [nameAt, hn, Nat.add_sub_cancel]
    by_cases hw : winEqS t (sepOf rec) (ord.getD j 0) (ord.getD (j + 1) 0)
    · rw [decide_eq_false (fun h => h hw), if_neg Bool.false_ne_true, if_pos hw, Int.add_zero]
    · rw [decide_eq_true hw, if_pos rfl, if_neg hw]
  refine ⟨(tagOf t (sepOf rec) (ord.getD i 0), nameAt t (sepOf rec) ord i,
    st.2.2.set (m + ord.getD i 0 / 2) (nameAt t (sepOf rec) ord i)), ?_, ?_⟩
  · unfold nameStep
    rw [getI_ofNat, hlo i hi]
    simp only [Option.bind_eq_bind, Option.some_bind]
    rw [getI_eq _ hidx, htag i (le_refl _) hi]
    simp only [Option.some_bind]
    rw [hd]
    simp only [Option.some_bind]
    rw [hnm, setI_eq _ _ hidx (by omega)]
    simp only [Option.some_bind]
    congr 2
    split
    · rename_i h1
      exact h1.2
    · rfl
  · refine ⟨by rw [Nat.add_sub_cancel], by rw [Nat.add_sub_cancel], by simpa using hlen,
      ?_, ?_, ?_, ?_⟩
    · intro a ha
      show (st.2.2.set _ _)[a]? = _
      rw [List.getElem?_set_ne (by omega)]
      exact hlo a ha
    · intro a ha
      show (st.2.2.set _ _)[_]? = _
      by_cases hai : a = i
      · subst hai
        rw [List.getElem?_set_self (by omega)]
      · have h1 := cstart_half_ne (hc a (by omega)).1 hci
          (fun hh => hai (hinj a i (by omega) hi hh))
        rw [List.getElem?_set_ne (by omega)]
        exact hname a (by omega)
    · intro a h1 h2
      show (st.2.2.set _ _)[_]? = _
      have h3 := cstart_half_ne (hc a h2).1 hci (fun hh => by
        have := hinj a i h2 hi hh
        omega)
      rw [List.getElem?_set_ne (by omega)]
      exact htag a (by omega) h2
    · intro j h1 h2 hne
      show (st.2.2.set _ _)[j]? = _
      have := hne i hi
      rw [List.getElem?_set_ne (by omega)]
      exact hz j h1 h2 hne

/-! ## The function `nameLMS` -/

theorem getD_mem {l : List Nat} {a : Nat} (h : a < l.length) : l.getD a 0 ∈ l := by
  rw [List.getD_eq_getElem l 0 h]
  exact List.getElem_mem h

theorem getElem?_getD {l : List Nat} {a : Nat} (h : a < l.length) :
    l[a]? = some (l.getD a 0) := by
  rw [List.getD_eq_getElem l 0 h, List.getElem?_eq_getElem h]

theorem nodup_getD_inj {l : List Nat} (hn : l.Nodup) {a b : Nat} (ha : a < l.length)
    (hb : b < l.length) (h : l.getD a 0 = l.getD b 0) : a = b := by
  rw [List.getD_eq_getElem l 0 ha, List.getD_eq_getElem l 0 hb] at h
  exact (List.Nodup.getElem_inj_iff hn).mp h

theorem exists_getD_of_mem {l : List Nat} {x : Nat} (h : x ∈ l) :
    ∃ a, a < l.length ∧ l.getD a 0 = x := by
  obtain ⟨a, ha, hx⟩ := List.getElem_of_mem h
  exact ⟨a, ha, by rw [List.getD_eq_getElem l 0 ha, hx]⟩

theorem Seeds.SrtPost.ord_nodup {M : Seeds} {sa : List Int} (h : M.SrtPost sa) :
    (negPos sa).Nodup := by
  apply List.Pairwise.imp _ h.ord_sorted
  intro a b hab heq
  rw [heq] at hab
  exact lt_irrefl _ hab

/-- The function `nameLMS` returns the last name and leaves the seeds, in the order of their
cells, followed by their names. -/
theorem nameLMS_spec (M : Seeds) (hV : M.Valid) (hsym : ∀ x, 0 ≤ sym M.t x)
    (hall : ∀ y, y + 1 < M.t.length → cstart M.t y → M.lv y)
    (rec : Bool) (hS : SepOK M.t (sepOf rec)) (sa : List Int)
    (h : M.SrtPost sa) (hm : 1 ≤ mLt M.t (M.t.length - 1)) (hn : 2 ≤ M.t.length) :
    ∃ sa', nameLMS M.t sa (mLt M.t (M.t.length - 1) : Int) rec =
        some (nameAt M.t (sepOf rec) (negPos sa) (mLt M.t (M.t.length - 1) - 1), sa') ∧
      NamePost M.t (sepOf rec) (mLt M.t (M.t.length - 1)) (negPos sa) sa' := by
  have hol := h.ord_length hV hsym hall
  have hnd := h.ord_nodup
  have hc : ∀ a, a < mLt M.t (M.t.length - 1) → cstart M.t ((negPos sa).getD a 0) ∧
      (negPos sa).getD a 0 + 1 < M.t.length := by
    intro a ha
    have := (h.mem_ord hV _).mp (getD_mem (l := negPos sa) (a := a) (by omega))
    exact ⟨this.2, cstart_lt_length M.t hsym this.2⟩
  have hinj : ∀ a b, a < mLt M.t (M.t.length - 1) → b < mLt M.t (M.t.length - 1) →
      (negPos sa).getD a 0 = (negPos sa).getD b 0 → a = b :=
    fun a b ha hb hab => nodup_getD_inj hnd (by omega) (by omega) hab
  have hcell : ∀ a, a < mLt M.t (M.t.length - 1) →
      mLt M.t (M.t.length - 1) + (negPos sa).getD a 0 / 2 < M.t.length :=
    fun a ha => lms_cell_lt M.t (hc a ha).2
  have hall : ∀ y, y < M.t.length - 1 → cstart M.t y →
      ∃ a, a < mLt M.t (M.t.length - 1) ∧ (negPos sa).getD a 0 = y := by
    intro y hy hcy
    have hmem : y ∈ negPos sa := by
      rw [h.mem_ord hV]
      exact ⟨hall y (by omega) hcy, hcy⟩
    obtain ⟨a, ha, hx⟩ := exists_getD_of_mem hmem
    exact ⟨a, by rw [← hol]; exact ha, hx⟩
  -- compaction
  obtain ⟨st1, hf1, hl1, hlo1, hz1⟩ := compact_spec sa (mLt M.t (M.t.length - 1)) hol
    h.nonneg_zero (by omega)
  have hlo1' : ∀ a, a < mLt M.t (M.t.length - 1) →
      st1.2.1[a]? = some ((negPos sa).getD a 0 : Int) := by
    intro a ha
    rw [hlo1 a ha, getElem?_getD (by omega)]
    rfl
  -- length tags
  obtain ⟨st2, hf2, q, hq, hL⟩ := foldlM_range'_spec
    (fun i (st : Int × Int × Bool × List Int) =>
      ∃ q, i = q + 1 ∧ LenI M.t (sepOf rec) (mLt M.t (M.t.length - 1)) st1.2.1 q st)
    (lengthStep M.t (mLt M.t (M.t.length - 1) : Int) rec) (M.t.length - 1) 1
    (fun i st h1 h2 hP => by
      obtain ⟨q, hq, hF⟩ := hP
      subst hq
      obtain ⟨st', hs1, hs2⟩ := lengthStep_spec M.t rec hsym st1.2.1 q (by omega) st hF
      exact ⟨st', hs1, q + 1, rfl, hs2⟩)
    (sym M.t 0, 0, false, st1.2.1)
    ⟨0, rfl, rfl, rfl, rfl, by rw [hl1, h.len], fun _ _ => rfl, fun y hy _ => by omega,
      fun j h1 h2 _ => hz1 j h1 (by rw [h.len]; exact h2)⟩
  have hq' : q = M.t.length - 1 := by omega
  subst hq'
  have htag2 : ∀ a, a < mLt M.t (M.t.length - 1) →
      st2.2.2.2[mLt M.t (M.t.length - 1) + (negPos sa).getD a 0 / 2]? =
        some (tagOf M.t (sepOf rec) ((negPos sa).getD a 0)) := by
    intro a ha
    exact hL.htag _ (by have := (hc a ha).2; omega) (hc a ha).1
  have hlo2 : ∀ a, a < mLt M.t (M.t.length - 1) →
      st2.2.2.2[a]? = some ((negPos sa).getD a 0 : Int) := by
    intro a ha
    rw [hL.hlo a ha, hlo1' a ha]
  have hz2 : ∀ j, mLt M.t (M.t.length - 1) ≤ j → j < M.t.length →
      (∀ a, a < mLt M.t (M.t.length - 1) →
        mLt M.t (M.t.length - 1) + (negPos sa).getD a 0 / 2 ≠ j) → st2.2.2.2[j]? = some 0 := by
    intro j h1 h2 hne
    apply hL.hz j h1 h2
    intro y hy hcy
    obtain ⟨a, ha, hx⟩ := hall y hy hcy
    rw [← hx]
    exact hne a ha
  -- the first name
  have hidx0 : ((mLt M.t (M.t.length - 1) : Nat) : Int) + (((negPos sa).getD 0 0 : Nat) : Int) / 2 =
      ((mLt M.t (M.t.length - 1) + (negPos sa).getD 0 0 / 2 : Nat) : Int) := by
    push_cast
    rfl
  have hc0 := hcell 0 (by omega)
  obtain ⟨st3, hf3, hN⟩ := foldlM_range'_spec
    (fun i (st : Int × Int × List Int) =>
      NameI M.t (sepOf rec) (mLt M.t (M.t.length - 1)) (negPos sa) i st)
    (nameStep M.t (mLt M.t (M.t.length - 1) : Int) rec) (mLt M.t (M.t.length - 1) - 1) 1
    (fun i st h1 h2 hP =>
      nameStep_spec M.t rec hS _ (negPos sa) hc hinj hcell i h1 (by omega) st hP)
    (tagOf M.t (sepOf rec) ((negPos sa).getD 0 0), 1,
      st2.2.2.2.set (mLt M.t (M.t.length - 1) + (negPos sa).getD 0 0 / 2) 1)
    ⟨rfl, rfl, by simpa using hL.hlen, fun a ha => by
        show (st2.2.2.2.set _ _)[a]? = _
        rw [List.getElem?_set_ne (by omega)]
        exact hlo2 a ha,
      fun a ha => by
        show (st2.2.2.2.set _ _)[_]? = _
        have : a = 0 := by omega
        subst this
        rw [List.getElem?_set_self (by rw [hL.hlen]; exact hc0)]
        rfl,
      fun a h1 h2 => by
        show (st2.2.2.2.set _ _)[_]? = _
        have h3 := cstart_half_ne (hc a h2).1 (hc 0 (by omega)).1 (fun hh => by
          have := hinj a 0 h2 (by omega) hh
          omega)
        rw [List.getElem?_set_ne (by omega)]
        exact htag2 a h2,
      fun j h1 h2 hne => by
        show (st2.2.2.2.set _ _)[j]? = _
        have := hne 0 (by omega)
        rw [List.getElem?_set_ne (by omega)]
        exact hz2 j h1 h2 hne⟩
  rw [show 1 + (mLt M.t (M.t.length - 1) - 1) = mLt M.t (M.t.length - 1) by omega] at hN
  refine ⟨st3.2.2, ?_, ⟨hN.hlen, hN.hlo, fun a ha => hN.hname a ha, hN.hz⟩⟩
  unfold nameLMS
  simp only [Option.bind_eq_bind]
  rw [show sa.length = sa.length from rfl, hf1]
  simp only [Option.some_bind]
  rw [getI_sym_eq 0 (by simp) (by omega)]
  simp only [Option.some_bind, hf2]
  rw [getI_eq 0 (by simp), hlo2 0 (by omega)]
  simp only [Option.some_bind]
  rw [getI_eq _ hidx0, htag2 0 (by omega)]
  simp only [Option.some_bind]
  rw [setI_eq _ _ hidx0 (by rw [hL.hlen]; exact hc0)]
  simp only [Option.some_bind, Int.toNat_ofNat, hf3, hN.hn]

/-! ## The seeds in text order -/

theorem filter_range_succ' (p : Nat → Bool) (N : Nat) :
    (List.range (N + 1)).filter p = (List.range N).filter p ++ (if p N then [N] else []) := by
  rw [List.range_succ, List.filter_append]
  congr 1
  by_cases h : p N <;> simp [h]

theorem lmsRange_length (t : List Int) : ∀ N,
    ((List.range N).filter (fun y => decide (cstart t y))).length = mLt t N := by
  intro N
  induction N with
  | zero => simp [mLt]
  | succ N ih =>
    rw [filter_range_succ', List.length_append, ih, mLt_succ]
    by_cases h : cstart t N <;> simp [h]

theorem mLt_mono (t : List Int) {i j : Nat} (h : i ≤ j) : mLt t i ≤ mLt t j := by
  unfold mLt
  apply Finset.card_le_card
  apply Finset.filter_subset_filter
  intro x hx
  rw [Finset.mem_range] at hx ⊢
  omega

theorem lmsRange_getElem? (t : List Int) : ∀ N q, q < N → cstart t q →
    ((List.range N).filter (fun y => decide (cstart t y)))[mLt t q]? = some q := by
  intro N
  induction N with
  | zero => intro q hq; omega
  | succ N ih =>
    intro q hq hc
    rw [filter_range_succ']
    by_cases hqN : q = N
    · subst hqN
      rw [List.getElem?_append_right (by rw [lmsRange_length]), lmsRange_length]
      simp [hc]
    · have h1 := mLt_succ t q
      rw [if_pos hc] at h1
      have h2 := mLt_mono t (show q + 1 ≤ N by omega)
      rw [List.getElem?_append_left (by rw [lmsRange_length]; omega)]
      exact ih q (by omega) hc

theorem lmsL_length (t : List Int) : (lmsL t).length = mLt t (t.length - 1) :=
  lmsRange_length t _

theorem lmsL_getElem? (t : List Int) {q : Nat} (hq : q + 1 < t.length) (hc : cstart t q) :
    (lmsL t)[mLt t q]? = some q :=
  lmsRange_getElem? t _ q (by omega) hc

theorem lmsL_nodup (t : List Int) : (lmsL t).Nodup :=
  List.Nodup.filter _ (List.nodup_range _)

theorem mem_lmsL (t : List Int) (x : Nat) : x ∈ lmsL t ↔ x + 1 < t.length ∧ cstart t x := by
  unfold lmsL
  rw [List.mem_filter, List.mem_range]
  simp only [decide_eq_true_eq]
  constructor
  · rintro ⟨h1, h2⟩
    exact ⟨by omega, h2⟩
  · rintro ⟨h1, h2⟩
    exact ⟨by omega, h2⟩

theorem lmsL_getD (t : List Int) {a : Nat} (ha : a < mLt t (t.length - 1)) :
    (lmsL t).getD a 0 + 1 < t.length ∧ cstart t ((lmsL t).getD a 0) ∧
    mLt t ((lmsL t).getD a 0) = a := by
  have hl := lmsL_length t
  have hmem := (mem_lmsL t _).mp (getD_mem (l := lmsL t) (a := a) (by omega))
  refine ⟨hmem.1, hmem.2, ?_⟩
  have h1 := lmsL_getElem? t hmem.1 hmem.2
  have h2 : (lmsL t)[a]? = some ((lmsL t).getD a 0) := getElem?_getD (by omega)
  have hlt : mLt t ((lmsL t).getD a 0) < (lmsL t).length := (List.getElem?_eq_some.mp h1).1
  have h3 : (lmsL t).getD (mLt t ((lmsL t).getD a 0)) 0 = (lmsL t).getD a 0 := by
    rw [List.getD_eq_getElem?_getD, h1]
    rfl
  exact nodup_getD_inj (lmsL_nodup t) hlt (by omega) h3

/-- The seeds in text order: each is the last seed before the next one. -/
theorem lmsL_chain (t : List Int) :
    prevS t ((lmsL t).getD 0 0) = 0 ∨ mLt t (t.length - 1) = 0 := by
  by_cases hm : mLt t (t.length - 1) = 0
  · exact Or.inr hm
  · left
    have := lmsL_getD t (a := 0) (by omega)
    exact (prevS_spec t _).1 this.2.2

theorem lmsL_step (t : List Int) {a : Nat} (ha : a + 1 < mLt t (t.length - 1)) :
    prevS t ((lmsL t).getD (a + 1) 0) = (lmsL t).getD a 0 ∧
    (lmsL t).getD a 0 < (lmsL t).getD (a + 1) 0 := by
  obtain ⟨h1, h2, h3⟩ := lmsL_getD t ha
  obtain ⟨h4, h5, h6⟩ := (prevS_spec t _).2 (show 0 < mLt t ((lmsL t).getD (a + 1) 0) by omega)
  have h7 := lmsL_getElem? t (show prevS t ((lmsL t).getD (a + 1) 0) + 1 < t.length by omega) h4
  have h8 : mLt t (prevS t ((lmsL t).getD (a + 1) 0)) = a := by omega
  rw [h8] at h7
  have h9 : (lmsL t).getD a 0 = prevS t ((lmsL t).getD (a + 1) 0) := by
    rw [List.getD_eq_getElem?_getD, h7]
    rfl
  rw [h9]
  exact ⟨rfl, h5⟩

theorem mLt_le_total (t : List Int) (hsym : ∀ x, 0 ≤ sym t x) (N : Nat) :
    mLt t N ≤ mLt t (t.length - 1) := by
  unfold mLt
  apply Finset.card_le_card
  intro x hx
  rw [Finset.mem_filter, Finset.mem_range] at hx ⊢
  have := cstart_lt_length t hsym hx.2
  exact ⟨by omega, hx.2⟩

theorem mLt_of_ge (t : List Int) (hsym : ∀ x, 0 ≤ sym t x) {N : Nat} (h : t.length - 1 ≤ N) :
    mLt t N = mLt t (t.length - 1) :=
  le_antisymm (mLt_le_total t hsym N) (mLt_mono t h)

/-! ## The function `adjustLMS` -/

theorem zeroPrefix_spec (m : Nat) (sa : List Int) (hm : m ≤ sa.length) :
    ∃ sa', (List.range m).foldlM (fun sa (i : Nat) => setI sa i 0) sa = some sa' ∧
      sa'.length = sa.length ∧ (∀ a, a < m → sa'[a]? = some 0) ∧
      (∀ a, m ≤ a → sa'[a]? = sa[a]?) := by
  obtain ⟨s, hf, h1, h2, h3⟩ := foldlM_range_spec
    (fun i (s : List Int) => s.length = sa.length ∧ (∀ a, a < i → s[a]? = some 0) ∧
      (∀ a, i ≤ a → s[a]? = sa[a]?))
    (fun sa (i : Nat) => setI sa i 0) m
    (fun i s hi hP => by
      obtain ⟨h1, h2, h3⟩ := hP
      refine ⟨s.set i 0, setI_ofNat _ _ _ (by omega), by simpa using h1, ?_, ?_⟩
      · intro a ha
        by_cases hai : a = i
        · subst hai
          rw [List.getElem?_set_self (by omega)]
        · rw [List.getElem?_set_ne (fun hh => hai hh.symm)]
          exact h2 a (by omega)
      · intro a ha
        rw [List.getElem?_set_ne (by omega)]
        exact h3 a (by omega))
    sa ⟨rfl, fun a ha => by omega, fun _ _ => rfl⟩
  exact ⟨s, hf, h1, h2, h3⟩

theorem OrdOK.getD {t : List Int} {ord : List Nat} (h : OrdOK t ord) {a : Nat}
    (ha : a < mLt t (t.length - 1)) :
    ord.getD a 0 + 1 < t.length ∧ cstart t (ord.getD a 0) :=
  (h.mem _).mp (getD_mem (l := ord) (a := a) (by rw [h.len]; exact ha))

theorem OrdOK.index {t : List Int} {ord : List Nat} (h : OrdOK t ord) {y : Nat}
    (hy : y + 1 < t.length) (hc : cstart t y) :
    ∃ a, a < mLt t (t.length - 1) ∧ ord.getD a 0 = y := by
  obtain ⟨a, ha, hx⟩ := exists_getD_of_mem ((h.mem y).mpr ⟨hy, hc⟩)
  exact ⟨a, by rw [← h.len]; exact ha, hx⟩

theorem OrdOK.nameOf_getD {t : List Int} {sep : Int} {ord : List Nat} (h : OrdOK t ord) {a : Nat}
    (ha : a < mLt t (t.length - 1)) : nameOf t sep ord (ord.getD a 0) = nameAt t sep ord a := by
  unfold nameOf
  have hl : a < ord.length := by rw [h.len]; exact ha
  rw [List.getD_eq_getElem ord 0 hl, List.indexOf_getElem h.nodup a hl]

theorem NamePost.cell {t : List Int} {sep : Int} {ord : List Nat} {sa : List Int} (ho : OrdOK t ord)
    (h : NamePost t sep (mLt t (t.length - 1)) ord sa) {y : Nat} (hy : y + 1 < t.length)
    (hc : cstart t y) : sa[mLt t (t.length - 1) + y / 2]? = some (nameOf t sep ord y) := by
  obtain ⟨a, ha, rfl⟩ := ho.index hy hc
  rw [h.hname a ha, ho.nameOf_getD ha]

theorem NamePost.cell_zero {t : List Int} {sep : Int} {ord : List Nat} {sa : List Int} (ho : OrdOK t ord)
    (h : NamePost t sep (mLt t (t.length - 1)) ord sa) {j : Nat} (h1 : mLt t (t.length - 1) ≤ j)
    (h2 : j < t.length) (hne : ∀ y, cstart t y → mLt t (t.length - 1) + y / 2 ≠ j) :
    sa[j]? = some 0 := by
  apply h.hz j h1 h2
  intro a ha
  exact hne _ (ho.getD ha).2

theorem nameOf_pos {t : List Int} {sep : Int} {ord : List Nat} (y : Nat) : 1 ≤ nameOf t sep ord y :=
  (nameAt_bounds t sep ord _).1

theorem mLt_pair_some (t : List Int) {c y : Nat} (hc : cstart t y) (hy : y / 2 = c) :
    mLt t (2 * c + 2) = mLt t (2 * c) + 1 ∧ mLt t y = mLt t (2 * c) := by
  have h1 := mLt_succ t (2 * c)
  have h2 : mLt t (2 * c + 2) = mLt t (2 * c + 1) + (if cstart t (2 * c + 1) then 1 else 0) :=
    mLt_succ t (2 * c + 1)
  have hy' : y = 2 * c ∨ y = 2 * c + 1 := by omega
  rcases hy' with rfl | rfl
  · rw [if_pos hc] at h1
    rw [if_neg (not_cstart_succ hc)] at h2
    exact ⟨by omega, rfl⟩
  · rw [if_pos hc] at h2
    rw [if_neg (fun hh => not_cstart_succ hh hc)] at h1
    exact ⟨by omega, by omega⟩

theorem mLt_pair_none (t : List Int) {c : Nat} (h : ∀ y, cstart t y → y / 2 ≠ c) :
    mLt t (2 * c + 2) = mLt t (2 * c) := by
  have h1 := mLt_succ t (2 * c)
  have h2 : mLt t (2 * c + 2) = mLt t (2 * c + 1) + (if cstart t (2 * c + 1) then 1 else 0) :=
    mLt_succ t (2 * c + 1)
  rw [if_neg (fun hh => h _ hh (by omega))] at h1 h2
  omega

theorem adjustStep_spec (t : List Int) (sep : Int) (hsym : ∀ x, 0 ≤ sym t x) (ord : List Nat)
    (ho : OrdOK t ord) (sa0 sa1 : List Int) (hN : NamePost t sep (mLt t (t.length - 1)) ord sa0)
    (h1 : ∀ a, mLt t (t.length - 1) ≤ a → sa1[a]? = sa0[a]?) (i : Nat)
    (him : mLt t (t.length - 1) ≤ i) (hi : i < t.length) (st : Int × List Int)
    (h : AdjI t sep (mLt t (t.length - 1)) ord sa1 i st) :
    ∃ st', adjustStep (mLt t (t.length - 1) : Int) st i = some st' ∧
      AdjI t sep (mLt t (t.length - 1)) ord sa1 (i + 1) st' := by
  obtain ⟨hj, hlen, hlo, hname, hmid, hhi⟩ := h
  have hcur : st.2[i]? = sa0[i]? := by rw [hhi i (le_refl _), h1 i him]
  have hsucc : 2 * (i + 1 - mLt t (t.length - 1)) = 2 * (i - mLt t (t.length - 1)) + 2 := by
    omega
  have hdl := mLt_double_le t (2 * (i - mLt t (t.length - 1)))
  by_cases hex : ∃ y, cstart t y ∧ y / 2 = i - mLt t (t.length - 1)
  · obtain ⟨y, hcy, hy2⟩ := hex
    obtain ⟨hp1, hp2⟩ := mLt_pair_some t hcy hy2
    have hyl := cstart_lt_length t hsym hcy
    have hv : st.2[i]? = some (nameOf t sep ord y) := by
      rw [hcur, ← hN.cell ho hyl hcy]
      congr 1
      omega
    have hpos := @nameOf_pos t sep ord y
    have hJ : mLt t (2 * (i - mLt t (t.length - 1))) < mLt t (t.length - 1) := by
      have := mLt_le_total t hsym (2 * (i - mLt t (t.length - 1)) + 2)
      omega
    have hget : (lmsL t).getD (mLt t (2 * (i - mLt t (t.length - 1)))) 0 = y := by
      rw [List.getD_eq_getElem?_getD, ← hp2, lmsL_getElem? t hyl hcy]
      rfl
    have hidx : st.1 + (mLt t (t.length - 1) : Int) =
        ((mLt t (t.length - 1) + mLt t (2 * (i - mLt t (t.length - 1))) : Nat) : Int) := by
      rw [hj]
      push_cast
      ring
    by_cases hne : mLt t (t.length - 1) + mLt t (2 * (i - mLt t (t.length - 1))) = i
    · refine ⟨(st.1 + 1, st.2.set i (nameOf t sep ord y - 1)), ?_, ?_⟩
      · unfold adjustStep
        rw [if_pos (by rw [hj]; exact_mod_cast hJ), getI_ofNat, hv]
        simp only [Option.bind_eq_bind, Option.some_bind]
        rw [if_pos (by omega), if_neg (by
          rw [hj]
          intro hh
          apply hh
          exact_mod_cast hne), setI_ofNat _ _ _ (by omega)]
        rfl
      · refine ⟨by show st.1 + 1 = _; rw [hsucc, hp1, hj]; push_cast; rfl, by simpa using hlen,
          ?_, ?_, ?_, ?_⟩
        · intro a ha
          show (st.2.set _ _)[a]? = _
          rw [List.getElem?_set_ne (by omega)]
          exact hlo a ha
        · intro a ha
          show (st.2.set _ _)[_]? = _
          rw [hsucc, hp1] at ha
          by_cases haJ : a = mLt t (2 * (i - mLt t (t.length - 1)))
          · rw [haJ, hne, List.getElem?_set_self (by omega), hget]
          · rw [List.getElem?_set_ne (by omega)]
            exact hname a (by omega)
        · intro a ha1 ha2
          rw [hsucc, hp1] at ha1
          omega
        · intro a ha
          show (st.2.set _ _)[a]? = _
          rw [List.getElem?_set_ne (by omega)]
          exact hhi a (by omega)
    · refine ⟨(st.1 + 1, (st.2.set (mLt t (t.length - 1) +
        mLt t (2 * (i - mLt t (t.length - 1)))) (nameOf t sep ord y - 1)).set i 0), ?_, ?_⟩
      · unfold adjustStep
        rw [if_pos (by rw [hj]; exact_mod_cast hJ), getI_ofNat, hv]
        simp only [Option.bind_eq_bind, Option.some_bind]
        rw [if_pos (by omega), if_pos (by
          rw [hj]
          intro hh
          apply hne
          exact_mod_cast hh), setI_eq _ _ hidx (by omega)]
        simp only [Option.some_bind]
        rw [setI_ofNat _ _ _ (by simpa using (by omega))]
        rfl
      · refine ⟨by show st.1 + 1 = _; rw [hsucc, hp1, hj]; push_cast; rfl, by simpa using hlen,
          ?_, ?_, ?_, ?_⟩
        · intro a ha
          show ((st.2.set _ _).set _ _)[a]? = _
          rw [List.getElem?_set_ne (by omega), List.getElem?_set_ne (by omega)]
          exact hlo a ha
        · intro a ha
          show ((st.2.set _ _).set _ _)[_]? = _
          rw [hsucc, hp1] at ha
          rw [List.getElem?_set_ne (by omega)]
          by_cases haJ : a = mLt t (2 * (i - mLt t (t.length - 1)))
          · rw [haJ, List.getElem?_set_self (by omega), hget]
          · rw [List.getElem?_set_ne (by omega)]
            exact hname a (by omega)
        · intro a ha1 ha2
          show ((st.2.set _ _).set _ _)[a]? = _
          rw [hsucc, hp1] at ha1
          by_cases hai : a = i
          · rw [hai, List.getElem?_set_self (by simpa using (by omega))]
          · rw [List.getElem?_set_ne (fun hh => hai hh.symm), List.getElem?_set_ne (by omega)]
            exact hmid a (by omega) (by omega)
        · intro a ha
          show ((st.2.set _ _).set _ _)[a]? = _
          rw [List.getElem?_set_ne (by omega), List.getElem?_set_ne (by omega)]
          exact hhi a (by omega)
  · have hnone : ∀ y, cstart t y → y / 2 ≠ i - mLt t (t.length - 1) :=
      fun y hcy hy => hex ⟨y, hcy, hy⟩
    have hp := mLt_pair_none t hnone
    have hv : st.2[i]? = some 0 := by
      rw [hcur]
      apply hN.cell_zero ho him hi
      intro y hcy hh
      exact hnone y hcy (by omega)
    refine ⟨st, ?_, ?_⟩
    · unfold adjustStep
      split
      · rw [getI_ofNat, hv]
        simp only [Option.bind_eq_bind, Option.some_bind]
        rw [if_neg (by omega)]
      · rfl
    · refine ⟨by rw [hsucc, hp]; exact hj, hlen, hlo, ?_, ?_, fun a ha => hhi a (by omega)⟩
      · intro a ha
        rw [hsucc, hp] at ha
        exact hname a ha
      · intro a ha1 ha2
        rw [hsucc, hp] at ha1
        by_cases hai : a = i
        · rw [hai, hv]
        · exact hmid a ha1 (by omega)

/-- The function `adjustLMS` returns, with the names of the seeds less one, in text order,
at the cells `m .. 2 m - 1` and zeros in the other cells. -/
theorem adjustLMS_spec (t : List Int) (sep : Int) (hsym : ∀ x, 0 ≤ sym t x) (ord : List Nat)
    (ho : OrdOK t ord) (sa0 : List Int) (hN : NamePost t sep (mLt t (t.length - 1)) ord sa0)
    (hn : 2 ≤ t.length) :
    ∃ sa', adjustLMS sa0 (mLt t (t.length - 1) : Int) = some sa' ∧
      AdjPost t sep (mLt t (t.length - 1)) ord sa' := by
  have hd := mLt_double_le t (t.length - 1)
  obtain ⟨sa1, hf1, hl1, hz1, hk1⟩ := zeroPrefix_spec (mLt t (t.length - 1)) sa0
    (by rw [hN.hlen]; omega)
  obtain ⟨st, hf2, hA⟩ := foldlM_range'_spec
    (fun i (st : Int × List Int) => AdjI t sep (mLt t (t.length - 1)) ord sa1 i st)
    (adjustStep (mLt t (t.length - 1) : Int)) (t.length - mLt t (t.length - 1))
    (mLt t (t.length - 1))
    (fun i st h1 h2 hP => adjustStep_spec t sep hsym ord ho sa0 sa1 hN hk1 i h1 (by omega) st hP)
    (0, sa1)
    ⟨by simp [mLt], by rw [hl1, hN.hlen], hz1, fun a ha => by
        rw [Nat.sub_self] at ha
        simp [mLt] at ha,
      fun a h1 h2 => by omega, fun _ _ => rfl⟩
  rw [show mLt t (t.length - 1) + (t.length - mLt t (t.length - 1)) = t.length by omega] at hA
  have hfin : mLt t (2 * (t.length - mLt t (t.length - 1))) = mLt t (t.length - 1) :=
    mLt_of_ge t hsym (by omega)
  refine ⟨st.2, ?_, ⟨hA.hlen, hA.hlo, fun a ha => hA.hname a (by rw [hfin]; exact ha),
    fun a h1 h2 => hA.hmid a (by rw [hfin]; omega) h2⟩⟩
  unfold adjustLMS
  simp only [Option.bind_eq_bind, Int.toNat_ofNat, hf1, Option.some_bind, hl1, hN.hlen, hf2]

/-! ## The function `locateLMS` -/

theorem locateStep_spec (t : List Int) (hsym : ∀ x, 0 ≤ sym t x) (sa0 : List Int) (q : Nat)
    (hq : q + 1 < t.length) (st : Int × Bool × Int × List Int)
    (h : LocI t (mLt t (t.length - 1)) sa0 q st) :
    ∃ st', locateStep t st (q + 1) = some st' ∧ LocI t (mLt t (t.length - 1)) sa0 (q + 1) st' := by
  obtain ⟨hp, hs, hmm, hlen, hloc, hrest⟩ := h
  have hd := mLt_double_le t (t.length - 1)
  have hms := mLt_succ t q
  by_cases hc : cstart t q
  · obtain ⟨hc1, hc2⟩ := (cstart_iff t q).mp hc
    rw [if_pos hc] at hms
    have htot := mLt_le_total t hsym (q + 1)
    have hget : (lmsL t).getD (mLt t q) 0 = q := by
      rw [List.getD_eq_getElem?_getD, lmsL_getElem? t hq hc]
      rfl
    refine ⟨(sym t (q + 1), false, st.2.2.1 + 1,
      st.2.2.2.set (mLt t (t.length - 1) + mLt t q) (((q + 1 : Nat) : Int) - 1)), ?_, ?_⟩
    · unfold locateStep
      rw [getI_sym t (q + 1) hq]
      simp only [Option.bind_eq_bind, Option.some_bind]
      rw [if_pos (by rw [hs, hc1]; rfl), if_pos (by rw [hp]; exact hc2),
        setI_eq _ _ hmm (by omega)]
      rfl
    · refine ⟨rfl, ?_, ?_, by simpa using hlen, ?_, ?_⟩
      · show false = !lType t (q + 1)
        rw [hc.1]
        rfl
      · show st.2.2.1 + 1 = _
        rw [hmm, hms]
        push_cast
        ring
      · intro a ha
        show (st.2.2.2.set _ _)[_]? = _
        rw [hms] at ha
        by_cases haq : a = mLt t q
        · rw [haq, List.getElem?_set_self (by omega), hget]
          congr 1
          push_cast
          ring
        · rw [List.getElem?_set_ne (by omega)]
          exact hloc a (by omega)
      · intro j hj
        show (st.2.2.2.set _ _)[j]? = _
        rw [hms] at hj
        rw [List.getElem?_set_ne (by omega)]
        exact hrest j (by omega)
  · rw [if_neg hc, Nat.add_zero] at hms
    refine ⟨(sym t (q + 1), (if st.1 > sym t (q + 1) then true else st.2.1), st.2.2.1,
      st.2.2.2), ?_, ?_⟩
    · unfold locateStep
      rw [getI_sym t (q + 1) hq]
      simp only [Option.bind_eq_bind, Option.some_bind]
      by_cases hst : st.2.1 = true
      · have hnlt : ¬ st.1 < sym t (q + 1) := by
          intro hlt
          apply hc
          rw [cstart_iff]
          rw [hs] at hst
          rw [hp] at hlt
          exact ⟨by simpa using hst, hlt⟩
        rw [if_pos hst, if_neg hnlt]
        by_cases hgt : st.1 > sym t (q + 1)
        · rw [if_pos hgt, hst]
        · rw [if_neg hgt]
      · rw [if_neg hst]
        split <;> rfl
    · refine ⟨rfl, ?_, by rw [hms]; exact hmm, hlen, ?_, ?_⟩
      · show (if st.1 > sym t (q + 1) then true else st.2.1) = !lType t (q + 1)
        rw [hp, hs]
        exact lType_succ_of_not_cstart t q hc
      · intro a ha
        rw [hms] at ha
        exact hloc a ha
      · intro j hj
        rw [hms] at hj
        exact hrest j hj

/-- The function `locateLMS` returns, with the seeds in text order at the cells
`m .. 2 m - 1`; the other cells are as before. -/
theorem locateLMS_spec (t : List Int) (hsym : ∀ x, 0 ≤ sym t x) (sa0 : List Int)
    (hlen : sa0.length = t.length) (hn : 2 ≤ t.length) (rec : Bool) :
    ∃ sa', locateLMS t sa0 (mLt t (t.length - 1) : Int) rec = some sa' ∧
      sa'.length = t.length ∧
      (∀ a, a < mLt t (t.length - 1) →
        sa'[mLt t (t.length - 1) + a]? = some ((lmsL t).getD a 0 : Int)) ∧
      (∀ j, (j < mLt t (t.length - 1) ∨ 2 * mLt t (t.length - 1) ≤ j) → sa'[j]? = sa0[j]?) := by
  obtain ⟨st, hf, q, hq, hL⟩ := foldlM_range'_spec
    (fun i (st : Int × Bool × Int × List Int) =>
      ∃ q, i = q + 1 ∧ LocI t (mLt t (t.length - 1)) sa0 q st)
    (locateStep t) (t.length - 1) 1
    (fun i st h1 h2 hP => by
      obtain ⟨q, hq, hF⟩ := hP
      subst hq
      obtain ⟨st', hs1, hs2⟩ := locateStep_spec t hsym sa0 q (by omega) st hF
      exact ⟨st', hs1, q + 1, rfl, hs2⟩)
    (sym t 0, false, (mLt t (t.length - 1) : Int), sa0)
    ⟨0, rfl, rfl, rfl, by simp [mLt], hlen, fun a ha => by simp [mLt] at ha, fun _ _ => rfl⟩
  have hq' : q = t.length - 1 := by omega
  subst hq'
  refine ⟨st.2.2.2, ?_, hL.hlen, hL.hloc, fun j hj => hL.hrest j (by omega)⟩
  unfold locateLMS
  simp only [Option.bind_eq_bind]
  rw [getI_sym_eq 0 (by simp) (by omega)]
  simp only [Option.some_bind, hf]

/-! ## The function `shuffleLMS` -/

theorem shuffleStep_spec (n m : Nat) (r L : Nat → Nat) (hm : 2 * m ≤ n)
    (hr : ∀ a, a < m → r a < m) (hinj : ∀ a b, a < m → b < m → r a = r b → a = b)
    (i : Nat) (hi : i < m) (sa : List Int) (h : ShufI n m r L i sa) :
    ∃ sa', shuffleStep (m : Int) sa i = some sa' ∧ ShufI n m r L (i + 1) sa' := by
  obtain ⟨hlen, hdone, htodo, hsrc, hz⟩ := h
  have hri := hr i hi
  have hv := htodo i (le_refl _) hi
  have hw : sa[m + r i]? = some (L (r i) : Int) := by
    rw [hsrc (r i) hri, if_neg]
    rintro ⟨a, ha, hra⟩
    have := hinj a i (by omega) hi hra
    omega
  have hidx : (m : Int) + (r i : Int) = ((m + r i : Nat) : Int) := by push_cast; rfl
  refine ⟨(sa.set i (L (r i) : Int)).set (m + r i) 0, ?_, ?_⟩
  · unfold shuffleStep
    rw [getI_ofNat, hv]
    simp only [Option.bind_eq_bind, Option.some_bind]
    rw [getI_eq _ hidx, hw]
    simp only [Option.some_bind]
    rw [setI_ofNat _ _ _ (by omega)]
    simp only [Option.some_bind]
    rw [setI_eq _ _ hidx (by simpa using (by omega))]
  · refine ⟨by simpa using hlen, ?_, ?_, ?_, ?_⟩
    · intro a ha
      rw [List.getElem?_set_ne (by omega)]
      by_cases hai : a = i
      · rw [hai, List.getElem?_set_self (by omega)]
      · rw [List.getElem?_set_ne (fun hh => hai hh.symm)]
        exact hdone a (by omega)
    · intro a h1 h2
      rw [List.getElem?_set_ne (by omega), List.getElem?_set_ne (by omega)]
      exact htodo a (by omega) h2
    · intro x hx
      by_cases hxr : x = r i
      · rw [hxr, List.getElem?_set_self (by simpa using (by omega)), if_pos ⟨i, by omega, rfl⟩]
      · rw [List.getElem?_set_ne (by omega), List.getElem?_set_ne (by omega), hsrc x hx]
        have e : (∃ a, a < i + 1 ∧ r a = x) ↔ (∃ a, a < i ∧ r a = x) := by
          constructor
          · rintro ⟨a, ha, hra⟩
            refine ⟨a, ?_, hra⟩
            by_contra hc
            have : a = i := by omega
            rw [this] at hra
            exact hxr hra.symm
          · rintro ⟨a, ha, hra⟩
            exact ⟨a, by omega, hra⟩
        simp only [e]
    · intro a h1 h2
      rw [List.getElem?_set_ne (by omega), List.getElem?_set_ne (by omega)]
      exact hz a h1 h2

/-- The function `shuffleLMS` returns, with the seeds in the order found by the recursive
call at the cells `0 .. m - 1` and zeros in the other cells. -/
theorem shuffleLMS_spec (n m : Nat) (r L : Nat → Nat) (hm : 2 * m ≤ n)
    (hr : ∀ a, a < m → r a < m) (hinj : ∀ a b, a < m → b < m → r a = r b → a = b)
    (hsurj : ∀ x, x < m → ∃ a, a < m ∧ r a = x) (sa : List Int) (hlen : sa.length = n)
    (h1 : ∀ a, a < m → sa[a]? = some (r a : Int))
    (h2 : ∀ x, x < m → sa[m + x]? = some (L x : Int))
    (h3 : ∀ a, 2 * m ≤ a → a < n → sa[a]? = some 0) :
    ∃ sa', shuffleLMS sa (m : Int) = some sa' ∧ sa'.length = n ∧
      (∀ a, a < m → sa'[a]? = some (L (r a) : Int)) ∧
      (∀ a, m ≤ a → a < n → sa'[a]? = some 0) := by
  obtain ⟨sa', hf, hS⟩ := foldlM_range_spec (ShufI n m r L) (shuffleStep (m : Int)) m
    (fun i s hi hP => shuffleStep_spec n m r L hm hr hinj i hi s hP) sa
    ⟨hlen, fun a ha => by omega, fun a _ ha => h1 a ha, fun x hx => by
        rw [h2 x hx, if_neg]
        rintro ⟨a, ha, _⟩
        omega, h3⟩
  refine ⟨sa', ?_, hS.hlen, fun a ha => hS.hdone a ha, fun a ha1 ha2 => ?_⟩
  · unfold shuffleLMS
    rw [Int.toNat_ofNat, hf]
  · by_cases h2m : 2 * m ≤ a
    · exact hS.hz a h2m ha2
    · have := hS.hsrc (a - m) (by omega)
      rw [if_pos (hsurj (a - m) (by omega)), show m + (a - m) = a by omega] at this
      exact this

/-! ## The function `clearLMSLen` -/

/-- The function `clearLMSLen` returns, with the seeds in the order of their cells and zeros
in the other cells. -/
theorem clearLMSLen_spec (t : List Int) (sep : Int) (ord : List Nat) (ho : OrdOK t ord) (sa0 : List Int)
    (hN : NamePost t sep (mLt t (t.length - 1)) ord sa0) :
    ∃ sa', clearLMSLen sa0 (mLt t (t.length - 1) : Int) = some sa' ∧
      sa'.length = t.length ∧
      (∀ a, a < mLt t (t.length - 1) → sa'[a]? = some (ord.getD a 0 : Int)) ∧
      (∀ a, mLt t (t.length - 1) ≤ a → a < t.length → sa'[a]? = some 0) := by
  obtain ⟨sa', hf, hl, h1, h2⟩ := foldlM_range_rev_spec
    (fun e (sa : List Int) => sa.length = t.length ∧
      (∀ a, a < mLt t (t.length - 1) → sa[a]? = some (ord.getD a 0 : Int)) ∧
      (∀ j, mLt t (t.length - 1) ≤ j → j < t.length →
        (∀ a, a < e → mLt t (t.length - 1) + ord.getD a 0 / 2 ≠ j) → sa[j]? = some 0))
    (clearStep (mLt t (t.length - 1) : Int)) (mLt t (t.length - 1))
    (fun i sa hi hP => by
      obtain ⟨hl, h1, h2⟩ := hP
      have hcell := lms_cell_lt t (ho.getD hi).1
      have hidx : ((mLt t (t.length - 1) : Nat) : Int) + ((ord.getD i 0 : Nat) : Int) / 2 =
          ((mLt t (t.length - 1) + ord.getD i 0 / 2 : Nat) : Int) := by
        push_cast
        rfl
      refine ⟨sa.set (mLt t (t.length - 1) + ord.getD i 0 / 2) 0, ?_, by simpa using hl,
        ?_, ?_⟩
      · unfold clearStep
        rw [getI_ofNat, h1 i hi]
        simp only [Option.bind_eq_bind, Option.some_bind]
        rw [setI_eq _ _ hidx (by omega)]
      · intro a ha
        rw [List.getElem?_set_ne (by omega)]
        exact h1 a ha
      · intro j hj1 hj2 hne
        by_cases hji : j = mLt t (t.length - 1) + ord.getD i 0 / 2
        · rw [hji, List.getElem?_set_self (by omega)]
        · rw [List.getElem?_set_ne (fun hh => hji hh.symm)]
          apply h2 j hj1 hj2
          intro a ha
          by_cases hai : a = i
          · rw [hai]
            exact fun hh => hji hh.symm
          · exact hne a (by omega))
    sa0 ⟨hN.hlen, hN.hlo, fun j hj1 hj2 hne => hN.hz j hj1 hj2 hne⟩
  refine ⟨sa', ?_, hl, h1, fun a ha1 ha2 => h2 a ha1 ha2 (fun _ hb => by omega)⟩
  unfold clearLMSLen
  rw [Int.toNat_ofNat, hf]

/-! ## The cells of `restoreLMS` -/

theorem sym_le_of_dkey_lt {t : List Int} {sep : Int} (hS : SepOK t sep)
    (hsym : ∀ x, 0 ≤ sym t x) {x y : Nat} (hx : x < t.length)
    (h : dkey t sep y < dkey t sep x) : sym t y ≤ sym t x := by
  obtain ⟨r1, h1⟩ := dkey_head t sep y
  obtain ⟨r2, h2⟩ := dkey_head t sep x
  rw [h1, h2, cons_lt_cons_iff] at h
  have hle : dsym t sep y ≤ dsym t sep x := by
    rcases h with h | ⟨h, _⟩ <;> omega
  by_cases hy : sym t y = sep
  · rw [hy]
    exact hS.hmin x hx
  · rw [dsym_of_ne hy] at hle
    by_cases hxs : sym t x = sep
    · rw [dsym_of_sep hxs] at hle
      have := hsym y
      omega
    · rw [dsym_of_ne hxs] at hle
      exact hle

theorem dkey_sep_lt_iff {t : List Int} {sep : Int} {x y : Nat} (hx : sym t x = sep)
    (hy : sym t y = sep) : dkey t sep y < dkey t sep x ↔ y < x := by
  constructor
  · intro h
    obtain ⟨r1, h1⟩ := dkey_head t sep y
    obtain ⟨r2, h2⟩ := dkey_head t sep x
    have h0 := h
    rw [h1, h2, cons_lt_cons_iff, dsym_of_sep hx, dsym_of_sep hy] at h
    rcases h with h | ⟨h, _⟩
    · omega
    · have : y = x := by omega
      rw [this] at h0
      exact absurd h0 (lt_irrefl _)
  · intro h
    exact dkey_lt_of_dsym_lt t sep (dsym_lt_of_sep_lt hy hx h)

theorem card_filter_sym_le (c : Int) : ∀ (t : List Int),
    ((Finset.range t.length).filter (fun x => sym t x ≤ c)).card = tl t c := by
  intro t
  induction t with
  | nil => simp [tl]
  | cons a t ih =>
    unfold tl at ih ⊢
    rw [Finset.card_filter] at ih ⊢
    rw [List.length_cons, Finset.sum_range_succ', List.countP_cons, ← ih]
    simp only [sym, List.getD_cons_succ, List.getD_cons_zero, decide_eq_true_eq]

theorem SortedLms.seed_inj {t : List Int} {sep : Int} {S : Nat → Nat} {m : Nat}
    (h : SortedLms t sep S m)
    {a b : Nat} (ha : a < m) (hb : b < m) (hab : S a = S b) : a = b := by
  rcases lt_trichotomy a b with h1 | h1 | h1
  · have := h.hsorted a b h1 hb
    rw [hab] at this
    exact absurd this (lt_irrefl _)
  · exact h1
  · have := h.hsorted b a h1 ha
    rw [hab] at this
    exact absurd this (lt_irrefl _)

theorem SortedLms.not_lt_iff {t : List Int} {sep : Int} {S : Nat → Nat} {m : Nat}
    (h : SortedLms t sep S m)
    {a b : Nat} (ha : a < m) (hb : b < m) : ¬ dkey t sep (S b) < dkey t sep (S a) ↔ a ≤ b := by
  constructor
  · intro hn
    by_contra hc
    exact hn (h.hsorted b a (by omega) ha)
  · intro hab hlt
    rcases Nat.lt_or_eq_of_le hab with h1 | h1
    · exact absurd (lt_trans hlt (h.hsorted a b h1 hb)) (lt_irrefl _)
    · rw [h1] at hlt
      exact absurd hlt (lt_irrefl _)

theorem SortedLms.cntS_eq {t : List Int} {sep : Int} {S : Nat → Nat} {m : Nat}
    (h : SortedLms t sep S m)
    {a : Nat} (ha : a < m) : cntS t sep S m (S a) = cntFrom t S m a (sym t (S a)) := by
  unfold cntS cntFrom
  congr 1
  apply Finset.filter_congr
  intro b hb
  rw [Finset.mem_range] at hb
  rw [h.not_lt_iff ha hb]
  exact ⟨fun hh => ⟨hh.2, hh.1⟩, fun hh => ⟨hh.2, hh.1⟩⟩

theorem cntFrom_succ (t : List Int) (S : Nat → Nat) (m : Nat) {i : Nat} (hi : i < m) (c : Int) :
    cntFrom t S m i c = cntFrom t S m (i + 1) c + (if c = sym t (S i) then 1 else 0) := by
  unfold cntFrom
  by_cases hc : c = sym t (S i)
  · rw [if_pos hc]
    have : (Finset.range m).filter (fun b => i ≤ b ∧ sym t (S b) = c) =
        insert i ((Finset.range m).filter (fun b => i + 1 ≤ b ∧ sym t (S b) = c)) := by
      ext b
      rw [Finset.mem_insert, Finset.mem_filter, Finset.mem_filter, Finset.mem_range]
      constructor
      · rintro ⟨h1, h2, h3⟩
        by_cases hbi : b = i
        · exact Or.inl hbi
        · exact Or.inr ⟨h1, by omega, h3⟩
      · rintro (h1 | ⟨h1, h2, h3⟩)
        · rw [h1]
          exact ⟨hi, le_refl _, hc.symm⟩
        · exact ⟨h1, by omega, h3⟩
    rw [this, Finset.card_insert_of_not_mem]
    intro hmem
    have := (Finset.mem_filter.mp hmem).2.1
    omega
  · rw [if_neg hc, Nat.add_zero]
    congr 1
    apply Finset.filter_congr
    intro b _
    constructor
    · rintro ⟨h1, h2⟩
      refine ⟨?_, h2⟩
      by_contra hlt
      have : b = i := by omega
      rw [this] at h2
      exact hc h2.symm
    · rintro ⟨h1, h2⟩
      exact ⟨by omega, h2⟩

theorem cntFrom_total (t : List Int) (S : Nat → Nat) (m : Nat) (c : Int) :
    cntFrom t S m m c = 0 := by
  unfold cntFrom
  rw [Finset.card_eq_zero, Finset.filter_eq_empty_iff]
  intro b hb h
  rw [Finset.mem_range] at hb
  omega

/-- The entries before `a` and the entries from `a` on with the symbol of `S a` fit below
the tail of the bucket. -/
theorem SortedLms.room {t : List Int} {sep : Int} {S : Nat → Nat} {m : Nat}
    (h : SortedLms t sep S m)
    {a : Nat} (ha : a < m) : a + cntFrom t S m a (sym t (S a)) ≤ tl t (sym t (S a)) := by
  rw [← card_filter_sym_le]
  have h1 : a + cntFrom t S m a (sym t (S a)) =
      ((Finset.range m).filter (fun b => b < a ∨ (a ≤ b ∧ sym t (S b) = sym t (S a)))).card := by
    unfold cntFrom
    rw [Finset.filter_or, Finset.card_union_of_disjoint]
    · congr 1
      have : (Finset.range m).filter (fun b => b < a) = Finset.range a := by
        ext b
        rw [Finset.mem_filter, Finset.mem_range, Finset.mem_range]
        omega
      rw [this, Finset.card_range]
    · rw [Finset.disjoint_left]
      intro b hb1 hb2
      have := (Finset.mem_filter.mp hb1).2
      have := (Finset.mem_filter.mp hb2).2.1
      omega
  rw [h1]
  apply Finset.card_le_card_of_injOn S
  · intro b hb
    have hb' := Finset.mem_filter.mp (Finset.mem_coe.mp hb)
    rw [Finset.mem_range] at hb'
    rw [Finset.mem_filter, Finset.mem_range]
    refine ⟨by have := (h.hc b hb'.1).2; omega, ?_⟩
    rcases hb'.2 with h2 | ⟨_, h2⟩
    · exact sym_le_of_dkey_lt h.hsep h.hpos (by have := (h.hc a ha).2; omega) (h.hsorted b a h2 ha)
    · omega
  · intro b hb b' hb' hbb
    have h1 := Finset.mem_range.mp (Finset.mem_filter.mp (Finset.mem_coe.mp hb)).1
    have h2 := Finset.mem_range.mp (Finset.mem_filter.mp (Finset.mem_coe.mp hb')).1
    exact h.seed_inj h1 h2 hbb

theorem SortedLms.cnt_pos {t : List Int} {S : Nat → Nat} {m : Nat}
    {a : Nat} (ha : a < m) : 0 < cntFrom t S m a (sym t (S a)) := by
  unfold cntFrom
  rw [Finset.card_pos]
  exact ⟨a, Finset.mem_filter.mpr ⟨Finset.mem_range.mpr ha, le_refl _, rfl⟩⟩

theorem SortedLms.gS_cast {t : List Int} {sep : Int} {S : Nat → Nat} {m : Nat}
    (h : SortedLms t sep S m)
    {a : Nat} (ha : a < m) :
    (gS t sep S m (S a) : Int) = curR t S m a (sym t (S a)) := by
  unfold gS curR
  rw [h.cntS_eq ha]
  have := h.room ha
  omega

theorem SortedLms.gS_ge {t : List Int} {sep : Int} {S : Nat → Nat} {m : Nat}
    (h : SortedLms t sep S m)
    {a : Nat} (ha : a < m) : a ≤ gS t sep S m (S a) ∧ gS t sep S m (S a) < tl t (sym t (S a)) := by
  unfold gS
  rw [h.cntS_eq ha]
  have := h.room ha
  have := SortedLms.cnt_pos (t := t) (S := S) ha
  omega

theorem cntFrom_anti (t : List Int) (S : Nat → Nat) (m : Nat) {a b : Nat} (hab : a ≤ b) (c : Int) :
    cntFrom t S m b c ≤ cntFrom t S m a c := by
  unfold cntFrom
  apply Finset.card_le_card
  intro x hx
  rw [Finset.mem_filter] at hx ⊢
  exact ⟨hx.1, by omega, hx.2.2⟩

theorem SortedLms.gS_lt {t : List Int} {sep : Int} {S : Nat → Nat} {m : Nat}
    (h : SortedLms t sep S m)
    {a b : Nat} (hab : a < b) (hb : b < m) (hs : sym t (S a) = sym t (S b)) :
    gS t sep S m (S a) < gS t sep S m (S b) := by
  have ha : a < m := by omega
  unfold gS
  rw [h.cntS_eq ha, h.cntS_eq hb, hs]
  have h1 := cntFrom_succ t S m ha (sym t (S b))
  rw [if_pos hs.symm] at h1
  have h2 := cntFrom_anti t S m (show a + 1 ≤ b by omega) (sym t (S b))
  have h3 := h.room hb
  have h4 := SortedLms.cnt_pos (t := t) (S := S) hb
  omega

theorem SortedLms.gS_bucket {t : List Int} {sep : Int} {S : Nat → Nat} {m : Nat}
    (h : SortedLms t sep S m)
    {a : Nat} (ha : a < m) :
    hd t (sym t (S a)) ≤ gS t sep S m (S a) ∧ gS t sep S m (S a) < tl t (sym t (S a)) := by
  refine ⟨?_, (h.gS_ge ha).2⟩
  unfold gS
  rw [h.cntS_eq ha]
  have h1 : cntFrom t S m a (sym t (S a)) ≤ t.count (sym t (S a)) := by
    rw [← card_filter_sym]
    unfold cntFrom
    apply Finset.card_le_card_of_injOn S
    · intro b hb
      have hb' := Finset.mem_filter.mp (Finset.mem_coe.mp hb)
      rw [Finset.mem_range] at hb'
      rw [Finset.mem_filter, Finset.mem_range]
      exact ⟨by have := (h.hc b hb'.1).2; omega, hb'.2.2⟩
    · intro b hb b' hb' hbb
      have h1 := Finset.mem_range.mp (Finset.mem_filter.mp (Finset.mem_coe.mp hb)).1
      have h2 := Finset.mem_range.mp (Finset.mem_filter.mp (Finset.mem_coe.mp hb')).1
      exact h.seed_inj h1 h2 hbb
  have := tl_eq t (sym t (S a))
  omega

theorem SortedLms.gS_inj {t : List Int} {sep : Int} {S : Nat → Nat} {m : Nat}
    (h : SortedLms t sep S m)
    {a b : Nat} (ha : a < m) (hb : b < m) (hg : gS t sep S m (S a) = gS t sep S m (S b)) : a = b := by
  have ba := h.gS_bucket ha
  have bb := h.gS_bucket hb
  rcases lt_trichotomy (sym t (S a)) (sym t (S b)) with h1 | h1 | h1
  · have := tl_le_hd t h1
    omega
  · rcases lt_trichotomy a b with h2 | h2 | h2
    · have := h.gS_lt h2 hb h1
      omega
    · exact h2
    · have := h.gS_lt h2 ha h1.symm
      omega
  · have := tl_le_hd t h1
    omega

/-! ## The function `restoreLMS` -/

theorem curR_pred (t : List Int) (S : Nat → Nat) (m : Nat) {i : Nat} (hi : i < m) (c : Int) :
    curR t S m i c = curR t S m (i + 1) c - (if c = sym t (S i) then 1 else 0) := by
  unfold curR
  rw [cntFrom_succ t S m hi c]
  split <;> push_cast <;> omega

theorem restoreStep_spec (t : List Int) (k : Nat) (hsym : ∀ x, 0 ≤ sym t x ∧ sym t x < k)
    (sep : Int) (S : Nat → Nat) (m : Nat) (hS : SortedLms t sep S m) (i : Nat) (hi : i < m) (st : IndSt)
    (hc : Cur k (curR t S m (i + 1)) st.bkt st.b st.p) (h : RestI t sep S m (i + 1) st.sa) :
    ∃ st', restoreStep t st i = some st' ∧ Cur k (curR t S m i) st'.bkt st'.b st'.p ∧
      RestI t sep S m i st'.sa := by
  obtain ⟨hlen, hlo, hseed, hz⟩ := h
  obtain ⟨hci, hli⟩ := hS.hc i hi
  obtain ⟨h0, h1⟩ := hsym (S i)
  obtain ⟨bkt', hsw, hcur⟩ := switchBkt_cur hc (sym t (S i)) h0 h1
  have hg := hS.gS_cast hi
  have hge := hS.gS_ge hi
  have hgn : gS t sep S m (S i) < t.length := by
    have := tl_le_length t (sym t (S i))
    omega
  have hb : curR t S m (i + 1) (sym t (S i)) - 1 = (gS t sep S m (S i) : Int) := by
    rw [hg, curR_pred t S m hi, if_pos rfl]
  have hcur' : Cur k (curR t S m i) bkt' (gS t sep S m (S i) : Int) (sym t (S i)) := by
    apply hcur.update
    · exact hg
    · intro c hcne
      rw [curR_pred t S m hi, if_neg hcne, Int.sub_zero]
  have hother : ∀ b, i + 1 ≤ b → b < m → gS t sep S m (S b) ≠ gS t sep S m (S i) ∧
      i < gS t sep S m (S b) := by
    intro b hb1 hb2
    refine ⟨fun hh => ?_, ?_⟩
    · have := hS.gS_inj hb2 hi hh
      omega
    · have := (hS.gS_ge hb2).1
      omega
  by_cases hgi : gS t sep S m (S i) = i
  · refine ⟨IndSt.mk (st.sa.set i ((S i : Int) + 1)) bkt' (gS t sep S m (S i) : Int)
      (sym t (S i)), ?_, hcur', ?_⟩
    · unfold restoreStep
      rw [getI_ofNat, hlo i (by omega)]
      simp only [Option.bind_eq_bind, Option.some_bind]
      rw [getI_sym t (S i) (by omega)]
      simp only [Option.some_bind, hsw]
      rw [if_neg (by rw [hb, hgi]; simp), setI_ofNat _ _ _ (by omega)]
      simp only [Option.some_bind, hb]
    · refine ⟨by simpa using hlen, ?_, ?_, ?_⟩
      · intro a ha
        show (st.sa.set _ _)[a]? = _
        rw [List.getElem?_set_ne (by omega)]
        exact hlo a (by omega)
      · intro b hb1 hb2
        show (st.sa.set _ _)[_]? = _
        by_cases hbi : b = i
        · rw [hbi, hgi, List.getElem?_set_self (by omega)]
        · have := hother b (by omega) hb2
          rw [List.getElem?_set_ne (by omega)]
          exact hseed b (by omega) hb2
      · intro j hj1 hj2 hne
        show (st.sa.set _ _)[j]? = _
        have := hne i (le_refl _) hi
        rw [List.getElem?_set_ne (by omega)]
        exact hz j (by omega) hj2 (fun b hb1 hb2 => hne b (by omega) hb2)
  · refine ⟨IndSt.mk ((st.sa.set (gS t sep S m (S i)) ((S i : Int) + 1)).set i 0) bkt'
      (gS t sep S m (S i) : Int) (sym t (S i)), ?_, hcur', ?_⟩
    · unfold restoreStep
      rw [getI_ofNat, hlo i (by omega)]
      simp only [Option.bind_eq_bind, Option.some_bind]
      rw [getI_sym t (S i) (by omega)]
      simp only [Option.some_bind, hsw]
      rw [if_pos (by
        rw [hb]
        intro hh
        apply hgi
        exact_mod_cast hh), setI_eq _ _ hb (by omega)]
      simp only [Option.some_bind]
      rw [setI_ofNat _ _ _ (by simpa using (by omega))]
      simp only [Option.some_bind, hb]
    · refine ⟨by simpa using hlen, ?_, ?_, ?_⟩
      · intro a ha
        show ((st.sa.set _ _).set _ _)[a]? = _
        rw [List.getElem?_set_ne (by omega), List.getElem?_set_ne (by omega)]
        exact hlo a (by omega)
      · intro b hb1 hb2
        show ((st.sa.set _ _).set _ _)[_]? = _
        by_cases hbi : b = i
        · rw [hbi, List.getElem?_set_ne (fun hh => hgi hh.symm),
            List.getElem?_set_self (by omega)]
        · have := hother b (by omega) hb2
          rw [List.getElem?_set_ne (by omega), List.getElem?_set_ne (by omega)]
          exact hseed b (by omega) hb2
      · intro j hj1 hj2 hne
        show ((st.sa.set _ _).set _ _)[j]? = _
        have := hne i (le_refl _) hi
        by_cases hji : j = i
        · rw [hji, List.getElem?_set_self (by simpa using (by omega))]
        · rw [List.getElem?_set_ne (fun hh => hji hh.symm), List.getElem?_set_ne (by omega)]
          exact hz j (by omega) hj2 (fun b hb1 hb2 => hne b (by omega) hb2)

/-- The cell of a separator is the number of the separators before it. -/
theorem SortedLms.gS_sep {t : List Int} {sep : Int} {S : Nat → Nat} {m : Nat}
    (h : SortedLms t sep S m) {x : Nat} (hx : x < t.length) (hs : sym t x = sep) :
    gS t sep S m x = cntLt t x sep := by
  have hcx := h.hsep.hseed x hx hs
  have htot := h.hsep.cntLt_total
  have hsplit := Finset.filter_card_add_filter_neg_card_eq_card
    (s := (Finset.range (t.length - 1)).filter (fun y => cstart t y ∧ sym t y = sep))
    (fun y => y < x)
  have e1 : ((Finset.range (t.length - 1)).filter (fun y => cstart t y ∧ sym t y = sep)).filter
      (fun y => y < x) = (Finset.range x).filter (fun y => cstart t y ∧ sym t y = sep) := by
    ext y
    simp only [Finset.mem_filter, Finset.mem_range]
    constructor
    · rintro ⟨⟨_, h2⟩, h3⟩
      exact ⟨h3, h2⟩
    · rintro ⟨h1, h2⟩
      exact ⟨⟨by omega, h2⟩, h1⟩
  have e2 : (((Finset.range (t.length - 1)).filter (fun y => cstart t y ∧ sym t y = sep)).filter
      (fun y => ¬ y < x)).card = cntS t sep S m x := by
    symm
    unfold cntS
    apply Finset.card_bij (fun b _ => S b)
    · intro b hb
      simp only [Finset.mem_filter, Finset.mem_range] at hb ⊢
      obtain ⟨hb1, hb2, hb3⟩ := hb
      have hcb := h.hc b hb1
      rw [hs] at hb2
      rw [dkey_sep_lt_iff hs hb2] at hb3
      exact ⟨⟨by omega, hcb.1, hb2⟩, hb3⟩
    · intro a ha b hb hab
      simp only [Finset.mem_filter, Finset.mem_range] at ha hb
      exact h.seed_inj ha.1 hb.1 hab
    · intro y hy
      simp only [Finset.mem_filter, Finset.mem_range] at hy
      obtain ⟨⟨hy1, hy2, hy3⟩, hy4⟩ := hy
      obtain ⟨b, hb, hbs⟩ := h.hall y (by omega) hy2
      refine ⟨b, ?_, hbs⟩
      simp only [Finset.mem_filter, Finset.mem_range]
      refine ⟨hb, by rw [hbs, hy3, hs], ?_⟩
      rw [hbs, dkey_sep_lt_iff hs hy3]
      exact hy4
  rw [e1, e2] at hsplit
  unfold cntLt at htot ⊢
  unfold gS
  rw [hs]
  omega

theorem gS_valid (t : List Int) (hn : 1 ≤ t.length) (sep : Int) (S : Nat → Nat)
    (m : Nat) (hS : SortedLms t sep S m) :
    Seeds.Valid ⟨t, fun _ => true, sep, gS t sep S m⟩ := by
  refine ⟨⟨hn, rfl⟩, fun x hx _ => ⟨Nat.lt_of_succ_lt hx.1, rfl⟩, hS.hpos, hS.hsep.hne,
    ?_, ?_, ?_, ?_⟩
  · intro x hx hc
    have hx' : x + 1 < t.length := hx.1
    obtain ⟨a, ha, rfl⟩ := hS.hall x hx' hc
    have h1 : hd t (sym t (S a)) +
        (Seeds.cls ⟨t, fun _ => true, sep, gS t sep S m⟩ (2 * sym t (S a))).card +
        (Seeds.cls ⟨t, fun _ => true, sep, gS t sep S m⟩ (2 * sym t (S a) + 1)).card ≤
          tl t (sym t (S a)) :=
      Seeds.clsS_le_tl ⟨t, fun _ => true, sep, gS t sep S m⟩ _
    have h2 : cntFrom t S m a (sym t (S a)) ≤
        (Seeds.cls ⟨t, fun _ => true, sep, gS t sep S m⟩ (2 * sym t (S a) + 1)).card := by
      unfold cntFrom
      apply Finset.card_le_card_of_injOn S
      · intro b hb
        have hb' := Finset.mem_filter.mp hb
        rw [Finset.mem_range] at hb'
        rw [Seeds.mem_cls]
        refine ⟨⟨Nat.lt_of_succ_lt (hS.hc b hb'.1).2, rfl⟩, ?_⟩
        show ecode t (S b) = _
        rw [ecode_of_S (hS.hc b hb'.1).1.2, hb'.2.2]
      · intro b hb b' hb' hbb
        have h1 := Finset.mem_range.mp (Finset.mem_filter.mp (Finset.mem_coe.mp hb)).1
        have h2 := Finset.mem_range.mp (Finset.mem_filter.mp (Finset.mem_coe.mp hb')).1
        exact hS.seed_inj h1 h2 hbb
    have h3 : gS t sep S m (S a) = tl t (sym t (S a)) - cntFrom t S m a (sym t (S a)) := by
      unfold gS
      rw [hS.cntS_eq ha]
    show hd t (sym t (S a)) +
      (Seeds.cls ⟨t, fun _ => true, sep, gS t sep S m⟩ (2 * sym t (S a))).card ≤
      gS t sep S m (S a)
    omega
  · intro x hx hc
    have hx' : x + 1 < t.length := hx.1
    obtain ⟨a, ha, rfl⟩ := hS.hall x hx' hc
    exact (hS.gS_ge ha).2
  · intro x y hx hy hcx hcy hg
    have hx' : x + 1 < t.length := hx.1
    have hy' : y + 1 < t.length := hy.1
    obtain ⟨a, ha, rfl⟩ := hS.hall x hx' hcx
    obtain ⟨b, hb, rfl⟩ := hS.hall y hy' hcy
    rw [hS.gS_inj ha hb hg]
  · intro x hx hr
    have hx' : x < t.length := hx
    have hr' : sym t x = sep := hr
    have hc := hS.hsep.hseed x hx' hr'
    refine ⟨hc.1, ⟨hx', rfl⟩, ⟨hc.2, rfl⟩, ?_⟩
    exact Seeds.slot_root_of_cnt ⟨t, fun _ => true, sep, gS t sep S m⟩ hS.hsep
      (fun _ _ _ => rfl) (fun y hy hsy => hS.gS_sep hy hsy) hx' hr'

theorem gS_ordered (t : List Int) (sep : Int) (S : Nat → Nat) (m : Nat)
    (hS : SortedLms t sep S m) : Seeds.Ordered ⟨t, fun _ => true, sep, gS t sep S m⟩ := by
  intro x y hx hy hcx hcy hs hg
  have hx' : x + 1 < t.length := hx.1
  have hy' : y + 1 < t.length := hy.1
  obtain ⟨a, ha, rfl⟩ := hS.hall x hx' hcx
  obtain ⟨b, hb, rfl⟩ := hS.hall y hy' hcy
  have hg' : gS t sep S m (S a) < gS t sep S m (S b) := hg
  have hs' : sym t (S a) = sym t (S b) := hs
  show dkey t sep (S a) < dkey t sep (S b)
  rcases lt_trichotomy a b with h1 | h1 | h1
  · exact hS.hsorted a b h1 hb
  · rw [h1] at hg'
    exact absurd hg' (lt_irrefl _)
  · have := hS.gS_lt h1 ha hs'.symm
    omega

/-- The function `restoreLMS` returns, and leaves each seed, as position plus one, in its
cell at the end of its bucket, in the order of the keys. -/
theorem restoreLMS_spec (t : List Int) (k : Nat) (hsym : ∀ x, 0 ≤ sym t x ∧ sym t x < k)
    (hn : 2 ≤ t.length) (sep : Int) (S : Nat → Nat) (m : Nat) (hS : SortedLms t sep S m)
    {hist bkt0 : List Int} (hh : histgram t k = some (hist, bkt0)) (bkt : List Int)
    (hbl : bkt.length = k) (sa : List Int) (hlen : sa.length = t.length)
    (h1 : ∀ a, a < m → sa[a]? = some (S a : Int))
    (h2 : ∀ a, m ≤ a → a < t.length → sa[a]? = some 0) :
    ∃ sa' bkt', restoreLMS t sa bkt hist (m : Int) = some (sa', bkt') ∧ bkt'.length = k ∧
      Seeds.IndPre ⟨t, fun _ => true, sep, gS t sep S m⟩ sa' := by
  obtain ⟨tail, htail, htaill, htailc⟩ := setBktEnd_cur hh bkt hbl
  have hk0 : (0 : Int) < k := by
    have := hsym 0
    omega
  obtain ⟨st, hf, hc, hR⟩ := foldlM_range_rev_spec
    (fun e (st : IndSt) => Cur k (curR t S m e) st.bkt st.b st.p ∧ RestI t sep S m e st.sa)
    (restoreStep t) m
    (fun i st hi hP => by
      obtain ⟨st', h1, h2, h3⟩ := restoreStep_spec t k hsym sep S m hS i hi st hP.1 hP.2
      exact ⟨st', h1, h2, h3⟩)
    { sa := sa, bkt := tail, b := (tl t 0 : Int), p := 0 }
    ⟨⟨htaill, le_refl _, hk0, by unfold curR; rw [cntFrom_total]; simp,
      fun c c0 c1 _ => by unfold curR; rw [cntFrom_total, htailc c c0 c1]; simp⟩,
     ⟨hlen, fun a ha => h1 a ha, fun b hb1 hb2 => by omega, fun j hj1 hj2 _ => h2 j hj1 hj2⟩⟩
  refine ⟨st.sa, st.bkt, ?_, hc.1, ⟨hR.hlen, ?_, ?_⟩⟩
  · unfold restoreLMS
    simp only [Option.bind_eq_bind, htail, Option.some_bind]
    rw [htailc 0 (le_refl _) hk0]
    simp only [Option.some_bind, Int.toNat_ofNat, hf]
  · intro y hy hcy
    have hy' : y + 1 < t.length := hy.1
    obtain ⟨b, hb, rfl⟩ := hS.hall y hy' hcy
    exact hR.hseed b (Nat.zero_le _) hb
  · intro j hj hne
    apply hR.hz j (Nat.zero_le _) hj
    intro b _ hb
    have := hS.hc b hb
    exact hne (S b) ⟨this.2, rfl⟩ this.1

/-! ## The driver `sais` sorts the positions by their keys -/

theorem sorted_of_slots (M : Seeds) (hV : M.Valid) (hm : M.SepMin) (hO : M.Ordered)
    (hfull : ∀ x, x < M.t.length → M.lv x) (hnr : ∀ x, ¬ M.root x) (sa : List Int)
    (hlen : sa.length = M.t.length)
    (h : ∀ x, M.lv x → sa[M.slot x]? = some (x : Int)) : SortedSA M.t sa := by
  refine ⟨hlen, ?_, ?_, ?_⟩
  · intro i hi
    obtain ⟨x, hx, hxi⟩ := M.slot_surj hV hfull i hi
    exact ⟨x, hx.1, by rw [← hxi]; exact h x hx⟩
  · intro x hx
    exact ⟨M.slot x, M.slot_lt_length hV (hfull x hx), h x (hfull x hx)⟩
  · intro i j x y hij hi hj
    have hjl : j < M.t.length := by
      rw [← hlen]
      exact (List.getElem?_eq_some.mp hj).1
    obtain ⟨x', hx', hxi⟩ := M.slot_surj hV hfull i (by omega)
    obtain ⟨y', hy', hyj⟩ := M.slot_surj hV hfull j hjl
    have e1 := h x' hx'
    have e2 := h y' hy'
    rw [hxi, hi] at e1
    rw [hyj, hj] at e2
    have e1' : x = x' := by
      simp only [Option.some.injEq] at e1
      exact_mod_cast e1
    have e2' : y = y' := by
      simp only [Option.some.injEq] at e2
      exact_mod_cast e2
    rw [e1', e2', ← dkey_eq_rkey M.t M.sep hnr, ← dkey_eq_rkey M.t M.sep hnr]
    exact (M.slot_lt_iff_dkey hV hm hO hx' hy').mp (by omega)

theorem SortedSA.cell_inj {t sa : List Int} (h : SortedSA t sa) {i j x : Nat}
    (hi : sa[i]? = some (x : Int)) (hj : sa[j]? = some (x : Int)) : i = j := by
  rcases lt_trichotomy i j with h1 | h1 | h1
  · exact absurd (h.hsorted i j x x h1 hi hj) (lt_irrefl _)
  · exact h1
  · exact absurd (h.hsorted j i x x h1 hj hi) (lt_irrefl _)

theorem mLt_two (t : List Int) {x y N : Nat} (hx : cstart t x) (hy : cstart t y) (hxy : x < y)
    (hyN : y < N) : 2 ≤ mLt t N := by
  have h1 := mLt_succ t x
  have h2 := mLt_succ t y
  rw [if_pos hx] at h1
  rw [if_pos hy] at h2
  have h3 : mLt t (x + 1) ≤ mLt t y := mLt_mono t (by omega)
  have h4 : mLt t (y + 1) ≤ mLt t N := mLt_mono t (by omega)
  omega

theorem gF_ordered_of_le_one (t : List Int) (sep : Int) (live : Nat → Bool)
    (hm : mLt t (t.length - 1) ≤ 1) : Seeds.Ordered ⟨t, live, sep, gF t sep⟩ := by
  intro x y hx hy hcx hcy _ hg
  have hx' : x + 1 < t.length := hx.1
  have hy' : y + 1 < t.length := hy.1
  have hcx' : cstart t x := hcx
  have hcy' : cstart t y := hcy
  have hg' : gF t sep x < gF t sep y := hg
  rcases lt_trichotomy x y with h1 | h1 | h1
  · have := mLt_two t hcx' hcy' h1 (show y < t.length - 1 by omega)
    omega
  · rw [h1] at hg'
    exact absurd hg' (lt_irrefl _)
  · have := mLt_two t hcy' hcx' h1 (show x < t.length - 1 by omega)
    omega

theorem gF_rootOrd (t : List Int) (sep : Int) (live : Nat → Bool) :
    Seeds.RootOrd ⟨t, live, sep, gF t sep⟩ := by
  intro x y _ _ hx hy hg
  have hx' : sym t x = sep := hx
  have hy' : sym t y = sep := hy
  have hg' : gF t sep x < gF t sep y := hg
  rw [gF_sep t hx', gF_sep t hy'] at hg'
  by_contra hc
  have := cntLt_mono t (show y ≤ x by omega) sep
  omega

theorem cntLt_le_mLt (t : List Int) (i : Nat) (c : Int) : cntLt t i c ≤ mLt t i := by
  unfold cntLt mLt
  apply Finset.card_le_card
  intro x hx
  rw [Finset.mem_filter] at hx ⊢
  exact ⟨hx.1, hx.2.1⟩

theorem nameAt_le_add (t : List Int) (sep : Int) (ord : List Nat) (i : Nat) : ∀ d,
    nameAt t sep ord (i + d) ≤ nameAt t sep ord i + d := by
  intro d
  induction d with
  | zero => simp
  | succ d ih =>
    have := (nameAt_succ_le t sep ord (i + d)).2
    rw [show i + (d + 1) = i + d + 1 from rfl]
    push_cast
    omega

theorem nameAt_full (t : List Int) (sep : Int) (ord : List Nat) {m : Nat} (hm : 1 ≤ m)
    (h : (m : Int) ≤ nameAt t sep ord (m - 1)) {i : Nat} (hi : i < m) :
    nameAt t sep ord i = (i : Int) + 1 := by
  have h1 := (nameAt_bounds t sep ord i).2
  have h2 := nameAt_le_add t sep ord i (m - 1 - i)
  rw [show i + (m - 1 - i) = m - 1 by omega] at h2
  have : ((m - 1 - i : Nat) : Int) = (m : Int) - 1 - i := by omega
  omega

theorem Seeds.SrtPost.ordOK {M : Seeds} (hV : M.Valid) (hsym : ∀ x, 0 ≤ sym M.t x)
    (hall : ∀ y, y + 1 < M.t.length → cstart M.t y → M.lv y)
    {sa : List Int} (h : M.SrtPost sa) :
    OrdOK M.t (negPos sa) := by
  refine ⟨h.ord_length hV hsym hall, h.ord_nodup, fun x => ?_⟩
  rw [h.mem_ord hV]
  constructor
  · rintro ⟨_, h2⟩
    exact ⟨cstart_lt_length M.t hsym h2, h2⟩
  · rintro ⟨h1, h2⟩
    exact ⟨hall x h1 h2, h2⟩

theorem Seeds.SrtPost.ord_K {M : Seeds} (hV : M.Valid) {sa : List Int} (h : M.SrtPost sa) :
    ∀ i j, i < j → j < (negPos sa).length →
      M.K ((negPos sa).getD i 0) < M.K ((negPos sa).getD j 0) := by
  intro i j hij hj
  have hp := List.pairwise_iff_getElem.mp h.ord_sorted i j (by omega) hj hij
  have hi' : i < (negPos sa).length := by omega
  rw [List.getD_eq_getElem _ _ hi', List.getD_eq_getElem _ _ hj]
  have h1 := (h.mem_ord hV _).mp (List.getElem_mem hi')
  have h2 := (h.mem_ord hV _).mp (List.getElem_mem hj)
  exact (M.slot_lt_iff hV h1.1 h2.1).mp hp

theorem Seeds.SrtPost.name_lt_dkey {M : Seeds} (hV : M.Valid) (hm : M.SepMin)
    (hO : M.RootOrd) {sa : List Int}
    (h : M.SrtPost sa) {i j : Nat} (hi : i < (negPos sa).length) (hj : j < (negPos sa).length)
    (hlt : nameAt M.t M.sep (negPos sa) i < nameAt M.t M.sep (negPos sa) j) :
    dkey M.t M.sep ((negPos sa).getD i 0) < dkey M.t M.sep ((negPos sa).getD j 0) :=
  M.nameAt_lt_dkey hV hm hO (negPos sa) (h.ord_K hV)
    (fun _ ha => ((h.mem_ord hV _).mp (getD_mem ha)).1) hi hj hlt

/-- With as many names as seeds, the order of the cells is the order of the keys. -/
theorem sortedLms_of_full (t : List Int) (sep : Int) (hS : SepOK t sep)
    (hsym : ∀ x, 0 ≤ sym t x) (ord : List Nat) (ho : OrdOK t ord)
    (hlt : ∀ i j, i < ord.length → j < ord.length → nameAt t sep ord i < nameAt t sep ord j →
      dkey t sep (ord.getD i 0) < dkey t sep (ord.getD j 0))
    (hm : 1 ≤ mLt t (t.length - 1))
    (hfull : (mLt t (t.length - 1) : Int) ≤ nameAt t sep ord (mLt t (t.length - 1) - 1)) :
    SortedLms t sep (fun a => ord.getD a 0) (mLt t (t.length - 1)) := by
  refine ⟨hS, hsym, fun a ha => ?_, fun y hy hc => ?_, fun a b hab hb => ?_⟩
  · have := ho.getD ha
    exact ⟨this.2, this.1⟩
  · exact ho.index hy hc
  · apply hlt a b (by rw [ho.len]; omega) (by rw [ho.len]; omega)
    rw [nameAt_full t sep ord hm hfull (show a < _ by omega), nameAt_full t sep ord hm hfull hb]
    omega

theorem SortedSA.r_spec {t sa : List Int} (h : SortedSA t sa) {a : Nat} (ha : a < t.length) :
    (sa.getD a 0).toNat < t.length ∧ sa[a]? = some (((sa.getD a 0).toNat : Nat) : Int) := by
  obtain ⟨x, hx, hxa⟩ := h.hval a ha
  have : sa.getD a 0 = (x : Int) := by
    rw [List.getD_eq_getElem?_getD, hxa]
    rfl
  rw [this]
  exact ⟨by simpa using hx, by simpa using hxa⟩

/-- The order that the recursive call finds on the names is the order of the keys of the
seeds. -/
theorem sortedLms_of_rec (t : List Int) (sep : Int) (hS : SepOK t sep)
    (hsym : ∀ x, 0 ≤ sym t x) (ord : List Nat) (ho : OrdOK t ord)
    (hlt : ∀ i j, i < ord.length → j < ord.length → nameAt t sep ord i < nameAt t sep ord j →
      dkey t sep (ord.getD i 0) < dkey t sep (ord.getD j 0))
    (hm : 1 ≤ mLt t (t.length - 1)) (R rsa : List Int)
    (hRl : R.length = mLt t (t.length - 1))
    (hR : ∀ i, i < mLt t (t.length - 1) → sym R i = nameOf t sep ord ((lmsL t).getD i 0) - 1)
    (hs : SortedSA R rsa) :
    SortedLms t sep (fun a => (lmsL t).getD (rsa.getD a 0).toNat 0) (mLt t (t.length - 1)) := by
  have hnm : ∀ i, i < mLt t (t.length - 1) →
      ∃ a, a < mLt t (t.length - 1) ∧ ord.getD a 0 = (lmsL t).getD i 0 ∧
        nameOf t sep ord ((lmsL t).getD i 0) = nameAt t sep ord a := by
    intro i hi
    have h1 := lmsL_getD t hi
    obtain ⟨a, ha, hae⟩ := ho.index h1.1 h1.2.1
    exact ⟨a, ha, hae, by rw [← hae, ho.nameOf_getD ha]⟩
  have hlinj : ∀ i j, i < mLt t (t.length - 1) → j < mLt t (t.length - 1) →
      (lmsL t).getD i 0 = (lmsL t).getD j 0 → i = j := by
    intro i j hi hj h
    exact nodup_getD_inj (lmsL_nodup t) (by rw [lmsL_length]; exact hi)
      (by rw [lmsL_length]; exact hj) h
  have hred := reduction t R sep hS (fun i => (lmsL t).getD i 0)
    (fun i => nameOf t sep ord ((lmsL t).getD i 0)) (mLt t (t.length - 1)) hR
    (by
      rcases lmsL_chain t with h | h
      · exact h
      · omega)
    (fun i hi => by
      have h1 := lmsL_getD t hi
      rcases Nat.eq_zero_or_pos ((lmsL t).getD i 0) with h0 | h0
      · rw [h0] at h1
        exact absurd h1.2.1 (not_cstart_zero t)
      · exact h0)
    (fun i hi => lmsL_step t hi)
    (fun i j hi hj hij he => by
      obtain ⟨a, ha, hae, han⟩ := hnm i hi
      obtain ⟨b, hb, hbe, hbn⟩ := hnm j hj
      simp only at he
      rw [han, hbn] at he
      simp only
      rw [← hae, ← hbe]
      have hab : a ≠ b := by
        intro hh
        rw [hh, hbe] at hae
        exact hij (hlinj i j hi hj hae.symm)
      rcases Nat.lt_or_gt_of_ne hab with hab | hab
      · exact nameAt_eq_winEq t sep ord hab he
      · exact winEqS_symm (nameAt_eq_winEq t sep ord hab he.symm))
    (fun i j hi hj hl => by
      obtain ⟨a, ha, hae, han⟩ := hnm i hi
      obtain ⟨b, hb, hbe, hbn⟩ := hnm j hj
      simp only at hl
      rw [han, hbn] at hl
      simp only
      rw [← hae, ← hbe]
      exact hlt a b (by rw [ho.len]; exact ha) (by rw [ho.len]; exact hb) hl)
  refine ⟨hS, hsym, fun a ha => ?_, fun y hy hc => ?_, fun a b hab hb => ?_⟩
  · have h1 := hs.r_spec (show a < R.length by omega)
    have := lmsL_getD t (show (rsa.getD a 0).toNat < mLt t (t.length - 1) by omega)
    exact ⟨this.2.1, this.1⟩
  · have h1 : mLt t y < mLt t (t.length - 1) := by
      have e := mLt_succ t y
      rw [if_pos hc] at e
      have := mLt_mono t (show y + 1 ≤ t.length - 1 by omega)
      omega
    obtain ⟨a, ha, hae⟩ := hs.hall (mLt t y) (by omega)
    refine ⟨a, by omega, ?_⟩
    have h2 : rsa.getD a 0 = (mLt t y : Int) := by
      rw [List.getD_eq_getElem?_getD, hae]
      rfl
    simp only [h2, Int.toNat_ofNat]
    have h3 := lmsL_getElem? t hy hc
    rw [List.getD_eq_getElem?_getD, h3]
    rfl
  · have h1 := hs.r_spec (show a < R.length by omega)
    have h2 := hs.r_spec (show b < R.length by omega)
    exact hred _ _ (by omega) (by omega) (hs.hsorted a b _ _ hab h1.2 h2.2)

/-- The final call of `induce` returns the sorted array. -/
theorem finish_sorts (M : Seeds) (hV : M.Valid) (hm : M.SepMin) (hO : M.Ordered)
    (hfull : ∀ x, x < M.t.length → M.lv x) (hnr : ∀ x, ¬ M.root x) (k : Nat)
    (hk : M.Sized k) (hn : 2 ≤ M.t.length)
    {hist bkt0 : List Int} (hh : histgram M.t k = some (hist, bkt0)) (bkt : List Int)
    (hbl : bkt.length = k) (sa : List Int) (hpre : M.IndPre sa) (ms : Int) :
    ∃ r, finish M.t sa bkt hist ms false = some r ∧ SortedSA M.t r.sa := by
  obtain ⟨sa', h1, h2, h3⟩ := induce_spec M hV hfull hnr k hk hn hh bkt hbl sa hpre ms
  refine ⟨{ l := -1, sa := sa', rnk := [], dict := [] }, ?_,
    sorted_of_slots M hV hm hO hfull hnr sa' h2 h3⟩
  unfold finish
  rw [if_neg Bool.false_ne_true, h1]
  rfl

/-- From the names to the sorted seeds: the recursive call on the names, or `clearLMSLen`
when the names are all different. -/
theorem middle_spec (self : List Int → List Int → Nat → Bool → Bool → Option SaisOut)
    (t : List Int) (hsym : ∀ x, 0 ≤ sym t x) (hn : 2 ≤ t.length) (rec : Bool) (ord : List Nat)
    (hS : SepOK t (sepOf rec)) (ho : OrdOK t ord)
    (hlt : ∀ i j, i < ord.length → j < ord.length → nameAt t (sepOf rec) ord i < nameAt t (sepOf rec) ord j →
      dkey t (sepOf rec) (ord.getD i 0) < dkey t (sepOf rec) (ord.getD j 0))
    (m : Nat) (hme : m = mLt t (t.length - 1)) (hm : 2 ≤ m) (sa3 : List Int)
    (hN : NamePost t (sepOf rec) m ord sa3)
    (hself : ∀ (R W : List Int) (k1 : Nat), R.length < t.length → 2 ≤ R.length →
      (∀ x, 0 ≤ sym R x ∧ sym R x < k1) → W.length = R.length →
      (∀ j, j < R.length → W[j]? = some 0) →
      ∃ r, self R W k1 false true = some r ∧ SortedSA R r.sa) :
    ∃ sa6 S, (if nameAt t (sepOf rec) ord (m - 1) < (m : Int) then
        (adjustLMS sa3 (m : Int)).bind fun sa =>
        if (sa.length : Int) < 2 * (m : Int) then none
        else
          (self ((sa.drop (m : Int).toNat).take (m : Int).toNat) (sa.take (m : Int).toNat)
            (nameAt t (sepOf rec) ord (m - 1) + 1).toNat false true).bind fun r =>
          (locateLMS t (r.sa ++ sa.drop (m : Int).toNat) (m : Int) rec).bind fun sa =>
          shuffleLMS sa (m : Int)
      else clearLMSLen sa3 (m : Int)) = some sa6 ∧
      SortedLms t (sepOf rec) S m ∧ sa6.length = t.length ∧
      (∀ a, a < m → sa6[a]? = some (S a : Int)) ∧
      (∀ a, m ≤ a → a < t.length → sa6[a]? = some 0) := by
  subst hme
  have hd := mLt_double_le t (t.length - 1)
  by_cases hnn : nameAt t (sepOf rec) ord (mLt t (t.length - 1) - 1) < (mLt t (t.length - 1) : Int)
  · rw [if_pos hnn]
    obtain ⟨sa4, hadj, hA⟩ := adjustLMS_spec t (sepOf rec) hsym ord ho sa3 hN hn
    rw [hadj]
    simp only [Option.some_bind, Int.toNat_ofNat]
    rw [if_neg (by rw [hA.hlen]; omega)]
    have hRl : ((sa4.drop (mLt t (t.length - 1))).take (mLt t (t.length - 1))).length =
        mLt t (t.length - 1) := by
      rw [List.length_take, List.length_drop, hA.hlen]
      omega
    have hRget : ∀ i, i < mLt t (t.length - 1) →
        ((sa4.drop (mLt t (t.length - 1))).take (mLt t (t.length - 1)))[i]? =
          sa4[mLt t (t.length - 1) + i]? := by
      intro i hi
      rw [List.getElem?_take_of_lt hi, List.getElem?_drop]
    have hR : ∀ i, i < mLt t (t.length - 1) →
        sym ((sa4.drop (mLt t (t.length - 1))).take (mLt t (t.length - 1))) i =
          nameOf t (sepOf rec) ord ((lmsL t).getD i 0) - 1 := by
      intro i hi
      unfold sym
      rw [List.getD_eq_getElem?_getD, hRget i hi, hA.hname i hi]
      rfl
    have hlast := (nameAt_bounds t (sepOf rec) ord (mLt t (t.length - 1) - 1)).1
    obtain ⟨r, hr, hs⟩ := hself ((sa4.drop (mLt t (t.length - 1))).take (mLt t (t.length - 1)))
      (sa4.take (mLt t (t.length - 1)))
      (nameAt t (sepOf rec) ord (mLt t (t.length - 1) - 1) + 1).toNat (by rw [hRl]; omega)
      (by rw [hRl]; exact hm)
      (fun x => by
        rw [Int.toNat_of_nonneg (by omega)]
        by_cases hx : x < mLt t (t.length - 1)
        · rw [hR x hx]
          have h1 := lmsL_getD t hx
          obtain ⟨a, ha, hae⟩ := ho.index h1.1 h1.2.1
          rw [← hae, ho.nameOf_getD ha]
          have h2 := (nameAt_bounds t (sepOf rec) ord a).1
          have h3 := nameAt_mono t (sepOf rec) ord (show a ≤ mLt t (t.length - 1) - 1 by omega)
          omega
        · rw [sym_of_ge _ x (by rw [hRl]; omega)]
          omega)
      (by
        rw [hRl, List.length_take, hA.hlen]
        omega)
      (fun j hj => by
        rw [hRl] at hj
        rw [List.getElem?_take_of_lt hj]
        exact hA.hlo j hj)
    rw [hr]
    simp only [Option.some_bind]
    have hrl : r.sa.length = mLt t (t.length - 1) := by rw [hs.hlen, hRl]
    obtain ⟨sa5, hloc, hl5, h5a, h5b⟩ := locateLMS_spec t hsym
      (r.sa ++ sa4.drop (mLt t (t.length - 1)))
      (by
        rw [List.length_append, List.length_drop, hrl, hA.hlen]
        omega) hn rec
    rw [hloc]
    simp only [Option.some_bind]
    have hrs : ∀ a, a < mLt t (t.length - 1) →
        (r.sa.getD a 0).toNat < mLt t (t.length - 1) ∧
        r.sa[a]? = some (((r.sa.getD a 0).toNat : Nat) : Int) := by
      intro a ha
      have := hs.r_spec (show a < _ by rw [hRl]; exact ha)
      rw [hRl] at this
      exact this
    obtain ⟨sa6, hshuf, hl6, h6a, h6b⟩ := shuffleLMS_spec t.length (mLt t (t.length - 1))
      (fun a => (r.sa.getD a 0).toNat) (fun x => (lmsL t).getD x 0) (by omega)
      (fun a ha => (hrs a ha).1)
      (fun a b ha hb hab => by
        have h1 := (hrs a ha).2
        have h2 := (hrs b hb).2
        simp only at hab
        rw [hab] at h1
        exact hs.cell_inj h1 h2)
      (fun x hx => by
        obtain ⟨a, ha, hae⟩ := hs.hall x (by rw [hRl]; exact hx)
        rw [hRl] at ha
        refine ⟨a, ha, ?_⟩
        simp only
        rw [List.getD_eq_getElem?_getD, hae]
        rfl)
      sa5 hl5
      (fun a ha => by
        rw [h5b a (Or.inl ha), List.getElem?_append_left (by rw [hrl]; exact ha)]
        exact (hrs a ha).2)
      (fun x hx => h5a x hx)
      (fun a ha1 ha2 => by
        rw [h5b a (Or.inr ha1), List.getElem?_append_right (by rw [hrl]; omega),
          List.getElem?_drop, hrl,
          show mLt t (t.length - 1) + (a - mLt t (t.length - 1)) = a by omega]
        exact hA.hz a ha1 ha2)
    exact ⟨sa6, fun a => (lmsL t).getD (r.sa.getD a 0).toNat 0, hshuf,
      sortedLms_of_rec t (sepOf rec) hS hsym ord ho hlt (by omega) _ r.sa hRl hR hs, hl6, h6a, h6b⟩
  · rw [if_neg hnn]
    obtain ⟨sa6, hclr, hl6, h6a, h6b⟩ := clearLMSLen_spec t (sepOf rec) ord ho sa3 hN
    exact ⟨sa6, fun a => ord.getD a 0, hclr,
      sortedLms_of_full t (sepOf rec) hS hsym ord ho hlt (by omega) (by omega), hl6, h6a, h6b⟩

theorem findLMS_one (t : List Int) (k : Nat) (hsym : ∀ x, 0 ≤ sym t x ∧ sym t x < k)
    (hn : t.length = 1) (rec : Bool) {hist bkt0 : List Int}
    (hh : histgram t k = some (hist, bkt0)) (bkt : List Int) (hbl : bkt.length = k)
    (sa : List Int) :
    ∃ bkt', findLMS t sa bkt hist rec = some (0, 0, sa, bkt') ∧ bkt'.length = k := by
  obtain ⟨tail, htail, htaill, htailc⟩ := setBktEnd_cur hh bkt hbl
  have hk0 : (0 : Int) < k := by
    have := hsym 0
    omega
  refine ⟨tail, ?_, htaill⟩
  unfold findLMS
  simp only [Option.bind_eq_bind, htail, Option.some_bind]
  rw [show separator - 1 = (0 : Int) from rfl, htailc 0 (le_refl _) hk0]
  simp only [Option.some_bind]
  rw [getI_sym_eq 0 (by simp) (by omega), hn]
  simp only [Option.some_bind, Nat.sub_self, List.range'_zero, List.foldlM_nil, Option.pure_def]
  rw [if_neg (by decide)]
  rfl

theorem histgram_of_sym (t : List Int) (k : Nat) (hsym : ∀ x, 0 ≤ sym t x ∧ sym t x < k) :
    ∃ hist, histgram t k = some (hist, List.replicate k 0) :=
  histgram_total t k (fun c hc => by
    obtain ⟨i, hi, rfl⟩ := List.getElem_of_mem hc
    have := hsym i
    unfold sym at this
    rw [List.getD_eq_getElem _ _ hi] at this
    exact this)

theorem SepOK.tl_le_mLt {t : List Int} {sep : Int} (hS : SepOK t sep) :
    tl t sep ≤ mLt t (t.length - 1) := by
  rw [← hS.cntLt_total]
  exact cntLt_le_mLt t _ sep

/-- One level of `sais` up to its last step: the array that the final induction receives
holds the seeds in the order of their keys, whatever the mode is. -/
theorem saisBody_model (self : List Int → List Int → Nat → Bool → Bool → Option SaisOut)
    (t sa : List Int) (k : Nat) (rec : Bool) (hn : 1 ≤ t.length)
    (hsym : ∀ x, 0 ≤ sym t x ∧ sym t x < k) (hS : SepOK t (sepOf rec))
    (hlen : sa.length = t.length) (hz : ∀ j, j < t.length → sa[j]? = some 0)
    (hself : ∀ (R W : List Int) (k1 : Nat), R.length < t.length → 2 ≤ R.length →
      (∀ x, 0 ≤ sym R x ∧ sym R x < k1) → W.length = R.length →
      (∀ j, j < R.length → W[j]? = some 0) →
      ∃ r, self R W k1 false true = some r ∧ SortedSA R r.sa) :
    ∃ hist sa7 bkt7 g, histgram t k = some (hist, List.replicate k 0) ∧ bkt7.length = k ∧
      Seeds.Valid ⟨t, fun _ => true, sepOf rec, g⟩ ∧
      Seeds.Ordered ⟨t, fun _ => true, sepOf rec, g⟩ ∧
      Seeds.IndPre ⟨t, fun _ => true, sepOf rec, g⟩ sa7 ∧
      ∀ bwt, saisBody self t sa k bwt rec = finish t sa7 bkt7 hist (tl t (sepOf rec)) bwt := by
  have hsym0 : ∀ x, 0 ≤ sym t x := fun x => (hsym x).1
  obtain ⟨hist, hh⟩ := histgram_of_sym t k hsym
  have hms := hS.tl_le_mLt
  by_cases hn1 : t.length = 1
  · obtain ⟨bkt1, hfind, hbl1⟩ := findLMS_one t k hsym hn1 rec hh (List.replicate k 0)
      (by simp) sa
    have hm0 : mLt t (t.length - 1) ≤ 1 := by
      rw [hn1]
      simp [mLt]
    have hms0 : tl t (sepOf rec) = 0 := by
      rw [hn1] at hms
      simp [mLt] at hms
      exact hms
    refine ⟨hist, sa, bkt1, gF t (sepOf rec), hh, hbl1, full_valid t _ hS hsym0 (by omega),
      gF_ordered_of_le_one t _ _ hm0,
      ⟨hlen, fun y hy _ => ?_, fun j hj _ => hz j hj⟩, fun bwt => ?_⟩
    · have hy' : y + 1 < t.length := hy.1
      omega
    · unfold saisBody
      rw [hh]
      simp only [Option.some_bind]
      rw [hfind]
      simp only [Option.some_bind]
      rw [if_neg (by omega), hms0]
      simp only [Option.some_bind]
      rfl
  have hn2 : 2 ≤ t.length := by omega
  obtain ⟨sa1, bkt1, live, hfind, hbl1, hpre, hcase⟩ := findLMS_spec t k hsym hn2 rec hS hh
    (List.replicate k 0) (by simp) sa hlen hz
  rcases hcase with ⟨hm1, rfl⟩ | ⟨hm2, rfl⟩
  · refine ⟨hist, sa1, bkt1, gF t (sepOf rec), hh, hbl1, full_valid t _ hS hsym0 (by omega),
      gF_ordered_of_le_one t _ _ hm1, hpre, fun bwt => ?_⟩
    unfold saisBody
    rw [hh]
    simp only [Option.some_bind]
    rw [hfind]
    simp only [Option.some_bind]
    rw [if_neg (by omega)]
    simp only [Option.some_bind]
  · have hV := liveF_valid t (sepOf rec) hS hsym0 (by omega)
    have hall : ∀ y, y + 1 < t.length → cstart t y →
        Seeds.lv ⟨t, liveF t (sepOf rec), sepOf rec, gF t (sepOf rec)⟩ y :=
      fun y hy hc => ⟨Nat.lt_of_succ_lt hy, liveF_seed t _ hy hc⟩
    obtain ⟨sa2, bkt2, hsort, hbl2, hpost⟩ := sortLMS_spec
      ⟨t, liveF t (sepOf rec), sepOf rec, gF t (sepOf rec)⟩ hV
      (fun x hx hc _ => ⟨by assumption, liveF_fwd t hS hx.1 hx.2 hc⟩) hS.hmin k
      (fun x => (hsym x).2) hn2 hh bkt1 hbl1 sa1 hpre
    have hsort' : sortLMS t sa1 bkt1 hist (tl t (sepOf rec)) = some (sa2, bkt2) := hsort
    obtain ⟨sa3, hname, hN⟩ := nameLMS_spec
      ⟨t, liveF t (sepOf rec), sepOf rec, gF t (sepOf rec)⟩ hV hsym0 hall rec hS sa2 hpost
      (show 1 ≤ mLt t (t.length - 1) by omega) hn2
    have hname' : nameLMS t sa2 (mLt t (t.length - 1) : Int) rec =
        some (nameAt t (sepOf rec) (negPos sa2) (mLt t (t.length - 1) - 1), sa3) := hname
    have hN' : NamePost t (sepOf rec) (mLt t (t.length - 1)) (negPos sa2) sa3 := hN
    have ho : OrdOK t (negPos sa2) := hpost.ordOK hV hsym0 hall
    obtain ⟨sa6, S, hmid, hSl, hl6, h6a, h6b⟩ := middle_spec self t hsym0 hn2 rec (negPos sa2)
      hS ho
      (fun i j hi hj hl => hpost.name_lt_dkey hV hS.hmin (gF_rootOrd t _ _) hi hj hl)
      (mLt t (t.length - 1)) rfl hm2 sa3 hN' hself
    obtain ⟨sa7, bkt7, hr, hbl7, hpre7⟩ := restoreLMS_spec t k hsym hn2 (sepOf rec) S
      (mLt t (t.length - 1)) hSl hh bkt2 hbl2 sa6 hl6 h6a h6b
    refine ⟨hist, sa7, bkt7, gS t (sepOf rec) S (mLt t (t.length - 1)), hh, hbl7,
      gS_valid t (by omega) _ S _ hSl, gS_ordered t _ S _ hSl, hpre7, fun bwt => ?_⟩
    unfold saisBody
    rw [hh]
    simp only [Option.some_bind]
    rw [hfind]
    simp only [Option.some_bind]
    rw [if_pos (Or.inl (by omega)), hsort']
    simp only [Option.some_bind]
    rw [hname']
    simp only [Option.some_bind]
    rw [hmid]
    simp only [Option.some_bind]
    rw [hr]
    simp only [Option.some_bind]

theorem sepOK_rec (t : List Int) (hsym : ∀ x, 0 ≤ sym t x) : SepOK t (sepOf true) := by
  refine ⟨by decide, fun x _ => ?_, fun x _ h => ?_⟩
  · have := hsym x
    show (-1 : Int) ≤ sym t x
    omega
  · have := hsym x
    have h' : sym t x = -1 := h
    omega

theorem sepOK_plain (t : List Int) (rec : Bool) (hsym : ∀ x, 0 ≤ sym t x)
    (hsep : rec = false → ∀ x, x < t.length → 2 ≤ sym t x) : SepOK t (sepOf rec) := by
  cases rec with
  | true => exact sepOK_rec t hsym
  | false =>
    refine ⟨by decide, fun x hx => ?_, fun x hx h => ?_⟩
    · have := hsep rfl x hx
      show (1 : Int) ≤ sym t x
      omega
    · have := hsep rfl x hx
      have h' : sym t x = 1 := h
      omega

/-- One level of `sais` in plain mode sorts the positions of a text without separators, when
the recursive call sorts the names. -/
theorem saisBody_sorts (self : List Int → List Int → Nat → Bool → Bool → Option SaisOut)
    (t sa : List Int) (k : Nat) (rec : Bool) (hn : 2 ≤ t.length)
    (hsym : ∀ x, 0 ≤ sym t x ∧ sym t x < k) (hS : SepOK t (sepOf rec))
    (hnr : ∀ x, sym t x ≠ sepOf rec)
    (hlen : sa.length = t.length) (hz : ∀ j, j < t.length → sa[j]? = some 0)
    (hself : ∀ (R W : List Int) (k1 : Nat), R.length < t.length → 2 ≤ R.length →
      (∀ x, 0 ≤ sym R x ∧ sym R x < k1) → W.length = R.length →
      (∀ j, j < R.length → W[j]? = some 0) →
      ∃ r, self R W k1 false true = some r ∧ SortedSA R r.sa) :
    ∃ r, saisBody self t sa k false rec = some r ∧ SortedSA t r.sa := by
  obtain ⟨hist, sa7, bkt7, g, hh, hbl, hV, hO, hpre, hfin⟩ := saisBody_model self t sa k rec
    (by omega) hsym hS hlen hz hself
  rw [hfin false]
  exact finish_sorts ⟨t, fun _ => true, sepOf rec, g⟩ hV hS.hmin hO (fun x hx => ⟨hx, rfl⟩) hnr k
    (fun x => (hsym x).2) hn hh bkt7 hbl sa7 hpre _

theorem not_sepOf_true (t : List Int) (hsym : ∀ x, 0 ≤ sym t x) (x : Nat) :
    sym t x ≠ sepOf true := by
  have := hsym x
  show sym t x ≠ -1
  omega

/-- The function `sais` in plain mode returns on a text without separators, and leaves in
`sa` the positions of the text in strictly increasing order of their keys. -/
theorem sais_sorts : ∀ (fuel : Nat) (t sa : List Int) (k : Nat) (rec : Bool),
    t.length < fuel → 2 ≤ t.length → (∀ x, 0 ≤ sym t x ∧ sym t x < k) →
    (rec = false → ∀ x, x < t.length → 2 ≤ sym t x) → sa.length = t.length →
    (∀ j, j < t.length → sa[j]? = some 0) →
    ∃ r, sais fuel t sa k false rec = some r ∧ SortedSA t r.sa := by
  intro fuel
  induction fuel with
  | zero =>
    intro t sa k rec h
    omega
  | succ fuel ih =>
    intro t sa k rec hf hn hsym hsep hlen hz
    rw [sais_succ]
    have hsym0 : ∀ x, 0 ≤ sym t x := fun x => (hsym x).1
    refine saisBody_sorts (sais fuel) t sa k rec hn hsym (sepOK_plain t rec hsym0 hsep) ?_
      hlen hz
      (fun R W k1 h1 h2 h3 h4 h5 => ih R W k1 true (by omega) h2 h3 (fun h => by cases h) h4 h5)
    intro x
    cases rec with
    | true => exact not_sepOf_true t hsym0 x
    | false =>
      by_cases hx : x < t.length
      · have := hsep rfl x hx
        show sym t x ≠ 1
        omega
      · rw [sym_of_ge t x (by omega)]
        decide

/-! ## The state of the array at the final induction -/

/-- The function `sais` up to its last step, in either mode. -/
theorem sais_model (fuel : Nat) (t sa : List Int) (k : Nat) (rec : Bool)
    (hf : t.length < fuel) (hn : 1 ≤ t.length) (hsym : ∀ x, 0 ≤ sym t x ∧ sym t x < k)
    (hS : SepOK t (sepOf rec)) (hlen : sa.length = t.length)
    (hz : ∀ j, j < t.length → sa[j]? = some 0) :
    ∃ hist sa7 bkt7 g, histgram t k = some (hist, List.replicate k 0) ∧ bkt7.length = k ∧
      Seeds.Valid ⟨t, fun _ => true, sepOf rec, g⟩ ∧
      Seeds.Ordered ⟨t, fun _ => true, sepOf rec, g⟩ ∧
      Seeds.IndPre ⟨t, fun _ => true, sepOf rec, g⟩ sa7 ∧
      ∀ bwt, sais fuel t sa k bwt rec = finish t sa7 bkt7 hist (tl t (sepOf rec)) bwt := by
  obtain ⟨f, rfl⟩ : ∃ f, fuel = f + 1 := ⟨fuel - 1, by omega⟩
  obtain ⟨hist, sa7, bkt7, g, h1, h2, h3, h4, h5, h6⟩ := saisBody_model (sais f) t sa k rec hn
    hsym hS hlen hz
    (fun R W k1 r1 r2 r3 r4 r5 =>
      sais_sorts f R W k1 true (by omega) r2 r3 (fun h => by cases h) r4 r5)
  exact ⟨hist, sa7, bkt7, g, h1, h2, h3, h4, h5, fun bwt => by rw [sais_succ]; exact h6 bwt⟩

/-! ## The left-to-right pass of `induceBWT` -/

theorem bwtLStep_zero {t : List Int} {st : IndSt} {i : Nat} (h : st.sa[i]? = some 0) :
    bwtLStep t st i = some st := by
  unfold bwtLStep
  rw [getI_ofNat, h]
  rfl

theorem bwtLStep_neg {t : List Int} {st : IndSt} {i : Nat} {s : Int}
    (h : st.sa[i]? = some s) (hs : s < 0) :
    bwtLStep t st i = some { st with sa := st.sa.set i (compl s) } := by
  have hi : i < st.sa.length := (List.getElem?_eq_some.mp h).1
  unfold bwtLStep
  rw [getI_ofNat, h]
  simp only [Option.bind_eq_bind, Option.some_bind]
  rw [if_neg (by omega), if_pos hs, setI_ofNat _ _ _ hi]
  rfl

theorem bwtLStep_last {t : List Int} {st : IndSt} {i : Nat} {s : Int}
    (h : st.sa[i]? = some s) (hs : 0 < s) (hn : (t.length : Int) ≤ s) :
    bwtLStep t st i = some { st with sa := st.sa.set i ((t.length : Int) - 1) } := by
  have hi : i < st.sa.length := (List.getElem?_eq_some.mp h).1
  unfold bwtLStep
  rw [getI_ofNat, h]
  simp only [Option.bind_eq_bind, Option.some_bind]
  rw [if_neg (by omega), if_neg (by omega), if_pos (by omega), setI_ofNat _ _ _ hi]
  rfl

theorem bwtLStep_pos {t : List Int} {st : IndSt} {i : Nat} (x : Nat) (bkt' : List Int)
    (b' : Nat) (h : st.sa[i]? = some ((x : Int) + 1)) (hx : x + 1 < t.length)
    (hsw : switchBkt st.bkt st.b st.p (sym t (x + 1)) = some (bkt', (b' : Int), sym t (x + 1)))
    (hb : b' < st.sa.length) :
    bwtLStep t st i = some
      { sa := (st.sa.set i (compl (sym t (x + 1)))).set b'
          (if x + 2 < t.length ∧ sym t (x + 2) < sym t (x + 1) then compl ((x : Int) + 1)
           else (x : Int) + 2),
        bkt := bkt', b := (b' : Int) + 1, p := sym t (x + 1) } := by
  have hi : i < st.sa.length := (List.getElem?_eq_some.mp h).1
  unfold bwtLStep
  rw [getI_ofNat, h]
  simp only [Option.bind_eq_bind, Option.some_bind]
  rw [if_neg (by omega), if_neg (by omega), if_neg (by omega)]
  rw [getI_sym_eq (x + 1) (by push_cast; ring) hx]
  simp only [Option.some_bind]
  rw [setI_ofNat _ _ _ hi]
  simp only [Option.some_bind, hsw]
  have e2 : (x : Int) + 1 + 1 = x + 2 := by ring
  by_cases h2 : x + 2 < t.length
  · rw [if_pos (by omega), getI_sym_eq (x + 2) (by push_cast; ring) h2]
    simp only [Option.some_bind]
    rw [setI_ofNat _ _ _ (by simpa using hb)]
    simp only [Option.some_bind, h2, true_and, gt_iff_lt, e2]
  · rw [if_neg (by omega), setI_ofNat _ _ _ (by simpa using hb)]
    simp only [Option.some_bind, h2, false_and, if_false, e2]

/-- One step of the left-to-right pass of `induceBWT` returns and keeps the state of the
array and of the cursors. -/
theorem bwtLStep_spec (M : Seeds) (hV : M.Valid) (hfull : ∀ x, x < M.t.length → M.lv x)
    (k : Nat)
    (hk : M.Sized k) (i : Nat) (hi : i < M.t.length) (st : IndSt)
    (hc : Cur k (M.curL i) st.bkt st.b st.p) (hs : M.PassL M.rawL M.visB i st.sa) :
    ∃ st', bwtLStep M.t st i = some st' ∧ Cur k (M.curL (i + 1)) st'.bkt st'.b st'.p ∧
      M.PassL M.rawL M.visB (i + 1) st'.sa := by
  have hlen := hs.len
  by_cases hex : ∃ u, M.srcL u ∧ M.sigma u = i
  · obtain ⟨u, hu, hσ⟩ := hex
    have hval := hs.hsrc u hu
    have hp : cstart M.t u ∨ M.placedL i u := by rw [← hσ]; exact M.placedL_of_sigma hV hu
    rw [hσ, if_pos hp, if_neg (by omega)] at hval
    have huniq : ∀ w, M.srcL w → M.sigma w = i → w = u := fun w hw hwi =>
      M.sigma_injective hV hw hu (by omega)
    by_cases hsucc : M.succS u
    · have hraw : M.rawL u = compl u := by unfold Seeds.rawL; rw [if_pos hsucc]
      have hno : ∀ y, M.lv (y + 1) → lType M.t (y + 1) = true → M.sigma y ≠ i := by
        intro y hy hly hyi
        have := huniq y (M.srcL_of_succ_L hV hy hly) hyi
        subst this
        exact M.not_succS_of_succ_L hly hsucc
      rw [hraw] at hval
      refine ⟨_, bwtLStep_neg hval (by unfold compl; omega), ?_, ?_⟩
      · exact hc.update _ (by rw [M.curL_succ_none i hno]; exact hc.2.2.2.1)
          (fun c _ => M.curL_succ_none i hno c)
      · apply hs.keep hV hi hno
        · intro w hw hwi
          rw [huniq w hw hwi]
          unfold Seeds.visB compl
          rw [if_pos hsucc]
          omega
        · intro hnone
          exact absurd hσ (hnone u hu)
    · have hraw : M.rawL u = (u : Int) + 1 := by unfold Seeds.rawL; rw [if_neg hsucc]
      rw [hraw] at hval
      by_cases hn : u + 1 < M.t.length
      · have hl := M.succ_L_of_not_succS hu hsucc hn
        have hx : M.lv (u + 1) := hfull _ hn
        obtain ⟨h0, h1⟩ := M.sym_nonneg_lt hV hk (u + 1)
        obtain ⟨bkt', hsw, hcur⟩ := switchBkt_cur hc (sym M.t (u + 1)) h0 h1
        have hb : M.curL i (sym M.t (u + 1)) = (M.slot (u + 1) : Int) := by
          rw [← hσ]
          exact M.curL_target hV hx hl
        rw [hb] at hsw hcur
        have hsn : M.slot (u + 1) < st.sa.length := by
          rw [hlen]
          exact M.slot_lt_length hV hx
        refine ⟨_, bwtLStep_pos u bkt' (M.slot (u + 1)) hval hn hsw hsn, ?_, ?_⟩
        · apply hcur.update
          · show (M.slot (u + 1) : Int) + 1 = M.curL (i + 1) (sym M.t (u + 1))
            rw [← hσ, M.curL_succ_target hV hx hl, if_pos rfl, hσ, hb]
          · intro c hcne
            rw [← hσ, M.curL_succ_target hV hx hl, if_neg hcne, Int.add_zero]
        · show M.PassL M.rawL M.visB (i + 1) _
          have hvis : M.visB u = compl (sym M.t (u + 1)) := by
            unfold Seeds.visB
            rw [if_neg hsucc, if_pos hn]
          rw [M.rawL_succ, ← hvis]
          exact hs.put hV hu hσ hx hl
      · have hno : ∀ y, M.lv (y + 1) → lType M.t (y + 1) = true → M.sigma y ≠ i := by
          intro y hy hly hyi
          have := huniq y (M.srcL_of_succ_L hV hy hly) hyi
          have := hy.1
          omega
        refine ⟨_, bwtLStep_last hval (by omega) (by omega), ?_, ?_⟩
        · exact hc.update _ (by rw [M.curL_succ_none i hno]; exact hc.2.2.2.1)
            (fun c _ => M.curL_succ_none i hno c)
        · apply hs.keep hV hi hno
          · intro w hw hwi
            rw [huniq w hw hwi]
            unfold Seeds.visB
            rw [if_neg hsucc, if_neg hn]
          · intro hnone
            exact absurd hσ (hnone u hu)
  · have hnone : ∀ u, M.srcL u → M.sigma u ≠ i := fun u hu hui => hex ⟨u, hu, hui⟩
    have hval := hs.hzero i hi hnone
    have hno : ∀ y, M.lv (y + 1) → lType M.t (y + 1) = true → M.sigma y ≠ i :=
      fun y hy hly => hnone y (M.srcL_of_succ_L hV hy hly)
    refine ⟨st, bwtLStep_zero hval, ?_, ?_⟩
    · exact hc.update _ (by rw [M.curL_succ_none i hno]; exact hc.2.2.2.1)
        (fun c _ => M.curL_succ_none i hno c)
    · have := hs.keep hV hi hno 0 (fun u hu hui => absurd hui (hnone u hu)) (fun _ => rfl)
      rwa [set_self_of_getElem? hval] at this

theorem Seeds.visB_eq_preB (M : Seeds) {x : Nat} (hl : lType M.t x = true) :
    M.visB x = M.preB x := by
  unfold Seeds.visB Seeds.preB Seeds.succS
  have e : (lType M.t (x + 1) = false) ↔ sym M.t (x + 1) < sym M.t x := by
    rw [lType_false_iff]
    constructor
    · rintro (h | ⟨_, h⟩)
      · exact h
      · rw [hl] at h
        exact Bool.noConfusion h
    · exact Or.inl
  simp only [e, hl, if_true]

theorem Seeds.preB_root (M : Seeds) (hV : M.Valid) {x : Nat} (hx : x < M.t.length)
    (hr : M.root x) : M.preB x = compl (sym M.t (x + 1)) := by
  obtain ⟨hc, _, h1, _⟩ := hV.hroot x hx hr
  unfold Seeds.preB
  rw [if_neg (by rw [hc.1]; simp), if_pos h1.1]

theorem Seeds.visB_of_cstart (M : Seeds) {x : Nat} (hx : x + 1 < M.t.length)
    (hc : cstart M.t x) : M.visB x = compl (sym M.t (x + 1)) := by
  unfold Seeds.visB Seeds.succS
  have := ((cstart_iff M.t x).mp hc).2
  rw [if_neg (by omega), if_pos hx]

theorem Seeds.PassL.toIndB {M : Seeds} (hV : M.Valid) {sa : List Int}
    (h : M.PassL M.rawL M.visB M.t.length sa) : M.IndB M.t.length sa := by
  refine ⟨h.len, fun x hx hpl => ?_⟩
  have hsl := M.slot_lt_length hV hx
  rcases hpl with hl | hpl | hr
  · have := h.hsrc x (Or.inl ⟨hl, hx⟩)
    rw [M.sigma_of_L hl] at this
    have hp : cstart M.t x ∨ M.placedL M.t.length x := by
      right
      cases x with
      | zero => exact Or.inl rfl
      | succ w =>
        refine Or.inr ⟨by omega, ?_⟩
        rw [Nat.add_sub_cancel]
        exact M.sigma_lt_length hV (M.srcL_of_succ_L hV hx hl)
    rw [this, if_pos hp, if_pos hsl, if_neg (by omega), M.visB_eq_preB hl]
  · unfold Seeds.placedS at hpl
    have := M.slot_lt_length hV hpl.2.1
    omega
  · obtain ⟨hc, _, h1, hg⟩ := hV.hroot x hx.1 hr
    have := h.hsrc x (Or.inr ⟨hc, h1⟩)
    unfold Seeds.sigma at this
    rw [if_pos hc, ← hg] at this
    rw [this, if_pos (Or.inl hc), if_pos hsl, if_neg (by omega), M.preB_root hV hx.1 hr,
      M.visB_of_cstart h1.1 hc]

/-! ## The right-to-left pass of `induceBWT` -/

theorem updateRank_total {rank : List (List Nat)} (hinv : RankInv rank) (a b : Int)
    (ha : a < 256) (hb0 : 0 ≤ b) (hb : b < 256) :
    ∃ rank', updateRank rank a b = some rank' ∧ RankInv rank' := by
  obtain ⟨hlen, hrows, _⟩ := hinv
  have hi : (if a < 1 then 1 else a).toNat < rank.length := by
    rw [hlen]
    split <;> omega
  have hrow := hrows _ (List.getElem_mem hi)
  have hbl : b.toNat < (rank[(if a < 1 then 1 else a).toNat]).length := by
    rw [hrow]
    omega
  have hu : updateRank rank a b = some (rank.set (if a < 1 then 1 else a).toNat
      ((rank[(if a < 1 then 1 else a).toNat]).set b.toNat
        ((rank[(if a < 1 then 1 else a).toNat])[b.toNat] + 1))) := by
    unfold updateRank getN setN
    simp only [Option.bind_eq_bind]
    rw [List.getElem?_eq_getElem hi]
    simp only [Option.some_bind]
    rw [if_neg (by omega), List.getElem?_eq_getElem hbl]
    simp only [Option.some_bind]
    rw [if_neg (by omega)]
    rfl
  exact ⟨_, hu, (updateRank_inv ⟨hlen, hrows, by assumption⟩ hu).1⟩

theorem bwtSStep_neg {t ptr dict : List Int} {ms : Int} {st : BwtSt} {i : Nat}
    {pi d s : Int} {rnk' : List (List Nat)} (hp : getI ptr st.idx = some pi)
    (hd : getI dict (if (i : Int) < pi then st.idx - 1 else st.idx) = some d)
    (h : st.sa[i]? = some s) (hs : s < 0) (hr : updateRank st.rnk (compl s) d = some rnk') :
    bwtSStep t ptr dict ms st i = some { st with
      sa := st.sa.set i (compl s),
      idx := if (i : Int) < pi then st.idx - 1 else st.idx, rnk := rnk' } := by
  have hi : i < st.sa.length := (List.getElem?_eq_some.mp h).1
  unfold bwtSStep
  simp only [Option.bind_eq_bind, hp, Option.some_bind, hd]
  rw [getI_ofNat, h]
  simp only [Option.some_bind]
  rw [if_pos hs, setI_ofNat _ _ _ hi]
  simp only [Option.some_bind, hr]

theorem bwtSStep_last {t ptr dict : List Int} {ms : Int} {st : BwtSt} {i : Nat}
    {pi d s : Int} {rnk' : List (List Nat)} (hp : getI ptr st.idx = some pi)
    (hd : getI dict (if (i : Int) < pi then st.idx - 1 else st.idx) = some d)
    (h : st.sa[i]? = some s) (hs : 0 ≤ s) (hn : s + 1 = t.length)
    (hr : updateRank st.rnk 1 d = some rnk') :
    bwtSStep t ptr dict ms st i = some { st with
      sa := st.sa.set i 0,
      idx := if (i : Int) < pi then st.idx - 1 else st.idx, rnk := rnk', l := i } := by
  have hi : i < st.sa.length := (List.getElem?_eq_some.mp h).1
  unfold bwtSStep
  simp only [Option.bind_eq_bind, hp, Option.some_bind, hd]
  rw [getI_ofNat, h]
  simp only [Option.some_bind]
  rw [if_neg (by omega), if_pos hn, setI_ofNat _ _ _ hi]
  simp only [Option.some_bind, hr]

theorem bwtPlace_spec (t : List Int) (ms : Int) (sa : List Int) (l : Int) (y b : Nat)
    (hy : y < t.length) (hb : b < sa.length)
    (hg : y + 1 < t.length → sym t y < sym t (y + 1) → ms ≤ (b : Int)) :
    bwtPlace t ms sa l (y : Int) (b : Int) (sym t y) = some
      (sa.set b (if y + 1 < t.length then
          (if sym t y < sym t (y + 1) then compl (sym t (y + 1)) else (y : Int))
        else compl 0),
       if y + 1 < t.length then l else (b : Int)) := by
  unfold bwtPlace
  by_cases h1 : y + 1 < t.length
  · rw [if_neg (by omega), getI_sym_eq (y + 1) (by push_cast; ring) h1]
    simp only [Option.some_bind]
    by_cases h2 : sym t y < sym t (y + 1)
    · rw [if_pos h2, if_pos (hg h1 h2), setI_ofNat _ _ _ hb]
      simp only [Option.some_bind, h1, h2, if_true]
    · rw [if_neg h2, setI_ofNat _ _ _ hb]
      simp only [Option.some_bind, h1, h2, if_true, if_false]
  · rw [if_pos (by omega), setI_ofNat _ _ _ hb]
    simp only [Option.some_bind, h1, if_false]

theorem bwtPlace_skip (t : List Int) (ms : Int) (sa : List Int) (l : Int) (y : Nat) (b : Int)
    (hy : y + 1 < t.length) (hlt : sym t y < sym t (y + 1)) (hb : b < ms) :
    bwtPlace t ms sa l (y : Int) b (sym t y) = some (sa, l) := by
  unfold bwtPlace
  rw [if_neg (by omega), getI_sym_eq (y + 1) (by push_cast; ring) hy]
  simp only [Option.some_bind]
  rw [if_pos hlt, if_neg (by omega)]

theorem bwtSStep_pos {t ptr dict : List Int} {ms : Int} {st : BwtSt} {i : Nat}
    {pi d : Int} {rnk' : List (List Nat)} (x : Nat) (bkt' : List Int) (b' : Nat)
    (hp : getI ptr st.idx = some pi)
    (hd : getI dict (if (i : Int) < pi then st.idx - 1 else st.idx) = some d)
    (h : st.sa[i]? = some (x : Int)) (hx : x + 1 < t.length)
    (hr : updateRank st.rnk (sym t (x + 1)) d = some rnk')
    (hsw : switchBkt st.bkt st.b st.p (sym t (x + 1)) =
      some (bkt', (b' : Int) + 1, sym t (x + 1)))
    (hb : b' < st.sa.length)
    (hg : x + 2 < t.length → sym t (x + 1) < sym t (x + 2) → ms ≤ (b' : Int)) :
    bwtSStep t ptr dict ms st i = some
      { sa := (st.sa.set i (sym t (x + 1))).set b'
          (if x + 2 < t.length then
            (if sym t (x + 1) < sym t (x + 2) then compl (sym t (x + 2)) else (x : Int) + 1)
           else compl 0),
        bkt := bkt', b := (b' : Int), p := sym t (x + 1),
        l := if x + 2 < t.length then st.l else (b' : Int),
        idx := if (i : Int) < pi then st.idx - 1 else st.idx, rnk := rnk' } := by
  have hi : i < st.sa.length := (List.getElem?_eq_some.mp h).1
  unfold bwtSStep
  simp only [Option.bind_eq_bind, hp, Option.some_bind, hd]
  rw [getI_ofNat, h]
  simp only [Option.some_bind]
  rw [if_neg (by omega), if_neg (by omega)]
  rw [getI_sym_eq (x + 1) (by push_cast; ring) hx]
  simp only [Option.some_bind]
  rw [setI_ofNat _ _ _ hi]
  simp only [Option.some_bind, hr, hsw]
  have e1 : (b' : Int) + 1 - 1 = b' := by ring
  have e2 : (x : Int) + 1 = ((x + 1 : Nat) : Int) := by push_cast; ring
  rw [e1, e2, bwtPlace_spec t ms _ st.l (x + 1) b' hx (by simpa using hb) hg]
  simp only [Option.some_bind, show x + 1 + 1 = x + 2 from rfl]

theorem bwtSStep_skip {t ptr dict : List Int} {ms : Int} {st : BwtSt} {i : Nat}
    {pi d : Int} {rnk' : List (List Nat)} (x : Nat) (bkt' : List Int) (b1 : Int)
    (hp : getI ptr st.idx = some pi)
    (hd : getI dict (if (i : Int) < pi then st.idx - 1 else st.idx) = some d)
    (h : st.sa[i]? = some (x : Int)) (hx : x + 2 < t.length)
    (hr : updateRank st.rnk (sym t (x + 1)) d = some rnk')
    (hsw : switchBkt st.bkt st.b st.p (sym t (x + 1)) = some (bkt', b1, sym t (x + 1)))
    (hlt : sym t (x + 1) < sym t (x + 2)) (hb : b1 - 1 < ms) :
    bwtSStep t ptr dict ms st i = some
      { sa := st.sa.set i (sym t (x + 1)),
        bkt := bkt', b := b1 - 1, p := sym t (x + 1), l := st.l,
        idx := if (i : Int) < pi then st.idx - 1 else st.idx, rnk := rnk' } := by
  have hi : i < st.sa.length := (List.getElem?_eq_some.mp h).1
  unfold bwtSStep
  simp only [Option.bind_eq_bind, hp, Option.some_bind, hd]
  rw [getI_ofNat, h]
  simp only [Option.some_bind]
  rw [if_neg (by omega), if_neg (by omega)]
  rw [getI_sym_eq (x + 1) (by push_cast; ring) (by omega)]
  simp only [Option.some_bind]
  rw [setI_ofNat _ _ _ hi]
  simp only [Option.some_bind, hr, hsw]
  have e2 : (x : Int) + 1 = ((x + 1 : Nat) : Int) := by push_cast; ring
  rw [e2, bwtPlace_skip t ms _ st.l (x + 1) _ hx hlt hb]
  simp only [Option.some_bind]

theorem CntOK.reads {ptr dict : List Int} (h : CntOK ptr dict) (i : Nat) (idx : Int)
    (h0 : 0 ≤ idx) (h1 : idx < ptr.length) :
    ∃ pi d, getI ptr idx = some pi ∧
      getI dict (if (i : Int) < pi then idx - 1 else idx) = some d ∧ 0 ≤ d ∧ d < 256 ∧
      0 ≤ (if (i : Int) < pi then idx - 1 else idx) ∧
      (if (i : Int) < pi then idx - 1 else idx) < ptr.length := by
  have hlt : idx.toNat < ptr.length := by omega
  have hp : getI ptr idx = some (ptr[idx.toNat]) := by
    rw [getI_eq idx.toNat (by omega), List.getElem?_eq_getElem hlt]
  have hne : (i : Int) < ptr[idx.toNat] → 1 ≤ idx := by
    intro hlt'
    by_contra hc
    have h00 : idx.toNat = 0 := by omega
    have := h.hptr0
    rw [List.getElem?_eq_getElem (by omega)] at this
    simp only [Option.some.injEq] at this
    simp only [h00] at hlt'
    omega
  have hr0 : 0 ≤ (if (i : Int) < ptr[idx.toNat] then idx - 1 else idx) := by
    split
    · have := hne (by assumption)
      omega
    · exact h0
  have hr1 : (if (i : Int) < ptr[idx.toNat] then idx - 1 else idx) < ptr.length := by
    split <;> omega
  have hdl : (if (i : Int) < ptr[idx.toNat] then idx - 1 else idx).toNat < dict.length := by
    rw [h.hlen]
    omega
  have hd : getI dict (if (i : Int) < ptr[idx.toNat] then idx - 1 else idx) =
      some (dict[(if (i : Int) < ptr[idx.toNat] then idx - 1 else idx).toNat]) := by
    rw [getI_eq _ (Int.toNat_of_nonneg hr0).symm, List.getElem?_eq_getElem hdl]
  have hrange := h.hdict _ _ (List.getElem?_eq_getElem hdl)
  exact ⟨_, _, hp, hd, hrange.1, hrange.2, hr0, hr1⟩

theorem Seeds.IndB.keepB {M : Seeds} (_hV : M.Valid) {i : Nat} {sa : List Int}
    (h : M.IndB (i + 1) sa) (hi : i < M.t.length)
    (hno : ∀ y, M.lv (y + 1) → M.lv y → lType M.t (y + 1) = false → M.slot y ≠ i)
    (v : Int) (hv : ∀ x, M.lv x → M.slot x = i → v = M.bwtOf x) :
    M.IndB i (sa.set i v) := by
  have hlen := h.len
  refine ⟨by simpa using hlen, fun x hx hpl => ?_⟩
  have e2 := M.srtCond_pred (i := i) (x := x) (fun h1 h0 h2 => by
    cases hl : lType M.t x
    · obtain ⟨z, rfl⟩ : ∃ z, x = z + 1 := ⟨x - 1, by omega⟩
      exact absurd h2 (hno z hx h0 hl)
    · exact Or.inl rfl)
  by_cases hxi : M.slot x = i
  · rw [hxi, List.getElem?_set_self (by omega), hv x hx hxi, if_pos (le_refl _)]
  · rw [List.getElem?_set_ne (fun hh => hxi hh.symm), h.hpos x hx (e2.mp hpl)]
    have e : (i + 1 ≤ M.slot x) ↔ (i ≤ M.slot x) := by omega
    simp only [e]

theorem Seeds.IndB.putB {M : Seeds} (hV : M.Valid) {i : Nat} {sa : List Int}
    (h : M.IndB (i + 1) sa) {u : Nat} (hσ : M.slot u = i) (hx : M.lv (u + 1)) (hu : M.lv u)
    (hl : lType M.t (u + 1) = false) :
    M.IndB i ((sa.set i (M.bwtOf u)).set (M.slot (u + 1)) (M.preB (u + 1))) := by
  have hlen := h.len
  have hsl : M.slot (u + 1) < i := by rw [← hσ]; exact M.slot_succ_lt hV hx hu hl
  have hsn : M.slot (u + 1) < M.t.length := M.slot_lt_length hV hx
  have hil : i < M.t.length := by rw [← hσ]; exact M.slot_lt_length hV hu
  refine ⟨by simpa using hlen, fun x hx' hpl => ?_⟩
  by_cases hx1 : x = u + 1
  · subst hx1
    rw [List.getElem?_set_self (by simpa using (by omega)), if_neg (by omega)]
  · have hne : M.slot x ≠ M.slot (u + 1) := fun hh => hx1 (M.slot_injective hV hx' hx hh)
    have e2 := M.srtCond_pred (i := i) (x := x) (fun h1 h0 h2 => by
      exfalso
      have : x - 1 = u := M.slot_injective hV h0 hu (by omega)
      omega)
    rw [List.getElem?_set_ne (fun hh => hne hh.symm)]
    by_cases hxi : M.slot x = i
    · have : x = u := M.slot_injective hV hx' hu (by omega)
      subst this
      rw [hxi, List.getElem?_set_self (by omega), if_pos (le_refl _)]
    · rw [List.getElem?_set_ne (fun hh => hxi hh.symm), h.hpos x hx' (e2.mp hpl)]
      have e : (i + 1 ≤ M.slot x) ↔ (i ≤ M.slot x) := by omega
      simp only [e]

theorem Seeds.IndB.skipB {M : Seeds} (hV : M.Valid) {i : Nat} {sa : List Int}
    (h : M.IndB (i + 1) sa) {u : Nat} (hσ : M.slot u = i) (hu : M.lv u)
    (hr : M.root (u + 1)) : M.IndB i (sa.set i (M.bwtOf u)) := by
  have hlen := h.len
  have hil : i < M.t.length := by rw [← hσ]; exact M.slot_lt_length hV hu
  refine ⟨by simpa using hlen, fun x hx' hpl => ?_⟩
  have e2 := M.srtCond_pred (i := i) (x := x) (fun h1 h0 h2 => by
    have : x - 1 = u := M.slot_injective hV h0 hu (by omega)
    have hxe : x = u + 1 := by omega
    rw [hxe]
    exact Or.inr hr)
  by_cases hxi : M.slot x = i
  · have : x = u := M.slot_injective hV hx' hu (by omega)
    subst this
    rw [hxi, List.getElem?_set_self (by omega), if_pos (le_refl _)]
  · rw [List.getElem?_set_ne (fun hh => hxi hh.symm), h.hpos x hx' (e2.mp hpl)]
    have e : (i + 1 ≤ M.slot x) ↔ (i ≤ M.slot x) := by omega
    simp only [e]

theorem Seeds.preB_succ (M : Seeds) (u : Nat) (hl : lType M.t (u + 1) = false) :
    (if u + 2 < M.t.length then
      (if sym M.t (u + 1) < sym M.t (u + 2) then compl (sym M.t (u + 2)) else (u : Int) + 1)
     else compl 0) = M.preB (u + 1) := by
  unfold Seeds.preB
  have e : (lType M.t (u + 1 + 1) = false) ↔ ¬ sym M.t (u + 1) < sym M.t (u + 2) := by
    rw [lType_false_iff, show u + 1 + 1 = u + 2 from rfl]
    constructor
    · rintro (h | ⟨h, _⟩) <;> omega
    · intro h
      by_cases h1 : sym M.t (u + 2) < sym M.t (u + 1)
      · exact Or.inl h1
      · exact Or.inr ⟨by omega, hl⟩
  simp only [e, show u + 1 + 1 = u + 2 from rfl, hl]
  by_cases h2 : u + 2 < M.t.length
  · by_cases h3 : sym M.t (u + 1) < sym M.t (u + 2)
    · simp [h2, h3]
    · simp [h2, h3]
  · simp [h2]

theorem Seeds.lastAt_keep (M : Seeds) (hV : M.Valid)
    (hfull : ∀ x, x < M.t.length → M.lv x)
    {i x : Nat} {l : Int} (h : M.lastAt (i + 1) l) (hx : M.lv x) (hxi : M.slot x = i)
    (hxN : x + 1 < M.t.length)
    (hnS : x + 2 = M.t.length → lType M.t (M.t.length - 1) = true) : M.lastAt i l := by
  refine ⟨fun h1 h2 => h.1 h1 ?_, fun h1 h2 => h.2 h1 ?_⟩
  · have : M.slot (M.t.length - 1) ≠ i := fun hh => by
      have := M.slot_injective hV (hfull _ (by omega)) hx (hh.trans hxi.symm)
      omega
    omega
  · unfold Seeds.placedS at h2 ⊢
    refine ⟨h2.1, h2.2.1, ?_⟩
    have : M.slot (M.t.length - 1 - 1) ≠ i := fun hh => by
      have := M.slot_injective hV h2.2.1 hx (hh.trans hxi.symm)
      have := hnS (by omega)
      rw [h1] at this
      exact Bool.noConfusion this
    omega

theorem Seeds.lastAt_keep_last (M : Seeds) (hV : M.Valid)
    (hfull : ∀ x, x < M.t.length → M.lv x)
    {i : Nat} {l : Int} (h : M.lastAt (i + 1) l) (hxi : M.slot (M.t.length - 1) = i)
    (hl : lType M.t (M.t.length - 1) = false) : M.lastAt i l := by
  refine ⟨fun h1 _ => ?_, fun h1 h2 => h.2 h1 ?_⟩
  · rw [hl] at h1
    exact Bool.noConfusion h1
  · unfold Seeds.placedS at h2 ⊢
    refine ⟨h2.1, h2.2.1, ?_⟩
    have : M.slot (M.t.length - 1 - 1) ≠ i := fun hh => by
      have := M.slot_injective hV (u := M.t.length - 1 - 1) (v := M.t.length - 1) h2.2.1
        (hfull _ (by omega)) (hh.trans hxi.symm)
      omega
    omega

/-- One step of the right-to-left pass of `induceBWT` returns and keeps the state of the
array, of the cursors and of the counters. -/
theorem bwtSStep_spec (M : Seeds) (hV : M.Valid) (hm : M.SepMin)
    (hfull : ∀ x, x < M.t.length → M.lv x)
    (hk : M.Sized 256) (ptr dict : List Int) (hcnt : CntOK ptr dict) (i : Nat)
    (hi : i < M.t.length) (st : BwtSt) (h : M.BwtI ptr (i + 1) st) :
    ∃ st', bwtSStep M.t ptr dict (tl M.t M.sep) st i = some st' ∧ M.BwtI ptr i st' := by
  obtain ⟨hc, hs, hrk, hi0, hi1, hla⟩ := h
  have hlen := hs.len
  obtain ⟨pi, d, hp, hd, hd0, hd1, hx0, hx1⟩ := hcnt.reads i st.idx hi0 hi1
  obtain ⟨x, hx, hxi⟩ := M.slot_surj hV hfull i hi
  have hval := hs.hpos x hx (M.srtCond_at hV hx (by omega))
  rw [hxi, if_neg (by omega)] at hval
  have huniq : ∀ w, M.lv w → M.slot w = i → w = x := fun w hw hwi =>
    M.slot_injective hV hw hx (by omega)
  by_cases hgo : x + 1 < M.t.length ∧ lType M.t (x + 1) = false
  · have hpre : M.preB x = (x : Int) := by unfold Seeds.preB; rw [if_pos hgo]
    rw [hpre] at hval
    have hx1' : M.lv (x + 1) := hfull _ hgo.1
    obtain ⟨h0, h1⟩ := M.sym_nonneg_lt hV hk (x + 1)
    obtain ⟨rnk', hr, hrk'⟩ := updateRank_total hrk (sym M.t (x + 1)) d (by exact_mod_cast h1)
      hd0 hd1
    obtain ⟨bkt', hsw, hcur⟩ := switchBkt_cur hc (sym M.t (x + 1)) h0 h1
    have hstep : ∀ c, M.curS i c =
        M.curS (i + 1) c - (if c = sym M.t (x + 1) then 1 else 0) := by
      intro c
      rw [← hxi]
      exact M.curS_pred_target hV hx1' hx hgo.2 c
    have hbw : M.bwtOf x = sym M.t (x + 1) := by unfold Seeds.bwtOf; rw [if_pos hgo.1]
    by_cases hrt : M.root (x + 1)
    · have hroot := hV.hroot (x + 1) hgo.1 hrt
      have h3 := ((cstart_iff M.t (x + 1)).mp hroot.1).2
      have hle := M.curS_le_tl (i + 1) (sym M.t (x + 1))
      have hrs : tl M.t (sym M.t (x + 1)) = tl M.t M.sep := by
        have : sym M.t (x + 1) = M.sep := hrt
        rw [this]
      have hx2 : x + 2 < M.t.length := hroot.2.2.1.1
      refine ⟨_, bwtSStep_skip x bkt' _ hp hd hval hx2 hr hsw h3 (by omega),
        ⟨?_, ?_, hrk', hx0, hx1, ?_⟩⟩
      · apply hcur.update
        · show M.curS (i + 1) (sym M.t (x + 1)) - 1 = M.curS i (sym M.t (x + 1))
          rw [hstep, if_pos rfl]
        · intro c hcne
          rw [hstep, if_neg hcne, Int.sub_zero]
      · show M.IndB i _
        rw [← hbw]
        exact hs.skipB hV hxi hx hrt
      · exact M.lastAt_keep hV hfull hla hx hxi hgo.1 (by omega)
    · have hb : M.curS (i + 1) (sym M.t (x + 1)) = (M.slot (x + 1) : Int) + 1 := by
        have := M.curS_target hV hx1' hrt hgo.2
        rw [hxi] at this
        omega
      rw [hb] at hsw hcur
      have hsn : M.slot (x + 1) < st.sa.length := by
        rw [hlen]
        exact M.slot_lt_length hV hx1'
      have hge := M.slot_ge_ms hV hm hx1' hrt
      refine ⟨_, bwtSStep_pos x bkt' (M.slot (x + 1)) hp hd hval hgo.1 hr hsw hsn
        (fun _ _ => by omega), ⟨?_, ?_, hrk', hx0, hx1, ?_⟩⟩
      · apply hcur.update
        · show (M.slot (x + 1) : Int) = M.curS i (sym M.t (x + 1))
          rw [hstep, if_pos rfl, hb]
          omega
        · intro c hcne
          rw [hstep, if_neg hcne, Int.sub_zero]
      · show M.IndB i _
        rw [M.preB_succ x hgo.2, ← hbw]
        exact hs.putB hV hxi hx1' hx hgo.2
      · show M.lastAt i (if x + 2 < M.t.length then st.l else (M.slot (x + 1) : Int))
        by_cases h2 : x + 2 < M.t.length
        · rw [if_pos h2]
          exact M.lastAt_keep hV hfull hla hx hxi hgo.1 (by omega)
        · rw [if_neg h2]
          have hN : M.t.length - 1 = x + 1 := by omega
          exact ⟨fun _ _ => by rw [hN], fun _ _ => by rw [hN]⟩
  · have hno : ∀ y, M.lv (y + 1) → M.lv y → lType M.t (y + 1) = false → M.slot y ≠ i := by
      intro y hy hy0 hly hyi
      have := huniq y hy0 hyi
      subst this
      exact hgo ⟨hy.1, hly⟩
    have hcur' : Cur 256 (M.curS i) st.bkt st.b st.p :=
      hc.update _ (by rw [M.curS_pred_none i hno]; exact hc.2.2.2.1)
        (fun c _ => M.curS_pred_none i hno c)
    by_cases hn : x + 1 < M.t.length
    · have hpre : M.preB x = compl (sym M.t (x + 1)) := by
        unfold Seeds.preB
        rw [if_neg hgo, if_pos hn]
      rw [hpre] at hval
      obtain ⟨h0, h1⟩ := M.sym_nonneg_lt hV hk (x + 1)
      have hcc : compl (compl (sym M.t (x + 1))) = sym M.t (x + 1) := by unfold compl; omega
      obtain ⟨rnk', hr, hrk'⟩ := updateRank_total hrk (compl (compl (sym M.t (x + 1)))) d
        (by rw [hcc]; exact_mod_cast h1) hd0 hd1
      refine ⟨_, bwtSStep_neg hp hd hval (by unfold compl; omega) hr,
        ⟨hcur', ?_, hrk', hx0, hx1, ?_⟩⟩
      · apply hs.keepB hV hi hno
        intro w hw hwi
        rw [huniq w hw hwi, hcc]
        unfold Seeds.bwtOf
        rw [if_pos hn]
      · apply M.lastAt_keep hV hfull hla hx hxi hn
        intro h2
        have hN : M.t.length - 1 = x + 1 := by omega
        rw [hN]
        cases hl : lType M.t (x + 1)
        · exact absurd ⟨hn, hl⟩ hgo
        · rfl
    · have hxN : x = M.t.length - 1 := by
        have := hx.1
        omega
      have hbw : M.bwtOf x = 0 := by unfold Seeds.bwtOf; rw [if_neg hn]
      by_cases hl : lType M.t x = true
      · have hpre : M.preB x = (M.t.length : Int) - 1 := by
          unfold Seeds.preB
          rw [if_neg hgo, if_neg hn, if_pos hl]
        rw [hpre] at hval
        obtain ⟨rnk', hr, hrk'⟩ := updateRank_total hrk 1 d (by omega) hd0 hd1
        refine ⟨_, bwtSStep_last hp hd hval (by omega) (by omega) hr,
          ⟨hcur', ?_, hrk', hx0, hx1, ?_⟩⟩
        · apply hs.keepB hV hi hno
          intro w hw hwi
          rw [huniq w hw hwi, hbw]
        · show M.lastAt i (i : Int)
          exact ⟨fun _ _ => by rw [← hxN, hxi], fun _ _ => by rw [← hxN, hxi]⟩
      · have hl' : lType M.t x = false := by
          cases h : lType M.t x
          · rfl
          · exact absurd h hl
        have hpre : M.preB x = compl 0 := by
          unfold Seeds.preB
          rw [if_neg hgo, if_neg hn, if_neg hl]
        rw [hpre] at hval
        obtain ⟨rnk', hr, hrk'⟩ := updateRank_total hrk (compl (compl 0)) d
          (by unfold compl; omega) hd0 hd1
        refine ⟨_, bwtSStep_neg hp hd hval (by unfold compl; omega) hr,
          ⟨hcur', ?_, hrk', hx0, hx1, ?_⟩⟩
        · apply hs.keepB hV hi hno
          intro w hw hwi
          rw [huniq w hw hwi, hbw]
          rfl
        · exact M.lastAt_keep_last hV hfull hla (by rw [← hxN]; exact hxi)
            (by rw [← hxN]; exact hl')

/-! ## The counters of `induceBWT` -/

theorem counters_total (bkt : List Int) :
    ∀ (l : List (Nat × Int)) (idx : Int) (lvl dict : List Int),
    (∀ ih ∈ l, ih.1 < bkt.length ∧ ih.1 < 256) → dict.length = lvl.length →
    idx < lvl.length → ((posBytes l).length : Int) ≤ idx →
    (∀ (j : Nat) (d : Int), dict[j]? = some d → 0 ≤ d ∧ d < 256) →
    ∃ st, l.reverse.foldlM (countersStep bkt) (idx, lvl, dict) = some st ∧
      st.1 = idx - ((posBytes l).length : Int) ∧ st.2.2.length = st.2.1.length ∧
      st.2.1.length = lvl.length ∧ st.2.1[0]? = lvl[0]? ∧
      (∀ (j : Nat) (d : Int), st.2.2[j]? = some d → 0 ≤ d ∧ d < 256) := by
  intro l
  induction l with
  | nil =>
    intro idx lvl dict _ hl _ _ hd
    exact ⟨(idx, lvl, dict), rfl, by simp [posBytes], hl, rfl, rfl, hd⟩
  | cons a l ih =>
    intro idx lvl dict hmem hl hidx hpos hd
    have hcons : (posBytes (a :: l)).length =
        (posBytes l).length + (if a.2 > 0 then 1 else 0) := by
      unfold posBytes
      by_cases hp : a.2 > 0
      · rw [List.filter_cons, if_pos (by simpa using hp), if_pos hp]
        simp
      · rw [List.filter_cons, if_neg (by simpa using hp), if_neg hp]
        simp
    obtain ⟨st1, hf, h1, h2, h3, h4, h5⟩ := ih idx lvl dict
      (fun ih hih => hmem ih (List.mem_cons_of_mem _ hih)) hl hidx (by rw [hcons] at hpos; omega)
      hd
    have hfold : (a :: l).reverse.foldlM (countersStep bkt) (idx, lvl, dict) =
        countersStep bkt st1 a := by
      rw [List.reverse_cons, List.foldlM_append, hf]
      simp
    rw [hfold]
    have ha := hmem a (List.mem_cons_self _ _)
    by_cases hp : a.2 > 0
    · rw [hcons, if_pos hp] at hpos ⊢
      have hi0 : 1 ≤ st1.1 := by rw [h1]; push_cast at hpos; omega
      have hi1 : st1.1.toNat < st1.2.1.length := by rw [h3]; omega
      refine ⟨(st1.1 - 1, st1.2.1.set st1.1.toNat (bkt.getD a.1 0),
        st1.2.2.set st1.1.toNat (a.1 : Int)), ?_, ?_, by simp [h2], by simp [h3], ?_, ?_⟩
      · unfold countersStep
        rw [if_pos hp]
        simp only [Option.bind_eq_bind]
        rw [setI_eq st1.1.toNat _ (by omega) (by rw [h2]; exact hi1), getI_ofNat,
          List.getElem?_eq_getElem ha.1]
        simp only [Option.some_bind]
        rw [setI_eq st1.1.toNat _ (by omega) hi1]
        simp only [Option.some_bind]
        rw [List.getD_eq_getElem _ _ ha.1]
      · show st1.1 - 1 = _
        rw [h1]
        push_cast
        omega
      · show (st1.2.1.set _ _)[0]? = _
        rw [List.getElem?_set_ne (by omega), h4]
      · intro j d hj
        have hj' : (st1.2.2.set st1.1.toNat (a.1 : Int))[j]? = some d := hj
        by_cases hji : st1.1.toNat = j
        · rw [hji, List.getElem?_set_self (by rw [← hji, h2]; exact hi1)] at hj'
          simp only [Option.some.injEq] at hj'
          omega
        · rw [List.getElem?_set_ne hji] at hj'
          exact h5 j d hj'
    · rw [hcons, if_neg hp] at hpos ⊢
      refine ⟨st1, ?_, by rw [h1]; simp, h2, h3, h4, h5⟩
      unfold countersStep
      rw [if_neg hp]

/-- The function `makeCounters` returns on a histogram of 256 cells, with tables that the
right-to-left pass can read. -/
theorem makeCounters_total (bkt hist : List Int) (hb : bkt.length = 256)
    (hlen : hist.length = 256) :
    ∃ ptr dict, makeCounters bkt hist (countLoop 0 hist 1) =
        some (ptr, dict, List.replicate 256 (List.replicate 256 0)) ∧
      CntOK ptr dict ∧ (ptr.length : Int) = countLoop 0 hist 1 := by
  obtain ⟨a, b, rest, rfl⟩ : ∃ a b rest, hist = a :: b :: rest := by
    match hist, hlen with
    | a :: b :: rest, _ => exact ⟨a, b, rest, rfl⟩
  have hcnt : countLoop 0 (a :: b :: rest) 1 =
      1 + ((posBytes (rest.enumFrom 2)).length : Int) := by
    rw [← countLoop_pos rest 2 1 (Nat.le_refl 2)]
    simp [countLoop]
  have hlen' : rest.length = 254 := by simpa using hlen
  have htake : ((a :: b :: rest).enum.take 256).drop 2 = rest.enumFrom 2 := by
    rw [List.take_of_length_le (by simp [List.enum_length, hlen'])]
    simp [List.enum, List.enumFrom_cons]
  have htn : (1 + ((posBytes (rest.enumFrom 2)).length : Int)).toNat =
      (posBytes (rest.enumFrom 2)).length + 1 := by omega
  obtain ⟨st, hf, h1, h2, h3, h4, h5⟩ := counters_total bkt (rest.enumFrom 2)
    (1 + ((posBytes (rest.enumFrom 2)).length : Int) - 1)
    (List.replicate (1 + ((posBytes (rest.enumFrom 2)).length : Int)).toNat 0)
    (List.replicate (1 + ((posBytes (rest.enumFrom 2)).length : Int)).toNat 0)
    (fun ih hih => by
      obtain ⟨i, v⟩ := ih
      have := List.mk_mem_enumFrom_iff_le_and_getElem?_sub.mp hih
      have h2 := (List.getElem?_eq_some.mp this.2).1
      simp only
      omega)
    rfl
    (by rw [List.length_replicate, htn]; push_cast; omega)
    (by omega)
    (fun j d hj => by
      rw [List.getElem?_replicate] at hj
      split at hj
      · simp only [Option.some.injEq] at hj
        omega
      · simp at hj)
  refine ⟨st.2.1, st.2.2, ?_, ⟨h2, ?_, h5⟩, ?_⟩
  · rw [hcnt]
    unfold makeCounters
    rw [if_neg (by rw [hlen]; omega)]
    simp only [Option.bind_eq_bind]
    rw [htake, hf]
    rfl
  · rw [h4, List.getElem?_replicate, if_pos (by omega)]
  · rw [h3, List.length_replicate, hcnt, htn]
    push_cast
    omega

/-! ## The function `induceBWT` -/

theorem Seeds.lastAt_length (M : Seeds) (hV : M.Valid)
    (hfull : ∀ x, x < M.t.length → M.lv x)
    (l : Int) : M.lastAt M.t.length l := by
  have h0 := hV.hlive0.1
  refine ⟨fun _ h => ?_, fun _ h => ?_⟩
  · have := M.slot_lt_length hV (x := M.t.length - 1) (hfull _ (by omega))
    omega
  · unfold Seeds.placedS at h
    have := M.slot_lt_length hV h.2.1
    omega

theorem Seeds.lastAt_zero (M : Seeds) (hfull : ∀ x, x < M.t.length → M.lv x) {l : Int}
    (h : M.lastAt 0 l) : l = (M.slot (M.t.length - 1) : Int) := by
  cases hl : lType M.t (M.t.length - 1)
  · apply h.2 hl
    have h1 : 1 ≤ M.t.length - 1 := by
      by_contra hc
      have h0 : M.t.length - 1 = 0 := by omega
      rw [h0, lType_zero] at hl
      exact Bool.noConfusion hl
    exact ⟨h1, hfull _ (by omega), Nat.zero_le _⟩
  · exact h.1 hl (Nat.zero_le _)

/-- The function `induceBWT` returns: it leaves the BWT byte of every position in the cell of
the position, and returns the cell of the last position. -/
theorem induceBWT_spec (M : Seeds) (hV : M.Valid) (hm : M.SepMin)
    (hfull : ∀ x, x < M.t.length → M.lv x) (hk : M.Sized 256) {hist bkt0 : List Int} (hh : histgram M.t 256 = some (hist, bkt0))
    (bkt : List Int) (hbl : bkt.length = 256) (sa : List Int) (hpre : M.IndPre sa) :
    ∃ sa' rnk dict, induceBWT M.t sa bkt hist (tl M.t M.sep) =
        some ((M.slot (M.t.length - 1) : Int), sa', rnk, dict) ∧ sa'.length = M.t.length ∧
      ∀ x, M.lv x → sa'[M.slot x]? = some (M.bwtOf x) := by
  have hn : 1 ≤ M.t.length := hV.hlive0.1
  obtain ⟨head, hhead, hheadl, hheadc⟩ := setBktBeg_cur hh bkt hbl
  have hhead' : bktBegLoop 0 hist bkt = some head := hhead
  obtain ⟨ptr, dict, hmk, hcnt, hpl⟩ := makeCounters_total head hist hheadl (histgram_some hh).1
  obtain ⟨p0, p1⟩ := M.sym_nonneg_lt hV hk 0
  have hs0 : M.slot 0 < sa.length := by rw [hpre.len]; exact M.slot_lt_length hV hV.hlive0
  have hraw : (if M.t.length > 1 then
        (getI M.t 1).bind fun t1 =>
          setI sa (M.slot 0 : Int) (if sym M.t 0 > t1 then compl 0 else 1)
      else setI sa (M.slot 0 : Int) 1) = some (sa.set (M.slot 0) (M.rawL 0)) := by
    unfold Seeds.rawL Seeds.succS
    simp only [gt_iff_lt, Nat.zero_add, Nat.cast_zero, Int.zero_add]
    by_cases h1 : 1 < M.t.length
    · rw [if_pos h1, getI_sym_eq 1 (by simp) h1]
      simp only [Option.some_bind]
      rw [setI_ofNat _ _ _ hs0]
      by_cases h2 : sym M.t 1 < sym M.t 0
      · rw [if_pos h2, if_pos ⟨h1, h2⟩]
      · rw [if_neg h2, if_neg (fun hh => h2 hh.2)]
    · rw [if_neg h1, setI_ofNat _ _ _ hs0, if_neg (fun hh => h1 hh.1)]
  obtain ⟨rnk1, hr1, hrk1⟩ := updateRank_total rankInv_zero (sym M.t 0) 1
    (by exact_mod_cast p1) (by omega) (by omega)
  -- the left-to-right pass
  have hL := foldlM_range_spec
    (fun i (st : IndSt) => Cur 256 (M.curL i) st.bkt st.b st.p ∧ M.PassL M.rawL M.visB i st.sa)
    (bwtLStep M.t) M.t.length
    (fun i st hi hP => by
      obtain ⟨st', h1, h2, h3⟩ := bwtLStep_spec M hV hfull 256 hk i hi st hP.1 hP.2
      exact ⟨st', h1, h2, h3⟩)
    { sa := sa.set (M.slot 0) (M.rawL 0), bkt := head, b := (M.slot 0 : Int) + 1,
      p := sym M.t 0 }
    ⟨⟨hheadl, p0, p1, by rw [M.curL_zero hV, if_pos rfl, M.slot_zero],
      fun c h0 h1 hne => by rw [M.curL_zero hV, if_neg hne, Int.add_zero]; exact hheadc c h0 h1⟩,
     hpre.toPassL hV (fun u _ hc => M.rawL_of_cstart u hc)⟩
  obtain ⟨st1, hf1, hc1, hi1⟩ := hL
  obtain ⟨tail, htail, htaill, htailc⟩ := setBktEnd_cur hh st1.bkt hc1.1
  have hk0 : (0 : Int) < (256 : Nat) := by omega
  have hcl : (1 : Int) ≤ countLoop 0 hist 1 := by
    rw [countLoop_drop]
    omega
  have hS := foldlM_range_rev_spec (fun e (st : BwtSt) => M.BwtI ptr e st)
    (bwtSStep M.t ptr dict (tl M.t M.sep)) M.t.length
    (fun i st hi hP => bwtSStep_spec M hV hm hfull hk ptr dict hcnt i hi st hP)
    { sa := st1.sa, bkt := tail, b := (tl M.t 0 : Int), p := 0, l := 0,
      idx := countLoop 0 hist 1 - 1, rnk := rnk1 }
    ⟨⟨htaill, le_refl _, hk0, by rw [M.curS_length hV],
        fun c h0 h1 _ => by rw [M.curS_length hV]; exact htailc c h0 h1⟩,
     hi1.toIndB hV, hrk1, by show 0 ≤ countLoop 0 hist 1 - 1; omega,
     by show countLoop 0 hist 1 - 1 < (ptr.length : Int); omega, M.lastAt_length hV hfull 0⟩
  obtain ⟨st2, hf2, hB⟩ := hS
  refine ⟨st2.sa, st2.rnk, dict, ?_, hB.hind.len, fun x hx => ?_⟩
  · unfold induceBWT countBktBeg
    simp only [Option.bind_eq_bind, hhead', Option.some_bind, hmk]
    rw [getI_sym_eq 0 (by simp) (by omega)]
    simp only [Option.some_bind]
    rw [hheadc _ p0 p1, ← M.slot_zero]
    simp only [Option.some_bind]
    rw [hraw]
    simp only [Option.some_bind, hr1, List.length_set, hpre.len, hf1, htail]
    rw [htailc 0 (le_refl _) hk0]
    simp only [Option.some_bind, hf2]
    rw [M.lastAt_zero hfull hB.hlast]
  · have := hB.hind.hpos x hx (M.srtCond_at hV hx (Nat.zero_le _))
    rw [this, if_pos (Nat.zero_le _)]

/-! ## The assembly loop of `BWT` returns -/

theorem bump_total (chars : List Nat) (c : Int) (h0 : 0 ≤ c) (h1 : c < chars.length) :
    ∃ chars', bump chars c = some chars' := by
  have hlt : c.toNat < chars.length := by omega
  refine ⟨chars.set c.toNat (chars[c.toNat] + 1), ?_⟩
  unfold bump getN setN
  simp only [Option.bind_eq_bind]
  rw [if_neg (by omega), List.getElem?_eq_getElem hlt]
  simp only [Option.some_bind]
  rw [if_neg (by omega)]

theorem fillStep_total (sa : List Int) (st : List Nat × List Int) (bi : Nat)
    (hch : st.1.length = 256) (hlen : st.2.length = sa.length + 1) (h0 : 0 ≤ st.2.getD 0 0)
    (h1 : st.2.getD 0 0 < 256) (hbi : bi < st.2.length) :
    ∃ st', fillStep sa st bi = some st' := by
  unfold fillStep
  by_cases hb : bi = 0
  · rw [if_pos hb]
    have hg : getI st.2 0 = some (st.2.getD 0 0) := by
      show getI st.2 ((0 : Nat) : Int) = _
      rw [getI_ofNat, List.getD_eq_getElem?_getD, List.getElem?_eq_getElem (by omega)]
      rfl
    obtain ⟨chars', hc⟩ := bump_total st.1 (st.2.getD 0 0) h0 (by rw [hch]; exact_mod_cast h1)
    exact ⟨(chars', st.2), by simp only [Option.bind_eq_bind, hg, Option.some_bind, hc]⟩
  · rw [if_neg hb]
    have hlt : bi - 1 < sa.length := by omega
    have hg : getI sa ((bi : Int) - 1) = some (sa[bi - 1]) := by
      rw [getI_eq (bi - 1) (by omega), List.getElem?_eq_getElem hlt]
    have hm0 : 0 ≤ sa[bi - 1] % 256 := Int.emod_nonneg _ (by omega)
    have hm1 : sa[bi - 1] % 256 < 256 := Int.emod_lt_of_pos _ (by omega)
    obtain ⟨chars', hc⟩ := bump_total st.1
      (if sa[bi - 1] % 256 = 0 then 1 else sa[bi - 1] % 256)
      (by split <;> omega) (by rw [hch]; split <;> omega)
    exact ⟨(chars', st.2.set bi (sa[bi - 1] % 256)), by
      simp only [Option.bind_eq_bind, hg, Option.some_bind]
      rw [setI_ofNat _ _ _ hbi]
      simp only [Option.some_bind, hc]⟩

theorem fill_total (sa : List Int) : ∀ (l : List Nat) (st : List Nat × List Int),
    st.1.length = 256 → st.2.length = sa.length + 1 → 0 ≤ st.2.getD 0 0 →
    st.2.getD 0 0 < 256 → (∀ bi ∈ l, bi < st.2.length) →
    ∃ st', l.foldlM (fillStep sa) st = some st' := by
  intro l
  induction l with
  | nil => intro st _ _ _ _ _; exact ⟨st, rfl⟩
  | cons bi l ih =>
    intro st hch hlen h0 h1 hl
    obtain ⟨st1, hs⟩ := fillStep_total sa st bi hch hlen h0 h1 (hl bi (List.mem_cons_self _ _))
    obtain ⟨a1, a2, a3, _, _, _⟩ := fillStep_spec hs
    obtain ⟨st2, hf⟩ := ih st1 (a1.trans hch) (a2.trans hlen) (by rw [a3]; exact h0)
      (by rw [a3]; exact h1) (fun b hb => by rw [a2]; exact hl b (List.mem_cons_of_mem _ hb))
    exact ⟨st2, by rw [List.foldlM_cons, hs]; exact hf⟩

theorem auxCell_total (sa : List Int) (st : AuxSt) (r : Nat) (h : AuxOK sa st)
    (hsum : st.sum + r ≤ st.t.length) :
    ∃ out, auxCell sa st r = some out ∧ AuxOK sa out.1 ∧ out.1.sum = st.sum + r := by
  obtain ⟨ct, hf⟩ := fill_total sa (List.range' (st.sum + r - r) r)
    (List.replicate 256 0, st.t) (List.length_replicate _ _) h.hlen h.h0 h.h1
    (fun bi hbi => by
      have := List.mem_range'_1.mp hbi
      show bi < st.t.length
      omega)
  have hc : auxCell sa st r = some (AuxSt.mk (st.sum + r) ct.1 ct.2
      (ct.1.enum.foldl packStep st.Hist)
      (st.Dist ++ [(ct.1.enum.foldl packStep st.Hist).length]), st.Dist.length) := by
    unfold auxCell
    rw [reset_some _ h.hch]
    simp only [Option.bind_eq_bind, Option.some_bind, hf]
  obtain ⟨_, c2, c3, c4, c5, _⟩ := auxCell_spec h.hch hc
  exact ⟨_, hc, ⟨c3, c4.trans h.hlen, by rw [c5]; exact h.h0, by rw [c5]; exact h.h1⟩, c2⟩

theorem auxRow_total (sa : List Int) : ∀ (row : List Nat) (st : AuxSt), AuxOK sa st →
    st.sum + row.sum ≤ st.t.length →
    ∃ out, auxRow sa st row = some out ∧ AuxOK sa out.1 ∧ out.1.sum = st.sum + row.sum ∧
      out.1.t.length = st.t.length := by
  intro row
  induction row with
  | nil => intro st h _; exact ⟨(st, []), rfl, h, by simp, rfl⟩
  | cons r rs ih =>
    intro st h hsum
    rw [List.sum_cons] at hsum
    by_cases hr : r > 0
    · obtain ⟨o1, hc, hok, hs1⟩ := auxCell_total sa st r h (by omega)
      have hl1 : o1.1.t.length = st.t.length := by rw [hok.hlen, h.hlen]
      obtain ⟨o2, hr2, hok2, hs2, hl2⟩ := ih o1.1 hok (by rw [hs1, hl1]; omega)
      refine ⟨(o2.1, o1.2 :: o2.2), ?_, hok2, ?_, hl2.trans hl1⟩
      · unfold auxRow
        rw [if_pos hr]
        simp only [Option.bind_eq_bind, hc, Option.some_bind, hr2]
      · rw [hs2, hs1, List.sum_cons]
        omega
    · obtain ⟨o2, hr2, hok2, hs2, hl2⟩ := ih st h (by omega)
      refine ⟨(o2.1, r :: o2.2), ?_, hok2, ?_, hl2⟩
      · unfold auxRow
        rw [if_neg hr]
        simp only [Option.bind_eq_bind, hr2, Option.some_bind]
      · rw [hs2, List.sum_cons]
        omega

theorem auxRows_total (sa : List Int) : ∀ (rows : List (List Nat)) (st : AuxSt), AuxOK sa st →
    st.sum + rankSum rows ≤ st.t.length →
    ∃ out, auxRows sa st rows = some out := by
  intro rows
  induction rows with
  | nil => intro st _ _; exact ⟨(st, []), rfl⟩
  | cons row rows ih =>
    intro st h hsum
    have hrs : rankSum (row :: rows) = row.sum + rankSum rows := by simp [rankSum]
    rw [hrs] at hsum
    obtain ⟨o1, hr1, hok, hs1, hl1⟩ := auxRow_total sa row st h (by omega)
    obtain ⟨o2, hr2⟩ := ih o1.1 hok (by rw [hs1, hl1]; omega)
    refine ⟨(o2.1, o1.2 :: o2.2), ?_⟩
    unfold auxRows
    simp only [Option.bind_eq_bind, hr1, Option.some_bind, hr2]

/-! ## The function `BWT` on texts without sentinel and separator -/

theorem sym_bounds_of_bytes (T : List Int) (hb : ∀ c ∈ T, 2 ≤ c ∧ c < 256) :
    (∀ x, 0 ≤ sym T x ∧ sym T x < (alphabetSize : Int)) ∧ ∀ x, sym T x ≠ 1 := by
  have key : ∀ x, sym T x = 0 ∨ (2 ≤ sym T x ∧ sym T x < 256) := by
    intro x
    by_cases hx : x < T.length
    · exact Or.inr (hb _ (sym_mem T x hx))
    · exact Or.inl (sym_of_ge T x (by omega))
  refine ⟨fun x => ?_, fun x => ?_⟩
  · have : (alphabetSize : Int) = 256 := rfl
    rcases key x with h | h <;> omega
  · rcases key x with h | h <;> omega

theorem sym_bounds_of_sep (T : List Int) (hb : ∀ c ∈ T, 1 ≤ c ∧ c < 256) :
    ∀ x, 0 ≤ sym T x ∧ sym T x < (alphabetSize : Int) := by
  intro x
  have : (alphabetSize : Int) = 256 := rfl
  by_cases hx : x < T.length
  · have := hb _ (sym_mem T x hx)
    omega
  · rw [sym_of_ge T x (by omega)]
    omega

theorem sepOK_of_bytes (T : List Int) (hb : ∀ c ∈ T, 2 ≤ c ∧ c < 256) :
    SepOK T separator ∧ ∀ x, sym T x ≠ separator := by
  obtain ⟨h1, h2⟩ := sym_bounds_of_bytes T hb
  refine ⟨sepOK_plain T false (fun x => (h1 x).1) (fun _ x hx => (hb _ (sym_mem T x hx)).1), h2⟩

theorem replicate_zero_cells (n : Nat) :
    (List.replicate n (0 : Int)).length = n ∧
    ∀ j, j < n → (List.replicate n (0 : Int))[j]? = some 0 := by
  refine ⟨List.length_replicate _ _, fun j hj => ?_⟩
  rw [List.getElem?_eq_getElem (by simpa using hj)]
  simp

theorem normDict_total (x : Int) (P : List Int) : ∃ d, normDict (0 :: x :: P) = some d := by
  unfold normDict
  have h0 : getI (0 :: x :: P) 0 = some 0 := rfl
  have h1 : getI (0 :: x :: P) 1 = some x := by
    unfold getI
    simp
  simp only [Option.bind_eq_bind, h0, Option.some_bind, ne_eq, not_true_eq_false, if_false, h1]
  split
  · exact ⟨_, rfl⟩
  · exact ⟨_, rfl⟩

theorem Seeds.bwtOf_byte (M : Seeds) (hV : M.Valid) (hk : M.Sized 256) (x : Nat) :
    M.bwtOf x % 256 = M.bwtOf x := by
  unfold Seeds.bwtOf
  split
  · have := M.sym_nonneg_lt hV hk (x + 1)
    exact Int.emod_eq_of_lt this.1 (by exact_mod_cast this.2)
  · rfl

/-- The function `BWT` returns on a text of bytes from 1 up whose separators are apart and
inside: the bytes that it returns are the BWT bytes of the positions in the order of their
cells, after the first byte of the text, and the index is one more than the cell of the last
position. Without separators, the plain mode fills the same cells with the positions. -/
theorem BWT_model (T : List Int) (hn : 1 ≤ T.length) (hb : ∀ c ∈ T, 1 ≤ c ∧ c < 256)
    (hS : SepOK T separator) :
    ∃ g aux bwt, Seeds.Valid ⟨T, fun _ => true, separator, g⟩ ∧
      Seeds.Ordered ⟨T, fun _ => true, separator, g⟩ ∧
      BWT T = some ((Seeds.slot ⟨T, fun _ => true, separator, g⟩ (T.length - 1) : Int) + 1,
        bwt, aux) ∧
      bwt.length = T.length + 1 ∧ bwt[0]? = some (T.getD 0 0) ∧
      (∀ x, x < T.length → bwt[Seeds.slot ⟨T, fun _ => true, separator, g⟩ x + 1]? =
        some (Seeds.bwtOf ⟨T, fun _ => true, separator, g⟩ x)) ∧
      ((∀ x, sym T x ≠ separator) → 2 ≤ T.length →
        ∃ r, sais (T.length + 1) T (List.replicate T.length 0) alphabetSize false false =
            some r ∧
          r.sa.length = T.length ∧
          ∀ x, x < T.length →
            r.sa[Seeds.slot ⟨T, fun _ => true, separator, g⟩ x]? = some (x : Int)) := by
  have h1 := sym_bounds_of_sep T hb
  obtain ⟨h3, h4⟩ := replicate_zero_cells T.length
  obtain ⟨hist, sa7, bkt7, g, hh, hbl, hV, hO, hpre, hfin⟩ := sais_model (T.length + 1) T
    (List.replicate T.length 0) alphabetSize false (by omega) hn h1 hS h3 h4
  have hV : Seeds.Valid ⟨T, fun _ => true, separator, g⟩ := hV
  have hO : Seeds.Ordered ⟨T, fun _ => true, separator, g⟩ := hO
  have hpre : Seeds.IndPre ⟨T, fun _ => true, separator, g⟩ sa7 := hpre
  have hfin : ∀ bwt, sais (T.length + 1) T (List.replicate T.length 0) alphabetSize bwt false =
      finish T sa7 bkt7 hist (tl T separator) bwt := hfin
  have hk : Seeds.Sized ⟨T, fun _ => true, separator, g⟩ 256 := fun x => (h1 x).2
  have hfull : ∀ x, x < T.length → Seeds.lv ⟨T, fun _ => true, separator, g⟩ x :=
    fun x hx => ⟨hx, rfl⟩
  obtain ⟨sa', rnk, dict, hind, hlen', hcells⟩ := induceBWT_spec
    ⟨T, fun _ => true, separator, g⟩ hV hS.hmin hfull hk hh bkt7 hbl sa7 hpre
  have hind' : induceBWT T sa7 bkt7 hist (tl T separator) =
      some ((Seeds.slot ⟨T, fun _ => true, separator, g⟩ (T.length - 1) : Int), sa', rnk,
        dict) := hind
  have hs : sais (T.length + 1) T (List.replicate T.length 0) alphabetSize true false =
      some { l := (Seeds.slot ⟨T, fun _ => true, separator, g⟩ (T.length - 1) : Int), sa := sa', rnk := rnk,
             dict := dict } := by
    rw [hfin true]
    unfold finish
    rw [if_pos rfl, hind']
    rfl
  obtain ⟨_, hdict⟩ := sais_dict hs
  obtain ⟨hrk, hrs⟩ := sais_rank hs
  have hT0 : T.getD 0 0 ∈ T := by
    have := sym_mem T 0 (by omega)
    exact this
  have hT2 : 2 ≤ T.getD 0 0 := by
    have h5 := (hb _ hT0).1
    have h6 : sym T 0 ≠ separator := hS.not_sep_of_L (lType_zero T)
    have h7 : T.getD 0 0 ≠ 1 := h6
    omega
  have hmem : T.getD 0 0 ∈ ((List.range' 2 254).filter
      (fun b : Nat => decide ((b : Int) ∈ T))).map (fun b : Nat => (b : Int)) :=
    (specDict_tail_mem T _).mpr ⟨hT0, hT2, (hb _ hT0).2⟩
  obtain ⟨x0, P, hP⟩ := List.exists_cons_of_ne_nil (List.ne_nil_of_mem hmem)
  have hdict' : dict = 0 :: x0 :: P := by
    have : dict = 0 :: ((List.range' 2 254).filter
      (fun b : Nat => decide ((b : Int) ∈ T))).map (fun b : Nat => (b : Int)) := hdict
    rw [this, hP]
  obtain ⟨nd, hnd⟩ := normDict_total x0 P
  have hg0 : (T ++ [1]).getD 0 0 = T.getD 0 0 := by
    rw [List.getD_eq_getElem?_getD, List.getD_eq_getElem?_getD,
      List.getElem?_append_left (by omega)]
  obtain ⟨o, ho⟩ := auxRows_total sa' rnk (auxInit (T ++ [1]))
    ⟨List.length_replicate _ _, by
        show (T ++ [1]).length = sa'.length + 1
        rw [hlen']
        simp,
      by
        show (0 : Int) ≤ (T ++ [1]).getD 0 0
        rw [hg0]
        have := (hb _ hT0).1
        omega,
      by
        show (T ++ [1]).getD 0 0 < (256 : Int)
        rw [hg0]
        exact (hb _ hT0).2⟩
    (by
      show 0 + rankSum rnk ≤ (T ++ [1]).length
      have : rankSum rnk = T.length + 1 := hrs
      rw [this]
      simp)
  have hB : BWT T = some ((Seeds.slot ⟨T, fun _ => true, separator, g⟩ (T.length - 1) : Int) + 1, o.1.t,
      { Len := (T ++ [1]).length, Eob := o.2, Dist := o.1.Dist, Hist := o.1.Hist,
        Dict := nd }) := by
    unfold BWT
    simp only [Option.bind_eq_bind, hs, Option.some_bind]
    rw [hdict', hnd]
    simp only [Option.some_bind, ho]
  have hol := BWT_out_length hB
  obtain ⟨hinv, _⟩ := auxRows_inv _ [] _ _ (auxInv_init sa' (T ++ [1])) ho
  rw [List.nil_append] at hinv
  obtain ⟨i1, _, i3, i4, _, _, _⟩ := hinv
  have hsum : o.1.sum = T.length + 1 := by
    rw [i1, rankCounts_sum]
    exact hrs
  refine ⟨g, _, o.1.t, hV, hO, hB, hol, ?_, fun x hx => ?_, fun hnr hn2 => ?_⟩
  · have : o.1.t.getD 0 0 = T.getD 0 0 := by rw [i3, hg0]
    rw [List.getD_eq_getElem?_getD, List.getElem?_eq_getElem (by omega)] at this
    rw [List.getElem?_eq_getElem (by omega)]
    exact congrArg some this
  · have hsl := Seeds.slot_lt_length ⟨T, fun _ => true, separator, g⟩ hV (x := x)
      (hfull x hx)
    have hsl' : Seeds.slot ⟨T, fun _ => true, separator, g⟩ x < T.length := hsl
    have hc := hcells x (hfull x hx)
    rw [i4 _ (by omega) (by rw [hsum]; omega), Nat.add_sub_cancel,
      List.getD_eq_getElem?_getD, hc]
    exact congrArg some (Seeds.bwtOf_byte ⟨T, fun _ => true, separator, g⟩ hV hk x)
  · obtain ⟨sa9, h9, hl9, hc9⟩ := induce_spec ⟨T, fun _ => true, separator, g⟩ hV hfull hnr
      256 hk hn2 hh bkt7 hbl sa7 hpre (tl T separator)
    have h9' : induce T sa7 bkt7 hist (tl T separator) = some sa9 := h9
    refine ⟨{ l := -1, sa := sa9, rnk := [], dict := [] }, ?_, hl9, fun x hx =>
      hc9 x (hfull x hx)⟩
    rw [hfin false]
    unfold finish
    rw [if_neg Bool.false_ne_true, h9']
    rfl

/-! ## The cells of the positions and a sorted list of the positions -/

theorem strictMono_below_id (n : Nat) (f : Nat → Nat)
    (hf : ∀ i j, i < j → j < n → f i < f j) (hb : ∀ i, i < n → f i < n) :
    ∀ i, i < n → f i = i := by
  have lower : ∀ i, i < n → i ≤ f i := by
    intro i
    induction i with
    | zero => intro _; exact Nat.zero_le _
    | succ i ih =>
      intro hi
      have := ih (by omega)
      have := hf i (i + 1) (by omega) hi
      omega
  have upper : ∀ k, k < n → f (n - 1 - k) ≤ n - 1 - k := by
    intro k
    induction k with
    | zero =>
      intro hk
      have := hb (n - 1) (by omega)
      simpa using (by omega : f (n - 1) ≤ n - 1)
    | succ k ih =>
      intro hk
      have h1 := ih (by omega)
      have h2 := hf (n - 1 - (k + 1)) (n - 1 - k) (by omega) (by omega)
      omega
  intro i hi
  have h1 := lower i hi
  have h2 := upper (n - 1 - i) (by omega)
  rw [show n - 1 - (n - 1 - i) = i by omega] at h2
  omega

/-- In a list of the positions in the order of their keys, the entry of index `i` is the
position of the cell `i`. -/
theorem Seeds.slot_of_sorted (M : Seeds) (hV : M.Valid) (hm : M.SepMin) (hO : M.Ordered)
    (hfull : ∀ x, x < M.t.length → M.lv x) (ps : List Nat)
    (hperm : ps.Perm (List.range M.t.length))
    (hsorted : ps.Pairwise (fun p q => dkey M.t M.sep p < dkey M.t M.sep q)) :
    ps.length = M.t.length ∧ ∀ i, i < M.t.length → ps.getD i 0 < M.t.length ∧
      M.slot (ps.getD i 0) = i := by
  have hlen : ps.length = M.t.length := by
    rw [hperm.length_eq, List.length_range]
  have hmem : ∀ i, i < M.t.length → ps.getD i 0 < M.t.length := by
    intro i hi
    have h1 : ps.getD i 0 ∈ ps := getD_mem (by omega)
    exact List.mem_range.mp (hperm.mem_iff.mp h1)
  have hid := strictMono_below_id M.t.length (fun i => M.slot (ps.getD i 0))
    (fun i j hij hj => by
      have hp := List.pairwise_iff_getElem.mp hsorted i j (by omega) (by omega) hij
      rw [← List.getD_eq_getElem ps 0 (by omega), ← List.getD_eq_getElem ps 0 (by omega)] at hp
      have h1 := hmem i (by omega)
      have h2 := hmem j hj
      exact (M.slot_lt_iff_dkey hV hm hO (hfull _ h1) (hfull _ h2)).mpr hp)
    (fun i hi => M.slot_lt_length hV (hfull _ (hmem i hi)))
  exact ⟨hlen, fun i hi => ⟨hmem i hi, hid i hi⟩⟩

/-! ## The meaning of the tables of `makeCounters` -/

theorem getD_set_int (l : List Int) (i j : Nat) (v : Int) (hi : i < l.length) :
    (l.set i v).getD j 0 = if i = j then v else l.getD j 0 := by
  rw [List.getD_eq_getElem?_getD, List.getD_eq_getElem?_getD]
  by_cases h : i = j
  · subst h
    rw [List.getElem?_set_self hi, if_pos rfl]
    rfl
  · rw [List.getElem?_set_ne h, if_neg h]

theorem counters_lvl (bkt : List Int) :
    ∀ (l : List (Nat × Int)) (idx : Int) (lvl dict : List Int) (st : Int × List Int × List Int),
    dict.length = lvl.length →
    l.reverse.foldlM (countersStep bkt) (idx, lvl, dict) = some st →
    (∀ j : Nat, idx < j → j < lvl.length →
      lvl[j]? = some (bkt.getD (dict.getD j 0).toNat 0)) →
    (st.2.2.length = st.2.1.length ∧ st.1 ≤ idx) ∧
    ∀ j : Nat, st.1 < j → j < st.2.1.length →
      st.2.1[j]? = some (bkt.getD (st.2.2.getD j 0).toNat 0) := by
  intro l
  induction l with
  | nil =>
    intro idx lvl dict st hl h hinv
    simp only [List.reverse_nil, List.foldlM_nil, Option.pure_def, Option.some.injEq] at h
    subst h
    exact ⟨⟨hl, le_refl _⟩, hinv⟩
  | cons a l ih =>
    intro idx lvl dict st hl h hinv
    simp only [List.reverse_cons, List.foldlM_append, List.foldlM_cons, List.foldlM_nil,
      Option.bind_eq_bind, Option.bind_eq_some, Option.pure_def, Option.some.injEq] at h
    obtain ⟨st1, hf, st2, hstep, rfl⟩ := h
    obtain ⟨⟨h1, h2⟩, h3⟩ := ih idx lvl dict st1 hl hf hinv
    unfold countersStep at hstep
    by_cases hpos : a.2 > 0
    · rw [if_pos hpos] at hstep
      simp only [Option.bind_eq_bind, Option.bind_eq_some, Option.some.injEq] at hstep
      obtain ⟨dict', hset, b, hb, lvl', hset', rfl⟩ := hstep
      obtain ⟨d0, d1, rfl⟩ := setI_some hset
      obtain ⟨l0, l1, rfl⟩ := setI_some hset'
      have hbv : b = bkt.getD a.1 0 := by
        have := (getI_some hb).2
        rw [Int.toNat_ofNat] at this
        rw [List.getD_eq_getElem?_getD, this]
        rfl
      refine ⟨⟨by simp [h1], by show st1.1 - 1 ≤ idx; omega⟩, ?_⟩
      intro j hj1 hj2
      have hj1' : st1.1 - 1 < (j : Int) := hj1
      have hj2' : j < (st1.2.1.set st1.1.toNat b).length := hj2
      rw [List.length_set] at hj2'
      show (st1.2.1.set st1.1.toNat b)[j]? =
        some (bkt.getD ((st1.2.2.set st1.1.toNat (a.1 : Int)).getD j 0).toNat 0)
      rw [getD_set_int _ _ _ _ d1]
      by_cases hji : st1.1.toNat = j
      · rw [if_pos hji, hji, List.getElem?_set_self hj2', hbv, Int.toNat_ofNat]
      · rw [if_neg hji, List.getElem?_set_ne hji]
        exact h3 j (by omega) hj2'
    · rw [if_neg hpos] at hstep
      simp only [Option.some.injEq] at hstep
      subst hstep
      exact ⟨⟨h1, h2⟩, h3⟩

theorem dict_of_hist {t : List Int} {hist bkt0 : List Int}
    (hh : histgram t 256 = some (hist, bkt0)) :
    posBytes ((hist.drop 2).enumFrom 2) =
      ((List.range' 2 254).filter (fun b : Nat => decide ((b : Int) ∈ t))).map
        (fun b : Nat => (b : Int)) := by
  obtain ⟨hlen, hget⟩ := histgram_some hh
  have hl : (hist.drop 2).length = 254 := by simp [hlen]
  rw [posBytes_enumFrom (fun b : Nat => decide ((b : Int) ∈ t)) (hist.drop 2) 2, hl]
  intro j hj
  have hj' : 2 + j < 256 := by omega
  have hg := hget (2 + j) hj'
  have : (hist.drop 2)[j] = (t.count ((2 + j : Nat) : Int) : Int) := by
    rw [List.getElem_drop]
    have := List.getElem?_eq_some.mp hg
    exact this.2
  rw [this]
  simp only [gt_iff_lt, Int.ofNat_pos, List.count_pos_iff, decide_eq_decide]

/-- On a text of bytes from 2 up, the tables of `makeCounters` list the bytes of the text in
increasing order and the heads of their buckets. -/
theorem makeCounters_sem (t : List Int) (hb : ∀ c ∈ t, 2 ≤ c ∧ c < 256) {hist bkt0 : List Int}
    (hh : histgram t 256 = some (hist, bkt0)) (head : List Int)
    (hhead : ∀ c : Int, 0 ≤ c → c < (256 : Nat) → getI head c = some (hd t c : Int))
    {ptr dict : List Int} {rnk0 : List (List Nat)}
    (hmk : makeCounters head hist (countLoop 0 hist 1) = some (ptr, dict, rnk0)) :
    CntSem t ptr dict := by
  have hlen := (histgram_some hh).1
  have hd := makeCounters_dict hlen hmk
  rw [dict_of_hist hh] at hd
  obtain ⟨a, b, rest, rfl⟩ : ∃ a b rest, hist = a :: b :: rest := by
    match hist, hlen with
    | a :: b :: rest, _ => exact ⟨a, b, rest, rfl⟩
  have hcnt : countLoop 0 (a :: b :: rest) 1 =
      1 + ((posBytes (rest.enumFrom 2)).length : Int) := by
    rw [← countLoop_pos rest 2 1 (Nat.le_refl 2)]
    simp [countLoop]
  have hlen' : rest.length = 254 := by simpa using hlen
  have htake : ((a :: b :: rest).enum.take 256).drop 2 = rest.enumFrom 2 := by
    rw [List.take_of_length_le (by simp [List.enum_length, hlen'])]
    simp [List.enum, List.enumFrom_cons]
  have hmk' := hmk
  rw [hcnt] at hmk'
  unfold makeCounters at hmk'
  rw [if_neg (by rw [hlen]; omega)] at hmk'
  simp only [Option.bind_eq_bind, Option.bind_eq_some, Option.some.injEq, Prod.mk.injEq] at hmk'
  obtain ⟨st, hf, hp, hdd, _⟩ := hmk'
  rw [htake] at hf
  obtain ⟨hidx, _, _⟩ := counters_fold head _ (by omega) _ _ _ hf
  obtain ⟨⟨hl1, _⟩, hl2⟩ := counters_lvl head (rest.enumFrom 2) _ _ _ st rfl hf
    (fun j hj1 hj2 => by
      rw [List.length_replicate] at hj2
      omega)
  rw [hp, hdd] at hl1 hl2
  have hst0 : st.1 = 0 := by omega
  have hin : ∀ (j : Nat), 1 ≤ j → j < dict.length → dict.getD j 0 ∈ t ∧
      2 ≤ dict.getD j 0 ∧ dict.getD j 0 < 256 := by
    intro j hj1 hj2
    obtain ⟨j', rfl⟩ : ∃ j', j = j' + 1 := ⟨j - 1, by omega⟩
    have hm : dict.getD (j' + 1) 0 ∈ ((List.range' 2 254).filter
        (fun b : Nat => decide ((b : Int) ∈ t))).map (fun b : Nat => (b : Int)) := by
      rw [hd] at hj2 ⊢
      rw [List.getD_eq_getElem _ _ hj2, List.getElem_cons_succ]
      exact List.getElem_mem _
    exact (specDict_tail_mem t _).mp hm
  refine ⟨hl1, by rw [hd]; rfl, ?_, fun c hc => ?_, fun j hj1 hj2 => (hin j hj1 hj2).1,
    fun j hj1 hj2 => ?_⟩
  · rw [hd, List.pairwise_cons]
    refine ⟨fun x hx => ?_, specDict_tail_pairwise t⟩
    have := ((specDict_tail_mem t x).mp hx).2.1
    omega
  · rw [hd]
    exact List.mem_cons_of_mem _ ((specDict_tail_mem t c).mpr ⟨hc, hb c hc⟩)
  · have h1 := hl2 j (by rw [hst0]; exact_mod_cast hj1) hj2
    have h2 := hin j hj1 (by rw [hl1]; exact hj2)
    have h3 := hhead (dict.getD j 0) (by omega) (by exact_mod_cast h2.2.2)
    rw [getI_eq (dict.getD j 0).toNat (by omega)] at h3
    rw [h1, List.getD_eq_getElem?_getD, h3]
    rfl

/-! ## The column and the row of a cell in the rank matrix -/

theorem sorted_getD_lt {D : List Int} (h : D.Pairwise (· < ·)) {i j : Nat} (hij : i < j)
    (hj : j < D.length) : D.getD i 0 < D.getD j 0 := by
  rw [List.getD_eq_getElem _ _ (by omega), List.getD_eq_getElem _ _ hj]
  exact List.pairwise_iff_getElem.mp h i j (by omega) hj hij

theorem sorted_getD_le {D : List Int} (h : D.Pairwise (· < ·)) {i j : Nat} (hij : i ≤ j)
    (hj : j < D.length) : D.getD i 0 ≤ D.getD j 0 := by
  rcases Nat.lt_or_eq_of_le hij with h1 | h1
  · exact le_of_lt (sorted_getD_lt h h1 hj)
  · rw [h1]

theorem exists_index_int {D : List Int} {c : Int} (h : c ∈ D) :
    ∃ j, j < D.length ∧ D.getD j 0 = c := by
  obtain ⟨j, hj, rfl⟩ := List.getElem_of_mem h
  exact ⟨j, hj, List.getD_eq_getElem _ _ hj⟩

theorem exists_pos_of_mem {t : List Int} {c : Int} (h : c ∈ t) :
    ∃ z, z < t.length ∧ sym t z = c := by
  obtain ⟨j, hj, rfl⟩ := List.getElem_of_mem h
  exact ⟨j, hj, List.getD_eq_getElem _ _ hj⟩

theorem Seeds.sym_le_of_slot_lt (M : Seeds) (hV : M.Valid) {x y : Nat} (hx : M.lv x)
    (hy : M.lv y) (h : M.slot x < M.slot y) : sym M.t x ≤ sym M.t y := by
  by_contra hc
  have h1 := M.slot_bucket hV hx
  have h2 := M.slot_bucket hV hy
  have h3 := tl_le_hd M.t (show sym M.t y < sym M.t x by omega)
  omega

theorem hd_le_length (t : List Int) (c : Int) : hd t c ≤ t.length := List.countP_le_length _

theorem Seeds.IdxSem.idx_init (M : Seeds) {ptr dict : List Int}
    (hsem : CntSem M.t ptr dict) (hp : 1 ≤ ptr.length) :
    M.IdxSem ptr dict M.t.length ((ptr.length : Int) - 1) := by
  refine ⟨by omega, by omega, fun x hx _ => ?_, hd_le_length _ _⟩
  obtain ⟨j, hj, hje⟩ := exists_index_int (hsem.hmem _ (sym_mem M.t x hx.1))
  rw [← hje]
  have : ((ptr.length : Int) - 1).toNat = ptr.length - 1 := by omega
  rw [this]
  exact sorted_getD_le hsem.hsorted (by rw [hsem.hlen] at hj; omega) (by rw [hsem.hlen]; omega)

/-- One step of the index into the tables of `makeCounters`: after it the index is that of
the symbol of the position of the cell. -/
theorem Seeds.IdxSem.idx_step (M : Seeds) (hV : M.Valid) (hfull : ∀ x, x < M.t.length → M.lv x)
    {ptr dict : List Int} (hsem : CntSem M.t ptr dict)
    (hsym2 : ∀ x, M.lv x → 2 ≤ sym M.t x) {i x : Nat} {idx pi : Int} (hx : M.lv x)
    (hxi : M.slot x = i) (h : M.IdxSem ptr dict (i + 1) idx) (hp : getI ptr idx = some pi) :
    M.IdxSem ptr dict i (if (i : Int) < pi then idx - 1 else idx) ∧
      dict.getD (if (i : Int) < pi then idx - 1 else idx).toNat 0 = sym M.t x := by
  obtain ⟨h0, h1, hge, hhd⟩ := h
  have hc' := hge x hx (by omega)
  have hbx := M.slot_bucket hV hx
  have hs2 := hsym2 x hx
  have hi1 : 1 ≤ idx := by
    by_contra hc
    have : idx.toNat = 0 := by omega
    rw [this, hsem.hzero] at hc'
    omega
  have hpi : pi = (hd M.t (dict.getD idx.toNat 0) : Int) := by
    have h2 := hsem.hptr idx.toNat (by omega) (by omega)
    rw [getI_eq idx.toNat (by omega), h2] at hp
    exact (Option.some.inj hp).symm
  have hgen : ∀ x', M.lv x' → M.slot x' < i → sym M.t x' ≤ sym M.t x := fun x' hx' hlt =>
    M.sym_le_of_slot_lt hV hx' hx (by omega)
  by_cases hlt : (i : Int) < pi
  · rw [if_pos hlt]
    have hne : sym M.t x < dict.getD idx.toNat 0 := by
      rcases lt_or_eq_of_le hc' with h2 | h2
      · exact h2
      · rw [← h2] at hpi
        omega
    obtain ⟨j, hj, hje⟩ := exists_index_int (hsem.hmem _ (sym_mem M.t x hx.1))
    have hjlt : j < idx.toNat := by
      by_contra hc
      have := sorted_getD_le hsem.hsorted (show idx.toNat ≤ j by omega) hj
      omega
    have hidx1 : (idx - 1).toNat = idx.toNat - 1 := by omega
    have hle : sym M.t x ≤ dict.getD (idx.toNat - 1) 0 := by
      rw [← hje]
      exact sorted_getD_le hsem.hsorted (by omega) (by rw [hsem.hlen]; omega)
    have heq : dict.getD (idx.toNat - 1) 0 = sym M.t x := by
      by_contra hc
      have hgt : sym M.t x < dict.getD (idx.toNat - 1) 0 := by omega
      have hi2 : 1 ≤ idx.toNat - 1 := by
        by_contra hc2
        have : idx.toNat - 1 = 0 := by omega
        rw [this, hsem.hzero] at hgt
        omega
      have hpres := hsem.hpresent (idx.toNat - 1) hi2 (by rw [hsem.hlen]; omega)
      obtain ⟨z, hz, hze⟩ := exists_pos_of_mem hpres
      have hbz := M.slot_bucket hV (x := z) (hfull z hz)
      rw [hze] at hbz
      have e1 := tl_le_hd M.t hgt
      have e2 := tl_le_hd M.t (sorted_getD_lt hsem.hsorted
        (show idx.toNat - 1 < idx.toNat by omega) (by rw [hsem.hlen]; omega))
      omega
    rw [hidx1, heq]
    exact ⟨⟨by omega, by omega, by rw [hidx1, heq]; exact hgen, by
      rw [hidx1, heq]
      omega⟩, rfl⟩
  · rw [if_neg hlt]
    have heq : dict.getD idx.toNat 0 = sym M.t x := by
      by_contra hc
      have hgt : sym M.t x < dict.getD idx.toNat 0 := by omega
      have e1 := tl_le_hd M.t hgt
      omega
    exact ⟨⟨h0, h1, fun x' hx' hlt' => hge x' hx' (by omega), by omega⟩, heq⟩

theorem cellAt_updateRank {rank rank' : List (List Nat)} {a b : Int}
    (h : updateRank rank a b = some rank') (c d : Nat) :
    cellAt rank' c d = cellAt rank c d +
      (if c = (if a < 1 then 1 else a).toNat ∧ d = b.toNat then 1 else 0) := by
  obtain ⟨i, row, v, _, hi, hrow, hb0, hv, rfl⟩ := updateRank_some h
  unfold cellAt
  rw [← hi]
  by_cases hc : c = i
  · subst hc
    have e1 : (rank.set c (row.set b.toNat (v + 1))).getD c [] = row.set b.toNat (v + 1) := by
      rw [List.getD_eq_getElem?_getD, List.getElem?_set_self (List.getElem?_eq_some.mp hrow).1]
      rfl
    have e2 : rank.getD c [] = row := by
      rw [List.getD_eq_getElem?_getD, hrow]
      rfl
    rw [e1, e2]
    by_cases hd : d = b.toNat
    · subst hd
      rw [if_pos ⟨rfl, rfl⟩, List.getD_eq_getElem?_getD,
        List.getElem?_set_self (List.getElem?_eq_some.mp hv).1, List.getD_eq_getElem?_getD, hv]
      rfl
    · rw [if_neg (fun hh => hd hh.2), List.getD_eq_getElem?_getD,
        List.getElem?_set_ne (fun hh => hd hh.symm), ← List.getD_eq_getElem?_getD]
      rfl
  · have e1 : (rank.set i (row.set b.toNat (v + 1))).getD c [] = rank.getD c [] := by
      rw [List.getD_eq_getElem?_getD, List.getElem?_set_ne (fun hh => hc hh.symm),
        ← List.getD_eq_getElem?_getD]
    rw [if_neg (fun hh => hc hh.1), e1]
    rfl

/-- What a returning step of the right-to-left pass of `induceBWT` does to the index and to
the rank matrix, in terms of the cell that it reads. -/
theorem bwtSStep_eff {t ptr dict : List Int} {ms : Int} {st st' : BwtSt} {i : Nat} {s pi : Int}
    (h : bwtSStep t ptr dict ms st i = some st') (hcell : st.sa[i]? = some s)
    (hp : getI ptr st.idx = some pi) :
    st'.idx = (if (i : Int) < pi then st.idx - 1 else st.idx) ∧
    ∃ a d, getI dict st'.idx = some d ∧ updateRank st.rnk a d = some st'.rnk ∧
      (s < 0 → a = compl s) ∧ (0 ≤ s → s + 1 = t.length → a = 1) ∧
      (0 ≤ s → s + 1 ≠ t.length → getI t (s + 1) = some a) := by
  unfold bwtSStep at h
  rw [hp, getI_ofNat, hcell] at h
  simp only [Option.bind_eq_bind, Option.some_bind, Option.bind_eq_some] at h
  obtain ⟨d, hd, h⟩ := h
  split at h
  · rename_i hs
    simp only [Option.bind_eq_some, Option.some.injEq] at h
    obtain ⟨sa1, _, rnk, hr, rfl⟩ := h
    exact ⟨rfl, _, d, hd, hr, fun _ => rfl, fun h0 => by omega, fun h0 => by omega⟩
  · rename_i hs
    split at h
    · rename_i hn
      simp only [Option.bind_eq_some, Option.some.injEq] at h
      obtain ⟨sa1, _, rnk, hr, rfl⟩ := h
      exact ⟨rfl, _, d, hd, hr, fun h0 => by omega, fun _ _ => rfl, fun _ h1 => absurd hn h1⟩
    · rename_i hn
      simp only [Option.bind_eq_some, Option.some.injEq] at h
      obtain ⟨a, ha, sa1, _, rnk, hr, sw, _, pl, _, rfl⟩ := h
      exact ⟨rfl, a, d, hd, hr, fun h0 => by omega, fun _ h1 => absurd h1 hn, fun _ _ => ha⟩

theorem Seeds.row_of_pre (M : Seeds) (hV : M.Valid)
    {x : Nat} (hx : M.lv x) {a : Int} (h1 : M.preB x < 0 → a = compl (M.preB x))
    (h2 : 0 ≤ M.preB x → M.preB x + 1 = M.t.length → a = 1)
    (h3 : 0 ≤ M.preB x → M.preB x + 1 ≠ M.t.length → getI M.t (M.preB x + 1) = some a) :
    (if a < 1 then 1 else a).toNat = M.rowOf x := by
  have hs := hV.hsym (x + 1)
  have hxn := hx.1
  have hn0 := hV.hlive0.1
  unfold Seeds.rowOf Seeds.bwtOf
  unfold Seeds.preB at h1 h2 h3
  by_cases hgo : x + 1 < M.t.length ∧ lType M.t (x + 1) = false
  · rw [if_pos hgo] at h1 h2 h3
    have := h3 (by omega) (by omega)
    rw [getI_sym_eq (x + 1) (by push_cast; ring) hgo.1] at this
    rw [← Option.some.inj this, if_pos hgo.1]
    split <;> rfl
  · rw [if_neg hgo] at h1 h2 h3
    by_cases hn : x + 1 < M.t.length
    · rw [if_pos hn] at h1 h2 h3
      have := h1 (by unfold compl; omega)
      rw [this, if_pos hn]
      have : compl (compl (sym M.t (x + 1))) = sym M.t (x + 1) := by unfold compl; omega
      rw [this]
      split <;> rfl
    · rw [if_neg hn] at h1 h2 h3
      rw [if_neg hn]
      by_cases hl : lType M.t x = true
      · rw [if_pos hl] at h1 h2 h3
        have := h2 (by omega) (by omega)
        rw [this]
        rfl
      · rw [if_neg hl] at h1 h2 h3
        have := h1 (by unfold compl; omega)
        rw [this]
        rfl

theorem Seeds.RankSem.rank_step (M : Seeds) (hV : M.Valid) (hfull : ∀ x, x < M.t.length → M.lv x)
    {i x : Nat} (hx : M.lv x) (hxi : M.slot x = i) {rnk rnk' : List (List Nat)}
    (h : M.RankSem (i + 1) rnk) {a d : Int}
    (hu : updateRank rnk a d = some rnk') (ha : (if a < 1 then 1 else a).toNat = M.rowOf x)
    (hd : d = sym M.t x) : M.RankSem i rnk' := by
  intro c e hc he
  rw [cellAt_updateRank hu, h c e hc he, Nat.add_assoc]
  congr 1
  have hd0 : 0 ≤ d := by rw [hd]; exact hV.hsym x
  have hset : (Finset.range M.t.length).filter
      (fun x' => i ≤ M.slot x' ∧ M.rowOf x' = c ∧ sym M.t x' = (e : Int)) =
      (Finset.range M.t.length).filter
        (fun x' => i + 1 ≤ M.slot x' ∧ M.rowOf x' = c ∧ sym M.t x' = (e : Int)) ∪
      (if c = M.rowOf x ∧ e = d.toNat then {x} else ∅) := by
    ext y
    simp only [Finset.mem_filter, Finset.mem_range, Finset.mem_union]
    constructor
    · rintro ⟨hy, h1, h2, h3⟩
      by_cases hyx : y = x
      · right
        subst hyx
        rw [if_pos ⟨h2.symm, by omega⟩]
        exact Finset.mem_singleton_self _
      · left
        refine ⟨hy, ?_, h2, h3⟩
        have : M.slot y ≠ i := fun hh =>
          hyx (M.slot_injective hV (hfull y hy) hx (hh.trans hxi.symm))
        omega
    · rintro (⟨hy, h1, h2, h3⟩ | hm)
      · exact ⟨hy, by omega, h2, h3⟩
      · split at hm
        · rename_i hce
          rw [Finset.mem_singleton] at hm
          subst hm
          exact ⟨hx.1, by omega, hce.1.symm, by omega⟩
        · simp at hm
  rw [hset, Finset.card_union_of_disjoint, ha]
  · congr 1
    split <;> simp
  · rw [Finset.disjoint_left]
    intro y hy hm
    split at hm
    · rw [Finset.mem_singleton] at hm
      subst hm
      have := (Finset.mem_filter.mp hy).2.1
      omega
    · simp at hm

theorem cellAt_zero (c d : Nat) :
    cellAt (List.replicate 256 (List.replicate 256 0)) c d = 0 := by
  unfold cellAt
  rw [List.getD_eq_getElem?_getD, List.getD_eq_getElem?_getD, List.getElem?_replicate]
  split
  · simp only [Option.getD_some]
    rw [List.getElem?_replicate]
    split <;> rfl
  · rfl

theorem Seeds.RankSem.rank_init (M : Seeds) (hV : M.Valid) (hfull : ∀ x, x < M.t.length → M.lv x)
    (h2 : 2 ≤ sym M.t 0) {rnk1 : List (List Nat)}
    (hu : updateRank (List.replicate 256 (List.replicate 256 0)) (sym M.t 0) 1 = some rnk1) :
    M.RankSem M.t.length rnk1 := by
  intro c d _ _
  rw [cellAt_updateRank hu, cellAt_zero, Nat.zero_add]
  have hempty : (Finset.range M.t.length).filter
      (fun x => M.t.length ≤ M.slot x ∧ M.rowOf x = c ∧ sym M.t x = (d : Int)) = ∅ := by
    rw [Finset.filter_eq_empty_iff]
    intro x hx hh
    have := M.slot_lt_length hV (x := x) (hfull x (Finset.mem_range.mp hx))
    omega
  have e0 : (if sym M.t 0 < 1 then 1 else sym M.t 0) = sym M.t 0 := if_neg (by omega)
  rw [hempty, Finset.card_empty, Nat.add_zero, e0]
  have e1 : (1 : Int).toNat = 1 := rfl
  by_cases hc : (c : Int) = sym M.t 0 ∧ d = 1
  · rw [if_pos hc, if_pos ⟨by omega, by rw [e1]; exact hc.2⟩]
  · rw [if_neg hc, if_neg]
    rintro ⟨h1, h3⟩
    exact hc ⟨by omega, by rw [e1] at h3; exact h3⟩

/-- One step of the right-to-left pass of `induceBWT`, with the meaning of the index and of
the rank matrix. -/
theorem bwtSStep_sem (M : Seeds) (hV : M.Valid) (hm : M.SepMin)
    (hfull : ∀ x, x < M.t.length → M.lv x) (hk : M.Sized 256) (hsym2 : ∀ x, M.lv x → 2 ≤ sym M.t x) (ptr dict : List Int)
    (hcnt : CntOK ptr dict) (hsem : CntSem M.t ptr dict) (i : Nat) (hi : i < M.t.length)
    (st : BwtSt)
    (h : M.BwtI ptr (i + 1) st ∧ M.IdxSem ptr dict (i + 1) st.idx ∧ M.RankSem (i + 1) st.rnk) :
    ∃ st', bwtSStep M.t ptr dict (tl M.t M.sep) st i = some st' ∧
      (M.BwtI ptr i st' ∧ M.IdxSem ptr dict i st'.idx ∧ M.RankSem i st'.rnk) := by
  obtain ⟨hB, hI, hR⟩ := h
  obtain ⟨st', hstep, hB'⟩ := bwtSStep_spec M hV hm hfull hk ptr dict hcnt i hi st hB
  obtain ⟨x, hx, hxi⟩ := M.slot_surj hV hfull i hi
  have hval := hB.hind.hpos x hx (M.srtCond_at hV hx (by omega))
  rw [hxi, if_neg (by omega)] at hval
  obtain ⟨pi, _, hp, _⟩ := hcnt.reads i st.idx hB.hidx0 hB.hidx1
  obtain ⟨hidx, a, d, hd, hu, a1, a2, a3⟩ := bwtSStep_eff hstep hval hp
  obtain ⟨hI', hcol⟩ := Seeds.IdxSem.idx_step M hV hfull hsem hsym2 hx hxi hI hp
  rw [← hidx] at hI' hcol
  have hde : d = sym M.t x := by
    rw [getI_eq st'.idx.toNat (by have := hI'.h0; omega)] at hd
    rw [← hcol, List.getD_eq_getElem?_getD, hd]
    rfl
  exact ⟨st', hstep, hB', hI', Seeds.RankSem.rank_step M hV hfull hx hxi hR hu
    (M.row_of_pre hV hx a1 a2 a3) hde⟩

/-- The function `induceBWT` on a text of bytes from 2 up, with the meaning of the rank
matrix that it returns. -/
theorem induceBWT_rank_spec (M : Seeds) (hV : M.Valid) (hm : M.SepMin)
    (hfull : ∀ x, x < M.t.length → M.lv x)
    (hb : ∀ c ∈ M.t, 2 ≤ c ∧ c < 256) {hist bkt0 : List Int}
    (hh : histgram M.t 256 = some (hist, bkt0))
    (bkt : List Int) (hbl : bkt.length = 256) (sa : List Int) (hpre : M.IndPre sa) :
    ∃ sa' rnk dict, induceBWT M.t sa bkt hist (tl M.t M.sep) =
        some ((M.slot (M.t.length - 1) : Int), sa', rnk, dict) ∧ sa'.length = M.t.length ∧
      (∀ x, M.lv x → sa'[M.slot x]? = some (M.bwtOf x)) ∧ M.RankSem 0 rnk := by
  have hn : 1 ≤ M.t.length := hV.hlive0.1
  have hsym2 : ∀ x, M.lv x → 2 ≤ sym M.t x := fun x hx =>
    (hb _ (sym_mem M.t x hx.1)).1
  have hk : M.Sized 256 := by
    intro x
    by_cases hx : x < M.t.length
    · exact (hb _ (sym_mem M.t x hx)).2
    · rw [sym_of_ge M.t x (by omega)]
      decide
  obtain ⟨head, hhead, hheadl, hheadc⟩ := setBktBeg_cur hh bkt hbl
  have hhead' : bktBegLoop 0 hist bkt = some head := hhead
  obtain ⟨ptr, dict, hmk, hcnt, hpl⟩ := makeCounters_total head hist hheadl (histgram_some hh).1
  have hsem := makeCounters_sem M.t hb hh head hheadc hmk
  obtain ⟨p0, p1⟩ := M.sym_nonneg_lt hV hk 0
  have hs0 : M.slot 0 < sa.length := by rw [hpre.len]; exact M.slot_lt_length hV hV.hlive0
  have hraw : (if M.t.length > 1 then
        (getI M.t 1).bind fun t1 =>
          setI sa (M.slot 0 : Int) (if sym M.t 0 > t1 then compl 0 else 1)
      else setI sa (M.slot 0 : Int) 1) = some (sa.set (M.slot 0) (M.rawL 0)) := by
    unfold Seeds.rawL Seeds.succS
    simp only [gt_iff_lt, Nat.zero_add, Nat.cast_zero, Int.zero_add]
    by_cases h1 : 1 < M.t.length
    · rw [if_pos h1, getI_sym_eq 1 (by simp) h1]
      simp only [Option.some_bind]
      rw [setI_ofNat _ _ _ hs0]
      by_cases h2 : sym M.t 1 < sym M.t 0
      · rw [if_pos h2, if_pos ⟨h1, h2⟩]
      · rw [if_neg h2, if_neg (fun hh => h2 hh.2)]
    · rw [if_neg h1, setI_ofNat _ _ _ hs0, if_neg (fun hh => h1 hh.1)]
  obtain ⟨rnk1, hr1, hrk1⟩ := updateRank_total rankInv_zero (sym M.t 0) 1
    (by exact_mod_cast p1) (by omega) (by omega)
  have hL := foldlM_range_spec
    (fun i (st : IndSt) => Cur 256 (M.curL i) st.bkt st.b st.p ∧ M.PassL M.rawL M.visB i st.sa)
    (bwtLStep M.t) M.t.length
    (fun i st hi hP => by
      obtain ⟨st', h1, h2, h3⟩ := bwtLStep_spec M hV hfull 256 hk i hi st hP.1 hP.2
      exact ⟨st', h1, h2, h3⟩)
    { sa := sa.set (M.slot 0) (M.rawL 0), bkt := head, b := (M.slot 0 : Int) + 1,
      p := sym M.t 0 }
    ⟨⟨hheadl, p0, p1, by rw [M.curL_zero hV, if_pos rfl, M.slot_zero],
      fun c h0 h1 hne => by rw [M.curL_zero hV, if_neg hne, Int.add_zero]; exact hheadc c h0 h1⟩,
     hpre.toPassL hV (fun u _ hc => M.rawL_of_cstart u hc)⟩
  obtain ⟨st1, hf1, hc1, hi1⟩ := hL
  obtain ⟨tail, htail, htaill, htailc⟩ := setBktEnd_cur hh st1.bkt hc1.1
  have hk0 : (0 : Int) < (256 : Nat) := by omega
  have hcl : (1 : Int) ≤ countLoop 0 hist 1 := by
    rw [countLoop_drop]
    omega
  have hidx0 : countLoop 0 hist 1 - 1 = (ptr.length : Int) - 1 := by omega
  have hS := foldlM_range_rev_spec
    (fun e (st : BwtSt) => M.BwtI ptr e st ∧ M.IdxSem ptr dict e st.idx ∧ M.RankSem e st.rnk)
    (bwtSStep M.t ptr dict (tl M.t M.sep)) M.t.length
    (fun i st hi hP => bwtSStep_sem M hV hm hfull hk hsym2 ptr dict hcnt hsem i hi st hP)
    { sa := st1.sa, bkt := tail, b := (tl M.t 0 : Int), p := 0, l := 0,
      idx := countLoop 0 hist 1 - 1, rnk := rnk1 }
    ⟨⟨⟨htaill, le_refl _, hk0, by rw [M.curS_length hV],
        fun c h0 h1 _ => by rw [M.curS_length hV]; exact htailc c h0 h1⟩,
      hi1.toIndB hV, hrk1, by show 0 ≤ countLoop 0 hist 1 - 1; omega,
      by show countLoop 0 hist 1 - 1 < (ptr.length : Int); omega, M.lastAt_length hV hfull 0⟩,
     by
      show M.IdxSem ptr dict M.t.length (countLoop 0 hist 1 - 1)
      rw [hidx0]
      exact Seeds.IdxSem.idx_init M hsem (by omega),
     Seeds.RankSem.rank_init M hV hfull (hsym2 0 hV.hlive0) hr1⟩
  obtain ⟨st2, hf2, hB, _, hR⟩ := hS
  refine ⟨st2.sa, st2.rnk, dict, ?_, hB.hind.len, fun x hx => ?_, hR⟩
  · unfold induceBWT countBktBeg
    simp only [Option.bind_eq_bind, hhead', Option.some_bind, hmk]
    rw [getI_sym_eq 0 (by simp) (by omega)]
    simp only [Option.some_bind]
    rw [hheadc _ p0 p1, ← M.slot_zero]
    simp only [Option.some_bind]
    rw [hraw]
    simp only [Option.some_bind, hr1, List.length_set, hpre.len, hf1, htail]
    rw [htailc 0 (le_refl _) hk0]
    simp only [Option.some_bind, hf2]
    rw [M.lastAt_zero hfull hB.hlast]
  · have := hB.hind.hpos x hx (M.srtCond_at hV hx (Nat.zero_le _))
    rw [this, if_pos (Nat.zero_le _)]

/-- The rank matrix that `sais` returns in BWT mode on a text of bytes from 2 up: the first
byte of the text is counted in column 1, and every position is counted in the row of its BWT
byte and the column of its symbol. -/
theorem sais_rank_model (T : List Int) (hn : 1 ≤ T.length) (hb : ∀ c ∈ T, 2 ≤ c ∧ c < 256) :
    ∃ g r, Seeds.Valid ⟨T, fun _ => true, separator, g⟩ ∧
      sais (T.length + 1) T (List.replicate T.length 0) alphabetSize true false = some r ∧
      r.sa.length = T.length ∧
      (∀ x, x < T.length → r.sa[Seeds.slot ⟨T, fun _ => true, separator, g⟩ x]? =
        some (Seeds.bwtOf ⟨T, fun _ => true, separator, g⟩ x)) ∧
      Seeds.RankSem ⟨T, fun _ => true, separator, g⟩ 0 r.rnk := by
  obtain ⟨h1, _⟩ := sym_bounds_of_bytes T hb
  obtain ⟨hS, _⟩ := sepOK_of_bytes T hb
  obtain ⟨h3, h4⟩ := replicate_zero_cells T.length
  obtain ⟨hist, sa7, bkt7, g, hh, hbl, hV, hO, hpre, hfin⟩ := sais_model (T.length + 1) T
    (List.replicate T.length 0) alphabetSize false (by omega) hn h1 hS h3 h4
  have hV : Seeds.Valid ⟨T, fun _ => true, separator, g⟩ := hV
  have hpre : Seeds.IndPre ⟨T, fun _ => true, separator, g⟩ sa7 := hpre
  have hfin : ∀ bwt, sais (T.length + 1) T (List.replicate T.length 0) alphabetSize bwt false =
      finish T sa7 bkt7 hist (tl T separator) bwt := hfin
  have hfull : ∀ x, x < T.length → Seeds.lv ⟨T, fun _ => true, separator, g⟩ x :=
    fun x hx => ⟨hx, rfl⟩
  obtain ⟨sa', rnk, dict, hind, hlen', hcells, hR⟩ := induceBWT_rank_spec
    ⟨T, fun _ => true, separator, g⟩ hV hS.hmin hfull hb hh bkt7 hbl sa7 hpre
  have hind' : induceBWT T sa7 bkt7 hist (tl T separator) =
      some ((Seeds.slot ⟨T, fun _ => true, separator, g⟩ (T.length - 1) : Int), sa', rnk,
        dict) := hind
  refine ⟨g, SaisOut.mk (Seeds.slot ⟨T, fun _ => true, separator, g⟩ (T.length - 1) : Int)
    sa' rnk dict, hV, ?_, hlen', fun x hx => hcells x (hfull x hx), hR⟩
  rw [hfin true]
  unfold finish
  rw [if_pos rfl, hind']
  rfl

/-! ## The cells of the separators -/

/-- When every position takes part, the cell of a position is the number of the positions in
the cells before it. -/
theorem Seeds.slot_eq_card (M : Seeds) (hV : M.Valid) (hfull : ∀ x, x < M.t.length → M.lv x)
    {x : Nat} (hx : M.lv x) :
    M.slot x = ((Finset.range M.t.length).filter (fun y => M.slot y < M.slot x)).card := by
  have hsx := M.slot_lt_length hV hx
  have h := Finset.card_bij (s := (Finset.range M.t.length).filter
      (fun y => M.slot y < M.slot x)) (t := Finset.range (M.slot x)) (fun y _ => M.slot y)
    (fun y hy => Finset.mem_range.mpr (Finset.mem_filter.mp hy).2)
    (fun a ha b hb hab => M.slot_injective hV
      (hfull a (Finset.mem_range.mp (Finset.mem_filter.mp ha).1))
      (hfull b (Finset.mem_range.mp (Finset.mem_filter.mp hb).1)) hab)
    (fun i hi => by
      have hi' := Finset.mem_range.mp hi
      obtain ⟨y, hy, hyi⟩ := M.slot_surj hV hfull i (by omega)
      exact ⟨y, Finset.mem_filter.mpr ⟨Finset.mem_range.mpr hy.1, by omega⟩, hyi⟩)
  rw [h, Finset.card_range]

theorem dkey_lt_sep_iff {t : List Int} {sep : Int} (hsym : ∀ x, 0 ≤ sym t x) {x y : Nat}
    (hx : sym t x = sep) (hxn : x < t.length) :
    dkey t sep y < dkey t sep x ↔ sym t y = sep ∧ y < x := by
  constructor
  · intro h
    have hy : sym t y = sep := by
      by_contra hne
      obtain ⟨r1, h1⟩ := dkey_head t sep y
      obtain ⟨r2, h2⟩ := dkey_head t sep x
      rw [h1, h2, cons_lt_cons_iff, dsym_of_sep hx, dsym_of_ne hne] at h
      have := hsym y
      rcases h with h | ⟨h, _⟩ <;> omega
    exact ⟨hy, (dkey_sep_lt_iff hx hy).mp h⟩
  · rintro ⟨hy, hlt⟩
    exact (dkey_sep_lt_iff hx hy).mpr hlt

theorem sym_take (t : List Int) {x y : Nat} (h : y < x) : sym (t.take x) y = sym t y := by
  unfold sym
  rw [List.getD_eq_getElem?_getD, List.getD_eq_getElem?_getD, List.getElem?_take_of_lt h]

theorem card_filter_sym_lt (t : List Int) (c : Int) {x : Nat} (hx : x ≤ t.length) :
    ((Finset.range t.length).filter (fun y => sym t y = c ∧ y < x)).card =
      (t.take x).count c := by
  rw [← card_filter_sym c (t.take x), List.length_take, Nat.min_eq_left hx]
  congr 1
  ext y
  simp only [Finset.mem_filter, Finset.mem_range]
  constructor
  · rintro ⟨_, h1, h2⟩
    exact ⟨h2, by rw [sym_take t h2]; exact h1⟩
  · rintro ⟨h1, h2⟩
    exact ⟨by omega, by rw [← sym_take t h1]; exact h2, h1⟩

/-- The cell of a separator is the number of the separators before it. -/
theorem Seeds.slot_root (M : Seeds) (hV : M.Valid) (hm : M.SepMin) (hO : M.Ordered)
    (hfull : ∀ x, x < M.t.length → M.lv x) {x : Nat} (hx : x < M.t.length)
    (hr : sym M.t x = M.sep) : M.slot x = (M.t.take x).count M.sep := by
  rw [M.slot_eq_card hV hfull (hfull x hx), ← card_filter_sym_lt M.t M.sep (Nat.le_of_lt hx)]
  congr 1
  apply Finset.filter_congr
  intro y hy
  rw [M.slot_lt_iff_dkey hV hm hO (hfull y (Finset.mem_range.mp hy)) (hfull x hx)]
  exact dkey_lt_sep_iff hV.hsym hr hx

theorem count_take_succ (t : List Int) (c : Int) {x : Nat} (hx : x < t.length)
    (h : t.getD x 0 = c) : (t.take (x + 1)).count c = (t.take x).count c + 1 := by
  rw [List.take_succ, List.getElem?_eq_getElem hx, List.count_append]
  have : t[x] = c := by
    rw [← h, List.getD_eq_getElem _ _ hx]
  simp [this]

/-- A text of bytes from 1 up whose separators are apart and inside satisfies the conditions
on the separators. -/
theorem sepOK_of_apart (T : List Int) (hb : ∀ c ∈ T, 1 ≤ c ∧ c < 256)
    (h0 : T.getD 0 0 ≠ 1) (hlast : T.getD (T.length - 1) 0 ≠ 1)
    (hadj : ∀ i, i < T.length - 1 → ¬ (T.getD i 0 = 1 ∧ T.getD (i + 1) 0 = 1)) :
    SepOK T separator := by
  have hge : ∀ x, x < T.length → 1 ≤ sym T x := fun x hx => (hb _ (sym_mem T x hx)).1
  refine ⟨by decide, fun x hx => hge x hx, fun x hx hs => ?_⟩
  have hs' : T.getD x 0 = 1 := hs
  have hx1 : x + 1 < T.length := by
    by_contra hc
    have : x = T.length - 1 := by omega
    rw [this] at hs'
    exact hlast hs'
  have hn1 : sym T (x + 1) ≠ 1 := fun hh => hadj x (by omega) ⟨hs', hh⟩
  have h1 := hge (x + 1) hx1
  have hsx : sym T x = 1 := hs
  refine ⟨⟨?_, ?_⟩, hx1⟩
  · rw [lType_iff]
    left
    omega
  · cases x with
    | zero => exact absurd hs' h0
    | succ w =>
      have hw := hge w (by omega)
      have hnw : sym T w ≠ 1 := fun hh => hadj w (by omega) ⟨hh, hs'⟩
      rw [lType_false_iff]
      left
      omega

/-! ## The inverse transform `rewindBWT` -/

theorem card_filter_sym_below (c : Int) : ∀ (t : List Int),
    ((Finset.range t.length).filter (fun x => sym t x < c)).card = hd t c := by
  intro t
  induction t with
  | nil => simp [hd]
  | cons a t ih =>
    unfold hd at ih ⊢
    rw [Finset.card_filter] at ih ⊢
    rw [List.length_cons, Finset.sum_range_succ', List.countP_cons, ← ih]
    simp only [sym, List.getD_cons_succ, List.getD_cons_zero, decide_eq_true_eq]

theorem card_filter_sym_above (c : Int) (t : List Int) :
    ((Finset.range t.length).filter (fun x => c ≤ sym t x)).card + hd t c = t.length := by
  have h := Finset.filter_card_add_filter_neg_card_eq_card (s := Finset.range t.length)
    (fun x => sym t x < c)
  rw [card_filter_sym_below, Finset.card_range] at h
  have h2 : (Finset.range t.length).filter (fun x => ¬ sym t x < c) =
      (Finset.range t.length).filter (fun x => c ≤ sym t x) :=
    Finset.filter_congr (fun x _ => not_lt)
  rw [h2] at h
  omega

theorem getElem?_sym (t : List Int) {x : Nat} (hx : x < t.length) : t[x]? = some (sym t x) := by
  unfold sym
  rw [List.getD_eq_getElem?_getD, List.getElem?_eq_getElem hx]
  rfl

theorem sym_of_getElem? {t : List Int} {x : Nat} {v : Int} (h : t[x]? = some v) :
    sym t x = v := by
  unfold sym
  rw [List.getD_eq_getElem?_getD, h]
  rfl

theorem count_take_succ_ne (t : List Int) (c : Int) {x : Nat} (hx : x < t.length)
    (h : t.getD x 0 ≠ c) : (t.take (x + 1)).count c = (t.take x).count c := by
  rw [List.take_succ, List.getElem?_eq_getElem hx, List.count_append]
  have : t[x] ≠ c := by
    rw [← List.getD_eq_getElem _ 0 hx]
    exact h
  simp [List.count_cons, this]

/-- The function `count` returns the number of the rows `0..i` that hold `c`. -/
theorem count_spec (bwt : List Int) (c : Int) (i : Nat) (hi : i < bwt.length) :
    count bwt c (i : Int) =
      some ((((Finset.range (i + 1)).filter (fun r => sym bwt r = c)).card : Nat) : Int) := by
  unfold count
  have hto : ((i : Int) + 1).toNat = i + 1 := by omega
  rw [hto]
  obtain ⟨s, hs, hP⟩ := foldlM_range_spec
    (fun k (j : Int) =>
      j = ((((Finset.range k).filter (fun r => sym bwt r = c)).card : Nat) : Int))
    (fun j (i : Nat) => (getI bwt i).bind fun x => some (if x = c then j + 1 else j)) (i + 1)
    (fun k j hk hj => by
      beta_reduce at hj ⊢
      rw [getI_sym bwt k (by omega)]
      refine ⟨_, rfl, ?_⟩
      rw [Finset.range_succ, Finset.filter_insert]
      by_cases h : sym bwt k = c
      · rw [if_pos h, if_pos h, Finset.card_insert_of_not_mem (by simp), hj]
        push_cast
        rfl
      · rw [if_neg h, if_neg h, hj])
    0 (by simp)
  rw [hs, hP]

theorem Seeds.rowAt_zero (M : Seeds) : M.rowAt 0 = 0 := rfl

theorem Seeds.rowAt_succ (M : Seeds) (z : Nat) : M.rowAt (z + 1) = M.slot z + 1 := by
  unfold Seeds.rowAt
  rw [if_neg (by omega), Nat.add_sub_cancel]

theorem Seeds.rowAt_lt (M : Seeds) (hV : M.Valid) (hfull : ∀ x, x < M.t.length → M.lv x)
    {z : Nat} (hz : z ≤ M.t.length) : M.rowAt z < M.t.length + 1 := by
  cases z with
  | zero =>
    rw [M.rowAt_zero]
    omega
  | succ y =>
    rw [M.rowAt_succ]
    have := M.slot_lt_length hV (hfull y (by omega))
    omega

theorem Seeds.rowAt_injective (M : Seeds) (hV : M.Valid)
    (hfull : ∀ x, x < M.t.length → M.lv x) {a b : Nat} (ha : a ≤ M.t.length)
    (hb : b ≤ M.t.length) (h : M.rowAt a = M.rowAt b) : a = b := by
  cases a with
  | zero =>
    cases b with
    | zero => rfl
    | succ b =>
      rw [M.rowAt_zero, M.rowAt_succ] at h
      omega
  | succ a =>
    cases b with
    | zero =>
      rw [M.rowAt_zero, M.rowAt_succ] at h
      omega
    | succ b =>
      rw [M.rowAt_succ, M.rowAt_succ] at h
      have := M.slot_injective hV (hfull a (by omega)) (hfull b (by omega)) (by omega)
      omega

/-- The row `rowAt z` holds `T[z]`. -/
theorem Seeds.IsBwt.rowAt_cell {M : Seeds} {bwt : List Int} (h : M.IsBwt bwt) {z : Nat}
    (hz : z < M.t.length) : bwt[M.rowAt z]? = some (sym M.t z) := by
  cases z with
  | zero => exact h.hzero
  | succ y =>
    rw [M.rowAt_succ, h.hcells y (by omega)]
    unfold Seeds.bwtOf
    rw [if_pos hz]

/-- The row `rowAt n` holds the end marker. -/
theorem Seeds.IsBwt.rowAt_last {M : Seeds} {bwt : List Int} (h : M.IsBwt bwt)
    (hn : 1 ≤ M.t.length) : bwt[M.rowAt M.t.length]? = some 0 := by
  obtain ⟨y, hy⟩ : ∃ y, M.t.length = y + 1 := ⟨M.t.length - 1, by omega⟩
  rw [hy, M.rowAt_succ, h.hcells y (by omega)]
  unfold Seeds.bwtOf
  rw [if_neg (by omega)]

/-- The rows before the row `i` that hold a byte with a property that the end marker does
not have are the rows of the positions of the text with that property. -/
theorem Seeds.IsBwt.rows_card {M : Seeds} {bwt : List Int} (h : M.IsBwt bwt) (hV : M.Valid)
    (hfull : ∀ x, x < M.t.length → M.lv x) (P : Int → Prop) [DecidablePred P] (hP : ¬ P 0)
    (i : Nat) (hi : i ≤ M.t.length + 1) :
    ((Finset.range i).filter (fun r => P (sym bwt r))).card =
      ((Finset.range M.t.length).filter (fun z => P (sym M.t z) ∧ M.rowAt z < i)).card := by
  symm
  apply Finset.card_bij (fun z _ => M.rowAt z)
  · intro z hz
    obtain ⟨hz1, hz2, hz3⟩ := Finset.mem_filter.mp hz
    have hz1 := Finset.mem_range.mp hz1
    refine Finset.mem_filter.mpr ⟨Finset.mem_range.mpr hz3, ?_⟩
    rw [sym_of_getElem? (h.rowAt_cell hz1)]
    exact hz2
  · intro a ha b hb hab
    have ha1 := Finset.mem_range.mp (Finset.mem_filter.mp ha).1
    have hb1 := Finset.mem_range.mp (Finset.mem_filter.mp hb).1
    exact M.rowAt_injective hV hfull (by omega) (by omega) hab
  · intro r hr
    obtain ⟨hr1, hr2⟩ := Finset.mem_filter.mp hr
    have hr1 := Finset.mem_range.mp hr1
    cases r with
    | zero =>
      have hs := sym_of_getElem? h.hzero
      rw [hs] at hr2
      have hn : 0 < M.t.length := by
        by_contra hc
        have : sym M.t 0 = 0 := by
          unfold sym
          rw [List.getD_eq_default _ _ (by omega)]
        rw [this] at hr2
        exact hP hr2
      exact ⟨0, Finset.mem_filter.mpr ⟨Finset.mem_range.mpr hn, hr2, by
        rw [M.rowAt_zero]
        exact hr1⟩, M.rowAt_zero⟩
    | succ s =>
      obtain ⟨y, hy, hys⟩ := M.slot_surj hV hfull s (by omega)
      have hc := h.hcells y hy.1
      rw [hys] at hc
      rw [sym_of_getElem? hc] at hr2
      unfold Seeds.bwtOf at hr2
      by_cases hy1 : y + 1 < M.t.length
      · rw [if_pos hy1] at hr2
        exact ⟨y + 1, Finset.mem_filter.mpr ⟨Finset.mem_range.mpr hy1, hr2, by
          rw [M.rowAt_succ, hys]
          exact hr1⟩, by rw [M.rowAt_succ, hys]⟩
      · rw [if_neg hy1] at hr2
        exact absurd hr2 hP

/-- The bytes of the transform are bytes. -/
theorem Seeds.IsBwt.bytes {M : Seeds} {bwt : List Int} (h : M.IsBwt bwt) (hV : M.Valid)
    (hfull : ∀ x, x < M.t.length → M.lv x) (hn : 1 ≤ M.t.length)
    (hb : ∀ x, x < M.t.length → 1 ≤ sym M.t x ∧ sym M.t x < 256) :
    ∀ c ∈ bwt, 0 ≤ c ∧ c < 256 := by
  intro c hc
  obtain ⟨r, hr, hrc⟩ := List.getElem_of_mem hc
  have hr' : bwt[r]? = some c := by rw [List.getElem?_eq_getElem hr, hrc]
  have hlen := h.hlen
  cases r with
  | zero =>
    rw [h.hzero] at hr'
    have := hb 0 (by omega)
    have : sym M.t 0 = c := Option.some.inj hr'
    omega
  | succ s =>
    obtain ⟨y, hy, hys⟩ := M.slot_surj hV hfull s (by omega)
    have hcell := h.hcells y hy.1
    rw [hys, hr'] at hcell
    have hcv : c = M.bwtOf y := Option.some.inj hcell
    unfold Seeds.bwtOf at hcv
    by_cases hy1 : y + 1 < M.t.length
    · rw [if_pos hy1] at hcv
      have := hb (y + 1) hy1
      omega
    · rw [if_neg hy1] at hcv
      omega

/-- The bucket heads of the transform are those of the text, moved by the end marker. -/
theorem Seeds.IsBwt.hd_eq {M : Seeds} {bwt : List Int} (h : M.IsBwt bwt) (hV : M.Valid)
    (hfull : ∀ x, x < M.t.length → M.lv x) {c : Int} (hc : 1 ≤ c) :
    hd bwt c = hd M.t c + 1 := by
  have h1 := h.rows_card hV hfull (fun v => c ≤ v) (by omega) (M.t.length + 1) (le_refl _)
  beta_reduce at h1
  have h2 : (Finset.range M.t.length).filter
      (fun z => c ≤ sym M.t z ∧ M.rowAt z < M.t.length + 1) =
      (Finset.range M.t.length).filter (fun z => c ≤ sym M.t z) := by
    apply Finset.filter_congr
    intro z hz
    have := M.rowAt_lt hV hfull (Nat.le_of_lt (Finset.mem_range.mp hz))
    exact ⟨fun hh => hh.1, fun hh => ⟨hh, this⟩⟩
  rw [h2] at h1
  have h3 := card_filter_sym_above c bwt
  have h4 := card_filter_sym_above c M.t
  rw [h.hlen] at h3
  omega

/-- The cell of a position is the head of its bucket plus the number of the positions of the
bucket in the cells before it. -/
theorem Seeds.slot_eq_hd_add (M : Seeds) (hV : M.Valid)
    (hfull : ∀ x, x < M.t.length → M.lv x) {x : Nat} (hx : x < M.t.length) :
    M.slot x = hd M.t (sym M.t x) + ((Finset.range M.t.length).filter
      (fun z => sym M.t z = sym M.t x ∧ M.slot z < M.slot x)).card := by
  have h1 := M.slot_eq_card hV hfull (hfull x hx)
  have h2 := Finset.filter_card_add_filter_neg_card_eq_card
    (s := (Finset.range M.t.length).filter (fun y => M.slot y < M.slot x))
    (fun z => sym M.t z < sym M.t x)
  rw [Finset.filter_filter, Finset.filter_filter] at h2
  have hbx := M.slot_bucket hV (hfull x hx)
  have h3 : (Finset.range M.t.length).filter
      (fun z => M.slot z < M.slot x ∧ sym M.t z < sym M.t x) =
      (Finset.range M.t.length).filter (fun z => sym M.t z < sym M.t x) := by
    apply Finset.filter_congr
    intro z hz
    have hbz := M.slot_bucket hV (hfull z (Finset.mem_range.mp hz))
    constructor
    · exact fun hh => hh.2
    · intro hh
      have := tl_le_hd M.t hh
      exact ⟨by omega, hh⟩
  have h4 : (Finset.range M.t.length).filter
      (fun z => M.slot z < M.slot x ∧ ¬ sym M.t z < sym M.t x) =
      (Finset.range M.t.length).filter
        (fun z => sym M.t z = sym M.t x ∧ M.slot z < M.slot x) := by
    apply Finset.filter_congr
    intro z hz
    have hbz := M.slot_bucket hV (hfull z (Finset.mem_range.mp hz))
    constructor
    · rintro ⟨hh1, hh2⟩
      refine ⟨?_, hh1⟩
      by_contra hne
      have hlt : sym M.t x < sym M.t z := by omega
      have := tl_le_hd M.t hlt
      omega
    · rintro ⟨hh1, hh2⟩
      exact ⟨hh2, by omega⟩
  rw [h3, h4, card_filter_sym_below] at h2
  omega

/-- Among the positions that hold the same symbol, not the separator, the rows of the
transform that hold them are in the order of their cells. -/
theorem Seeds.rowAt_lt_iff (M : Seeds) (hV : M.Valid) (hm : M.SepMin) (hO : M.Ordered)
    (hfull : ∀ x, x < M.t.length → M.lv x) {z j : Nat} (hz : z < M.t.length)
    (hj : j < M.t.length) (hs : sym M.t z = sym M.t j) (hne : sym M.t j ≠ M.sep) :
    M.rowAt z < M.rowAt j ↔ M.slot z < M.slot j := by
  rw [M.slot_lt_iff_dkey hV hm hO (hfull z hz) (hfull j hj)]
  have hd1 : dsym M.t M.sep z = dsym M.t M.sep j := by
    rw [dsym_of_ne hne, dsym_of_ne (by rw [hs]; exact hne), hs]
  cases z with
  | zero =>
    cases j with
    | zero =>
      rw [M.rowAt_zero]
      exact ⟨fun hh => absurd hh (by omega), fun hh => absurd hh (lt_irrefl _)⟩
    | succ j =>
      rw [M.rowAt_zero, M.rowAt_succ]
      refine ⟨fun _ => ?_, fun _ => by omega⟩
      show [dsym M.t M.sep 0] < dsym M.t M.sep (j + 1) :: dkey M.t M.sep j
      rw [cons_lt_cons_iff]
      obtain ⟨r, hr⟩ := dkey_head M.t M.sep j
      exact Or.inr ⟨hd1, by rw [hr]; exact nil_lt_cons_int _ _⟩
  | succ z =>
    cases j with
    | zero =>
      rw [M.rowAt_zero, M.rowAt_succ]
      refine ⟨fun hh => absurd hh (by omega), fun hh => ?_⟩
      have hh : dsym M.t M.sep (z + 1) :: dkey M.t M.sep z < [dsym M.t M.sep 0] := hh
      rw [cons_lt_cons_iff] at hh
      rcases hh with hh | ⟨_, hh⟩
      · omega
      · exact absurd hh (not_lt_nil_int _)
    | succ j =>
      rw [M.rowAt_succ, M.rowAt_succ]
      have h1 := M.slot_lt_iff_dkey hV hm hO (hfull z (by omega)) (hfull j (by omega))
      show _ ↔ dsym M.t M.sep (z + 1) :: dkey M.t M.sep z <
        dsym M.t M.sep (j + 1) :: dkey M.t M.sep j
      rw [cons_lt_cons_iff]
      constructor
      · intro hh
        exact Or.inr ⟨hd1, h1.mp (by omega)⟩
      · intro hh
        rcases hh with hh | ⟨_, hh⟩
        · omega
        · have := h1.mpr hh
          omega

/-- The step of the inverse transform on a byte that is not the separator: the cell of the
position `j` is the head of the bucket of `T[j]` plus the number of the rows before the row
of `T[j]` that hold the same byte. -/
theorem Seeds.IsBwt.lf_step {M : Seeds} {bwt : List Int} (h : M.IsBwt bwt) (hV : M.Valid)
    (hm : M.SepMin) (hO : M.Ordered) (hfull : ∀ x, x < M.t.length → M.lv x) {j : Nat}
    (hj : j < M.t.length) (hne : sym M.t j ≠ M.sep) (h0 : sym M.t j ≠ 0) :
    M.slot j = hd M.t (sym M.t j) +
      ((Finset.range (M.rowAt j)).filter (fun r => sym bwt r = sym M.t j)).card := by
  have h1 := h.rows_card hV hfull (fun v => v = sym M.t j) (fun hh => h0 hh.symm) (M.rowAt j)
    (Nat.le_of_lt (M.rowAt_lt hV hfull (Nat.le_of_lt hj)))
  beta_reduce at h1
  have h2 : (Finset.range M.t.length).filter
      (fun z => sym M.t z = sym M.t j ∧ M.rowAt z < M.rowAt j) =
      (Finset.range M.t.length).filter
        (fun z => sym M.t z = sym M.t j ∧ M.slot z < M.slot j) := by
    apply Finset.filter_congr
    intro z hz
    constructor
    · rintro ⟨hh1, hh2⟩
      exact ⟨hh1, (M.rowAt_lt_iff hV hm hO hfull (Finset.mem_range.mp hz) hj hh1 hne).mp hh2⟩
    · rintro ⟨hh1, hh2⟩
      exact ⟨hh1, (M.rowAt_lt_iff hV hm hO hfull (Finset.mem_range.mp hz) hj hh1 hne).mpr hh2⟩
  rw [h1, h2]
  exact M.slot_eq_hd_add hV hfull hj

/-! ## The loop of `rewindBWT` -/

theorem getI_set_ne (a : List Int) (i : Nat) (v : Int) {c : Int} (h : c ≠ (i : Int)) :
    getI (a.set i v) c = getI a c := by
  unfold getI
  by_cases hc : c < 0
  · rw [if_pos hc, if_pos hc]
  · rw [if_neg hc, if_neg hc, List.getElem?_set_ne (by omega)]

/-- The loop of `rewindBWT`, entered at the row of `T[j]` with `T[0..j)` written, the cursor
of the separators after the separators of `T[0..j)` and the other cursors at the heads of
their buckets, returns the text. -/
theorem Seeds.IsBwt.rewindLoop_spec {M : Seeds} {bwt : List Int} (h : M.IsBwt bwt)
    (hV : M.Valid) (hm : M.SepMin) (hO : M.Ordered) (hfull : ∀ x, x < M.t.length → M.lv x)
    (hn : 1 ≤ M.t.length) (hsep : M.sep = 1)
    (hb : ∀ x, x < M.t.length → 1 ≤ sym M.t x ∧ sym M.t x < 256) :
    ∀ (k j fuel : Nat) (bkt t : List Int), j + k = M.t.length → k + 1 ≤ fuel →
      (∀ c : Int, 2 ≤ c → c < 256 → getI bkt c = some ((hd M.t c : Int) + 1)) →
      getI bkt 1 = some ((((M.t.take j).count 1 : Nat) : Int) + 1) →
      t.length = M.t.length → (∀ z, z < j → t[z]? = some (sym M.t z)) →
      rewindLoop bwt fuel (M.rowAt j : Int) j bkt t = some M.t := by
  intro k
  induction k with
  | zero =>
    intro j fuel bkt t hjk hf _ _ htl ht
    obtain ⟨f, rfl⟩ : ∃ f, fuel = f + 1 := ⟨fuel - 1, by omega⟩
    have hj : j = M.t.length := by omega
    rw [rewindLoop, getI_ofNat, hj, h.rowAt_last hn]
    simp only [Option.some_bind, if_true]
    congr 1
    apply List.ext_getElem? 
    intro z
    by_cases hz : z < M.t.length
    · rw [ht z (by omega), getElem?_sym M.t hz]
    · rw [List.getElem?_eq_none (by omega), List.getElem?_eq_none (by omega)]
  | succ k ih =>
    intro j fuel bkt t hjk hf hbkt hb1 htl ht
    obtain ⟨f, rfl⟩ : ∃ f, fuel = f + 1 := ⟨fuel - 1, by omega⟩
    have hj : j < M.t.length := by omega
    obtain ⟨hc1, hc256⟩ := hb j hj
    have ht' : (t.set j (sym M.t j)).length = M.t.length := by
      rw [List.length_set, htl]
    have hcells : ∀ z, z < j + 1 → (t.set j (sym M.t j))[z]? = some (sym M.t z) := by
      intro z hz
      by_cases hzj : z = j
      · rw [hzj, List.getElem?_set_self (by omega)]
      · rw [List.getElem?_set_ne (by omega), ht z (by omega)]
    rw [rewindLoop, getI_ofNat, h.rowAt_cell hj]
    simp only [Option.some_bind]
    rw [if_neg (by omega), setI_ofNat t j _ (by omega)]
    simp only [Option.some_bind]
    by_cases hs : sym M.t j = 1
    · rw [if_pos hs, hb1]
      simp only [Option.some_bind]
      have hl1 : 1 < bkt.length := by
        have := (getI_some hb1).2
        by_contra hc
        rw [List.getElem?_eq_none (by
          have : (1 : Int).toNat = 1 := rfl
          omega)] at this
        exact absurd this (by simp)
      rw [setI_eq 1 _ (by rfl) hl1]
      simp only [Option.some_bind]
      have hslot : M.slot j = (M.t.take j).count 1 := by
        rw [← hsep]
        exact M.slot_root hV hm hO hfull hj (by rw [hs, hsep])
      have hrow : (((M.t.take j).count 1 : Nat) : Int) + 1 = ((M.rowAt (j + 1) : Nat) : Int) := by
        rw [M.rowAt_succ, hslot]
        push_cast
        rfl
      rw [hrow]
      apply ih (j + 1) f _ _ (by omega) (by omega) _ _ ht' hcells
      · intro c hc2 hc
        rw [getI_set_ne _ _ _ (by omega)]
        exact hbkt c hc2 hc
      · rw [getI_eq 1 (by rfl), List.getElem?_set_self hl1, count_take_succ M.t 1 hj hs, ← hrow]
        push_cast
        rfl
    · rw [if_neg hs]
      have hlt := M.rowAt_lt hV hfull (Nat.le_of_lt hj)
      rw [count_spec bwt _ _ (by rw [h.hlen]; exact hlt), hbkt _ (by omega) hc256]
      simp only [Option.some_bind]
      have hcard : ((Finset.range (M.rowAt j + 1)).filter
          (fun r => sym bwt r = sym M.t j)).card =
          ((Finset.range (M.rowAt j)).filter (fun r => sym bwt r = sym M.t j)).card + 1 := by
        rw [Finset.range_succ, Finset.filter_insert,
          if_pos (sym_of_getElem? (h.rowAt_cell hj)), Finset.card_insert_of_not_mem (by simp)]
      have hlf := h.lf_step hV hm hO hfull hj (by rw [hsep]; exact hs) (by omega)
      have hrow : ((hd M.t (sym M.t j) : Nat) : Int) + 1 +
          ((((Finset.range (M.rowAt j + 1)).filter
            (fun r => sym bwt r = sym M.t j)).card : Nat) : Int) - 1 =
          ((M.rowAt (j + 1) : Nat) : Int) := by
        rw [M.rowAt_succ, hcard]
        push_cast
        omega
      rw [hrow]
      apply ih (j + 1) f _ _ (by omega) (by omega) hbkt _ ht' hcells
      rw [count_take_succ_ne M.t 1 hj hs]
      exact hb1

/-- The inverse transform returns the text. -/
theorem Seeds.IsBwt.rewindBWT_spec {M : Seeds} {bwt : List Int} (h : M.IsBwt bwt)
    (hV : M.Valid) (hm : M.SepMin) (hO : M.Ordered) (hfull : ∀ x, x < M.t.length → M.lv x)
    (hn : 1 ≤ M.t.length) (hsep : M.sep = 1)
    (hb : ∀ x, x < M.t.length → 1 ≤ sym M.t x ∧ sym M.t x < 256) (l : Int) :
    rewindBWT bwt l = some M.t := by
  obtain ⟨hist, hh⟩ := histgram_total bwt 256 (h.bytes hV hfull hn hb)
  obtain ⟨head, hhead, _, hcur⟩ := setBktBeg_cur hh (List.replicate 256 0) (List.length_replicate _ _)
  unfold rewindBWT
  rw [hh]
  simp only [Option.bind_eq_bind, Option.some_bind, hhead]
  rw [if_neg (by rw [h.hlen]; omega)]
  have h0 : rewindLoop bwt (bwt.length + 1) 0 0 head (List.replicate (bwt.length - 1) 0) =
      rewindLoop bwt (bwt.length + 1) ((M.rowAt 0 : Nat) : Int) 0 head
        (List.replicate (bwt.length - 1) 0) := rfl
  rw [h0]
  apply h.rewindLoop_spec hV hm hO hfull hn hsep hb M.t.length 0 _ _ _ (by omega)
    (by rw [h.hlen]; omega)
  · intro c hc2 hc
    rw [hcur c (by omega) (by exact_mod_cast hc), h.hd_eq hV hfull (by omega)]
    push_cast
    rfl
  · rw [hcur 1 (by omega) (by omega), h.hd_eq hV hfull (le_refl _)]
    have hz : hd M.t 1 = 0 := by
      unfold hd
      rw [List.countP_eq_zero]
      intro x hx
      obtain ⟨r, hr, hrx⟩ := List.getElem_of_mem hx
      have := (hb r hr).1
      have hsx : sym M.t r = x := by
        rw [← hrx]
        exact sym_of_getElem? (List.getElem?_eq_getElem hr)
      simp only [decide_eq_true_eq]
      omega
    rw [hz]
    simp
  · rw [List.length_replicate, h.hlen]
    omega
  · intro z hz
    omega

/-! ## The plain array of `sais` on texts without sentinel and separator -/

theorem bwtOf_eq_getD (T : List Int) (g : Nat → Nat) (p : Nat) :
    Seeds.bwtOf ⟨T, fun _ => true, separator, g⟩ p = if p + 1 < T.length then T.getD (p + 1) 0 else 0 := rfl

theorem Seeds.bucket_iff (M : Seeds) (hV : M.Valid) {x : Nat} (hx : M.lv x) (d : Int) :
    (hd M.t d ≤ M.slot x ∧ M.slot x < tl M.t d) ↔ sym M.t x = d := by
  have h1 := M.slot_bucket hV hx
  constructor
  · rintro ⟨h2, h3⟩
    by_contra hne
    rcases lt_or_gt_of_ne hne with h4 | h4
    · have := tl_le_hd M.t h4
      omega
    · have := tl_le_hd M.t h4
      omega
  · rintro rfl
    exact h1

end SA
